import Mathlib

/-! # The DAG containers of `vigra/dagraph.hxx`

A shallow embedding of the three containers of `include/vigra/dagraph.hxx`
(`DAGraph0`, `StaticDAGraph0`, `StaticForest0`) and theorems about them.

Conventions of the embedding.

* A `std::vector<T>` is a `List T`; an `int` is an `Int` (the tables are assumed
  to stay below `2^31` slots, so no `int` wraps) and a `size_t` is a `Nat`.
* `v[i]` on a vector is only defined in C++ for `0 ≤ i < v.size()`.  Every slot
  access of the source is therefore a fallible read (`rd`) or write (`wr`), and a
  function of the source returns a `Res`: either its result or the `Fault` it
  ended in.
* A C++ reference such as `NodeT & u = g.nodes_[u_id]` is an alias; each later
  `u.field` is embedded as a fresh read of slot `u_id` in the current state.
* `lemon::INVALID` converts to the handle with id `-1`.
-/

namespace Vigra

/-- The ways a call of the source can end without a result. -/
inductive Fault where
  /-- The `std::runtime_error` thrown by `StaticDAGraph0::build`. -/
  | outOfRange
  /-- A `vigra_assert` whose condition is false. -/
  | assertion
  /-- An `operator[]` outside the vector: undefined behaviour in C++. -/
  | access
  /-- A loop of the source was still running when the step bound of its
  embedding was used up. -/
  | noEnd
  deriving DecidableEq, Repr

deriving instance DecidableEq for Except

/-- The outcome of a call: a result or a fault. -/
abbrev Res (α : Type) := Except Fault α

/-- The slot of `xs` at the `int` index `i`, when there is one. -/
def look {α : Type} (xs : List α) (i : Int) : Option α :=
  if 0 ≤ i then xs[i.toNat]? else none

/-- The read `xs[i]`. -/
def rd {α : Type} (xs : List α) (i : Int) : Res α :=
  match look xs i with
  | some x => .ok x
  | none => .error Fault.access

/-- The write `xs[i] = f xs[i]`, used for the field assignments `xs[i].fld = e`. -/
def wr {α : Type} (xs : List α) (i : Int) (f : α → α) : Res (List α) :=
  match look xs i with
  | some x => .ok (xs.set i.toNat (f x))
  | none => .error Fault.access

/-- The loop `for (c = first; c != -1; c = next(c)) visit(c)` run for at most
`fuel` tests of its condition: the visited slots, in order.  It ends in the
fault of `next` when `next` faults, and in `Fault.noEnd` when the bound is used
up, so a result means that the loop of the source ends. -/
def walk (next : Int → Res Int) : Nat → Int → Res (List Int)
  | 0, _ => .error Fault.noEnd
  | fuel + 1, c =>
    if c = -1 then .ok []
    else do
      let n ← next c
      let rest ← walk next fuel n
      pure (c :: rest)

/-! ## `StaticDAGraph0` -/

namespace StaticDAGraph0

/-- The struct `StaticDAGraph0::NodeT`. -/
structure NodeT where
  first_in : Int
  first_out : Int
  prev_root : Int
  next_root : Int
  prev_leaf : Int
  next_leaf : Int
  deriving DecidableEq, Repr, Inhabited

/-- The struct `StaticDAGraph0::ArcT`. -/
structure ArcT where
  target : Int
  source : Int
  prev_in : Int
  next_in : Int
  prev_out : Int
  next_out : Int
  deriving DecidableEq, Repr, Inhabited

end StaticDAGraph0

/-- The data members of `class StaticDAGraph0`. -/
structure StaticDAGraph0 where
  nodes_ : List StaticDAGraph0.NodeT
  first_root_node_ : Int
  first_leaf_node_ : Int
  arcs_ : List StaticDAGraph0.ArcT
  deriving DecidableEq, Repr

namespace StaticDAGraph0

/-- The protected default constructor: the empty graph. -/
def empty : StaticDAGraph0 :=
  { nodes_ := [], first_root_node_ := -1, first_leaf_node_ := -1, arcs_ := [] }

/-- The member `numNodes`. -/
def numNodes (g : StaticDAGraph0) : Nat := g.nodes_.length

/-- The member `numArcs`. -/
def numArcs (g : StaticDAGraph0) : Nat := g.arcs_.length

/-- The member `firstOut(a, n)`: the new id of `a`. -/
def firstOut (g : StaticDAGraph0) (n : Int) : Res Int := do
  let s ← rd g.nodes_ n
  pure s.first_out

/-- The member `nextOut(a)`: the new id of `a`. -/
def nextOut (g : StaticDAGraph0) (a : Int) : Res Int := do
  let s ← rd g.arcs_ a
  pure s.next_out

/-- The member `firstIn(a, n)`: the new id of `a`. -/
def firstIn (g : StaticDAGraph0) (n : Int) : Res Int := do
  let s ← rd g.nodes_ n
  pure s.first_in

/-- The member `nextIn(a)`: the new id of `a`. -/
def nextIn (g : StaticDAGraph0) (a : Int) : Res Int := do
  let s ← rd g.arcs_ a
  pure s.next_in

/-- The member `source(a)`. -/
def source (g : StaticDAGraph0) (a : Int) : Res Int := do
  let s ← rd g.arcs_ a
  pure s.source

/-- The member `target(a)`. -/
def target (g : StaticDAGraph0) (a : Int) : Res Int := do
  let s ← rd g.arcs_ a
  pure s.target

/-- The step `current = nodes_[current].next_root` of `print_root_nodes`. -/
def nextRoot (g : StaticDAGraph0) (n : Int) : Res Int := do
  let s ← rd g.nodes_ n
  pure s.next_root

/-- The step `current = nodes_[current].next_leaf` of `print_leaf_nodes`. -/
def nextLeaf (g : StaticDAGraph0) (n : Int) : Res Int := do
  let s ← rd g.nodes_ n
  pure s.next_leaf

/-- The nodes `print_root_nodes` prints, in order. -/
def rootNodes (g : StaticDAGraph0) : Res (List Int) :=
  walk g.nextRoot (g.nodes_.length + 1) g.first_root_node_

/-- The nodes `print_leaf_nodes` prints, in order. -/
def leafNodes (g : StaticDAGraph0) : Res (List Int) :=
  walk g.nextLeaf (g.nodes_.length + 1) g.first_leaf_node_

/-- The arcs visited by `for (OutArcIt it(g, n); it != INVALID; ++it)`. -/
def outArcs (g : StaticDAGraph0) (n : Int) : Res (List Int) := do
  let a ← g.firstOut n
  walk g.nextOut (g.arcs_.length + 1) a

/-- The arcs visited by `for (InArcIt it(g, n); it != INVALID; ++it)`. -/
def inArcs (g : StaticDAGraph0) (n : Int) : Res (List Int) := do
  let a ← g.firstIn n
  walk g.nextIn (g.arcs_.length + 1) a

/-- The nodes pushed by the first loop of `build`, before the four fix-ups. -/
def initNodes (num_nodes : Nat) : List NodeT :=
  (List.range num_nodes).map fun (i : Nat) =>
    { first_in := -1, first_out := -1,
      prev_root := (i : Int) - 1, next_root := (i : Int) + 1,
      prev_leaf := (i : Int) - 1, next_leaf := (i : Int) + 1 }

/-- Lines 780-791 of `build`: the new arc `arcid` becomes the head of the
outgoing chain of `u_id`; the result carries the `next_out` of the new arc. -/
def linkOut (g : StaticDAGraph0) (u_id arcid : Int) : Res (StaticDAGraph0 × Int) := do
  let u ← rd g.nodes_ u_id
  let (g, next_out) ←
    if u.first_out = -1 then
      (pure (g, -1) : Res (StaticDAGraph0 × Int))
    else do
      let outarc ← rd g.arcs_ u.first_out
      if outarc.prev_out ≠ -1 then throw Fault.assertion
      let arcs ← wr g.arcs_ u.first_out fun s => { s with prev_out := arcid }
      pure ({ g with arcs_ := arcs }, u.first_out)
  let nodes ← wr g.nodes_ u_id fun s => { s with first_out := arcid }
  pure ({ g with nodes_ := nodes }, next_out)

/-- Lines 793-804 of `build`: the new arc `arcid` becomes the head of the
incoming chain of `v_id`; the result carries the `next_in` of the new arc. -/
def linkIn (g : StaticDAGraph0) (v_id arcid : Int) : Res (StaticDAGraph0 × Int) := do
  let v ← rd g.nodes_ v_id
  let (g, next_in) ←
    if v.first_in = -1 then
      (pure (g, -1) : Res (StaticDAGraph0 × Int))
    else do
      let inarc ← rd g.arcs_ v.first_in
      if inarc.prev_in ≠ -1 then throw Fault.assertion
      let arcs ← wr g.arcs_ v.first_in fun s => { s with prev_in := arcid }
      pure ({ g with arcs_ := arcs }, v.first_in)
  let nodes ← wr g.nodes_ v_id fun s => { s with first_in := arcid }
  pure ({ g with nodes_ := nodes }, next_in)

/-- Lines 806-814 of `build`: `u_id` leaves the leaf chain. -/
def dropLeaf (g : StaticDAGraph0) (u_id : Int) : Res StaticDAGraph0 := do
  let u ← rd g.nodes_ u_id
  let g ←
    if u.next_leaf ≠ -1 then do
      let nodes ← wr g.nodes_ u.next_leaf fun s => { s with prev_leaf := u.prev_leaf }
      pure { g with nodes_ := nodes }
    else pure g
  let u ← rd g.nodes_ u_id
  let g ←
    if u.prev_leaf ≠ -1 then do
      let nodes ← wr g.nodes_ u.prev_leaf fun s => { s with next_leaf := u.next_leaf }
      pure { g with nodes_ := nodes }
    else if u_id = g.first_leaf_node_ then
      pure { g with first_leaf_node_ := u.next_leaf }
    else pure g
  let nodes ← wr g.nodes_ u_id fun s => { s with prev_leaf := -1 }
  let nodes ← wr nodes u_id fun s => { s with next_leaf := -1 }
  pure { g with nodes_ := nodes }

/-- Lines 816-824 of `build`: `v_id` leaves the root chain. -/
def dropRoot (g : StaticDAGraph0) (v_id : Int) : Res StaticDAGraph0 := do
  let v ← rd g.nodes_ v_id
  let g ←
    if v.next_root ≠ -1 then do
      let nodes ← wr g.nodes_ v.next_root fun s => { s with prev_root := v.prev_root }
      pure { g with nodes_ := nodes }
    else pure g
  let v ← rd g.nodes_ v_id
  let g ←
    if v.prev_root ≠ -1 then do
      let nodes ← wr g.nodes_ v.prev_root fun s => { s with next_root := v.next_root }
      pure { g with nodes_ := nodes }
    else if v_id = g.first_root_node_ then
      pure { g with first_root_node_ := v.next_root }
    else pure g
  let nodes ← wr g.nodes_ v_id fun s => { s with prev_root := -1 }
  let nodes ← wr nodes v_id fun s => { s with next_root := -1 }
  pure { g with nodes_ := nodes }

/-- The body of the loop `for (auto const & a : arcs)` of `build` (lines 765-826). -/
def addEdge (num_nodes : Nat) (g : StaticDAGraph0) (a : Int × Int) : Res StaticDAGraph0 := do
  if a.1 < 0 ∨ a.1 ≥ (num_nodes : Int) ∨ a.2 < 0 ∨ a.2 ≥ (num_nodes : Int) then
    throw Fault.outOfRange
  let u_id := a.1
  let v_id := a.2
  let arcid : Int := (g.arcs_.length : Int)
  let (g, next_out) ← linkOut g u_id arcid
  let (g, next_in) ← linkIn g v_id arcid
  let g ← dropLeaf g u_id
  let g ← dropRoot g v_id
  let arc : ArcT :=
    { source := u_id, target := v_id, prev_out := -1, prev_in := -1,
      next_out := next_out, next_in := next_in }
  pure { g with arcs_ := g.arcs_ ++ [arc] }

/-- The graph `build` has made before its loop over the arcs (lines 749-760). -/
def initGraph (num_nodes : Nat) : Res StaticDAGraph0 := do
  let nodes := initNodes num_nodes
  let nodes ← wr nodes 0 fun s => { s with prev_root := -1 }
  let nodes ← wr nodes 0 fun s => { s with prev_leaf := -1 }
  let nodes ← wr nodes ((nodes.length : Int) - 1) fun s => { s with next_root := -1 }
  let nodes ← wr nodes ((nodes.length : Int) - 1) fun s => { s with next_leaf := -1 }
  pure { nodes_ := nodes, first_root_node_ := 0, first_leaf_node_ := 0, arcs_ := [] }

/-- The static member `StaticDAGraph0::build(num_nodes, arcs)`. -/
def build (num_nodes : Nat) (arcs : List (Int × Int)) : Res StaticDAGraph0 :=
  if num_nodes = 0 then pure empty
  else do
    let g ← initGraph num_nodes
    arcs.foldlM (addEdge num_nodes) g

end StaticDAGraph0

/-! ## `StaticForest0` -/

/-- The data member of `class StaticForest0`. -/
structure StaticForest0 where
  graph_ : StaticDAGraph0
  deriving DecidableEq, Repr

namespace StaticForest0

/-- The static member `StaticForest0::build(num_nodes, arcs)`. -/
def build (num_nodes : Nat) (arcs : List (Int × Int)) : Res StaticForest0 := do
  let g ← StaticDAGraph0.build num_nodes arcs
  pure { graph_ := g }

/-- The member `parent(n)`: the new id of `n`.  `InArcIt it(*this, n)` is
`firstIn`, and `graph_.source(it)` reads the arc table at the id of `it`. -/
def parent (f : StaticForest0) (n : Int) : Res Int := do
  let it ← f.graph_.firstIn n
  f.graph_.source it

end StaticForest0

/-! ## `DAGraph0` -/

namespace DAGraph0

/-- The struct `DAGraph0::NodeT`. -/
structure NodeT where
  prev : Int
  next : Int
  first_in : Int
  first_out : Int
  deriving DecidableEq, Repr, Inhabited

/-- The struct `DAGraph0::ArcT`. -/
structure ArcT where
  source : Int
  target : Int
  prev_in : Int
  next_in : Int
  prev_out : Int
  next_out : Int
  deriving DecidableEq, Repr, Inhabited

end DAGraph0

/-- The data members of `class DAGraph0`. -/
structure DAGraph0 where
  nodes_ : List DAGraph0.NodeT
  arcs_ : List DAGraph0.ArcT
  first_node_ : Int
  first_free_node_ : Int
  first_free_arc_ : Int
  deriving DecidableEq, Repr

namespace DAGraph0

/-- The constructor `DAGraph0::DAGraph0()`. -/
def empty : DAGraph0 :=
  { nodes_ := [], arcs_ := [], first_node_ := -1, first_free_node_ := -1,
    first_free_arc_ := -1 }

/-- The member `maxNodeId`. -/
def maxNodeId (g : DAGraph0) : Int := (g.nodes_.length : Int) - 1

/-- The member `maxArcId`. -/
def maxArcId (g : DAGraph0) : Int := (g.arcs_.length : Int) - 1

/-- The member `source(a)`. -/
def source (g : DAGraph0) (a : Int) : Res Int := do
  let s ← rd g.arcs_ a
  pure s.source

/-- The member `target(a)`. -/
def target (g : DAGraph0) (a : Int) : Res Int := do
  let s ← rd g.arcs_ a
  pure s.target

/-- The member `firstNode()`. -/
def firstNode (g : DAGraph0) : Int := g.first_node_

/-- The member `next(Node)`. -/
def nextNode (g : DAGraph0) (n : Int) : Res Int := do
  let s ← rd g.nodes_ n
  pure s.next

/-- The loop `for (; n != -1 && nodes_[n].first_out == -1; n = nodes_[n].next) {}`
shared by `firstArc()` and `next(Arc)`, followed by their common tail: the first
outgoing arc of the node the loop stops at, or `-1`. -/
def seekOut (g : DAGraph0) : Nat → Int → Res Int
  | 0, _ => .error Fault.noEnd
  | fuel + 1, n =>
    if n = -1 then .ok (-1)
    else do
      let s ← rd g.nodes_ n
      if s.first_out = -1 then seekOut g fuel s.next
      else pure s.first_out

/-- The member `firstArc()`. -/
def firstArc (g : DAGraph0) : Res Int :=
  seekOut g (g.nodes_.length + 1) g.first_node_

/-- The member `next(Arc)`. -/
def nextArc (g : DAGraph0) (arc : Int) : Res Int := do
  let s ← rd g.arcs_ arc
  if s.next_out ≠ -1 then pure s.next_out
  else do
    let src ← rd g.nodes_ s.source
    seekOut g (g.nodes_.length + 1) src.next

/-- The member `firstOut(node)`. -/
def firstOut (g : DAGraph0) (node : Int) : Res Int := do
  let s ← rd g.nodes_ node
  pure s.first_out

/-- The member `nextOut(arc)`. -/
def nextOut (g : DAGraph0) (arc : Int) : Res Int := do
  let s ← rd g.arcs_ arc
  pure s.next_out

/-- The member `firstIn(node)`. -/
def firstIn (g : DAGraph0) (node : Int) : Res Int := do
  let s ← rd g.nodes_ node
  pure s.first_in

/-- The member `nextIn(arc)`. -/
def nextIn (g : DAGraph0) (arc : Int) : Res Int := do
  let s ← rd g.arcs_ arc
  pure s.next_in

/-- The member `valid(Node)`; the slot is read only when the id is in range. -/
def validNode (g : DAGraph0) (n : Int) : Bool :=
  decide (0 ≤ n) && decide (n < (g.nodes_.length : Int)) &&
    match look g.nodes_ n with
    | some s => decide (s.prev ≠ -2)
    | none => false

/-- The member `valid(Arc)`; the slot is read only when the id is in range. -/
def validArc (g : DAGraph0) (a : Int) : Bool :=
  decide (0 ≤ a) && decide (a < (g.arcs_.length : Int)) &&
    match look g.arcs_ a with
    | some s => decide (s.prev_in ≠ -2)
    | none => false

/-- The member `addNode()`: the returned handle and the new state. -/
def addNode (g : DAGraph0) : Res (Int × DAGraph0) := do
  let (n, g) ←
    (if g.first_free_node_ = -1 then
      pure ((g.nodes_.length : Int),
        { g with nodes_ := g.nodes_ ++ [{ prev := 0, next := 0, first_in := 0, first_out := 0 }] })
    else do
      let s ← rd g.nodes_ g.first_free_node_
      pure (g.first_free_node_, { g with first_free_node_ := s.next })
    : Res (Int × DAGraph0))
  let nodes ← wr g.nodes_ n fun s => { s with next := g.first_node_ }
  let nodes ←
    (if g.first_node_ ≠ -1 then wr nodes g.first_node_ fun s => { s with prev := n }
     else pure nodes)
  let g := { g with nodes_ := nodes, first_node_ := n }
  let nodes ← wr g.nodes_ n fun s => { s with prev := -1 }
  let nodes ← wr nodes n fun s => { s with first_in := -1 }
  let nodes ← wr nodes n fun s => { s with first_out := -1 }
  pure (n, { g with nodes_ := nodes })

/-- The member `addArc(u, v)`: the returned handle and the new state. -/
def addArc (g : DAGraph0) (u v : Int) : Res (Int × DAGraph0) := do
  let (a, g) ←
    (if g.first_free_arc_ = -1 then
      pure ((g.arcs_.length : Int),
        { g with arcs_ := g.arcs_ ++
            [{ source := 0, target := 0, prev_in := 0, next_in := 0, prev_out := 0,
               next_out := 0 }] })
    else do
      let s ← rd g.arcs_ g.first_free_arc_
      pure (g.first_free_arc_, { g with first_free_arc_ := s.next_in })
    : Res (Int × DAGraph0))
  let arcs ← wr g.arcs_ a fun s => { s with source := u }
  let arcs ← wr arcs a fun s => { s with target := v }
  -- arcs_[a].next_out = nodes_[u].first_out
  let un ← rd g.nodes_ u
  let arcs ← wr arcs a fun s => { s with next_out := un.first_out }
  let arcs ←
    (if un.first_out ≠ -1 then wr arcs un.first_out fun s => { s with prev_out := a }
     else pure arcs)
  -- arcs_[a].next_in = nodes_[v].first_in
  let vn ← rd g.nodes_ v
  let arcs ← wr arcs a fun s => { s with next_in := vn.first_in }
  let arcs ←
    (if vn.first_in ≠ -1 then wr arcs vn.first_in fun s => { s with prev_in := a }
     else pure arcs)
  -- arcs_[a].prev_in = arcs_[a].prev_out = -1
  let arcs ← wr arcs a fun s => { s with prev_out := -1 }
  let arcs ← wr arcs a fun s => { s with prev_in := -1 }
  -- nodes_[u].first_out = nodes_[v].first_in = a
  let nodes ← wr g.nodes_ v fun s => { s with first_in := a }
  let nodes ← wr nodes u fun s => { s with first_out := a }
  pure (a, { g with nodes_ := nodes, arcs_ := arcs })

/-- The member `erase(Node)`. -/
def eraseNode (g : DAGraph0) (n : Int) : Res DAGraph0 := do
  let s ← rd g.nodes_ n
  let nodes ←
    (if s.next ≠ -1 then wr g.nodes_ s.next fun t => { t with prev := s.prev }
     else pure g.nodes_)
  let g := { g with nodes_ := nodes }
  let s ← rd g.nodes_ n
  let g ←
    (if s.prev ≠ -1 then do
      let nodes ← wr g.nodes_ s.prev fun t => { t with next := s.next }
      pure { g with nodes_ := nodes }
    else pure { g with first_node_ := s.next }
    : Res DAGraph0)
  let nodes ← wr g.nodes_ n fun t => { t with next := g.first_free_node_ }
  let g := { g with nodes_ := nodes, first_free_node_ := n }
  let nodes ← wr g.nodes_ n fun t => { t with prev := -2 }
  pure { g with nodes_ := nodes }

/-- The member `erase(Arc)`. -/
def eraseArc (g : DAGraph0) (a : Int) : Res DAGraph0 := do
  let s ← rd g.arcs_ a
  let arcs ←
    (if s.next_in ≠ -1 then wr g.arcs_ s.next_in fun t => { t with prev_in := s.prev_in }
     else pure g.arcs_)
  let g := { g with arcs_ := arcs }
  let s ← rd g.arcs_ a
  let g ←
    (if s.prev_in ≠ -1 then do
      let arcs ← wr g.arcs_ s.prev_in fun t => { t with next_in := s.next_in }
      pure { g with arcs_ := arcs }
    else do
      let nodes ← wr g.nodes_ s.target fun t => { t with first_in := s.next_in }
      pure { g with nodes_ := nodes }
    : Res DAGraph0)
  let s ← rd g.arcs_ a
  let arcs ←
    (if s.next_out ≠ -1 then wr g.arcs_ s.next_out fun t => { t with prev_out := s.prev_out }
     else pure g.arcs_)
  let g := { g with arcs_ := arcs }
  let s ← rd g.arcs_ a
  let g ←
    (if s.prev_out ≠ -1 then do
      let arcs ← wr g.arcs_ s.prev_out fun t => { t with next_out := s.next_out }
      pure { g with arcs_ := arcs }
    else do
      let nodes ← wr g.nodes_ s.source fun t => { t with first_out := s.next_out }
      pure { g with nodes_ := nodes }
    : Res DAGraph0)
  let arcs ← wr g.arcs_ a fun t => { t with next_in := g.first_free_arc_ }
  let g := { g with arcs_ := arcs, first_free_arc_ := a }
  let arcs ← wr g.arcs_ a fun t => { t with prev_in := -2 }
  pure { g with arcs_ := arcs }

/-- The nodes visited by `for (n = firstNode(); n != INVALID; n = next(n))`. -/
def nodeList (g : DAGraph0) : Res (List Int) :=
  walk g.nextNode (g.nodes_.length + 1) g.firstNode

/-- The arcs visited by `for (a = firstOut(n); a != INVALID; a = nextOut(a))`. -/
def outList (g : DAGraph0) (n : Int) : Res (List Int) := do
  let a ← g.firstOut n
  walk g.nextOut (g.arcs_.length + 1) a

/-- The arcs visited by `for (a = firstIn(n); a != INVALID; a = nextIn(a))`. -/
def inList (g : DAGraph0) (n : Int) : Res (List Int) := do
  let a ← g.firstIn n
  walk g.nextIn (g.arcs_.length + 1) a

/-- The arcs visited by `for (a = firstArc(); a != INVALID; a = next(a))`. -/
def arcList (g : DAGraph0) : Res (List Int) := do
  let a ← g.firstArc
  walk g.nextArc (g.arcs_.length + 1) a

/-- A call of one of the four mutating members. -/
inductive Op where
  | addNode
  | addArc (u v : Int)
  | eraseNode (n : Int)
  | eraseArc (a : Int)
  deriving DecidableEq, Repr

/-- The state after the call `op`. -/
def step (g : DAGraph0) : Op → Res DAGraph0
  | .addNode => do
    let r ← g.addNode
    pure r.2
  | .addArc u v => do
    let r ← g.addArc u v
    pure r.2
  | .eraseNode n => g.eraseNode n
  | .eraseArc a => g.eraseArc a

/-- The handles of the call `op` are valid in `g`. -/
def pre (g : DAGraph0) : Op → Bool
  | .addNode => true
  | .addArc u v => g.validNode u && g.validNode v
  | .eraseNode n => g.validNode n
  | .eraseArc a => g.validArc a

/-- As `pre`, and an erased node has no incident arc: `firstIn` and `firstOut`
of it are both invalid. -/
def preStrict (g : DAGraph0) : Op → Bool
  | .eraseNode n =>
    g.validNode n && decide (g.firstIn n = .ok (-1)) && decide (g.firstOut n = .ok (-1))
  | op => g.pre op

/-- The state after the calls `ops`, made in order from `g`. -/
def run (g : DAGraph0) : List Op → Res DAGraph0
  | [] => pure g
  | op :: ops => do
    let g ← g.step op
    run g ops

/-- Every call of `ops`, made in order from `g`, satisfies `p` in the state it
is made in.  Nothing is asked of the calls after one that ends in a fault. -/
def admits (p : DAGraph0 → Op → Bool) (g : DAGraph0) : List Op → Bool
  | [] => true
  | op :: ops =>
    p g op &&
      match g.step op with
      | .ok g => admits p g ops
      | .error _ => true

end DAGraph0

/-! ## Auxiliary definitions: slot tables, chains, and what the operations compute -/

/-- The write of `wr` made total: the table is left alone outside its range. -/
def put {α : Type} (xs : List α) (i : Int) (f : α → α) : List α :=
  match look xs i with
  | some x => xs.set i.toNat (f x)
  | none => xs

/-- The field `p` of slot `i`, when there is such a slot. -/
def fld {α : Type} (p : α → Int) (xs : List α) (i : Int) : Option Int :=
  (look xs i).map p

/-- Following the links `nx` from `c` visits the slots `l`, in order, and then
arrives at `e`. -/
def Seg (nx : Int → Option Int) : Int → List Int → Int → Prop
  | c, [], e => c = e
  | c, x :: l, e => c = x ∧ x ≠ -1 ∧ ∃ n, nx x = some n ∧ Seg nx n l e

/-- The back link `pv` of every slot of `l` is the slot before it in `l`, and
that of the first slot is `q`. -/
def Back (pv : Int → Option Int) : Int → List Int → Prop
  | _, [] => True
  | q, x :: l => pv x = some q ∧ Back pv x l

namespace StaticDAGraph0

/-- The state `addEdge` returns for an edge `(u, v)`, given by the six values
the body of the loop reads: the heads `fo` of the outgoing chain of `u` and
`fi` of the incoming chain of `v`, the leaf links `nl`, `pl` of `u` and the
root links `nr`, `pr` of `v`. -/
def edgeAdded (g : StaticDAGraph0) (u v fo fi nl pl nr pr : Int) : StaticDAGraph0 :=
  { nodes_ :=
      put (put (put (put
        (put (put (put (put
          (put (put g.nodes_ u fun t => { t with first_out := (g.arcs_.length : Int) })
            v fun t => { t with first_in := (g.arcs_.length : Int) })
          nl fun t => { t with prev_leaf := pl })
          pl fun t => { t with next_leaf := nl })
          u fun t => { t with prev_leaf := -1 })
          u fun t => { t with next_leaf := -1 })
        nr fun t => { t with prev_root := pr })
        pr fun t => { t with next_root := nr })
        v fun t => { t with prev_root := -1 })
        v fun t => { t with next_root := -1 },
    first_root_node_ := if pr = -1 ∧ v = g.first_root_node_ then nr else g.first_root_node_,
    first_leaf_node_ := if pl = -1 ∧ u = g.first_leaf_node_ then nl else g.first_leaf_node_,
    arcs_ :=
      put (put g.arcs_ fo fun t => { t with prev_out := (g.arcs_.length : Int) })
        fi (fun t => { t with prev_in := (g.arcs_.length : Int) }) ++
      [{ source := u, target := v, prev_out := -1, prev_in := -1, next_out := fo,
         next_in := fi }] }

/-- The node ids `k, k+1, ..., k+m-1`. -/
def idsFrom (k m : Nat) : List Int := (List.range' k m).map Int.ofNat

/-- The node ids `0, 1, ..., N-1` of a graph with `N` nodes. -/
def ids (N : Nat) : List Int := idsFrom 0 N

/-- The indices `i < k` of the edges of `E` that satisfy `p`, largest first. -/
def hits (p : Int × Int → Bool) (E : List (Int × Int)) : Nat → List Int
  | 0 => []
  | k + 1 =>
    match E[k]? with
    | some e => if p e then (k : Int) :: hits p E k else hits p E k
    | none => hits p E k

/-- The ids of the arcs of `E` that leave `n`, latest first. -/
def outIdx (E : List (Int × Int)) (n : Int) : List Int :=
  hits (fun e => decide (e.1 = n)) E E.length

/-- The ids of the arcs of `E` that enter `n`, latest first. -/
def inIdx (E : List (Int × Int)) (n : Int) : List Int :=
  hits (fun e => decide (e.2 = n)) E E.length

/-- The nodes of `[0, N)` that no edge of `E` enters, in increasing order. -/
def roots (N : Nat) (E : List (Int × Int)) : List Int :=
  (ids N).filter fun n => E.all fun e => decide (e.2 ≠ n)

/-- The nodes of `[0, N)` that no edge of `E` leaves, in increasing order. -/
def leaves (N : Nat) (E : List (Int × Int)) : List Int :=
  (ids N).filter fun n => E.all fun e => decide (e.1 ≠ n)

/-- What holds of the graph `build` has made once it has added the edges `E`
to `N` nodes. -/
structure Built (N : Nat) (E : List (Int × Int)) (g : StaticDAGraph0) : Prop where
  nlen : g.nodes_.length = N
  alen : g.arcs_.length = E.length
  src : ∀ j, fld ArcT.source g.arcs_ j = (look E j).map Prod.fst
  tgt : ∀ j, fld ArcT.target g.arcs_ j = (look E j).map Prod.snd
  outs : ∀ n, 0 ≤ n → n < (N : Int) → ∃ fo, fld NodeT.first_out g.nodes_ n = some fo ∧
    Seg (fld ArcT.next_out g.arcs_) fo (outIdx E n) (-1) ∧
    Back (fld ArcT.prev_out g.arcs_) (-1) (outIdx E n)
  ins : ∀ n, 0 ≤ n → n < (N : Int) → ∃ fi, fld NodeT.first_in g.nodes_ n = some fi ∧
    Seg (fld ArcT.next_in g.arcs_) fi (inIdx E n) (-1) ∧
    Back (fld ArcT.prev_in g.arcs_) (-1) (inIdx E n)
  rootSeg : Seg (fld NodeT.next_root g.nodes_) g.first_root_node_ (roots N E) (-1)
  rootBack : Back (fld NodeT.prev_root g.nodes_) (-1) (roots N E)
  rootOff : ∀ n, 0 ≤ n → n < (N : Int) → n ∉ roots N E →
    fld NodeT.next_root g.nodes_ n = some (-1) ∧ fld NodeT.prev_root g.nodes_ n = some (-1)
  leafSeg : Seg (fld NodeT.next_leaf g.nodes_) g.first_leaf_node_ (leaves N E) (-1)
  leafBack : Back (fld NodeT.prev_leaf g.nodes_) (-1) (leaves N E)
  leafOff : ∀ n, 0 ≤ n → n < (N : Int) → n ∉ leaves N E →
    fld NodeT.next_leaf g.nodes_ n = some (-1) ∧ fld NodeT.prev_leaf g.nodes_ n = some (-1)

/-- The graph `build` starts its loop from. -/
def initial (N : Nat) : StaticDAGraph0 :=
  { nodes_ :=
      put (put (put (put (initNodes N) 0 fun s => { s with prev_root := -1 })
        0 fun s => { s with prev_leaf := -1 })
        ((N : Int) - 1) fun s => { s with next_root := -1 })
        ((N : Int) - 1) fun s => { s with next_leaf := -1 },
    first_root_node_ := 0, first_leaf_node_ := 0, arcs_ := [] }

/-- All the edges of `E` have both ends in `[0, N)`. -/
def InRange (N : Nat) (E : List (Int × Int)) : Prop :=
  ∀ e ∈ E, (0 ≤ e.1 ∧ e.1 < (N : Int)) ∧ (0 ≤ e.2 ∧ e.2 < (N : Int))

end StaticDAGraph0

/-- The edge list of the scenario of the specification: a tree on five nodes. -/
def treeEdges : List (Int × Int) := [(0, 1), (0, 2), (1, 3), (1, 4)]

instance (N : Nat) (E : List (Int × Int)) : Decidable (StaticDAGraph0.InRange N E) := by
  unfold StaticDAGraph0.InRange
  infer_instance

namespace DAGraph0

/-- The value-initialised node slot `NodeT()` that `addNode` pushes. -/
def zeroNode : NodeT := { prev := 0, next := 0, first_in := 0, first_out := 0 }

/-- The value-initialised arc slot `ArcT()` that `addArc` pushes. -/
def zeroArc : ArcT :=
  { source := 0, target := 0, prev_in := 0, next_in := 0, prev_out := 0, next_out := 0 }

/-- The state `addArc(u, v)` returns for the arc slot `a` it has allocated in
the arc table `arcs0`, given the heads `fo` of the outgoing chain of `u` and
`fi` of the incoming chain of `v` and the new head `ffa` of the free arcs. -/
def arcAdded (g : DAGraph0) (u v a fo fi ffa : Int) (arcs0 : List ArcT) : DAGraph0 :=
  { g with
    nodes_ :=
      put (put g.nodes_ v fun s => { s with first_in := a }) u fun s => { s with first_out := a },
    arcs_ :=
      put (put (put (put (put (put (put (put arcs0
        a fun s => { s with source := u })
        a fun s => { s with target := v })
        a fun s => { s with next_out := fo })
        fo fun s => { s with prev_out := a })
        a fun s => { s with next_in := fi })
        fi fun s => { s with prev_in := a })
        a fun s => { s with prev_out := -1 })
        a fun s => { s with prev_in := -1 },
    first_free_arc_ := ffa }

/-- The state `addNode()` returns for the node slot `n` it has allocated in the
node table `nodes0`, with `ffn` the new head of the free nodes. -/
def nodeAdded (g : DAGraph0) (n ffn : Int) (nodes0 : List NodeT) : DAGraph0 :=
  { g with
    nodes_ :=
      put (put (put (put (put nodes0
        n fun s => { s with next := g.first_node_ })
        g.first_node_ fun s => { s with prev := n })
        n fun s => { s with prev := -1 })
        n fun s => { s with first_in := -1 })
        n fun s => { s with first_out := -1 },
    first_node_ := n,
    first_free_node_ := ffn }

/-- The state `erase(Node(n))` returns, given the links `nx` and `pv` of `n`. -/
def nodeErased (g : DAGraph0) (n nx pv : Int) : DAGraph0 :=
  { g with
    nodes_ :=
      put (put (put (put g.nodes_
        nx fun t => { t with prev := pv })
        pv fun t => { t with next := nx })
        n fun t => { t with next := g.first_free_node_ })
        n fun t => { t with prev := -2 },
    first_node_ := if pv = -1 then nx else g.first_node_,
    first_free_node_ := n }

/-- The state `erase(Arc(a))` returns, given the slot `s` of `a`. -/
def arcErased (g : DAGraph0) (a : Int) (s : ArcT) : DAGraph0 :=
  { g with
    nodes_ :=
      put (put g.nodes_
        (if s.prev_in = -1 then s.target else -1) fun t => { t with first_in := s.next_in })
        (if s.prev_out = -1 then s.source else -1) fun t => { t with first_out := s.next_out },
    arcs_ :=
      put (put (put (put (put (put g.arcs_
        s.next_in fun t => { t with prev_in := s.prev_in })
        s.prev_in fun t => { t with next_in := s.next_in })
        s.next_out fun t => { t with prev_out := s.prev_out })
        s.prev_out fun t => { t with next_out := s.next_out })
        a fun t => { t with next_in := g.first_free_arc_ })
        a fun t => { t with prev_in := -2 },
    first_free_arc_ := a }

/-- Every id stored in the graph is inside its table or a marker: `-1` for
"none", and `-2` in `prev` and `prev_in` for a free slot. -/
structure Wf (g : DAGraph0) : Prop where
  first_node : -1 ≤ g.first_node_ ∧ g.first_node_ < (g.nodes_.length : Int)
  first_free_node : -1 ≤ g.first_free_node_ ∧ g.first_free_node_ < (g.nodes_.length : Int)
  first_free_arc : -1 ≤ g.first_free_arc_ ∧ g.first_free_arc_ < (g.arcs_.length : Int)
  prev : ∀ i v, fld NodeT.prev g.nodes_ i = some v → -2 ≤ v ∧ v < (g.nodes_.length : Int)
  next : ∀ i v, fld NodeT.next g.nodes_ i = some v → -1 ≤ v ∧ v < (g.nodes_.length : Int)
  first_in : ∀ i v, fld NodeT.first_in g.nodes_ i = some v →
    -1 ≤ v ∧ v < (g.arcs_.length : Int)
  first_out : ∀ i v, fld NodeT.first_out g.nodes_ i = some v →
    -1 ≤ v ∧ v < (g.arcs_.length : Int)
  source : ∀ i v, fld ArcT.source g.arcs_ i = some v → 0 ≤ v ∧ v < (g.nodes_.length : Int)
  target : ∀ i v, fld ArcT.target g.arcs_ i = some v → 0 ≤ v ∧ v < (g.nodes_.length : Int)
  prev_in : ∀ i v, fld ArcT.prev_in g.arcs_ i = some v → -2 ≤ v ∧ v < (g.arcs_.length : Int)
  next_in : ∀ i v, fld ArcT.next_in g.arcs_ i = some v → -1 ≤ v ∧ v < (g.arcs_.length : Int)
  prev_out : ∀ i v, fld ArcT.prev_out g.arcs_ i = some v →
    -1 ≤ v ∧ v < (g.arcs_.length : Int)
  next_out : ∀ i v, fld ArcT.next_out g.arcs_ i = some v →
    -1 ≤ v ∧ v < (g.arcs_.length : Int)

/-- The slot `n` that `addNode` allocates, the new head `ffn` of the free
nodes and the node table `tn` after the allocation: a pushed slot when no node
is free, the head of the free chain otherwise. -/
def NodeAlloc (g : DAGraph0) (n ffn : Int) (tn : List NodeT) : Prop :=
  (g.first_free_node_ = -1 ∧ n = (g.nodes_.length : Int) ∧ ffn = -1 ∧
      tn = g.nodes_ ++ [zeroNode]) ∨
    (g.first_free_node_ ≠ -1 ∧ n = g.first_free_node_ ∧
      fld NodeT.next g.nodes_ n = some ffn ∧ tn = g.nodes_)

/-- The slot `a` that `addArc` allocates, the new head `ffa` of the free arcs
and the arc table `t` after the allocation. -/
def ArcAlloc (g : DAGraph0) (a ffa : Int) (t : List ArcT) : Prop :=
  (g.first_free_arc_ = -1 ∧ a = (g.arcs_.length : Int) ∧ ffa = -1 ∧
      t = g.arcs_ ++ [zeroArc]) ∨
    (g.first_free_arc_ ≠ -1 ∧ a = g.first_free_arc_ ∧
      fld ArcT.next_in g.arcs_ a = some ffa ∧ t = g.arcs_)

/-- The node table holds two chains: the live nodes `L`, doubly linked from
`first_node_`, and the free nodes `F`, linked by `next` from `first_free_node_`
and marked by `prev == -2`; every slot is on exactly one of them. -/
structure NodeRep (g : DAGraph0) (L F : List Int) : Prop where
  live : Seg (fld NodeT.next g.nodes_) g.first_node_ L (-1)
  back : Back (fld NodeT.prev g.nodes_) (-1) L
  free : Seg (fld NodeT.next g.nodes_) g.first_free_node_ F (-1)
  mark : ∀ f ∈ F, fld NodeT.prev g.nodes_ f = some (-2)
  nodup : (L ++ F).Nodup
  cover : ∀ i, (i ∈ L ∨ i ∈ F) ↔ (0 ≤ i ∧ i < (g.nodes_.length : Int))

/-- The list of nodes the traversal is compared with, kept beside the graph
along a run of calls: `addNode` returning `n` puts `n` in front, `erase(n)`
removes `n` and keeps the order of the rest, the arc members leave it alone. -/
def runModel (g : DAGraph0) (ms : List Int) : List Op → Res (DAGraph0 × List Int)
  | [] => pure (g, ms)
  | .addNode :: ops => do
    let r ← g.addNode
    runModel r.2 (r.1 :: ms) ops
  | .eraseNode n :: ops => do
    let g ← g.eraseNode n
    runModel g (ms.erase n) ops
  | .addArc u v :: ops => do
    let r ← g.addArc u v
    runModel r.2 ms ops
  | .eraseArc a :: ops => do
    let g ← g.eraseArc a
    runModel g ms ops

end DAGraph0

/-- A family of doubly linked chains of arcs, one for each node of `L`: the
chain of `u` starts at `hd u`, runs along `nx` and `pv` through the arcs
`ch u`, and holds exactly the live arcs whose end `key` is `u`. -/
structure Fam (hd nx pv key : Int → Option Int) (L : List Int) (lv : Int → Prop)
    (ch : Int → List Int) : Prop where
  seg : ∀ u ∈ L, ∃ c, hd u = some c ∧ Seg nx c (ch u) (-1)
  back : ∀ u ∈ L, Back pv (-1) (ch u)
  nodup : ∀ u ∈ L, (ch u).Nodup
  mem : ∀ u ∈ L, ∀ a, a ∈ ch u ↔ lv a ∧ key a = some u
  ends : ∀ a, lv a → ∃ u, u ∈ L ∧ key a = some u

namespace DAGraph0

/-- The arc slots in use for a table of `nA` slots of which `FA` are free. -/
def Live (nA : Int) (FA : List Int) (a : Int) : Prop := (0 ≤ a ∧ a < nA) ∧ a ∉ FA

/-- The arc table holds the free arcs `FA`, linked by `next_in` from
`first_free_arc_` and marked by `prev_in == -2`, and for every live node `u` the
doubly linked chains `outs u` of the arcs that leave `u` and `ins u` of the arcs
that enter `u`; every arc slot in use is on one outgoing and one incoming chain. -/
structure ArcRep (g : DAGraph0) (L FA : List Int) (outs ins : Int → List Int) : Prop where
  free : Seg (fld ArcT.next_in g.arcs_) g.first_free_arc_ FA (-1)
  mark : ∀ f ∈ FA, fld ArcT.prev_in g.arcs_ f = some (-2)
  fnodup : FA.Nodup
  out : Fam (fld NodeT.first_out g.nodes_) (fld ArcT.next_out g.arcs_)
    (fld ArcT.prev_out g.arcs_) (fld ArcT.source g.arcs_) L (Live g.arcs_.length FA) outs
  inn : Fam (fld NodeT.first_in g.nodes_) (fld ArcT.next_in g.arcs_)
    (fld ArcT.prev_in g.arcs_) (fld ArcT.target g.arcs_) L (Live g.arcs_.length FA) ins

/-- The invariant of the states reached without erasing a node that still has
arcs: the tables are in range, the node table holds the chain `L` of live nodes
and the free nodes `F`, and the arc table the free arcs `FA` and the chains
`outs`, `ins` of the live nodes. -/
structure Rep (g : DAGraph0) (L F FA : List Int) (outs ins : Int → List Int) : Prop where
  wf : Wf g
  nodes : NodeRep g L F
  arcs : ArcRep g L FA outs ins

/-- The concatenation, over the nodes `ns` in order, of the outgoing
enumeration `firstOut`, `nextOut`, ... of each node. -/
def outConcat (g : DAGraph0) : List Int → Res (List Int)
  | [] => pure []
  | n :: ns => do
    let l ← g.outList n
    let r ← outConcat g ns
    pure (l ++ r)

/-- The successor of an arc under `next(Arc)`, if the call returns. -/
def nextArcView (g : DAGraph0) (a : Int) : Option Int :=
  match g.nextArc a with
  | .ok n => some n
  | .error _ => none

/-- A run of strict calls: three nodes, four arcs of which two are parallel,
an arc erased and its slot reused for a loop, a node added and erased. -/
def sampleOps : List Op :=
  [.addNode, .addNode, .addNode, .addArc 0 1, .addArc 0 2, .addArc 1 2, .addArc 0 1,
    .eraseArc 1, .addArc 2 2, .addNode, .eraseNode 3]

/-- The state after `sampleOps`. -/
def sampleGraph : DAGraph0 :=
  { nodes_ :=
      [{ prev := 1, next := -1, first_in := -1, first_out := 3 },
        { prev := 2, next := 0, first_in := 3, first_out := 2 },
        { prev := -1, next := 1, first_in := 1, first_out := 1 },
        { prev := -2, next := -1, first_in := -1, first_out := -1 }],
    arcs_ :=
      [{ source := 0, target := 1, prev_in := 3, next_in := -1, prev_out := 3, next_out := -1 },
        { source := 2, target := 2, prev_in := -1, next_in := 2, prev_out := -1, next_out := -1 },
        { source := 1, target := 2, prev_in := 1, next_in := -1, prev_out := -1, next_out := -1 },
        { source := 0, target := 1, prev_in := -1, next_in := 0, prev_out := -1, next_out := 0 }],
    first_node_ := 2,
    first_free_node_ := 3,
    first_free_arc_ := -1 }

/-- A run of calls on valid handles that erases the node `0` while the arcs
`0` and `1` leave it, and then gets the slot `0` back from `addNode`. -/
def danglingOps : List Op :=
  [.addNode, .addNode, .addArc 0 1, .addArc 0 1, .eraseNode 0, .addNode]

/-- The state after `danglingOps`: the arcs `0` and `1` are valid and have the
source `0`, which is a valid node again, with no arc on its outgoing chain. -/
def danglingGraph : DAGraph0 :=
  { nodes_ :=
      [{ prev := -1, next := 1, first_in := -1, first_out := -1 },
        { prev := 0, next := -1, first_in := 1, first_out := -1 }],
    arcs_ :=
      [{ source := 0, target := 1, prev_in := 1, next_in := -1, prev_out := 1, next_out := -1 },
        { source := 0, target := 1, prev_in := -1, next_in := 0, prev_out := -1, next_out := 0 }],
    first_node_ := 0,
    first_free_node_ := -1,
    first_free_arc_ := -1 }

/-- The state after `addNode(); addNode(); addArc(0, 1); addArc(0, 1)`: two
nodes and two parallel arcs from the node `0` to the node `1`. -/
def twoArcsGraph : DAGraph0 :=
  { nodes_ :=
      [{ prev := 1, next := -1, first_in := -1, first_out := 1 },
        { prev := -1, next := 0, first_in := 1, first_out := -1 }],
    arcs_ :=
      [{ source := 0, target := 1, prev_in := 1, next_in := -1, prev_out := 1, next_out := -1 },
        { source := 0, target := 1, prev_in := -1, next_in := 0, prev_out := -1, next_out := 0 }],
    first_node_ := 1,
    first_free_node_ := -1,
    first_free_arc_ := -1 }

end DAGraph0

/-- The links of a table of doubly linked chains, without the chains: the
successor of a live slot is `-1` or a live slot with the same key that links
back, the predecessor is `-1` or a live slot that links forward, and a head is
`-1` or a first live slot whose key is the owner of the head. -/
structure Links (hd nx pv key : Int → Option Int) (lv : Int → Prop) : Prop where
  nonneg : ∀ a, lv a → a ≠ -1
  next : ∀ a b, lv a → nx a = some b → b = -1 ∨ (lv b ∧ pv b = some a ∧ key b = key a)
  prev : ∀ a b, lv a → pv a = some b → b = -1 ∨ (lv b ∧ nx b = some a)
  head : ∀ j f, hd j = some f → f = -1 ∨ (lv f ∧ pv f = some (-1) ∧ key f = some j)

namespace DAGraph0

/-- The arc table of a state reached by calls on valid handles, nodes with
arcs erased or not: the free arcs `FA` are linked by `next_in` from
`first_free_arc_` and marked by `prev_in == -2`, and the links of the arc slots
in use and the heads of all node slots are those of doubly linked chains. -/
structure ArcLib (g : DAGraph0) (FA : List Int) : Prop where
  free : Seg (fld ArcT.next_in g.arcs_) g.first_free_arc_ FA (-1)
  mark : ∀ f ∈ FA, fld ArcT.prev_in g.arcs_ f = some (-2)
  fnodup : FA.Nodup
  out : Links (fld NodeT.first_out g.nodes_) (fld ArcT.next_out g.arcs_)
    (fld ArcT.prev_out g.arcs_) (fld ArcT.source g.arcs_) (Live g.arcs_.length FA)
  inn : Links (fld NodeT.first_in g.nodes_) (fld ArcT.next_in g.arcs_)
    (fld ArcT.prev_in g.arcs_) (fld ArcT.target g.arcs_) (Live g.arcs_.length FA)

/-- The node slots visited from `first_free_node_` by `next` up to `-1`: the
free chain of nodes. -/
def freeNodes (g : DAGraph0) : Res (List Int) :=
  walk g.nextNode (g.nodes_.length + 1) g.first_free_node_

/-- The arc slots visited from `first_free_arc_` by `next_in` up to `-1`: the
free chain of arcs. -/
def freeArcs (g : DAGraph0) : Res (List Int) :=
  walk g.nextIn (g.arcs_.length + 1) g.first_free_arc_

/-- The stacks the free chains are compared with, kept beside the graph along
a run of calls: `erase(n)` puts the handle `n` on top of the stack of erased
nodes, `addNode` takes the handle it returns off that stack (a new handle is
not on it), and `erase(a)`, `addArc` do the same with the stack of erased
arcs. -/
def runFree (g : DAGraph0) (fn fa : List Int) : List Op → Res (DAGraph0 × List Int × List Int)
  | [] => pure (g, fn, fa)
  | .addNode :: ops => do
    let r ← g.addNode
    runFree r.2 (fn.erase r.1) fa ops
  | .eraseNode n :: ops => do
    let g ← g.eraseNode n
    runFree g (n :: fn) fa ops
  | .addArc u v :: ops => do
    let r ← g.addArc u v
    runFree r.2 fn (fa.erase r.1) ops
  | .eraseArc a :: ops => do
    let g ← g.eraseArc a
    runFree g fn (a :: fa) ops

/-- The invariant of the states reached by calls on valid handles: the tables
are in range, the node table holds the chain `L` of live nodes and the free
nodes `F`, and the arc table the free arcs `FA` and consistent links. -/
structure Lib (g : DAGraph0) (L F FA : List Int) : Prop where
  wf : Wf g
  nodes : NodeRep g L F
  arcs : ArcLib g FA

/-- A run of calls on valid handles that erases the node `0` while two arcs
leave it, then one of these arcs, then the node `2` while an arc enters it. -/
def freedOps : List Op :=
  [.addNode, .addNode, .addNode, .addArc 0 1, .addArc 0 1, .addArc 1 2, .eraseNode 0,
    .eraseArc 0, .eraseNode 2]

/-- The state after `freedOps`: the node `1` and the arcs `1` and `2` are
valid, the nodes `2`, `0` and the arc `0` are free. -/
def freedGraph : DAGraph0 :=
  { nodes_ :=
      [{ prev := -2, next := -1, first_in := -1, first_out := 1 },
        { prev := -1, next := -1, first_in := 1, first_out := 2 },
        { prev := -2, next := 0, first_in := 2, first_out := -1 }],
    arcs_ :=
      [{ source := 0, target := 1, prev_in := -2, next_in := -1, prev_out := 1, next_out := -1 },
        { source := 0, target := 1, prev_in := -1, next_in := -1, prev_out := -1,
          next_out := -1 },
        { source := 1, target := 2, prev_in := -1, next_in := -1, prev_out := -1,
          next_out := -1 }],
    first_node_ := 1,
    first_free_node_ := 2,
    first_free_arc_ := 0 }

/-- The chains are doubly linked: between valid arcs `next_out` and `next_in`
are undone by `prev_out` and `prev_in`, a valid arc has no predecessor on a
chain exactly when it is the head of that chain of its source or target, between
valid nodes `next` is undone by `prev`, and a valid node has no predecessor
exactly when it is `first_node_`. -/
structure Symmetric (g : DAGraph0) : Prop where
  next_out : ∀ a b sa sb, g.validArc a = true → g.validArc b = true →
    look g.arcs_ a = some sa → look g.arcs_ b = some sb → sa.next_out = b → sb.prev_out = a
  next_in : ∀ a b sa sb, g.validArc a = true → g.validArc b = true →
    look g.arcs_ a = some sa → look g.arcs_ b = some sb → sa.next_in = b → sb.prev_in = a
  head_out : ∀ a sa, g.validArc a = true → look g.arcs_ a = some sa →
    (sa.prev_out = -1 ↔ g.firstOut sa.source = .ok a)
  head_in : ∀ a sa, g.validArc a = true → look g.arcs_ a = some sa →
    (sa.prev_in = -1 ↔ g.firstIn sa.target = .ok a)
  next : ∀ n m sn sm, g.validNode n = true → g.validNode m = true →
    look g.nodes_ n = some sn → look g.nodes_ m = some sm → sn.next = m → sm.prev = n
  head : ∀ n sn, g.validNode n = true → look g.nodes_ n = some sn →
    (sn.prev = -1 ↔ g.first_node_ = n)

end DAGraph0

namespace StaticDAGraph0

/-- An edge list with parallel edges, a loop, and two edges into the node `2`. -/
def multiEdges : List (Int × Int) := [(0, 1), (0, 1), (1, 1), (0, 2), (1, 2)]

end StaticDAGraph0

namespace DAGraph0

/-- The number of node handles `i` of `[0, nodes_.size())` with `valid(Node(i))`. -/
def numValidNodes (g : DAGraph0) : Nat :=
  ((List.range g.nodes_.length).filter fun (i : Nat) => g.validNode (i : Int)).length

/-- The number of arc handles `j` of `[0, arcs_.size())` with `valid(Arc(j))`. -/
def numValidArcs (g : DAGraph0) : Nat :=
  ((List.range g.arcs_.length).filter fun (j : Nat) => g.validArc (j : Int)).length

/-- The largest numbers of valid nodes and of valid arcs seen so far, kept
beside the graph along a run of calls: after each call they are compared with
the numbers of valid nodes and arcs of the state the call returns. -/
def runPeak (g : DAGraph0) (pn pa : Nat) : List Op → Res (DAGraph0 × Nat × Nat)
  | [] => pure (g, pn, pa)
  | op :: ops => do
    let g' ← g.step op
    runPeak g' (max pn g'.numValidNodes) (max pa g'.numValidArcs) ops

end DAGraph0

/-! ## Lemmas and theorems -/

/-! ## Slot tables -/

@[simp] theorem ok_bind {α β : Type} (a : α) (f : α → Res β) :
    ((Except.ok a : Res α) >>= f) = f a := rfl

@[simp] theorem error_bind {α β : Type} (e : Fault) (f : α → Res β) :
    ((Except.error e : Res α) >>= f) = Except.error e := rfl

@[simp] theorem pure_eq_ok {α : Type} (a : α) : (pure a : Res α) = Except.ok a := rfl

theorem look_eq_none {α : Type} (xs : List α) (i : Int) :
    look xs i = none ↔ ¬ (0 ≤ i ∧ i < (xs.length : Int)) := by
  unfold look
  split
  · rw [List.getElem?_eq_none_iff]; omega
  · simp; omega

theorem look_isSome {α : Type} (xs : List α) (i : Int) :
    (∃ x, look xs i = some x) ↔ (0 ≤ i ∧ i < (xs.length : Int)) := by
  rw [← not_iff_not, ← look_eq_none]
  cases look xs i <;> simp

theorem look_neg_one {α : Type} (xs : List α) : look xs (-1) = none := by
  simp [look]

theorem look_ge {α : Type} {xs : List α} {i : Int} {x : α} (h : look xs i = some x) :
    0 ≤ i ∧ i < (xs.length : Int) :=
  (look_isSome xs i).1 ⟨x, h⟩

theorem rd_of_look {α : Type} {xs : List α} {i : Int} {x : α} (h : look xs i = some x) :
    rd xs i = .ok x := by
  simp [rd, h]

theorem rd_eq_ok {α : Type} {xs : List α} {i : Int} {x : α} :
    rd xs i = .ok x ↔ look xs i = some x := by
  unfold rd
  cases look xs i <;> simp

theorem rd_neg_one {α : Type} (xs : List α) : rd xs (-1) = .error Fault.access := by
  simp [rd, look_neg_one]

theorem wr_of_look {α : Type} {xs : List α} {i : Int} {x : α} (f : α → α)
    (h : look xs i = some x) : wr xs i f = .ok (put xs i f) := by
  simp [wr, put, h]

theorem length_put {α : Type} (xs : List α) (i : Int) (f : α → α) :
    (put xs i f).length = xs.length := by
  unfold put
  split <;> simp

theorem put_neg_one {α : Type} (xs : List α) (f : α → α) : put xs (-1) f = xs := by
  simp [put, look_neg_one]

theorem look_put {α : Type} (xs : List α) (i j : Int) (f : α → α) :
    look (put xs i f) j = if j = i then (look xs i).map f else look xs j := by
  unfold put
  cases h : look xs i with
  | none => by_cases hji : j = i <;> simp [hji, h]
  | some x =>
    have hr := look_ge h
    by_cases hji : j = i
    · subst hji
      simp [look, hr.1, List.getElem?_set]
      omega
    · simp only [hji, if_false]
      unfold look
      split
      · rw [List.getElem?_set]
        have : ¬ i.toNat = j.toNat := by omega
        simp [this]
      · rfl

theorem look_append_one {α : Type} (xs : List α) (a : α) (j : Int) :
    look (xs ++ [a]) j = if j = (xs.length : Int) then some a else look xs j := by
  unfold look
  by_cases hj : 0 ≤ j
  · simp only [hj, if_true]
    by_cases hl : j = (xs.length : Int)
    · simp [hl]
    · simp only [hl, if_false]
      by_cases hlt : j.toNat < xs.length
      · rw [List.getElem?_append_left hlt]
      · have h1 : xs.length ≤ j.toNat := by omega
        have h2 : (xs ++ [a]).length ≤ j.toNat := by
          rw [List.length_append, List.length_singleton]; omega
        rw [List.getElem?_eq_none_iff.2 h1, List.getElem?_eq_none_iff.2 h2]
  · have : ¬ j = (xs.length : Int) := by omega
    simp [hj, this]

theorem fld_put {α : Type} (p : α → Int) (xs : List α) (i j : Int) (f : α → α) :
    fld p (put xs i f) j = if j = i then (look xs i).map (fun x => p (f x)) else fld p xs j := by
  unfold fld
  rw [look_put]
  split
  · rw [Option.map_map]; rfl
  · rfl

theorem fld_put_same {α : Type} (p : α → Int) (xs : List α) (i : Int) (f : α → α)
    (h : ∀ x, p (f x) = p x) : fld p (put xs i f) = fld p xs := by
  funext j
  rw [fld_put]
  split
  · rename_i hji; subst hji; simp [fld, h]
  · rfl

theorem fld_append_one {α : Type} (p : α → Int) (xs : List α) (a : α) (j : Int) :
    fld p (xs ++ [a]) j = if j = (xs.length : Int) then some (p a) else fld p xs j := by
  unfold fld
  rw [look_append_one]
  split <;> simp

theorem fld_ge {α : Type} {p : α → Int} {xs : List α} {i v : Int} (h : fld p xs i = some v) :
    0 ≤ i ∧ i < (xs.length : Int) := by
  unfold fld at h
  cases hl : look xs i with
  | none => simp [hl] at h
  | some x => exact look_ge hl

theorem fld_of_look {α : Type} (p : α → Int) {xs : List α} {i : Int} {x : α}
    (h : look xs i = some x) : fld p xs i = some (p x) := by
  simp [fld, h]

/-! ## Intrusive chains -/

theorem Seg.frame {nx nx' : Int → Option Int} {e : Int} :
    ∀ {l : List Int} {c : Int}, (∀ y ∈ l, nx' y = nx y) → Seg nx c l e → Seg nx' c l e
  | [], _, _, h => h
  | x :: l, c, hf, h => by
    obtain ⟨h1, h2, n, h3, h4⟩ := h
    refine ⟨h1, h2, n, ?_, Seg.frame (fun y hy => hf y (List.mem_cons_of_mem _ hy)) h4⟩
    rw [hf x (List.mem_cons_self _ _)]; exact h3

theorem Back.frame_back {pv pv' : Int → Option Int} :
    ∀ {l : List Int} {q : Int}, (∀ y ∈ l, pv' y = pv y) → Back pv q l → Back pv' q l
  | [], _, _, _ => trivial
  | x :: l, q, hf, h => by
    obtain ⟨h1, h2⟩ := h
    refine ⟨?_, Back.frame_back (fun y hy => hf y (List.mem_cons_of_mem _ hy)) h2⟩
    rw [hf x (List.mem_cons_self _ _)]; exact h1

theorem Seg.ne_neg_one {nx : Int → Option Int} {e : Int} :
    ∀ {l : List Int} {c : Int}, Seg nx c l e → ∀ y ∈ l, y ≠ -1
  | [], _, _, y, hy => by simp at hy
  | x :: l, c, h, y, hy => by
    obtain ⟨_, h2, n, _, h4⟩ := h
    rcases List.mem_cons.1 hy with rfl | hy
    · exact h2
    · exact Seg.ne_neg_one h4 y hy

theorem Seg.dom {nx : Int → Option Int} {e : Int} :
    ∀ {l : List Int} {c : Int}, Seg nx c l e → ∀ y ∈ l, ∃ n, nx y = some n
  | [], _, _, y, hy => by simp at hy
  | x :: l, c, h, y, hy => by
    obtain ⟨_, _, n, h3, h4⟩ := h
    rcases List.mem_cons.1 hy with rfl | hy
    · exact ⟨n, h3⟩
    · exact Seg.dom h4 y hy

theorem Seg.append {nx : Int → Option Int} {e m : Int} :
    ∀ {l1 l2 : List Int} {c : Int}, Seg nx c l1 m → Seg nx m l2 e → Seg nx c (l1 ++ l2) e
  | [], _, c, h1, h2 => by
    have : c = m := h1
    subst this; exact h2
  | x :: l1, l2, c, h1, h2 => by
    obtain ⟨a, b, n, h3, h4⟩ := h1
    exact ⟨a, b, n, h3, Seg.append h4 h2⟩

theorem Seg.split {nx : Int → Option Int} {e : Int} :
    ∀ {l1 l2 : List Int} {c : Int}, Seg nx c (l1 ++ l2) e →
      ∃ m, Seg nx c l1 m ∧ Seg nx m l2 e
  | [], _, c, h => ⟨c, rfl, h⟩
  | x :: l1, l2, c, h => by
    obtain ⟨a, b, n, h3, h4⟩ := h
    obtain ⟨m, h5, h6⟩ := Seg.split h4
    exact ⟨m, ⟨a, b, n, h3, h5⟩, h6⟩

/-- The successor of a slot of a chain is a later slot of the chain or its end. -/
theorem Seg.next_mem {nx : Int → Option Int} {e : Int} :
    ∀ {l : List Int} {c : Int}, Seg nx c l e → ∀ {x n : Int}, x ∈ l → nx x = some n →
      n = e ∨ n ∈ l
  | [], _, _, x, n, hx, _ => by simp at hx
  | y :: l, c, h, x, n, hx, hn => by
    obtain ⟨_, _, m, h3, h4⟩ := h
    rcases List.mem_cons.1 hx with rfl | hx
    · rw [h3] at hn
      cases hn
      cases l with
      | nil => left; exact h4
      | cons z l => right; rw [h4.1]; simp
    · rcases Seg.next_mem h4 hx hn with h | h
      · exact Or.inl h
      · exact Or.inr (List.mem_cons_of_mem _ h)

/-- The back link of a slot of a chain is an earlier slot of the chain or the
back link of its head. -/
theorem Back.prev_mem {pv : Int → Option Int} :
    ∀ {l : List Int} {q : Int}, Back pv q l → ∀ {x p : Int}, x ∈ l → pv x = some p →
      p = q ∨ p ∈ l
  | [], _, _, x, p, hx, _ => by simp at hx
  | y :: l, q, h, x, p, hx, hp => by
    obtain ⟨h1, h2⟩ := h
    rcases List.mem_cons.1 hx with rfl | hx
    · rw [h1] at hp; cases hp; exact Or.inl rfl
    · rcases Back.prev_mem h2 hx hp with h | h
      · right; rw [h]; simp
      · exact Or.inr (List.mem_cons_of_mem _ h)

/-- In a chain without repetition the back link of a slot that is not the head
is not the back link of the head. -/
theorem Back.prev_mem_tail {pv : Int → Option Int} {l : List Int} {q y x p : Int}
    (h : Back pv q (y :: l)) (hx : x ∈ l) (hp : pv x = some p) : p ∈ y :: l := by
  rcases Back.prev_mem h.2 hx hp with h' | h'
  · rw [h']; simp
  · exact List.mem_cons_of_mem _ h'

theorem Seg.next_mem_tail {nx : Int → Option Int} {e : Int} {l : List Int} {c y x n : Int}
    (h : Seg nx c (y :: l) e) (hx : x ∈ l) (hn : nx x = some n) : n = e ∨ n ∈ l := by
  obtain ⟨_, _, m, _, h4⟩ := h
  exact Seg.next_mem h4 hx hn

/-- Taking the slot `x` out of a doubly linked chain: the two writes
`nx[p] = n` and `pv[n] = p` around it, and the head moved on when `x` was the
head, leave the chain without `x`. -/
theorem unlink_aux {nx pv nx' pv' : Int → Option Int} {e x n p : Int}
    (hn : nx x = some n) (hp : pv x = some p) :
    ∀ (l : List Int) (c q : Int), Seg nx c l e → Back pv q l → l.Nodup → q ∉ l → e ∉ l →
      x ∈ l →
      (∀ y ∈ l, y ≠ x → y ≠ p → nx' y = nx y) → (p ∈ l → nx' p = some n) →
      (∀ y ∈ l, y ≠ x → y ≠ n → pv' y = pv y) → (n ∈ l → pv' n = some p) →
      Seg nx' (if p = q then n else c) (l.erase x) e ∧ Back pv' q (l.erase x)
  | [], _, _, _, _, _, _, _, hx, _, _, _, _ => by simp at hx
  | y :: l, c, q, hs, hb, hnd, hq, he, hx, hnx, hnp, hpv, hpn => by
    have hs' := hs
    have hb' := hb
    obtain ⟨hc, hy1, m, hm, hsl⟩ := hs
    obtain ⟨hpy, hbl⟩ := hb
    have hyl : y ∉ l := (List.nodup_cons.1 hnd).1
    have hndl : l.Nodup := (List.nodup_cons.1 hnd).2
    by_cases hxy : x = y
    · subst hxy
      have hpq : p = q := by rw [hpy] at hp; exact (Option.some.inj hp).symm
      have hnm : n = m := by rw [hm] at hn; exact (Option.some.inj hn).symm
      subst hpq hnm
      simp only [List.erase_cons_head, if_true]
      constructor
      · refine Seg.frame (fun z hz => hnx z (List.mem_cons_of_mem _ hz) ?_ ?_) hsl
        · rintro rfl; exact hyl hz
        · rintro rfl; exact hq (List.mem_cons_of_mem _ hz)
      · cases l with
        | nil => trivial
        | cons z l =>
          have hz : n = z := hsl.1
          refine ⟨?_, ?_⟩
          · rw [← hz]; exact hpn (by simp [hz])
          · refine Back.frame_back (fun w hw => hpv w (by simp [hw]) ?_ ?_) hbl.2
            · rintro rfl; exact hyl (List.mem_cons_of_mem _ hw)
            · rw [hz]; rintro rfl; exact (List.nodup_cons.1 hndl).1 hw
    · have hxl : x ∈ l := by
        rcases List.mem_cons.1 hx with h | h
        · exact absurd h hxy
        · exact h
      have hpm : p ∈ y :: l := Back.prev_mem_tail hb' hxl hp
      have hpq : p ≠ q := by rintro rfl; exact hq hpm
      have hnm : n = e ∨ n ∈ l := Seg.next_mem_tail hs' hxl hn
      have hny : n ≠ y := by
        rcases hnm with h | h
        · rw [h]; rintro rfl; exact he (by simp)
        · rintro rfl; exact hyl h
      have ih := unlink_aux hn hp l m y hsl hbl hndl hyl
        (fun h => he (List.mem_cons_of_mem _ h)) hxl
        (fun z hz => hnx z (List.mem_cons_of_mem _ hz))
        (fun h => hnp (List.mem_cons_of_mem _ h))
        (fun z hz => hpv z (List.mem_cons_of_mem _ hz))
        (fun h => hpn (List.mem_cons_of_mem _ h))
      have herase : (y :: l).erase x = y :: l.erase x := by
        rw [List.erase_cons_tail]
        simp only [beq_iff_eq]
        exact fun h => hxy h.symm
      rw [herase, if_neg hpq]
      refine ⟨⟨hc, hy1, ?_⟩, ?_, ih.2⟩
      · by_cases hpy' : p = y
        · refine ⟨n, ?_, ?_⟩
          · rw [← hpy']; exact hnp hpm
          · have := ih.1; rwa [if_pos hpy'] at this
        · refine ⟨m, ?_, ?_⟩
          · rw [hnx y (by simp) (fun h => hxy h.symm) (fun h => hpy' h.symm)]; exact hm
          · have := ih.1; rwa [if_neg hpy'] at this
      · rw [hpv y (by simp) (fun h => hxy h.symm) (fun h => hny h.symm)]; exact hpy

/-- Putting the slot `x` in front of a doubly linked chain. -/
theorem push_front {nx pv : Int → Option Int} (nx' pv' : Int → Option Int) {c x q : Int}
    {l : List Int}
    (hs : Seg nx c l (-1)) (hb : Back pv q l) (hnd : l.Nodup) (hx1 : x ≠ -1)
    (hnx : nx' x = some c) (hpx : pv' x = some q)
    (hfn : ∀ y ∈ l, nx' y = nx y) (hfp : ∀ y ∈ l, y ≠ c → pv' y = pv y)
    (hpc : c ∈ l → pv' c = some x) :
    Seg nx' x (x :: l) (-1) ∧ Back pv' q (x :: l) := by
  refine ⟨⟨rfl, hx1, c, hnx, Seg.frame hfn hs⟩, hpx, ?_⟩
  cases l with
  | nil => trivial
  | cons y l =>
    have hcy : c = y := hs.1
    subst hcy
    refine ⟨hpc (by simp), ?_⟩
    refine Back.frame_back (fun w hw => hfp w (by simp [hw]) ?_) hb.2
    rintro rfl; exact (List.nodup_cons.1 hnd).1 hw

/-- The loop of `walk` visits the slots of a chain that ends at `-1`. -/
theorem walk_of_seg {next : Int → Res Int} (nx : Int → Option Int)
    (h : ∀ x n, nx x = some n → next x = .ok n) :
    ∀ (l : List Int) (c : Int) (fuel : Nat), Seg nx c l (-1) → l.length < fuel →
      walk next fuel c = .ok l
  | [], c, fuel, hs, hf => by
    have hc : c = -1 := hs
    cases fuel with
    | zero => simp at hf
    | succ f => simp [walk, hc]
  | x :: l, c, fuel, hs, hf => by
    obtain ⟨hc, hx, n, hn, hsl⟩ := hs
    cases fuel with
    | zero => simp at hf
    | succ f =>
      have ih := walk_of_seg nx h l n f hsl (by simpa using hf)
      subst hc
      simp only [walk, if_neg hx, h c n hn, ok_bind, ih, pure_eq_ok]

/-- A list of distinct slot ids of a table is no longer than the table. -/
theorem length_le_of_nodup_range {l : List Int} {N : Nat} (hnd : l.Nodup)
    (hr : ∀ x ∈ l, 0 ≤ x ∧ x < (N : Int)) : l.length ≤ N := by
  have h1 : l.toFinset ⊆ Finset.Ico (0 : Int) (N : Int) := by
    intro x hx
    rw [List.mem_toFinset] at hx
    rw [Finset.mem_Ico]
    exact hr x hx
  have h2 := Finset.card_le_card h1
  rw [List.toFinset_card_of_nodup hnd, Int.card_Ico] at h2
  simpa using h2

theorem wr_of_range {α : Type} {xs : List α} {i : Int} (f : α → α)
    (h0 : 0 ≤ i) (h1 : i < (xs.length : Int)) : wr xs i f = .ok (put xs i f) := by
  obtain ⟨x, hx⟩ := (look_isSome xs i).2 ⟨h0, h1⟩
  exact wr_of_look f hx

theorem rd_put_ne {α : Type} (xs : List α) {i j : Int} (f : α → α) (h : j ≠ i) :
    rd (put xs i f) j = rd xs j := by
  unfold rd
  rw [look_put, if_neg h]

namespace StaticDAGraph0

/-! ## The blocks of `build`, as state transformers -/

theorem linkOut_eq {g : StaticDAGraph0} {u arcid : Int} {s : NodeT}
    (hu : look g.nodes_ u = some s)
    (hfo : s.first_out = -1 ∨ ∃ oa, look g.arcs_ s.first_out = some oa ∧ oa.prev_out = -1) :
    linkOut g u arcid =
      .ok ({ g with
              arcs_ := put g.arcs_ s.first_out fun t => { t with prev_out := arcid },
              nodes_ := put g.nodes_ u fun t => { t with first_out := arcid } },
           s.first_out) := by
  unfold linkOut
  rw [rd_of_look hu]
  simp only [ok_bind]
  rcases hfo with h | ⟨oa, h1, h2⟩
  · simp only [h, if_true, pure_eq_ok, ok_bind, put_neg_one, wr_of_look _ hu]
  · by_cases h : s.first_out = -1
    · simp only [h, if_true, pure_eq_ok, ok_bind, put_neg_one, wr_of_look _ hu]
    · simp only [h, if_false, rd_of_look h1, ok_bind, h2, ne_eq, not_true_eq_false,
        wr_of_look _ h1, pure_eq_ok, wr_of_look _ hu]

theorem linkIn_eq {g : StaticDAGraph0} {v arcid : Int} {s : NodeT}
    (hv : look g.nodes_ v = some s)
    (hfi : s.first_in = -1 ∨ ∃ ia, look g.arcs_ s.first_in = some ia ∧ ia.prev_in = -1) :
    linkIn g v arcid =
      .ok ({ g with
              arcs_ := put g.arcs_ s.first_in fun t => { t with prev_in := arcid },
              nodes_ := put g.nodes_ v fun t => { t with first_in := arcid } },
           s.first_in) := by
  unfold linkIn
  rw [rd_of_look hv]
  simp only [ok_bind]
  rcases hfi with h | ⟨ia, h1, h2⟩
  · simp only [h, if_true, pure_eq_ok, ok_bind, put_neg_one, wr_of_look _ hv]
  · by_cases h : s.first_in = -1
    · simp only [h, if_true, pure_eq_ok, ok_bind, put_neg_one, wr_of_look _ hv]
    · simp only [h, if_false, rd_of_look h1, ok_bind, h2, ne_eq, not_true_eq_false,
        wr_of_look _ h1, pure_eq_ok, wr_of_look _ hv]

theorem dropLeaf_eq {g : StaticDAGraph0} {u : Int} {s : NodeT}
    (hu : look g.nodes_ u = some s) (hnu : s.next_leaf ≠ u)
    (hn : s.next_leaf = -1 ∨ (0 ≤ s.next_leaf ∧ s.next_leaf < (g.nodes_.length : Int)))
    (hp : s.prev_leaf = -1 ∨ (0 ≤ s.prev_leaf ∧ s.prev_leaf < (g.nodes_.length : Int))) :
    dropLeaf g u =
      .ok { g with
            nodes_ :=
              put (put (put (put g.nodes_ s.next_leaf fun t => { t with prev_leaf := s.prev_leaf })
                s.prev_leaf fun t => { t with next_leaf := s.next_leaf })
                u fun t => { t with prev_leaf := -1 })
                u fun t => { t with next_leaf := -1 },
            first_leaf_node_ :=
              if s.prev_leaf = -1 ∧ u = g.first_leaf_node_ then s.next_leaf
              else g.first_leaf_node_ } := by
  have hur := look_ge hu
  have hnu' : u ≠ s.next_leaf := Ne.symm hnu
  rcases g with ⟨nodes, fr, fl, arcs⟩
  simp only at hu hn hp hur
  simp only [dropLeaf, rd_of_look hu, ok_bind]
  by_cases h1 : s.next_leaf = -1
  · by_cases h2 : s.prev_leaf = -1
    · by_cases hf : u = fl
      · subst hf
        simp [h1, h2, put_neg_one, wr_of_range, length_put, hur.1, hur.2, rd_of_look hu]
      · simp [h1, h2, hf, put_neg_one, wr_of_range, length_put, hur.1, hur.2, rd_of_look hu]
    · have hp' := hp.resolve_left h2
      simp [h1, h2, put_neg_one, wr_of_range, length_put, hur.1, hur.2, rd_of_look hu,
        hp'.1, hp'.2]
  · have hn' := hn.resolve_left h1
    by_cases h2 : s.prev_leaf = -1
    · by_cases hf : u = fl
      · subst hf
        simp [h1, h2, put_neg_one, wr_of_range, length_put, hur.1, hur.2, rd_of_look hu,
          hn'.1, hn'.2, rd_put_ne _ _ hnu']
      · simp [h1, h2, hf, put_neg_one, wr_of_range, length_put, hur.1, hur.2, rd_of_look hu,
          hn'.1, hn'.2, rd_put_ne _ _ hnu']
    · have hp' := hp.resolve_left h2
      simp [h1, h2, put_neg_one, wr_of_range, length_put, hur.1, hur.2, rd_of_look hu,
        hp'.1, hp'.2, hn'.1, hn'.2, rd_put_ne _ _ hnu']

theorem dropRoot_eq {g : StaticDAGraph0} {v : Int} {s : NodeT}
    (hv : look g.nodes_ v = some s) (hnv : s.next_root ≠ v)
    (hn : s.next_root = -1 ∨ (0 ≤ s.next_root ∧ s.next_root < (g.nodes_.length : Int)))
    (hp : s.prev_root = -1 ∨ (0 ≤ s.prev_root ∧ s.prev_root < (g.nodes_.length : Int))) :
    dropRoot g v =
      .ok { g with
            nodes_ :=
              put (put (put (put g.nodes_ s.next_root fun t => { t with prev_root := s.prev_root })
                s.prev_root fun t => { t with next_root := s.next_root })
                v fun t => { t with prev_root := -1 })
                v fun t => { t with next_root := -1 },
            first_root_node_ :=
              if s.prev_root = -1 ∧ v = g.first_root_node_ then s.next_root
              else g.first_root_node_ } := by
  have hur := look_ge hv
  have hnu' : v ≠ s.next_root := Ne.symm hnv
  rcases g with ⟨nodes, fr, fl, arcs⟩
  simp only at hv hn hp hur
  simp only [dropRoot, rd_of_look hv, ok_bind]
  by_cases h1 : s.next_root = -1
  · by_cases h2 : s.prev_root = -1
    · by_cases hf : v = fr
      · subst hf
        simp [h1, h2, put_neg_one, wr_of_range, length_put, hur.1, hur.2, rd_of_look hv]
      · simp [h1, h2, hf, put_neg_one, wr_of_range, length_put, hur.1, hur.2, rd_of_look hv]
    · have hp' := hp.resolve_left h2
      simp [h1, h2, put_neg_one, wr_of_range, length_put, hur.1, hur.2, rd_of_look hv,
        hp'.1, hp'.2]
  · have hn' := hn.resolve_left h1
    by_cases h2 : s.prev_root = -1
    · by_cases hf : v = fr
      · subst hf
        simp [h1, h2, put_neg_one, wr_of_range, length_put, hur.1, hur.2, rd_of_look hv,
          hn'.1, hn'.2, rd_put_ne _ _ hnu']
      · simp [h1, h2, hf, put_neg_one, wr_of_range, length_put, hur.1, hur.2, rd_of_look hv,
          hn'.1, hn'.2, rd_put_ne _ _ hnu']
    · have hp' := hp.resolve_left h2
      simp [h1, h2, put_neg_one, wr_of_range, length_put, hur.1, hur.2, rd_of_look hv,
        hp'.1, hp'.2, hn'.1, hn'.2, rd_put_ne _ _ hnu']

end StaticDAGraph0

theorem fld_eq_some {α : Type} {p : α → Int} {xs : List α} {i v : Int} :
    fld p xs i = some v ↔ ∃ s, look xs i = some s ∧ p s = v := by
  unfold fld
  cases look xs i <;> simp

theorem fld_put_const {α : Type} (p : α → Int) (xs : List α) (i j v : Int) (f : α → α)
    (h : ∀ x, p (f x) = v) :
    fld p (put xs i f) j = if j = i then (fld p xs i).map (fun _ => v) else fld p xs j := by
  rw [fld_put]
  split
  · unfold fld
    cases look xs i <;> simp [h]
  · rfl

theorem fld_isSome {α : Type} (p : α → Int) (xs : List α) (i : Int) :
    (∃ v, fld p xs i = some v) ↔ (0 ≤ i ∧ i < (xs.length : Int)) := by
  rw [← look_isSome]
  unfold fld
  cases look xs i <;> simp

namespace StaticDAGraph0

theorem linkOut_eq' {g : StaticDAGraph0} {u arcid fo : Int}
    (hu : fld NodeT.first_out g.nodes_ u = some fo)
    (hfo : fo = -1 ∨ fld ArcT.prev_out g.arcs_ fo = some (-1)) :
    linkOut g u arcid =
      .ok ({ g with
              arcs_ := put g.arcs_ fo fun t => { t with prev_out := arcid },
              nodes_ := put g.nodes_ u fun t => { t with first_out := arcid } },
           fo) := by
  obtain ⟨s, hs, rfl⟩ := fld_eq_some.1 hu
  refine linkOut_eq hs ?_
  rcases hfo with h | h
  · exact Or.inl h
  · exact Or.inr (fld_eq_some.1 h)

theorem linkIn_eq' {g : StaticDAGraph0} {v arcid fi : Int}
    (hv : fld NodeT.first_in g.nodes_ v = some fi)
    (hfi : fi = -1 ∨ fld ArcT.prev_in g.arcs_ fi = some (-1)) :
    linkIn g v arcid =
      .ok ({ g with
              arcs_ := put g.arcs_ fi fun t => { t with prev_in := arcid },
              nodes_ := put g.nodes_ v fun t => { t with first_in := arcid } },
           fi) := by
  obtain ⟨s, hs, rfl⟩ := fld_eq_some.1 hv
  refine linkIn_eq hs ?_
  rcases hfi with h | h
  · exact Or.inl h
  · exact Or.inr (fld_eq_some.1 h)

theorem dropLeaf_eq' {g : StaticDAGraph0} {u nl pl : Int}
    (hn : fld NodeT.next_leaf g.nodes_ u = some nl)
    (hp : fld NodeT.prev_leaf g.nodes_ u = some pl) (hnu : nl ≠ u)
    (hnr : nl = -1 ∨ (0 ≤ nl ∧ nl < (g.nodes_.length : Int)))
    (hpr : pl = -1 ∨ (0 ≤ pl ∧ pl < (g.nodes_.length : Int))) :
    dropLeaf g u =
      .ok { g with
            nodes_ :=
              put (put (put (put g.nodes_ nl fun t => { t with prev_leaf := pl })
                pl fun t => { t with next_leaf := nl })
                u fun t => { t with prev_leaf := -1 })
                u fun t => { t with next_leaf := -1 },
            first_leaf_node_ :=
              if pl = -1 ∧ u = g.first_leaf_node_ then nl else g.first_leaf_node_ } := by
  obtain ⟨s, hs, rfl⟩ := fld_eq_some.1 hn
  obtain ⟨s', hs', rfl⟩ := fld_eq_some.1 hp
  rw [hs] at hs'
  cases hs'
  exact dropLeaf_eq hs hnu hnr hpr

theorem dropRoot_eq' {g : StaticDAGraph0} {v nr pr : Int}
    (hn : fld NodeT.next_root g.nodes_ v = some nr)
    (hp : fld NodeT.prev_root g.nodes_ v = some pr) (hnv : nr ≠ v)
    (hnr : nr = -1 ∨ (0 ≤ nr ∧ nr < (g.nodes_.length : Int)))
    (hpr : pr = -1 ∨ (0 ≤ pr ∧ pr < (g.nodes_.length : Int))) :
    dropRoot g v =
      .ok { g with
            nodes_ :=
              put (put (put (put g.nodes_ nr fun t => { t with prev_root := pr })
                pr fun t => { t with next_root := nr })
                v fun t => { t with prev_root := -1 })
                v fun t => { t with next_root := -1 },
            first_root_node_ :=
              if pr = -1 ∧ v = g.first_root_node_ then nr else g.first_root_node_ } := by
  obtain ⟨s, hs, rfl⟩ := fld_eq_some.1 hn
  obtain ⟨s', hs', rfl⟩ := fld_eq_some.1 hp
  rw [hs] at hs'
  cases hs'
  exact dropRoot_eq hs hnv hnr hpr

theorem addEdge_eq {N : Nat} {g : StaticDAGraph0} {u v fo fi nl pl nr pr : Int}
    (hlen : g.nodes_.length = N)
    (hu : 0 ≤ u ∧ u < (N : Int)) (hv : 0 ≤ v ∧ v < (N : Int))
    (hfo : fld NodeT.first_out g.nodes_ u = some fo)
    (hfo' : fo = -1 ∨ fld ArcT.prev_out g.arcs_ fo = some (-1))
    (hfi : fld NodeT.first_in g.nodes_ v = some fi)
    (hfi' : fi = -1 ∨ fld ArcT.prev_in g.arcs_ fi = some (-1))
    (hnl : fld NodeT.next_leaf g.nodes_ u = some nl)
    (hpl : fld NodeT.prev_leaf g.nodes_ u = some pl) (hnlu : nl ≠ u)
    (hnlr : nl = -1 ∨ (0 ≤ nl ∧ nl < (N : Int)))
    (hplr : pl = -1 ∨ (0 ≤ pl ∧ pl < (N : Int)))
    (hnr : fld NodeT.next_root g.nodes_ v = some nr)
    (hpr : fld NodeT.prev_root g.nodes_ v = some pr) (hnrv : nr ≠ v)
    (hnrr : nr = -1 ∨ (0 ≤ nr ∧ nr < (N : Int)))
    (hprr : pr = -1 ∨ (0 ≤ pr ∧ pr < (N : Int))) :
    addEdge N g (u, v) = .ok (edgeAdded g u v fo fi nl pl nr pr) := by
  unfold addEdge
  have hrange : ¬ (u < 0 ∨ u ≥ (N : Int) ∨ v < 0 ∨ v ≥ (N : Int)) := by omega
  simp only [hrange, if_false]
  rw [linkOut_eq' hfo hfo']
  simp only [ok_bind]
  rw [@linkIn_eq' _ _ _ fi (by simpa [fld_put_same] using hfi)
    (by simpa [fld_put_same] using hfi')]
  simp only [ok_bind]
  rw [@dropLeaf_eq' _ _ nl pl (by simpa [fld_put_same] using hnl)
    (by simpa [fld_put_same] using hpl) hnlu
    (by simp only [length_put, hlen]; exact hnlr)
    (by simp only [length_put, hlen]; exact hplr)]
  simp only [ok_bind]
  rw [@dropRoot_eq' _ _ nr pr (by simpa [fld_put_same] using hnr)
    (by simpa [fld_put_same] using hpr) hnrv
    (by simp only [length_put, hlen]; exact hnrr)
    (by simp only [length_put, hlen]; exact hprr)]
  simp only [ok_bind, pure_eq_ok, edgeAdded, length_put]

end StaticDAGraph0

/-- A write that sets the field `p` to a value that does not depend on the slot. -/
theorem fld_put_set {α : Type} [Inhabited α] (p : α → Int) (xs : List α) (i j : Int)
    (f : α → α) (h : ∀ x, p (f x) = p (f default)) :
    fld p (put xs i f) j =
      if j = i then (if 0 ≤ i ∧ i < (xs.length : Int) then some (p (f default)) else none)
      else fld p xs j := by
  rw [fld_put]
  split
  · split
    · rename_i h1
      obtain ⟨x, hx⟩ := (look_isSome xs i).2 h1
      simp [hx, h x]
    · rename_i h1
      rw [(look_eq_none xs i).2 h1]; rfl
  · rfl

namespace StaticDAGraph0

section views

variable (g : StaticDAGraph0) (u v fo fi nl pl nr pr : Int)

theorem edgeAdded_first_out (j : Int) :
    fld NodeT.first_out (edgeAdded g u v fo fi nl pl nr pr).nodes_ j =
      if j = u then
        (if 0 ≤ u ∧ u < (g.nodes_.length : Int) then some (g.arcs_.length : Int) else none)
      else fld NodeT.first_out g.nodes_ j := by
  simp (disch := intro _; rfl) only [edgeAdded, fld_put_same, fld_put_set, length_put]

theorem edgeAdded_first_in (j : Int) :
    fld NodeT.first_in (edgeAdded g u v fo fi nl pl nr pr).nodes_ j =
      if j = v then
        (if 0 ≤ v ∧ v < (g.nodes_.length : Int) then some (g.arcs_.length : Int) else none)
      else fld NodeT.first_in g.nodes_ j := by
  simp (disch := intro _; rfl) only [edgeAdded, fld_put_same, fld_put_set, length_put]

theorem edgeAdded_next_leaf (j : Int) :
    fld NodeT.next_leaf (edgeAdded g u v fo fi nl pl nr pr).nodes_ j =
      if j = u then (if 0 ≤ u ∧ u < (g.nodes_.length : Int) then some (-1) else none)
      else if j = pl then
        (if 0 ≤ pl ∧ pl < (g.nodes_.length : Int) then some nl else none)
      else fld NodeT.next_leaf g.nodes_ j := by
  simp (disch := intro _; rfl) only [edgeAdded, fld_put_same, fld_put_set, length_put]

theorem edgeAdded_prev_leaf (j : Int) :
    fld NodeT.prev_leaf (edgeAdded g u v fo fi nl pl nr pr).nodes_ j =
      if j = u then (if 0 ≤ u ∧ u < (g.nodes_.length : Int) then some (-1) else none)
      else if j = nl then
        (if 0 ≤ nl ∧ nl < (g.nodes_.length : Int) then some pl else none)
      else fld NodeT.prev_leaf g.nodes_ j := by
  simp (disch := intro _; rfl) only [edgeAdded, fld_put_same, fld_put_set, length_put]

theorem edgeAdded_next_root (j : Int) :
    fld NodeT.next_root (edgeAdded g u v fo fi nl pl nr pr).nodes_ j =
      if j = v then (if 0 ≤ v ∧ v < (g.nodes_.length : Int) then some (-1) else none)
      else if j = pr then
        (if 0 ≤ pr ∧ pr < (g.nodes_.length : Int) then some nr else none)
      else fld NodeT.next_root g.nodes_ j := by
  simp (disch := intro _; rfl) only [edgeAdded, fld_put_same, fld_put_set, length_put]

theorem edgeAdded_prev_root (j : Int) :
    fld NodeT.prev_root (edgeAdded g u v fo fi nl pl nr pr).nodes_ j =
      if j = v then (if 0 ≤ v ∧ v < (g.nodes_.length : Int) then some (-1) else none)
      else if j = nr then
        (if 0 ≤ nr ∧ nr < (g.nodes_.length : Int) then some pr else none)
      else fld NodeT.prev_root g.nodes_ j := by
  simp (disch := intro _; rfl) only [edgeAdded, fld_put_same, fld_put_set, length_put]

theorem edgeAdded_source (j : Int) :
    fld ArcT.source (edgeAdded g u v fo fi nl pl nr pr).arcs_ j =
      if j = (g.arcs_.length : Int) then some u else fld ArcT.source g.arcs_ j := by
  simp (disch := intro _; rfl) only [edgeAdded, fld_append_one, fld_put_same, length_put]

theorem edgeAdded_target (j : Int) :
    fld ArcT.target (edgeAdded g u v fo fi nl pl nr pr).arcs_ j =
      if j = (g.arcs_.length : Int) then some v else fld ArcT.target g.arcs_ j := by
  simp (disch := intro _; rfl) only [edgeAdded, fld_append_one, fld_put_same, length_put]

theorem edgeAdded_next_out (j : Int) :
    fld ArcT.next_out (edgeAdded g u v fo fi nl pl nr pr).arcs_ j =
      if j = (g.arcs_.length : Int) then some fo else fld ArcT.next_out g.arcs_ j := by
  simp (disch := intro _; rfl) only [edgeAdded, fld_append_one, fld_put_same, length_put]

theorem edgeAdded_next_in (j : Int) :
    fld ArcT.next_in (edgeAdded g u v fo fi nl pl nr pr).arcs_ j =
      if j = (g.arcs_.length : Int) then some fi else fld ArcT.next_in g.arcs_ j := by
  simp (disch := intro _; rfl) only [edgeAdded, fld_append_one, fld_put_same, length_put]

theorem edgeAdded_prev_out (j : Int) :
    fld ArcT.prev_out (edgeAdded g u v fo fi nl pl nr pr).arcs_ j =
      if j = (g.arcs_.length : Int) then some (-1)
      else if j = fo then
        (if 0 ≤ fo ∧ fo < (g.arcs_.length : Int) then some (g.arcs_.length : Int) else none)
      else fld ArcT.prev_out g.arcs_ j := by
  simp (disch := intro _; rfl) only [edgeAdded, fld_append_one, fld_put_same, fld_put_set,
    length_put]

theorem edgeAdded_prev_in (j : Int) :
    fld ArcT.prev_in (edgeAdded g u v fo fi nl pl nr pr).arcs_ j =
      if j = (g.arcs_.length : Int) then some (-1)
      else if j = fi then
        (if 0 ≤ fi ∧ fi < (g.arcs_.length : Int) then some (g.arcs_.length : Int) else none)
      else fld ArcT.prev_in g.arcs_ j := by
  simp (disch := intro _; rfl) only [edgeAdded, fld_append_one, fld_put_same, fld_put_set,
    length_put]

theorem edgeAdded_nodes_length :
    (edgeAdded g u v fo fi nl pl nr pr).nodes_.length = g.nodes_.length := by
  simp only [edgeAdded, length_put]

theorem edgeAdded_arcs_length :
    (edgeAdded g u v fo fi nl pl nr pr).arcs_.length = g.arcs_.length + 1 := by
  simp only [edgeAdded, length_put, List.length_append, List.length_singleton]

end views

end StaticDAGraph0

/-- In a chain without repetition the successor of a slot is another slot. -/
theorem Seg.next_ne {nx : Int → Option Int} {e : Int} :
    ∀ {l : List Int} {c : Int}, Seg nx c l e → l.Nodup → e ∉ l → ∀ {x n : Int}, x ∈ l →
      nx x = some n → n ≠ x
  | [], _, _, _, _, x, n, hx, _ => by simp at hx
  | y :: l, c, h, hnd, he, x, n, hx, hn => by
    obtain ⟨_, _, m, h3, h4⟩ := h
    have hyl : y ∉ l := (List.nodup_cons.1 hnd).1
    rcases List.mem_cons.1 hx with hxy | hxl
    · subst hxy
      rw [h3] at hn
      have hmn : m = n := Option.some.inj hn
      subst hmn
      cases l with
      | nil =>
        have : m = e := h4
        rw [this]; intro h'; exact he (by rw [h']; simp)
      | cons z l =>
        have : m = z := h4.1
        rw [this]; intro h'; exact hyl (by rw [← h']; simp)
    · exact Seg.next_ne h4 (List.nodup_cons.1 hnd).2 (fun h => he (List.mem_cons_of_mem _ h))
        hxl hn

/-- In a chain without repetition the back link of a slot is another slot. -/
theorem Back.prev_ne {pv : Int → Option Int} :
    ∀ {l : List Int} {q : Int}, Back pv q l → l.Nodup → q ∉ l → ∀ {x p : Int}, x ∈ l →
      pv x = some p → p ≠ x
  | [], _, _, _, _, x, p, hx, _ => by simp at hx
  | y :: l, q, h, hnd, hq, x, p, hx, hp => by
    obtain ⟨h1, h2⟩ := h
    rcases List.mem_cons.1 hx with hxy | hxl
    · subst hxy
      rw [h1] at hp
      have hqp : q = p := Option.some.inj hp
      subst hqp
      intro h'; exact hq (by rw [h']; simp)
    · exact Back.prev_ne h2 (List.nodup_cons.1 hnd).2 (List.nodup_cons.1 hnd).1 hxl hp

/-- The head of a chain is its first slot. -/
theorem Seg.head_eq {nx : Int → Option Int} {e c x : Int} {l : List Int}
    (h : Seg nx c (x :: l) e) : c = x := h.1

/-- A slot whose back link is the back link of the head is the head. -/
theorem Back.eq_head {pv : Int → Option Int} {l : List Int} {q y x : Int}
    (h : Back pv q (y :: l)) (hq : q ∉ y :: l) (hx : x ∈ y :: l) (hp : pv x = some q) :
    x = y := by
  rcases List.mem_cons.1 hx with h' | h'
  · exact h'
  · exact absurd (Back.prev_mem_tail h h' hp) hq

/-- Taking `x` out of a doubly linked chain that ends at `-1`, in the form the
source does it: `if (n != -1) pv[n] = p; if (p != -1) nx[p] = n; else` the head
moves on to `n`. -/
theorem unlink {nx pv : Int → Option Int} (nx' pv' : Int → Option Int) {c x n p : Int}
    {l : List Int}
    (hs : Seg nx c l (-1)) (hb : Back pv (-1) l) (hnd : l.Nodup) (hx : x ∈ l)
    (hn : nx x = some n) (hp : pv x = some p)
    (hnx : ∀ j ∈ l, j ≠ x → nx' j = if j = p then some n else nx j)
    (hpv : ∀ j ∈ l, j ≠ x → pv' j = if j = n then some p else pv j) :
    Seg nx' (if p = -1 then n else c) (l.erase x) (-1) ∧ Back pv' (-1) (l.erase x) := by
  have hm1 : (-1 : Int) ∉ l := fun h => Seg.ne_neg_one hs _ h rfl
  have hpx : p ≠ x := Back.prev_ne hb hnd hm1 hx hp
  have hnx1 : n ≠ x := Seg.next_ne hs hnd hm1 hx hn
  exact unlink_aux hn hp l c (-1) hs hb hnd hm1 hm1 hx
    (fun y hy h1 h2 => by rw [hnx y hy h1, if_neg h2])
    (fun h => by rw [hnx p h hpx, if_pos rfl])
    (fun y hy h1 h2 => by rw [hpv y hy h1, if_neg h2])
    (fun h => by rw [hpv n h hnx1, if_pos rfl])

namespace StaticDAGraph0

/-! ## What `build` computes -/

theorem mem_idsFrom {k m : Nat} {x : Int} :
    x ∈ idsFrom k m ↔ (k : Int) ≤ x ∧ x < (k : Int) + m := by
  unfold idsFrom
  simp only [List.mem_map, List.mem_range'_1]
  constructor
  · rintro ⟨a, ⟨h1, h2⟩, rfl⟩
    constructor
    · simp only [Int.ofNat_eq_coe]; omega
    · simp only [Int.ofNat_eq_coe]; omega
  · rintro ⟨h1, h2⟩
    refine ⟨x.toNat, ⟨?_, ?_⟩, ?_⟩
    · omega
    · omega
    · simp only [Int.ofNat_eq_coe]; omega

theorem mem_ids {N : Nat} {x : Int} : x ∈ ids N ↔ 0 ≤ x ∧ x < (N : Int) := by
  unfold ids
  rw [mem_idsFrom]
  simp

theorem nodup_ids (N : Nat) : (ids N).Nodup := by
  unfold ids idsFrom
  refine List.Nodup.map ?_ (List.nodup_range' 0 N)
  intro a b h
  exact Int.ofNat.inj h

theorem mem_roots {N : Nat} {E : List (Int × Int)} {n : Int} :
    n ∈ roots N E ↔ (0 ≤ n ∧ n < (N : Int)) ∧ ∀ e ∈ E, e.2 ≠ n := by
  unfold roots
  rw [List.mem_filter, mem_ids]
  simp

theorem mem_leaves {N : Nat} {E : List (Int × Int)} {n : Int} :
    n ∈ leaves N E ↔ (0 ≤ n ∧ n < (N : Int)) ∧ ∀ e ∈ E, e.1 ≠ n := by
  unfold leaves
  rw [List.mem_filter, mem_ids]
  simp

theorem nodup_roots (N : Nat) (E : List (Int × Int)) : (roots N E).Nodup :=
  (nodup_ids N).filter _

theorem nodup_leaves (N : Nat) (E : List (Int × Int)) : (leaves N E).Nodup :=
  (nodup_ids N).filter _

/-- Filtering a list without repetition by two conditions of which the second
only excludes `v` is erasing `v` from the list filtered by the first. -/
theorem filter_erase {l : List Int} (hnd : l.Nodup) (p q : Int → Bool) (v : Int)
    (h : ∀ n, q n = (p n && decide (n ≠ v))) :
    l.filter q = (l.filter p).erase v := by
  rw [(hnd.filter p).erase_eq_filter, List.filter_filter]
  congr 1
  funext n
  rw [h n, Bool.and_comm]
  by_cases hv : n = v <;> simp [hv]

theorem roots_snoc (N : Nat) (E : List (Int × Int)) (e : Int × Int) :
    roots N (E ++ [e]) = (roots N E).erase e.2 := by
  unfold roots
  refine filter_erase (nodup_ids N) _ _ _ ?_
  intro n
  simp only [List.all_append, List.all_cons, List.all_nil, Bool.and_true]
  congr 1
  by_cases h : e.2 = n
  · simp [h]
  · simp [h, Ne.symm h]

theorem leaves_snoc (N : Nat) (E : List (Int × Int)) (e : Int × Int) :
    leaves N (E ++ [e]) = (leaves N E).erase e.1 := by
  unfold leaves
  refine filter_erase (nodup_ids N) _ _ _ ?_
  intro n
  simp only [List.all_append, List.all_cons, List.all_nil, Bool.and_true]
  congr 1
  by_cases h : e.1 = n
  · simp [h]
  · simp [h, Ne.symm h]

theorem hits_succ (p : Int × Int → Bool) (E : List (Int × Int)) (k : Nat) :
    hits p E (k + 1) =
      match E[k]? with
      | some e => if p e then (k : Int) :: hits p E k else hits p E k
      | none => hits p E k := rfl

theorem mem_hits {p : Int × Int → Bool} {E : List (Int × Int)} {x : Int} :
    ∀ {k : Nat}, x ∈ hits p E k ↔ (0 ≤ x ∧ x < (k : Int)) ∧ ∃ e, look E x = some e ∧ p e = true
  | 0 => by
    simp only [hits, List.not_mem_nil, false_iff]
    rintro ⟨⟨h1, h2⟩, _⟩
    omega
  | k + 1 => by
    have ih := @mem_hits p E x k
    have hk : ∀ e, look E (k : Int) = some e ↔ E[k]? = some e := by
      intro e; simp [look]
    rw [hits_succ]
    cases hE : E[k]? with
    | none =>
      simp only [ih]
      constructor
      · rintro ⟨⟨h1, h2⟩, h3⟩
        exact ⟨⟨h1, by push_cast; omega⟩, h3⟩
      · rintro ⟨⟨h1, h2⟩, e, h3, h4⟩
        refine ⟨⟨h1, ?_⟩, e, h3, h4⟩
        by_contra hx
        have hxk : x = (k : Int) := by push_cast at h2; omega
        rw [hxk, hk, hE] at h3
        cases h3
    | some e0 =>
      by_cases hp : p e0 = true
      · dsimp only
        rw [if_pos hp, List.mem_cons, ih]
        constructor
        · rintro (hxk | ⟨⟨h1, h2⟩, h3⟩)
          · subst hxk
            exact ⟨⟨by omega, by push_cast; omega⟩, e0, (hk e0).2 hE, hp⟩
          · exact ⟨⟨h1, by push_cast; omega⟩, h3⟩
        · rintro ⟨⟨h1, h2⟩, h3⟩
          by_cases hxk : x = (k : Int)
          · exact Or.inl hxk
          · exact Or.inr ⟨⟨h1, by push_cast at h2; omega⟩, h3⟩
      · dsimp only
        rw [if_neg hp, ih]
        constructor
        · rintro ⟨⟨h1, h2⟩, h3⟩
          exact ⟨⟨h1, by push_cast; omega⟩, h3⟩
        · rintro ⟨⟨h1, h2⟩, e, h3, h4⟩
          refine ⟨⟨h1, ?_⟩, e, h3, h4⟩
          by_contra hx
          have hxk : x = (k : Int) := by push_cast at h2; omega
          rw [hxk, hk, hE] at h3
          cases h3
          exact hp h4

theorem hits_append (p : Int × Int → Bool) (E : List (Int × Int)) (e : Int × Int) :
    ∀ k, k ≤ E.length → hits p (E ++ [e]) k = hits p E k
  | 0, _ => rfl
  | k + 1, hk => by
    rw [hits_succ, hits_succ, List.getElem?_append_left (by omega),
      hits_append p E e k (by omega)]

theorem hits_snoc (p : Int × Int → Bool) (E : List (Int × Int)) (e : Int × Int) :
    hits p (E ++ [e]) (E ++ [e]).length =
      if p e then (E.length : Int) :: hits p E E.length else hits p E E.length := by
  rw [List.length_append, List.length_singleton, hits_succ,
    List.getElem?_append_right (le_refl _)]
  simp only [Nat.sub_self, List.getElem?_cons_zero]
  rw [hits_append p E e E.length (le_refl _)]

theorem nodup_hits (p : Int × Int → Bool) (E : List (Int × Int)) :
    ∀ k, (hits p E k).Nodup
  | 0 => List.nodup_nil
  | k + 1 => by
    have ih := nodup_hits p E k
    rw [hits_succ]
    cases E[k]? with
    | none => exact ih
    | some e0 =>
      by_cases hp : p e0 = true
      · dsimp only
        rw [if_pos hp]
        refine List.nodup_cons.2 ⟨?_, ih⟩
        intro h
        have := (mem_hits.1 h).1.2
        omega
      · dsimp only
        rw [if_neg hp]
        exact ih

/-- A node leaves a chain it may or may not be on, the way `build` does it:
the slots off the chain have both links `-1`. -/
theorem drop_chain {nx pv nx' pv' : Int → Option Int} {c x n p : Int} {l : List Int}
    (hs : Seg nx c l (-1)) (hb : Back pv (-1) l) (hnd : l.Nodup) (hx1 : x ≠ -1)
    (hoff : x ∉ l → n = -1 ∧ p = -1)
    (hn : nx x = some n) (hp : pv x = some p)
    (hnx : ∀ j ∈ l, j ≠ x → nx' j = if j = p then some n else nx j)
    (hpv : ∀ j ∈ l, j ≠ x → pv' j = if j = n then some p else pv j) :
    Seg nx' (if p = -1 ∧ x = c then n else c) (l.erase x) (-1) ∧
      Back pv' (-1) (l.erase x) := by
  have hm1 : (-1 : Int) ∉ l := fun h => Seg.ne_neg_one hs _ h rfl
  by_cases hx : x ∈ l
  · have h := unlink nx' pv' hs hb hnd hx hn hp hnx hpv
    have hc : (if p = -1 ∧ x = c then n else c) = (if p = -1 then n else c) := by
      by_cases hp1 : p = -1
      · have hxc : x = c := by
          cases l with
          | nil => simp at hx
          | cons y l =>
            rw [hs.1]
            exact Back.eq_head hb hm1 hx (hp1 ▸ hp)
        simp [hp1, hxc]
      · simp [hp1]
    rw [hc]; exact h
  · obtain ⟨hn1, hp1⟩ := hoff hx
    have hxc : x ≠ c := by
      cases l with
      | nil =>
        have : c = -1 := hs
        rw [this]; exact hx1
      | cons y l =>
        rw [hs.1]; rintro rfl; exact hx (List.mem_cons_self _ _)
    rw [List.erase_of_not_mem hx, if_neg (fun h => hxc h.2)]
    constructor
    · refine Seg.frame (fun j hj => ?_) hs
      have hjx : j ≠ x := fun h => hx (h ▸ hj)
      have hjp : j ≠ p := fun h => hm1 (hp1 ▸ h ▸ hj)
      rw [hnx j hj hjx, if_neg hjp]
    · refine Back.frame_back (fun j hj => ?_) hb
      have hjx : j ≠ x := fun h => hx (h ▸ hj)
      have hjn : j ≠ n := fun h => hm1 (hn1 ▸ h ▸ hj)
      rw [hpv j hj hjx, if_neg hjn]

/-- The links of a slot of a chain stay inside the chain. -/
theorem chain_links {nx pv : Int → Option Int} {c x n p : Int} {l : List Int}
    (hs : Seg nx c l (-1)) (hb : Back pv (-1) l) (hnd : l.Nodup) (hx1 : x ≠ -1)
    (hoff : x ∉ l → n = -1 ∧ p = -1) (hn : nx x = some n) (hp : pv x = some p) :
    n ≠ x ∧ (n = -1 ∨ n ∈ l) ∧ (p = -1 ∨ p ∈ l) := by
  have hm1 : (-1 : Int) ∉ l := fun h => Seg.ne_neg_one hs _ h rfl
  by_cases hx : x ∈ l
  · exact ⟨Seg.next_ne hs hnd hm1 hx hn, Seg.next_mem hs hx hn, Back.prev_mem hb hx hp⟩
  · obtain ⟨hn1, hp1⟩ := hoff hx
    exact ⟨by rw [hn1]; exact Ne.symm hx1, Or.inl hn1, Or.inl hp1⟩

/-- The head of a doubly linked chain is `-1` or a slot whose back link is `-1`. -/
theorem head_back {nx pv : Int → Option Int} {c : Int} {l : List Int}
    (hs : Seg nx c l (-1)) (hb : Back pv (-1) l) :
    c = -1 ∨ (c ∈ l ∧ pv c = some (-1)) := by
  cases l with
  | nil => exact Or.inl hs
  | cons y l =>
    right
    rw [hs.1]
    exact ⟨List.mem_cons_self _ _, hb.1⟩

/-- The effect on a root or leaf chain `l` of the block of `build` that takes
`x` off it, from the links the block leaves behind. -/
theorem drop_step {nx pv : Int → Option Int} (nx' pv' : Int → Option Int) {N : Nat}
    {c x n p : Int}
    {l : List Int}
    (hs : Seg nx c l (-1)) (hb : Back pv (-1) l) (hnd : l.Nodup)
    (hl : ∀ y ∈ l, 0 ≤ y ∧ y < (N : Int)) (hx : 0 ≤ x ∧ x < (N : Int))
    (hoff : ∀ m, 0 ≤ m → m < (N : Int) → m ∉ l → nx m = some (-1) ∧ pv m = some (-1))
    (hn : nx x = some n) (hp : pv x = some p)
    (hnx : ∀ j, nx' j =
      if j = x then (if 0 ≤ x ∧ x < (N : Int) then some (-1) else none)
      else if j = p then (if 0 ≤ p ∧ p < (N : Int) then some n else none)
      else nx j)
    (hpv : ∀ j, pv' j =
      if j = x then (if 0 ≤ x ∧ x < (N : Int) then some (-1) else none)
      else if j = n then (if 0 ≤ n ∧ n < (N : Int) then some p else none)
      else pv j) :
    Seg nx' (if p = -1 ∧ x = c then n else c) (l.erase x) (-1) ∧
      Back pv' (-1) (l.erase x) ∧
      ∀ m, 0 ≤ m → m < (N : Int) → m ∉ l.erase x →
        nx' m = some (-1) ∧ pv' m = some (-1) := by
  have hx1 : x ≠ -1 := by omega
  have hoffx : x ∉ l → n = -1 ∧ p = -1 := fun hxl => by
    have := hoff x hx.1 hx.2 hxl
    rw [hn, hp] at this
    exact ⟨Option.some.inj this.1, Option.some.inj this.2⟩
  obtain ⟨_, hnm, hpm⟩ := chain_links hs hb hnd hx1 hoffx hn hp
  have h := @drop_chain _ _ nx' pv' _ _ _ _ _ hs hb hnd hx1 hoffx hn hp
    (fun j hj hjx => by
      rw [hnx j, if_neg hjx]
      by_cases hjp : j = p
      · rw [if_pos hjp, if_pos hjp, if_pos (hjp ▸ hl j hj)]
      · rw [if_neg hjp, if_neg hjp])
    (fun j hj hjx => by
      rw [hpv j, if_neg hjx]
      by_cases hjn : j = n
      · rw [if_pos hjn, if_pos hjn, if_pos (hjn ▸ hl j hj)]
      · rw [if_neg hjn, if_neg hjn])
  refine ⟨h.1, h.2, ?_⟩
  intro m hm0 hm1 hm
  by_cases hmx : m = x
  · rw [hnx m, hpv m, if_pos hmx, if_pos hmx, if_pos hx]
    exact ⟨rfl, rfl⟩
  · have hml : m ∉ l := fun h' => hm ((List.mem_erase_of_ne hmx).2 h')
    have hmp : m ≠ p := by
      rcases hpm with h' | h'
      · omega
      · exact fun h'' => hml (h'' ▸ h')
    have hmn : m ≠ n := by
      rcases hnm with h' | h'
      · omega
      · exact fun h'' => hml (h'' ▸ h')
    rw [hnx m, hpv m, if_neg hmx, if_neg hmx, if_neg hmp, if_neg hmn]
    exact hoff m hm0 hm1 hml

/-- The effect on an arc chain `l` of the block of `build` that links the new
arc `len` in front of the chain that starts at `f`: that chain gets `len` as its
head, and a chain `f` is not on is as before. -/
theorem link_step {nx pv : Int → Option Int} (nx' pv' : Int → Option Int) {k : Nat} {c f : Int}
    {l : List Int}
    (hs : Seg nx c l (-1)) (hb : Back pv (-1) l) (hnd : l.Nodup)
    (hl : ∀ y ∈ l, 0 ≤ y ∧ y < (k : Int))
    (hnx : ∀ j, nx' j = if j = (k : Int) then some f else nx j)
    (hpv : ∀ j, pv' j =
      if j = (k : Int) then some (-1)
      else if j = f then (if 0 ≤ f ∧ f < (k : Int) then some (k : Int) else none)
      else pv j) :
    (c = f → Seg nx' (k : Int) ((k : Int) :: l) (-1) ∧ Back pv' (-1) ((k : Int) :: l)) ∧
    (f ∉ l → Seg nx' c l (-1) ∧ Back pv' (-1) l) := by
  have hne : ∀ y ∈ l, y ≠ (k : Int) := fun y hy => by have := hl y hy; omega
  constructor
  · intro hcf
    subst hcf
    refine push_front nx' pv' hs hb hnd (by omega) ?_ ?_ ?_ ?_ ?_
    · rw [hnx, if_pos rfl]
    · rw [hpv, if_pos rfl]
    · intro y hy
      rw [hnx, if_neg (hne y hy)]
    · intro y hy hyc
      rw [hpv, if_neg (hne y hy), if_neg hyc]
    · intro hc
      rw [hpv, if_neg (hne c hc), if_pos rfl, if_pos (hl c hc)]
  · intro hf
    constructor
    · refine Seg.frame (fun y hy => ?_) hs
      rw [hnx, if_neg (hne y hy)]
    · refine Back.frame_back (fun y hy => ?_) hb
      have hyf : y ≠ f := fun h => hf (by rw [← h]; exact hy)
      rw [hpv, if_neg (hne y hy), if_neg hyf]

theorem mem_outIdx {E : List (Int × Int)} {n x : Int} :
    x ∈ outIdx E n ↔ (0 ≤ x ∧ x < (E.length : Int)) ∧ ∃ e, look E x = some e ∧ e.1 = n := by
  unfold outIdx
  rw [mem_hits]
  simp

theorem mem_inIdx {E : List (Int × Int)} {n x : Int} :
    x ∈ inIdx E n ↔ (0 ≤ x ∧ x < (E.length : Int)) ∧ ∃ e, look E x = some e ∧ e.2 = n := by
  unfold inIdx
  rw [mem_hits]
  simp

theorem outIdx_snoc (E : List (Int × Int)) (e : Int × Int) (n : Int) :
    outIdx (E ++ [e]) n = if e.1 = n then (E.length : Int) :: outIdx E n else outIdx E n := by
  unfold outIdx
  rw [hits_snoc]
  simp

theorem inIdx_snoc (E : List (Int × Int)) (e : Int × Int) (n : Int) :
    inIdx (E ++ [e]) n = if e.2 = n then (E.length : Int) :: inIdx E n else inIdx E n := by
  unfold inIdx
  rw [hits_snoc]
  simp

/-- The body of the loop of `build` runs without a fault on an edge with both
ends in range, and takes the graph for `E` to the graph for `E ++ [(u, v)]`. -/
theorem Built.addEdge_ok {N : Nat} {E : List (Int × Int)} {g : StaticDAGraph0} (h : Built N E g)
    {u v : Int} (hu : 0 ≤ u ∧ u < (N : Int)) (hv : 0 ≤ v ∧ v < (N : Int)) :
    ∃ g', addEdge N g (u, v) = .ok g' ∧ Built N (E ++ [(u, v)]) g' := by
  obtain ⟨fo, hfo, hoS, hoB⟩ := h.outs u hu.1 hu.2
  obtain ⟨fi, hfi, hiS, hiB⟩ := h.ins v hv.1 hv.2
  have hug : 0 ≤ u ∧ u < (g.nodes_.length : Int) := by rw [h.nlen]; exact hu
  have hvg : 0 ≤ v ∧ v < (g.nodes_.length : Int) := by rw [h.nlen]; exact hv
  obtain ⟨nl, hnl⟩ := (fld_isSome NodeT.next_leaf g.nodes_ u).2 hug
  obtain ⟨pl, hpl⟩ := (fld_isSome NodeT.prev_leaf g.nodes_ u).2 hug
  obtain ⟨nr, hnr⟩ := (fld_isSome NodeT.next_root g.nodes_ v).2 hvg
  obtain ⟨pr, hpr⟩ := (fld_isSome NodeT.prev_root g.nodes_ v).2 hvg
  have hu1 : u ≠ -1 := by omega
  have hv1 : v ≠ -1 := by omega
  have hleafoff : u ∉ leaves N E → nl = -1 ∧ pl = -1 := fun hx => by
    have := h.leafOff u hu.1 hu.2 hx
    rw [hnl, hpl] at this
    exact ⟨Option.some.inj this.1, Option.some.inj this.2⟩
  have hrootoff : v ∉ roots N E → nr = -1 ∧ pr = -1 := fun hx => by
    have := h.rootOff v hv.1 hv.2 hx
    rw [hnr, hpr] at this
    exact ⟨Option.some.inj this.1, Option.some.inj this.2⟩
  obtain ⟨hnlu, hnlm, hplm⟩ :=
    chain_links h.leafSeg h.leafBack (nodup_leaves N E) hu1 hleafoff hnl hpl
  obtain ⟨hnrv, hnrm, hprm⟩ :=
    chain_links h.rootSeg h.rootBack (nodup_roots N E) hv1 hrootoff hnr hpr
  have hnlr : nl = -1 ∨ (0 ≤ nl ∧ nl < (N : Int)) := hnlm.imp id fun h' => (mem_leaves.1 h').1
  have hplr : pl = -1 ∨ (0 ≤ pl ∧ pl < (N : Int)) := hplm.imp id fun h' => (mem_leaves.1 h').1
  have hnrr : nr = -1 ∨ (0 ≤ nr ∧ nr < (N : Int)) := hnrm.imp id fun h' => (mem_roots.1 h').1
  have hprr : pr = -1 ∨ (0 ≤ pr ∧ pr < (N : Int)) := hprm.imp id fun h' => (mem_roots.1 h').1
  have hfoh := head_back hoS hoB
  have hfih := head_back hiS hiB
  have hfo' : fo = -1 ∨ fld ArcT.prev_out g.arcs_ fo = some (-1) := hfoh.imp id And.right
  have hfi' : fi = -1 ∨ fld ArcT.prev_in g.arcs_ fi = some (-1) := hfih.imp id And.right
  refine ⟨_, addEdge_eq h.nlen hu hv hfo hfo' hfi hfi' hnl hpl hnlu hnlr hplr hnr hpr hnrv
    hnrr hprr, ?_⟩
  have hleaf := drop_step
    (fld NodeT.next_leaf (edgeAdded g u v fo fi nl pl nr pr).nodes_)
    (fld NodeT.prev_leaf (edgeAdded g u v fo fi nl pl nr pr).nodes_) (N := N)
    h.leafSeg h.leafBack (nodup_leaves N E) (fun y hy => (mem_leaves.1 hy).1) hu h.leafOff
    hnl hpl
    (fun j => by rw [edgeAdded_next_leaf, h.nlen])
    (fun j => by rw [edgeAdded_prev_leaf, h.nlen])
  have hroot := drop_step
    (fld NodeT.next_root (edgeAdded g u v fo fi nl pl nr pr).nodes_)
    (fld NodeT.prev_root (edgeAdded g u v fo fi nl pl nr pr).nodes_) (N := N)
    h.rootSeg h.rootBack (nodup_roots N E) (fun y hy => (mem_roots.1 hy).1) hv h.rootOff
    hnr hpr
    (fun j => by rw [edgeAdded_next_root, h.nlen])
    (fun j => by rw [edgeAdded_prev_root, h.nlen])
  have hlen : (edgeAdded g u v fo fi nl pl nr pr).arcs_.length = (E ++ [(u, v)]).length := by
    rw [edgeAdded_arcs_length, h.alen, List.length_append, List.length_singleton]
  refine
    { nlen := by rw [edgeAdded_nodes_length]; exact h.nlen
      alen := hlen
      src := ?_
      tgt := ?_
      outs := ?_
      ins := ?_
      rootSeg := by rw [roots_snoc]; exact hroot.1
      rootBack := by rw [roots_snoc]; exact hroot.2.1
      rootOff := by rw [roots_snoc]; exact hroot.2.2
      leafSeg := by rw [leaves_snoc]; exact hleaf.1
      leafBack := by rw [leaves_snoc]; exact hleaf.2.1
      leafOff := by rw [leaves_snoc]; exact hleaf.2.2 }
  · intro j
    rw [edgeAdded_source, look_append_one, h.alen, h.src]
    split <;> rfl
  · intro j
    rw [edgeAdded_target, look_append_one, h.alen, h.tgt]
    split <;> rfl
  · intro n hn0 hn1
    obtain ⟨c, hc, hcS, hcB⟩ := h.outs n hn0 hn1
    have hstep := link_step
      (fld ArcT.next_out (edgeAdded g u v fo fi nl pl nr pr).arcs_)
      (fld ArcT.prev_out (edgeAdded g u v fo fi nl pl nr pr).arcs_) (k := E.length) (f := fo)
      hcS hcB (nodup_hits _ _ _) (fun y hy => (mem_outIdx.1 hy).1)
      (fun j => by rw [edgeAdded_next_out, h.alen])
      (fun j => by rw [edgeAdded_prev_out, h.alen])
    rw [outIdx_snoc]
    by_cases hnu : u = n
    · subst hnu
      rw [hfo] at hc
      have hcf : c = fo := (Option.some.inj hc).symm
      refine ⟨(E.length : Int), ?_, ?_⟩
      · rw [edgeAdded_first_out, if_pos rfl, if_pos hug, h.alen]
      · simpa using hstep.1 hcf
    · refine ⟨c, ?_, ?_⟩
      · rw [edgeAdded_first_out, if_neg (Ne.symm hnu)]; exact hc
      · have hfl : fo ∉ outIdx E n := by
          intro hm
          rcases hfoh with h1 | ⟨h1, _⟩
          · have := (mem_outIdx.1 hm).1; omega
          · obtain ⟨_, e1, he1, hu1⟩ := mem_outIdx.1 h1
            obtain ⟨_, e2, he2, hu2⟩ := mem_outIdx.1 hm
            rw [he1] at he2
            cases he2
            exact hnu (hu1.symm.trans hu2)
        simpa [hnu] using hstep.2 hfl
  · intro n hn0 hn1
    obtain ⟨c, hc, hcS, hcB⟩ := h.ins n hn0 hn1
    have hstep := link_step
      (fld ArcT.next_in (edgeAdded g u v fo fi nl pl nr pr).arcs_)
      (fld ArcT.prev_in (edgeAdded g u v fo fi nl pl nr pr).arcs_) (k := E.length) (f := fi)
      hcS hcB (nodup_hits _ _ _) (fun y hy => (mem_inIdx.1 hy).1)
      (fun j => by rw [edgeAdded_next_in, h.alen])
      (fun j => by rw [edgeAdded_prev_in, h.alen])
    rw [inIdx_snoc]
    by_cases hnv : v = n
    · subst hnv
      rw [hfi] at hc
      have hcf : c = fi := (Option.some.inj hc).symm
      refine ⟨(E.length : Int), ?_, ?_⟩
      · rw [edgeAdded_first_in, if_pos rfl, if_pos hvg, h.alen]
      · simpa using hstep.1 hcf
    · refine ⟨c, ?_, ?_⟩
      · rw [edgeAdded_first_in, if_neg (Ne.symm hnv)]; exact hc
      · have hfl : fi ∉ inIdx E n := by
          intro hm
          rcases hfih with h1 | ⟨h1, _⟩
          · have := (mem_inIdx.1 hm).1; omega
          · obtain ⟨_, e1, he1, hv1⟩ := mem_inIdx.1 h1
            obtain ⟨_, e2, he2, hv2⟩ := mem_inIdx.1 hm
            rw [he1] at he2
            cases he2
            exact hnv (hv1.symm.trans hv2)
        simpa [hnv] using hstep.2 hfl

theorem idsFrom_succ (k m : Nat) : idsFrom k (m + 1) = (k : Int) :: idsFrom (k + 1) m := by
  simp [idsFrom, List.range'_succ]

theorem seg_idsFrom (nx : Int → Option Int) {e : Int} :
    ∀ (m k : Nat),
      (∀ i : Nat, k ≤ i → i < k + m →
        nx (i : Int) = some (if i + 1 = k + m then e else (i : Int) + 1)) →
      Seg nx (if m = 0 then e else (k : Int)) (idsFrom k m) e
  | 0, k, _ => by simp [idsFrom, Seg]
  | m + 1, k, h => by
    rw [idsFrom_succ]
    have ih := seg_idsFrom nx (e := e) m (k + 1) (fun i hi1 hi2 => by
      rw [h i (by omega) (by omega)]
      have : (i + 1 = k + (m + 1)) ↔ (i + 1 = k + 1 + m) := by omega
      simp only [this])
    refine ⟨by simp, by omega, _, h k (le_refl _) (by omega), ?_⟩
    by_cases hm : m = 0
    · subst hm
      simpa using ih
    · have h1 : ¬ (k + 1 = k + (m + 1)) := by omega
      simp only [h1, if_false]
      simpa [hm] using ih

theorem back_idsFrom {pv : Int → Option Int} :
    ∀ (m k : Nat) (q : Int),
      (∀ i : Nat, k ≤ i → i < k + m →
        pv (i : Int) = some (if i = k then q else (i : Int) - 1)) →
      Back pv q (idsFrom k m)
  | 0, k, _, _ => by simp [idsFrom, Back]
  | m + 1, k, q, h => by
    rw [idsFrom_succ]
    refine ⟨by simpa using h k (le_refl _) (by omega), ?_⟩
    refine back_idsFrom m (k + 1) (k : Int) (fun i hi1 hi2 => ?_)
    rw [h i (by omega) (by omega)]
    have h1 : ¬ i = k := by omega
    simp only [h1, if_false]
    by_cases h2 : i = k + 1
    · subst h2; simp
    · simp [h2]

theorem look_initNodes (N : Nat) (j : Int) :
    look (initNodes N) j =
      if 0 ≤ j ∧ j < (N : Int) then
        some { first_in := -1, first_out := -1, prev_root := j - 1, next_root := j + 1,
               prev_leaf := j - 1, next_leaf := j + 1 }
      else none := by
  unfold look initNodes
  by_cases h0 : 0 ≤ j
  · by_cases h1 : j < (N : Int)
    · have h2 : j.toNat < N := by omega
      have h3 : ((j.toNat : Nat) : Int) = j := by omega
      rw [if_pos h0, if_pos ⟨h0, h1⟩, List.getElem?_map, List.getElem?_range h2]
      simp only [Option.map_some', h3]
    · have h2 : N ≤ j.toNat := by omega
      rw [if_pos h0, if_neg (fun h => h1 h.2), List.getElem?_map,
        List.getElem?_eq_none_iff.2 (by rw [List.length_range]; exact h2)]
      rfl
  · rw [if_neg h0, if_neg (fun h => h0 h.1)]

theorem fld_initNodes (p : NodeT → Int) (N : Nat) (j : Int) :
    fld p (initNodes N) j =
      if 0 ≤ j ∧ j < (N : Int) then
        some (p { first_in := -1, first_out := -1, prev_root := j - 1, next_root := j + 1,
                  prev_leaf := j - 1, next_leaf := j + 1 })
      else none := by
  unfold fld
  rw [look_initNodes]
  split <;> rfl

theorem length_initNodes (N : Nat) : (initNodes N).length = N := by
  simp [initNodes]

theorem initGraph_eq {N : Nat} (hN : 0 < N) : initGraph N = .ok (initial N) := by
  have h0 : (0 : Int) < (N : Int) := by exact_mod_cast hN
  have h1 : (0 : Int) ≤ (N : Int) - 1 := by omega
  have h2 : (N : Int) - 1 < (N : Int) := by omega
  unfold initGraph initial
  dsimp only
  rw [wr_of_range _ (le_refl _) (by rw [length_initNodes]; exact h0)]
  simp only [ok_bind]
  rw [wr_of_range _ (le_refl _) (by rw [length_put, length_initNodes]; exact h0)]
  simp only [ok_bind, length_put, length_initNodes]
  rw [wr_of_range _ h1 (by rw [length_put, length_put, length_initNodes]; exact h2)]
  simp only [ok_bind, length_put, length_initNodes]
  rw [wr_of_range _ h1 (by rw [length_put, length_put, length_put, length_initNodes]; exact h2)]
  simp only [ok_bind, pure_eq_ok]

theorem initial_built {N : Nat} (hN : 0 < N) : Built N [] (initial N) := by
  have h0 : (0 : Int) < (N : Int) := by exact_mod_cast hN
  have hfi : ∀ j, fld NodeT.first_in (initial N).nodes_ j =
      if 0 ≤ j ∧ j < (N : Int) then some (-1) else none := by
    intro j
    simp (disch := intro _; rfl) only [initial, fld_put_same, fld_initNodes]
  have hfo : ∀ j, fld NodeT.first_out (initial N).nodes_ j =
      if 0 ≤ j ∧ j < (N : Int) then some (-1) else none := by
    intro j
    simp (disch := intro _; rfl) only [initial, fld_put_same, fld_initNodes]
  have hnr : ∀ i : Nat, i < N → fld NodeT.next_root (initial N).nodes_ (i : Int) =
      some (if i + 1 = 0 + N then -1 else (i : Int) + 1) := by
    intro i hi
    simp (disch := intro _; rfl) only [initial, fld_put_same, fld_put_set, fld_initNodes,
      length_put, length_initNodes]
    by_cases h1 : i + 1 = N
    · have : (i : Int) = (N : Int) - 1 := by omega
      simp [this, h0]
      omega
    · have : ¬ (i : Int) = (N : Int) - 1 := by omega
      simp [this, h1]
      omega
  have hnl : ∀ i : Nat, i < N → fld NodeT.next_leaf (initial N).nodes_ (i : Int) =
      some (if i + 1 = 0 + N then -1 else (i : Int) + 1) := by
    intro i hi
    simp (disch := intro _; rfl) only [initial, fld_put_same, fld_put_set, fld_initNodes,
      length_put, length_initNodes]
    by_cases h1 : i + 1 = N
    · have : (i : Int) = (N : Int) - 1 := by omega
      simp [this, h0]
      omega
    · have : ¬ (i : Int) = (N : Int) - 1 := by omega
      simp [this, h1]
      omega
  have hpr : ∀ i : Nat, i < N → fld NodeT.prev_root (initial N).nodes_ (i : Int) =
      some (if i = 0 then -1 else (i : Int) - 1) := by
    intro i hi
    simp (disch := intro _; rfl) only [initial, fld_put_same, fld_put_set, fld_initNodes,
      length_put, length_initNodes]
    by_cases h1 : i = 0
    · simp [h1, h0]
    · have : ¬ (i : Int) = 0 := by omega
      simp [this, h1]
      omega
  have hpl : ∀ i : Nat, i < N → fld NodeT.prev_leaf (initial N).nodes_ (i : Int) =
      some (if i = 0 then -1 else (i : Int) - 1) := by
    intro i hi
    simp (disch := intro _; rfl) only [initial, fld_put_same, fld_put_set, fld_initNodes,
      length_put, length_initNodes]
    by_cases h1 : i = 0
    · simp [h1, h0]
    · have : ¬ (i : Int) = 0 := by omega
      simp [this, h1]
      omega
  have hroots : roots N [] = ids N := by
    unfold roots
    simp
  have hleaves : leaves N [] = ids N := by
    unfold leaves
    simp
  have hN0 : ¬ N = 0 := by omega
  have hsegr := seg_idsFrom (fld NodeT.next_root (initial N).nodes_) (e := -1) N 0
    (fun i _ hi => hnr i (by omega))
  have hsegl := seg_idsFrom (fld NodeT.next_leaf (initial N).nodes_) (e := -1) N 0
    (fun i _ hi => hnl i (by omega))
  simp only [hN0, if_false] at hsegr hsegl
  refine
    { nlen := by simp [initial, length_put, length_initNodes]
      alen := rfl
      src := fun j => by simp [initial, fld, look]
      tgt := fun j => by simp [initial, fld, look]
      outs := fun n hn0 hn1 => ⟨-1, by rw [hfo, if_pos ⟨hn0, hn1⟩], rfl, trivial⟩
      ins := fun n hn0 hn1 => ⟨-1, by rw [hfi, if_pos ⟨hn0, hn1⟩], rfl, trivial⟩
      rootSeg := by rw [hroots]; exact hsegr
      rootBack := by
        rw [hroots]
        exact back_idsFrom N 0 (-1) (fun i _ hi => by simpa using hpr i (by omega))
      rootOff := fun n hn0 hn1 hn => absurd (mem_ids.2 ⟨hn0, hn1⟩) (hroots ▸ hn)
      leafSeg := by rw [hleaves]; exact hsegl
      leafBack := by
        rw [hleaves]
        exact back_idsFrom N 0 (-1) (fun i _ hi => by simpa using hpl i (by omega))
      leafOff := fun n hn0 hn1 hn => absurd (mem_ids.2 ⟨hn0, hn1⟩) (hleaves ▸ hn) }

theorem empty_built : Built 0 [] empty :=
  { nlen := rfl
    alen := rfl
    src := fun j => by simp [empty, fld, look]
    tgt := fun j => by simp [empty, fld, look]
    outs := fun n hn0 hn1 => by simp at hn1; omega
    ins := fun n hn0 hn1 => by simp at hn1; omega
    rootSeg := rfl
    rootBack := trivial
    rootOff := fun n hn0 hn1 => by simp at hn1; omega
    leafSeg := rfl
    leafBack := trivial
    leafOff := fun n hn0 hn1 => by simp at hn1; omega }

theorem Built.foldlM_ok {N : Nat} :
    ∀ (es P : List (Int × Int)) (g : StaticDAGraph0), Built N P g → InRange N es →
      ∃ g', es.foldlM (addEdge N) g = .ok g' ∧ Built N (P ++ es) g'
  | [], P, g, h, _ => ⟨g, rfl, by simpa using h⟩
  | e :: es, P, g, h, hr => by
    obtain ⟨g1, h1, h2⟩ := h.addEdge_ok (hr e (List.mem_cons_self _ _)).1
      (hr e (List.mem_cons_self _ _)).2
    obtain ⟨g2, h3, h4⟩ := Built.foldlM_ok es (P ++ [e]) g1 h2
      (fun x hx => hr x (List.mem_cons_of_mem _ hx))
    refine ⟨g2, ?_, by simpa using h4⟩
    rw [List.foldlM_cons]
    have : addEdge N g e = .ok g1 := h1
    rw [this]
    exact h3

/-- On an edge list with all ends in range `build` returns a graph, and the
graph is the one `Built` describes. -/
theorem build_built {N : Nat} {E : List (Int × Int)} (hr : InRange N E) :
    ∃ g, build N E = .ok g ∧ Built N E g := by
  unfold build
  by_cases hN : N = 0
  · subst hN
    have hE : E = [] := by
      cases E with
      | nil => rfl
      | cons e es =>
        have := (hr e (List.mem_cons_self _ _)).1
        simp at this
        omega
    subst hE
    exact ⟨empty, by simp, empty_built⟩
  · have hN' : 0 < N := Nat.pos_of_ne_zero hN
    simp only [hN, if_false, initGraph_eq hN', ok_bind]
    obtain ⟨g, h1, h2⟩ := Built.foldlM_ok E [] (initial N) (initial_built hN') hr
    exact ⟨g, h1, by simpa using h2⟩

end StaticDAGraph0

/-- A member that returns one field of one slot, as a partial function. -/
theorem rd_field {α : Type} (p : α → Int) (xs : List α) (i : Int) :
    (do let s ← rd xs i; pure (p s) : Res Int) =
      match fld p xs i with
      | some v => .ok v
      | none => .error Fault.access := by
  unfold rd fld
  cases look xs i <;> rfl

theorem rd_field_ok {α : Type} {p : α → Int} {xs : List α} {i v : Int}
    (h : fld p xs i = some v) : (do let s ← rd xs i; pure (p s) : Res Int) = .ok v := by
  rw [rd_field, h]

theorem rd_field_eq_ok {α : Type} {p : α → Int} {xs : List α} {i v : Int} :
    (do let s ← rd xs i; pure (p s) : Res Int) = .ok v ↔ fld p xs i = some v := by
  rw [rd_field]
  cases fld p xs i <;> simp

/-- The head of a chain that ends at `-1` is `-1` exactly when the chain is empty. -/
theorem Seg.head_neg_one {nx : Int → Option Int} {c : Int} {l : List Int}
    (h : Seg nx c l (-1)) : c = -1 ↔ l = [] := by
  cases l with
  | nil => exact ⟨fun _ => rfl, fun _ => h⟩
  | cons x l =>
    constructor
    · intro hc
      exact absurd (h.1 ▸ hc) h.2.1
    · intro h'; cases h'

namespace StaticDAGraph0

theorem length_ids (N : Nat) : (ids N).length = N := by
  simp [ids, idsFrom]

theorem Built.rootNodes_eq {N : Nat} {E : List (Int × Int)} {g : StaticDAGraph0}
    (h : Built N E g) : g.rootNodes = .ok (roots N E) := by
  unfold rootNodes
  refine walk_of_seg (fld NodeT.next_root g.nodes_) (fun x n hx => rd_field_ok hx) _ _ _
    h.rootSeg ?_
  have : (roots N E).length ≤ (ids N).length := List.length_filter_le _ _
  rw [length_ids] at this
  rw [h.nlen]
  omega

theorem Built.leafNodes_eq {N : Nat} {E : List (Int × Int)} {g : StaticDAGraph0}
    (h : Built N E g) : g.leafNodes = .ok (leaves N E) := by
  unfold leafNodes
  refine walk_of_seg (fld NodeT.next_leaf g.nodes_) (fun x n hx => rd_field_ok hx) _ _ _
    h.leafSeg ?_
  have : (leaves N E).length ≤ (ids N).length := List.length_filter_le _ _
  rw [length_ids] at this
  rw [h.nlen]
  omega

theorem mem_iff_look {E : List (Int × Int)} {e : Int × Int} :
    e ∈ E ↔ ∃ i, look E i = some e := by
  rw [List.mem_iff_getElem?]
  constructor
  · rintro ⟨n, hn⟩
    exact ⟨(n : Int), by simp [look, hn]⟩
  · rintro ⟨i, hi⟩
    unfold look at hi
    split at hi
    · exact ⟨_, hi⟩
    · cases hi

theorem inIdx_eq_nil {E : List (Int × Int)} {n : Int} :
    inIdx E n = [] ↔ ∀ e ∈ E, e.2 ≠ n := by
  rw [List.eq_nil_iff_forall_not_mem]
  constructor
  · intro h e he hen
    obtain ⟨i, hi⟩ := mem_iff_look.1 he
    exact h i (mem_inIdx.2 ⟨look_ge hi, e, hi, hen⟩)
  · intro h x hx
    obtain ⟨_, e, he, hen⟩ := mem_inIdx.1 hx
    exact h e (mem_iff_look.2 ⟨x, he⟩) hen

theorem outIdx_eq_nil {E : List (Int × Int)} {n : Int} :
    outIdx E n = [] ↔ ∀ e ∈ E, e.1 ≠ n := by
  rw [List.eq_nil_iff_forall_not_mem]
  constructor
  · intro h e he hen
    obtain ⟨i, hi⟩ := mem_iff_look.1 he
    exact h i (mem_outIdx.2 ⟨look_ge hi, e, hi, hen⟩)
  · intro h x hx
    obtain ⟨_, e, he, hen⟩ := mem_outIdx.1 hx
    exact h e (mem_iff_look.2 ⟨x, he⟩) hen

/-- The head of the incoming chain of a node: the id of the last edge that
enters it, `-1` when there is none. -/
theorem Built.firstIn_eq {N : Nat} {E : List (Int × Int)} {g : StaticDAGraph0}
    (h : Built N E g) {n : Int} (hn : 0 ≤ n ∧ n < (N : Int)) :
    g.firstIn n = .ok ((inIdx E n).headD (-1)) := by
  obtain ⟨fi, h1, h2, _⟩ := h.ins n hn.1 hn.2
  unfold firstIn
  rw [rd_field_ok h1]
  cases hl : inIdx E n with
  | nil => rw [hl] at h2; rw [show fi = -1 from h2]; rfl
  | cons x l => rw [hl] at h2; rw [h2.1]; rfl

theorem Built.firstOut_eq {N : Nat} {E : List (Int × Int)} {g : StaticDAGraph0}
    (h : Built N E g) {n : Int} (hn : 0 ≤ n ∧ n < (N : Int)) :
    g.firstOut n = .ok ((outIdx E n).headD (-1)) := by
  obtain ⟨fo, h1, h2, _⟩ := h.outs n hn.1 hn.2
  unfold firstOut
  rw [rd_field_ok h1]
  cases hl : outIdx E n with
  | nil => rw [hl] at h2; rw [show fo = -1 from h2]; rfl
  | cons x l => rw [hl] at h2; rw [h2.1]; rfl

theorem firstIn_range {g : StaticDAGraph0} {n a : Int} (h : g.firstIn n = .ok a) :
    0 ≤ n ∧ n < (g.nodes_.length : Int) := by
  unfold firstIn at h
  exact fld_ge (rd_field_eq_ok.1 h)

theorem firstOut_range {g : StaticDAGraph0} {n a : Int} (h : g.firstOut n = .ok a) :
    0 ≤ n ∧ n < (g.nodes_.length : Int) := by
  unfold firstOut at h
  exact fld_ge (rd_field_eq_ok.1 h)

theorem headD_eq_neg_one {l : List Int} (h : ∀ x ∈ l, 0 ≤ x) : l.headD (-1) = -1 ↔ l = [] := by
  cases l with
  | nil => simp
  | cons x l =>
    have := h x (List.mem_cons_self _ _)
    simp only [List.headD_cons, reduceCtorEq, iff_false]
    omega

theorem Built.mem_roots_iff {N : Nat} {E : List (Int × Int)} {g : StaticDAGraph0}
    (h : Built N E g) (n : Int) : n ∈ roots N E ↔ g.firstIn n = .ok (-1) := by
  rw [mem_roots]
  constructor
  · rintro ⟨hn, hE⟩
    rw [h.firstIn_eq hn, inIdx_eq_nil.2 hE]
    rfl
  · intro hf
    have hn := firstIn_range hf
    rw [h.nlen] at hn
    refine ⟨hn, inIdx_eq_nil.1 ?_⟩
    rw [h.firstIn_eq hn] at hf
    exact (headD_eq_neg_one (fun x hx => (mem_inIdx.1 hx).1.1)).1 (Except.ok.inj hf)

theorem Built.mem_leaves_iff {N : Nat} {E : List (Int × Int)} {g : StaticDAGraph0}
    (h : Built N E g) (n : Int) : n ∈ leaves N E ↔ g.firstOut n = .ok (-1) := by
  rw [mem_leaves]
  constructor
  · rintro ⟨hn, hE⟩
    rw [h.firstOut_eq hn, outIdx_eq_nil.2 hE]
    rfl
  · intro hf
    have hn := firstOut_range hf
    rw [h.nlen] at hn
    refine ⟨hn, outIdx_eq_nil.1 ?_⟩
    rw [h.firstOut_eq hn] at hf
    exact (headD_eq_neg_one (fun x hx => (mem_outIdx.1 hx).1.1)).1 (Except.ok.inj hf)

end StaticDAGraph0

/-- C1. For every node count `N` and every edge list `E` with all ends in
`[0, N)` (repeated edges, self-loops and cycles included), `build N E` returns a
graph whose root chain, followed from `first_root_node_` along `next_root`,
visits exactly the nodes of `[0, N)` that no pair of `E` enters, each once, and
whose leaf chain visits exactly the nodes that no pair of `E` leaves, each once;
the root chain is the set of nodes with `first_in == -1` and the leaf chain the
set with `first_out == -1`. -/
theorem build_root_leaf_chains (N : Nat) (E : List (Int × Int))
    (hr : StaticDAGraph0.InRange N E) :
    ∃ g rs ls, StaticDAGraph0.build N E = .ok g ∧
      g.rootNodes = .ok rs ∧ g.leafNodes = .ok ls ∧ rs.Nodup ∧ ls.Nodup ∧
      (∀ n, n ∈ rs ↔ (0 ≤ n ∧ n < (N : Int)) ∧ ∀ x, (x, n) ∉ E) ∧
      (∀ n, n ∈ ls ↔ (0 ≤ n ∧ n < (N : Int)) ∧ ∀ x, (n, x) ∉ E) ∧
      (∀ n, n ∈ rs ↔ g.firstIn n = .ok (-1)) ∧
      (∀ n, n ∈ ls ↔ g.firstOut n = .ok (-1)) := by
  obtain ⟨g, hg, hb⟩ := StaticDAGraph0.build_built hr
  refine ⟨g, StaticDAGraph0.roots N E, StaticDAGraph0.leaves N E, hg, hb.rootNodes_eq,
    hb.leafNodes_eq, StaticDAGraph0.nodup_roots N E, StaticDAGraph0.nodup_leaves N E,
    ?_, ?_, hb.mem_roots_iff, hb.mem_leaves_iff⟩
  · intro n
    rw [StaticDAGraph0.mem_roots]
    refine and_congr_right fun _ => ⟨fun h x hx => h (x, n) hx rfl, fun h e he hen => ?_⟩
    exact h e.1 (by rw [← hen]; exact he)
  · intro n
    rw [StaticDAGraph0.mem_leaves]
    refine and_congr_right fun _ => ⟨fun h x hx => h (n, x) hx rfl, fun h e he hen => ?_⟩
    exact h e.2 (by rw [← hen]; exact he)

/-- The scenario of C1: `build(5, [(0,1),(0,2),(1,3),(1,4)])` has the root
chain `0` and the leaf chain `2, 3, 4`. -/
theorem build_root_leaf_chains_witness :
    StaticDAGraph0.InRange 5 treeEdges ∧
    (∃ g rs ls, StaticDAGraph0.build 5 treeEdges = .ok g ∧
      g.rootNodes = .ok rs ∧ g.leafNodes = .ok ls ∧ rs.Nodup ∧ ls.Nodup ∧
      (∀ n, n ∈ rs ↔ (0 ≤ n ∧ n < ((5 : Nat) : Int)) ∧ ∀ x, (x, n) ∉ treeEdges) ∧
      (∀ n, n ∈ ls ↔ (0 ≤ n ∧ n < ((5 : Nat) : Int)) ∧ ∀ x, (n, x) ∉ treeEdges) ∧
      (∀ n, n ∈ rs ↔ g.firstIn n = .ok (-1)) ∧
      (∀ n, n ∈ ls ↔ g.firstOut n = .ok (-1))) ∧
    (StaticDAGraph0.build 5 treeEdges).bind (fun g => g.rootNodes) = .ok [0] ∧
    (StaticDAGraph0.build 5 treeEdges).bind (fun g => g.leafNodes) = .ok [2, 3, 4] :=
  ⟨by decide, build_root_leaf_chains 5 treeEdges (by decide), by decide, by decide⟩

/-- C2, at the input where the code departs from it: with no nodes `build`
returns the empty graph before it looks at the edges, so the edge `(0, 5)`,
whose ends are both outside `[0, 0)`, raises no error. -/
theorem build_zero_nodes_skips_check :
    StaticDAGraph0.build 0 [(0, 5)] = .ok StaticDAGraph0.empty := by
  rfl

/-- C3. For every node count `N` and edge list `E` with all ends in `[0, N)`,
`build N E` returns a graph with `N` nodes and `|E|` arcs in which the arc with
id `i` has the source `E[i].first` and the target `E[i].second`; repeated pairs
and self-loops each get their own arc. -/
theorem build_nodes_and_arcs (N : Nat) (E : List (Int × Int))
    (hr : StaticDAGraph0.InRange N E) :
    ∃ g, StaticDAGraph0.build N E = .ok g ∧ g.numNodes = N ∧ g.numArcs = E.length ∧
      ∀ (i : Nat) (hi : i < E.length),
        g.source (i : Int) = .ok E[i].1 ∧ g.target (i : Int) = .ok E[i].2 := by
  obtain ⟨g, hg, hb⟩ := StaticDAGraph0.build_built hr
  refine ⟨g, hg, hb.nlen, hb.alen, fun i hi => ?_⟩
  have hl : look E (i : Int) = some E[i] := by
    simp [look, List.getElem?_eq_getElem hi]
  constructor
  · unfold StaticDAGraph0.source
    exact rd_field_ok (by rw [hb.src, hl]; rfl)
  · unfold StaticDAGraph0.target
    exact rd_field_ok (by rw [hb.tgt, hl]; rfl)

/-- The scenario of C3 on a list with a repeated pair and a self-loop. -/
theorem build_nodes_and_arcs_witness :
    StaticDAGraph0.InRange 3 [(0, 1), (0, 1), (2, 2)] ∧
    ∃ g, StaticDAGraph0.build 3 [(0, 1), (0, 1), (2, 2)] = .ok g ∧ g.numNodes = 3 ∧
      g.numArcs = [((0 : Int), (1 : Int)), (0, 1), (2, 2)].length ∧
      ∀ (i : Nat) (hi : i < [((0 : Int), (1 : Int)), (0, 1), (2, 2)].length),
        g.source (i : Int) = .ok [((0 : Int), (1 : Int)), (0, 1), (2, 2)][i].1 ∧
        g.target (i : Int) = .ok [((0 : Int), (1 : Int)), (0, 1), (2, 2)][i].2 :=
  ⟨by decide, build_nodes_and_arcs 3 [(0, 1), (0, 1), (2, 2)] (by decide)⟩

namespace StaticDAGraph0

theorem addEdge_out_of_range {N : Nat} (g : StaticDAGraph0) {e : Int × Int}
    (h : ¬ ((0 ≤ e.1 ∧ e.1 < (N : Int)) ∧ (0 ≤ e.2 ∧ e.2 < (N : Int)))) :
    addEdge N g e = .error Fault.outOfRange := by
  have h' : e.1 < 0 ∨ e.1 ≥ (N : Int) ∨ e.2 < 0 ∨ e.2 ≥ (N : Int) := by omega
  unfold addEdge
  simp only [h', if_true]
  rfl

theorem Built.fold_reject {N : Nat} :
    ∀ (es P : List (Int × Int)) (g : StaticDAGraph0), Built N P g → ¬ InRange N es →
      es.foldlM (addEdge N) g = .error Fault.outOfRange
  | [], _, _, _, hr => absurd (fun e he => by simp at he) hr
  | e :: es, P, g, h, hr => by
    rw [List.foldlM_cons]
    by_cases he : (0 ≤ e.1 ∧ e.1 < (N : Int)) ∧ (0 ≤ e.2 ∧ e.2 < (N : Int))
    · obtain ⟨g1, h1, h2⟩ := h.addEdge_ok he.1 he.2
      have h1' : addEdge N g e = .ok g1 := h1
      rw [h1']
      refine Built.fold_reject es (P ++ [e]) g1 h2 (fun hes => hr ?_)
      intro x hx
      rcases List.mem_cons.1 hx with rfl | hx
      · exact he
      · exact hes x hx
    · rw [addEdge_out_of_range g he]
      rfl

/-- With at least one node, `build` ends in the out-of-range error on every
edge list that has an end outside `[0, N)`. -/
theorem build_rejects {N : Nat} (hN : 0 < N) {E : List (Int × Int)} (hr : ¬ InRange N E) :
    build N E = .error Fault.outOfRange := by
  unfold build
  have hN0 : ¬ N = 0 := by omega
  simp only [hN0, if_false, initGraph_eq hN, ok_bind]
  exact Built.fold_reject E [] (initial N) (initial_built hN) hr

/-- Two edges of a list in which every node is entered by at most one pair are
the same edge when they enter the same node. -/
theorem unique_of_filter_le_one {E : List (Int × Int)}
    (hone : ∀ n, (E.filter fun e => decide (e.2 = n)).length ≤ 1)
    {e1 e2 : Int × Int} (h1 : e1 ∈ E) (h2 : e2 ∈ E) (h : e1.2 = e2.2) : e1 = e2 := by
  by_contra hne
  have hnd : [e1, e2].Nodup := by simp [hne]
  have hsub : [e1, e2] ⊆ E.filter fun e => decide (e.2 = e2.2) := by
    intro x hx
    rw [List.mem_filter]
    rcases List.mem_cons.1 hx with rfl | hx
    · exact ⟨h1, by simp [h]⟩
    · rcases List.mem_cons.1 hx with rfl | hx
      · exact ⟨h2, by simp⟩
      · simp at hx
  have := (List.subperm_of_subset hnd hsub).length_le
  have := hone e2.2
  simp at *
  omega

end StaticDAGraph0

namespace StaticForest0

theorem build_eq {N : Nat} {E : List (Int × Int)} {g : StaticDAGraph0}
    (h : StaticDAGraph0.build N E = .ok g) : build N E = .ok { graph_ := g } := by
  unfold build
  rw [h]
  rfl

/-- In a built forest `parent` of a node that some edge enters is the source
of the last such edge. -/
theorem parent_eq {N : Nat} {E : List (Int × Int)} {g : StaticDAGraph0}
    (h : StaticDAGraph0.Built N E g) {n x : Int} {l : List Int} {e : Int × Int}
    (hn : 0 ≤ n ∧ n < (N : Int)) (hl : StaticDAGraph0.inIdx E n = x :: l)
    (he : look E x = some e) : parent { graph_ := g } n = .ok e.1 := by
  unfold parent
  simp only
  rw [h.firstIn_eq hn, hl]
  simp only [List.headD_cons, ok_bind]
  unfold StaticDAGraph0.source
  exact rd_field_ok (by rw [h.src, he]; rfl)

/-- In a built forest `parent` of a node that no edge enters reads the arc
table at `-1`. -/
theorem parent_root {N : Nat} {E : List (Int × Int)} {g : StaticDAGraph0}
    (h : StaticDAGraph0.Built N E g) {n : Int}
    (hn : 0 ≤ n ∧ n < (N : Int)) (hroot : ∀ e ∈ E, e.2 ≠ n) :
    parent { graph_ := g } n = .error Fault.access := by
  unfold parent
  simp only
  rw [h.firstIn_eq hn, StaticDAGraph0.inIdx_eq_nil.2 hroot]
  simp only [List.headD_nil, ok_bind]
  unfold StaticDAGraph0.source
  rw [rd_neg_one]
  rfl

end StaticForest0

/-- C4. In the forest `build N E` returns, where all ends of `E` lie in
`[0, N)` and every node is the target of at most one pair of `E`, `parent`
replaces the node `v` by `u` for every pair `(u, v)` of `E`. -/
theorem forest_parent_of_child (N : Nat) (E : List (Int × Int))
    (hr : StaticDAGraph0.InRange N E)
    (hone : ∀ n, (E.filter fun e => decide (e.2 = n)).length ≤ 1) :
    ∃ f, StaticForest0.build N E = .ok f ∧ ∀ u v, (u, v) ∈ E → f.parent v = .ok u := by
  obtain ⟨g, hg, hb⟩ := StaticDAGraph0.build_built hr
  refine ⟨_, StaticForest0.build_eq hg, fun u v huv => ?_⟩
  obtain ⟨i, hi⟩ := StaticDAGraph0.mem_iff_look.1 huv
  have hmem : i ∈ StaticDAGraph0.inIdx E v :=
    StaticDAGraph0.mem_inIdx.2 ⟨look_ge hi, (u, v), hi, rfl⟩
  cases hl : StaticDAGraph0.inIdx E v with
  | nil => rw [hl] at hmem; simp at hmem
  | cons x l =>
    have hx : x ∈ StaticDAGraph0.inIdx E v := by rw [hl]; simp
    obtain ⟨_, e, he, hev⟩ := StaticDAGraph0.mem_inIdx.1 hx
    have hee : e = (u, v) :=
      StaticDAGraph0.unique_of_filter_le_one hone (StaticDAGraph0.mem_iff_look.2 ⟨x, he⟩) huv hev
    have := StaticForest0.parent_eq hb (hr _ huv).2 hl he
    rw [hee] at this
    exact this

/-- The scenario of C4: in the forest of `build(5, [(0,1),(0,2),(1,3),(1,4)])`,
`parent(3) == 1`. -/
theorem forest_parent_of_child_witness :
    StaticDAGraph0.InRange 5 treeEdges ∧
    (∀ n, (treeEdges.filter fun e => decide (e.2 = n)).length ≤ 1) ∧
    (∃ f, StaticForest0.build 5 treeEdges = .ok f ∧
      ∀ u v, (u, v) ∈ treeEdges → f.parent v = .ok u) ∧
    (StaticForest0.build 5 treeEdges).bind (fun f => f.parent 3) = .ok 1 := by
  have hone : ∀ n, (treeEdges.filter fun e => decide (e.2 = n)).length ≤ 1 := by
    intro n
    simp only [treeEdges, List.filter_cons, List.filter_nil]
    by_cases h1 : (1 : Int) = n <;> by_cases h2 : (2 : Int) = n <;>
      by_cases h3 : (3 : Int) = n <;> by_cases h4 : (4 : Int) = n <;>
      simp [h1, h2, h3, h4] <;> omega
  exact ⟨by decide, hone, forest_parent_of_child 5 treeEdges (by decide) hone, by decide⟩

/-- C5, at the input where the code departs from it: in the forest of
`build(5, [(0,1),(0,2),(1,3),(1,4)])` the node `0` is a root, `InArcIt it(*this, n)`
has the id `-1`, and `graph_.source(it)` indexes the arc table at `-1`: the call
ends in an access outside the table, it does not yield the invalid node. -/
theorem forest_parent_of_root_faults :
    (StaticForest0.build 5 treeEdges).bind (fun f => f.parent 0) = .error Fault.access := by
  decide

theorem wr_of_fld {α : Type} {p : α → Int} {xs : List α} {i v : Int} (f : α → α)
    (h : fld p xs i = some v) : wr xs i f = .ok (put xs i f) :=
  wr_of_range f (fld_ge h).1 (fld_ge h).2

/-- The statement `if (i != -1) xs[i] = f xs[i]`. -/
theorem wr_if {α : Type} {xs : List α} {i : Int} (f : α → α)
    (h : i = -1 ∨ (0 ≤ i ∧ i < (xs.length : Int))) :
    (if i ≠ -1 then wr xs i f else pure xs) = .ok (put xs i f) := by
  by_cases hi : i = -1
  · rw [if_neg (not_not.2 hi), hi, put_neg_one]; rfl
  · rw [if_pos hi, wr_of_range f (h.resolve_left hi).1 (h.resolve_left hi).2]

/-- A slot written with the value it already holds is as before. -/
theorem look_put_self {α : Type} {xs : List α} {i j : Int} {f : α → α} {s : α}
    (h : look xs j = some s) (hf : i = j → f s = s) : look (put xs i f) j = some s := by
  rw [look_put]
  split
  · rename_i hji
    rw [← hji, h]
    simp [hf hji.symm]
  · exact h

namespace DAGraph0

/-- The part of `addArc` after the allocation of the slot `a` in `arcs0`. -/
theorem addArc_links {g : DAGraph0} {u v a fo fi : Int} {t : List ArcT}
    (ha : 0 ≤ a ∧ a < (t.length : Int))
    (hfo : fld NodeT.first_out g.nodes_ u = some fo)
    (hfi : fld NodeT.first_in g.nodes_ v = some fi)
    (hfor : fo = -1 ∨ (0 ≤ fo ∧ fo < (t.length : Int)))
    (hfir : fi = -1 ∨ (0 ≤ fi ∧ fi < (t.length : Int)))
    (k : List ArcT → List NodeT → Res (Int × DAGraph0)) :
    (do
      let arcs ← wr t a fun s => { s with source := u }
      let arcs ← wr arcs a fun s => { s with target := v }
      let un ← rd g.nodes_ u
      let arcs ← wr arcs a fun s => { s with next_out := un.first_out }
      let arcs ←
        (if un.first_out ≠ -1 then wr arcs un.first_out fun s => { s with prev_out := a }
         else pure arcs)
      let vn ← rd g.nodes_ v
      let arcs ← wr arcs a fun s => { s with next_in := vn.first_in }
      let arcs ←
        (if vn.first_in ≠ -1 then wr arcs vn.first_in fun s => { s with prev_in := a }
         else pure arcs)
      let arcs ← wr arcs a fun s => { s with prev_out := -1 }
      let arcs ← wr arcs a fun s => { s with prev_in := -1 }
      let nodes ← wr g.nodes_ v fun s => { s with first_in := a }
      let nodes ← wr nodes u fun s => { s with first_out := a }
      k arcs nodes) =
      k (put (put (put (put (put (put (put (put t
            a fun s => { s with source := u })
            a fun s => { s with target := v })
            a fun s => { s with next_out := fo })
            fo fun s => { s with prev_out := a })
            a fun s => { s with next_in := fi })
            fi fun s => { s with prev_in := a })
            a fun s => { s with prev_out := -1 })
            a fun s => { s with prev_in := -1 })
        (put (put g.nodes_ v fun s => { s with first_in := a })
          u fun s => { s with first_out := a }) := by
  obtain ⟨su, hsu, rfl⟩ := fld_eq_some.1 hfo
  obtain ⟨sv, hsv, rfl⟩ := fld_eq_some.1 hfi
  have hur := look_ge hsu
  have hvr := look_ge hsv
  rw [wr_of_range _ ha.1 ha.2]
  simp only [ok_bind]
  rw [wr_of_range _ ha.1 (by rw [length_put]; exact ha.2)]
  simp only [ok_bind, rd_of_look hsu]
  rw [wr_of_range _ ha.1 (by simp only [length_put]; exact ha.2)]
  simp only [ok_bind]
  rw [wr_if _ (by simp only [length_put]; exact hfor)]
  simp only [ok_bind, rd_of_look hsv]
  rw [wr_of_range _ ha.1 (by simp only [length_put]; exact ha.2)]
  simp only [ok_bind]
  rw [wr_if _ (by simp only [length_put]; exact hfir)]
  simp only [ok_bind]
  rw [wr_of_range _ ha.1 (by simp only [length_put]; exact ha.2)]
  simp only [ok_bind]
  rw [wr_of_range _ ha.1 (by simp only [length_put]; exact ha.2)]
  simp only [ok_bind]
  rw [wr_of_range _ hvr.1 hvr.2]
  simp only [ok_bind]
  rw [wr_of_range _ hur.1 (by simp only [length_put]; exact hur.2)]
  simp only [ok_bind]

/-- `addArc` when the free chain of arcs is empty: a new slot is pushed. -/
theorem addArc_fresh {g : DAGraph0} {u v fo fi : Int}
    (hff : g.first_free_arc_ = -1)
    (hfo : fld NodeT.first_out g.nodes_ u = some fo)
    (hfi : fld NodeT.first_in g.nodes_ v = some fi)
    (hfor : fo = -1 ∨ (0 ≤ fo ∧ fo < (g.arcs_.length : Int)))
    (hfir : fi = -1 ∨ (0 ≤ fi ∧ fi < (g.arcs_.length : Int))) :
    g.addArc u v =
      .ok ((g.arcs_.length : Int),
        arcAdded g u v (g.arcs_.length : Int) fo fi (-1) (g.arcs_ ++ [zeroArc])) := by
  have hlen : ((g.arcs_ ++ [zeroArc]).length : Int) = (g.arcs_.length : Int) + 1 := by
    simp
  unfold addArc
  simp only [hff, if_true, pure_eq_ok, ok_bind]
  exact addArc_links (g := g) (t := g.arcs_ ++ [zeroArc]) (by rw [hlen]; omega) hfo hfi
    (hfor.imp id fun h => ⟨h.1, by rw [hlen]; omega⟩)
    (hfir.imp id fun h => ⟨h.1, by rw [hlen]; omega⟩) _

/-- `addArc` when there is a free arc slot: the head of the free chain is used. -/
theorem addArc_reuse {g : DAGraph0} {u v fo fi nf : Int}
    (hff : g.first_free_arc_ ≠ -1)
    (hnf : fld ArcT.next_in g.arcs_ g.first_free_arc_ = some nf)
    (hfo : fld NodeT.first_out g.nodes_ u = some fo)
    (hfi : fld NodeT.first_in g.nodes_ v = some fi)
    (hfor : fo = -1 ∨ (0 ≤ fo ∧ fo < (g.arcs_.length : Int)))
    (hfir : fi = -1 ∨ (0 ≤ fi ∧ fi < (g.arcs_.length : Int))) :
    g.addArc u v =
      .ok (g.first_free_arc_, arcAdded g u v g.first_free_arc_ fo fi nf g.arcs_) := by
  obtain ⟨sf, hsf, rfl⟩ := fld_eq_some.1 hnf
  unfold addArc
  simp only [hff, if_false, rd_of_look hsf, pure_eq_ok, ok_bind]
  exact addArc_links (g := g) (t := g.arcs_) (look_ge hsf) hfo hfi hfor hfir _

/-- The part of `addNode` after the allocation of the slot `n` in `t`. -/
theorem addNode_links {n fn : Int} {t : List NodeT}
    (hn : 0 ≤ n ∧ n < (t.length : Int))
    (hfn : fn = -1 ∨ (0 ≤ fn ∧ fn < (t.length : Int)))
    (k : List NodeT → Res (Int × DAGraph0)) :
    (do
      let nodes ← wr t n fun s => { s with next := fn }
      let nodes ←
        (if fn ≠ -1 then wr nodes fn fun s => { s with prev := n }
         else pure nodes)
      let nodes ← wr nodes n fun s => { s with prev := -1 }
      let nodes ← wr nodes n fun s => { s with first_in := -1 }
      let nodes ← wr nodes n fun s => { s with first_out := -1 }
      k nodes) =
      k (put (put (put (put (put t
        n fun s => { s with next := fn })
        fn fun s => { s with prev := n })
        n fun s => { s with prev := -1 })
        n fun s => { s with first_in := -1 })
        n fun s => { s with first_out := -1 }) := by
  rw [wr_of_range _ hn.1 hn.2]
  simp only [ok_bind]
  rw [wr_if _ (by simp only [length_put]; exact hfn)]
  simp only [ok_bind]
  rw [wr_of_range _ hn.1 (by simp only [length_put]; exact hn.2)]
  simp only [ok_bind]
  rw [wr_of_range _ hn.1 (by simp only [length_put]; exact hn.2)]
  simp only [ok_bind]
  rw [wr_of_range _ hn.1 (by simp only [length_put]; exact hn.2)]
  simp only [ok_bind]

/-- `addNode` when the free chain of nodes is empty: a new slot is pushed. -/
theorem addNode_fresh {g : DAGraph0}
    (hff : g.first_free_node_ = -1)
    (hfn : g.first_node_ = -1 ∨ (0 ≤ g.first_node_ ∧ g.first_node_ < (g.nodes_.length : Int))) :
    g.addNode =
      .ok ((g.nodes_.length : Int),
        nodeAdded g (g.nodes_.length : Int) (-1) (g.nodes_ ++ [zeroNode])) := by
  have hlen : ((g.nodes_ ++ [zeroNode]).length : Int) = (g.nodes_.length : Int) + 1 := by
    simp
  unfold addNode
  simp only [hff, if_true, pure_eq_ok, ok_bind]
  exact addNode_links (t := g.nodes_ ++ [zeroNode]) (by rw [hlen]; omega)
    (hfn.imp id fun h => ⟨h.1, by rw [hlen]; omega⟩) _

/-- `addNode` when there is a free node slot: the head of the free chain is used. -/
theorem addNode_reuse {g : DAGraph0} {nf : Int}
    (hff : g.first_free_node_ ≠ -1)
    (hnf : fld NodeT.next g.nodes_ g.first_free_node_ = some nf)
    (hfn : g.first_node_ = -1 ∨ (0 ≤ g.first_node_ ∧ g.first_node_ < (g.nodes_.length : Int))) :
    g.addNode = .ok (g.first_free_node_, nodeAdded g g.first_free_node_ nf g.nodes_) := by
  obtain ⟨sf, hsf, rfl⟩ := fld_eq_some.1 hnf
  unfold addNode
  simp only [hff, if_false, rd_of_look hsf, pure_eq_ok, ok_bind]
  exact addNode_links (t := g.nodes_) (look_ge hsf) hfn _

theorem eraseNode_eq {g : DAGraph0} {n : Int} {s : NodeT}
    (hs : look g.nodes_ n = some s)
    (hnx : s.next = -1 ∨ (0 ≤ s.next ∧ s.next < (g.nodes_.length : Int)))
    (hpv : s.prev = -1 ∨ (0 ≤ s.prev ∧ s.prev < (g.nodes_.length : Int))) :
    g.eraseNode n = .ok (nodeErased g n s.next s.prev) := by
  have hn := look_ge hs
  unfold eraseNode
  simp only [rd_of_look hs, ok_bind]
  rw [wr_if _ hnx]
  simp only [ok_bind]
  have hs1 : look (put g.nodes_ s.next fun t => { t with prev := s.prev }) n = some s :=
    look_put_self hs (fun _ => rfl)
  simp only [rd_of_look hs1, ok_bind]
  by_cases hp : s.prev = -1
  · simp only [hp, ne_eq, not_true_eq_false, if_false, pure_eq_ok, ok_bind, put_neg_one]
    rw [wr_of_range _ hn.1 (by simp only [length_put]; exact hn.2)]
    simp only [ok_bind]
    rw [wr_of_range _ hn.1 (by simp only [length_put]; exact hn.2)]
    simp only [ok_bind, nodeErased, hp, put_neg_one, if_true]
  · have hp' := hpv.resolve_left hp
    simp only [hp, ne_eq, not_false_eq_true, if_true]
    rw [wr_of_range _ hp'.1 (by simp only [length_put]; exact hp'.2)]
    simp only [ok_bind, pure_eq_ok]
    rw [wr_of_range _ hn.1 (by simp only [length_put]; exact hn.2)]
    simp only [ok_bind]
    rw [wr_of_range _ hn.1 (by simp only [length_put]; exact hn.2)]
    simp only [ok_bind, nodeErased, hp, if_false]

theorem eraseArc_eq {g : DAGraph0} {a : Int} {s : ArcT}
    (hs : look g.arcs_ a = some s)
    (hni : s.next_in = -1 ∨ (0 ≤ s.next_in ∧ s.next_in < (g.arcs_.length : Int)))
    (hpi : s.prev_in = -1 ∨ (0 ≤ s.prev_in ∧ s.prev_in < (g.arcs_.length : Int)))
    (hno : s.next_out = -1 ∨ (0 ≤ s.next_out ∧ s.next_out < (g.arcs_.length : Int)))
    (hpo : s.prev_out = -1 ∨ (0 ≤ s.prev_out ∧ s.prev_out < (g.arcs_.length : Int)))
    (hsrc : 0 ≤ s.source ∧ s.source < (g.nodes_.length : Int))
    (htgt : 0 ≤ s.target ∧ s.target < (g.nodes_.length : Int)) :
    g.eraseArc a = .ok (arcErased g a s) := by
  have ha := look_ge hs
  unfold eraseArc
  simp only [rd_of_look hs, ok_bind]
  rw [wr_if _ hni]
  simp only [ok_bind]
  have hs1 : look (put g.arcs_ s.next_in fun t => { t with prev_in := s.prev_in }) a = some s :=
    look_put_self hs (fun _ => rfl)
  simp only [rd_of_look hs1, ok_bind]
  have h2 : (if s.prev_in ≠ -1 then
        (do
          let arcs ← wr (put g.arcs_ s.next_in fun t => { t with prev_in := s.prev_in })
            s.prev_in fun t => { t with next_in := s.next_in }
          pure { g with arcs_ := arcs } : Res DAGraph0)
      else do
        let nodes ← wr g.nodes_ s.target fun t => { t with first_in := s.next_in }
        pure { g with
          arcs_ := put g.arcs_ s.next_in fun t => { t with prev_in := s.prev_in },
          nodes_ := nodes }) =
      .ok { g with
        arcs_ := put (put g.arcs_ s.next_in fun t => { t with prev_in := s.prev_in })
          s.prev_in fun t => { t with next_in := s.next_in },
        nodes_ := put g.nodes_ (if s.prev_in = -1 then s.target else -1)
          fun t => { t with first_in := s.next_in } } := by
    by_cases hp : s.prev_in = -1
    · simp only [hp, ne_eq, not_true_eq_false, if_false, if_true, put_neg_one,
        wr_of_range _ htgt.1 htgt.2, ok_bind, pure_eq_ok]
    · have hp' := hpi.resolve_left hp
      simp only [hp, ne_eq, not_false_eq_true, if_true, if_false, put_neg_one]
      rw [wr_of_range _ hp'.1 (by simp only [length_put]; exact hp'.2)]
      simp only [ok_bind, pure_eq_ok]
  rw [h2]
  simp only [ok_bind]
  have hs2 : look (put (put g.arcs_ s.next_in fun t => { t with prev_in := s.prev_in })
      s.prev_in fun t => { t with next_in := s.next_in }) a = some s :=
    look_put_self hs1 (fun _ => rfl)
  simp only [rd_of_look hs2, ok_bind]
  rw [wr_if _ (by simp only [length_put]; exact hno)]
  simp only [ok_bind]
  have hs3 : look (put (put (put g.arcs_ s.next_in fun t => { t with prev_in := s.prev_in })
      s.prev_in fun t => { t with next_in := s.next_in })
      s.next_out fun t => { t with prev_out := s.prev_out }) a = some s :=
    look_put_self hs2 (fun _ => rfl)
  simp only [rd_of_look hs3, ok_bind]
  by_cases hp : s.prev_out = -1
  · simp only [hp, ne_eq, not_true_eq_false, if_false, if_true, put_neg_one]
    rw [wr_of_range _ hsrc.1 (by simp only [length_put]; exact hsrc.2)]
    simp only [ok_bind, pure_eq_ok]
    rw [wr_of_range _ ha.1 (by simp only [length_put]; exact ha.2)]
    simp only [ok_bind]
    rw [wr_of_range _ ha.1 (by simp only [length_put]; exact ha.2)]
    simp only [ok_bind, arcErased, hp, put_neg_one, if_true]
  · have hp' := hpo.resolve_left hp
    simp only [hp, ne_eq, not_false_eq_true, if_true, if_false, put_neg_one]
    rw [wr_of_range _ hp'.1 (by simp only [length_put]; exact hp'.2)]
    simp only [ok_bind, pure_eq_ok]
    rw [wr_of_range _ ha.1 (by simp only [length_put]; exact ha.2)]
    simp only [ok_bind]
    rw [wr_of_range _ ha.1 (by simp only [length_put]; exact ha.2)]
    simp only [ok_bind, arcErased, hp, put_neg_one, if_false]

theorem validNode_iff {g : DAGraph0} {n : Int} :
    g.validNode n = true ↔ ∃ v, fld NodeT.prev g.nodes_ n = some v ∧ v ≠ -2 := by
  unfold validNode fld
  cases h : look g.nodes_ n with
  | none => simp
  | some s =>
    have := look_ge h
    simp [this.1, this.2]

theorem validArc_iff {g : DAGraph0} {a : Int} :
    g.validArc a = true ↔ ∃ v, fld ArcT.prev_in g.arcs_ a = some v ∧ v ≠ -2 := by
  unfold validArc fld
  cases h : look g.arcs_ a with
  | none => simp
  | some s =>
    have := look_ge h
    simp [this.1, this.2]

theorem validNode_range {g : DAGraph0} {n : Int} (h : g.validNode n = true) :
    0 ≤ n ∧ n < (g.nodes_.length : Int) := by
  obtain ⟨v, hv, _⟩ := validNode_iff.1 h
  exact fld_ge hv

theorem validArc_range {g : DAGraph0} {a : Int} (h : g.validArc a = true) :
    0 ≤ a ∧ a < (g.arcs_.length : Int) := by
  obtain ⟨v, hv, _⟩ := validArc_iff.1 h
  exact fld_ge hv

section views

variable (g : DAGraph0) (u v a fo fi ffa n ffn nx pv : Int) (s : ArcT)
  (t : List ArcT) (tn : List NodeT)

/-! ### The tables after `addNode` -/

theorem nodeAdded_next (j : Int) :
    fld NodeT.next (nodeAdded g n ffn tn).nodes_ j =
      if j = n then (if 0 ≤ n ∧ n < (tn.length : Int) then some g.first_node_ else none)
      else fld NodeT.next tn j := by
  simp (disch := intro _; rfl) only [nodeAdded, fld_put_same, fld_put_set, length_put]

theorem nodeAdded_prev (j : Int) :
    fld NodeT.prev (nodeAdded g n ffn tn).nodes_ j =
      if j = n then (if 0 ≤ n ∧ n < (tn.length : Int) then some (-1) else none)
      else if j = g.first_node_ then
        (if 0 ≤ g.first_node_ ∧ g.first_node_ < (tn.length : Int) then some n else none)
      else fld NodeT.prev tn j := by
  simp (disch := intro _; rfl) only [nodeAdded, fld_put_same, fld_put_set, length_put]

theorem nodeAdded_first_in (j : Int) :
    fld NodeT.first_in (nodeAdded g n ffn tn).nodes_ j =
      if j = n then (if 0 ≤ n ∧ n < (tn.length : Int) then some (-1) else none)
      else fld NodeT.first_in tn j := by
  simp (disch := intro _; rfl) only [nodeAdded, fld_put_same, fld_put_set, length_put]

theorem nodeAdded_first_out (j : Int) :
    fld NodeT.first_out (nodeAdded g n ffn tn).nodes_ j =
      if j = n then (if 0 ≤ n ∧ n < (tn.length : Int) then some (-1) else none)
      else fld NodeT.first_out tn j := by
  simp (disch := intro _; rfl) only [nodeAdded, fld_put_same, fld_put_set, length_put]

theorem nodeAdded_length : (nodeAdded g n ffn tn).nodes_.length = tn.length := by
  simp only [nodeAdded, length_put]

/-! ### The tables after `erase(Node)` -/

theorem nodeErased_next (j : Int) :
    fld NodeT.next (nodeErased g n nx pv).nodes_ j =
      if j = n then
        (if 0 ≤ n ∧ n < (g.nodes_.length : Int) then some g.first_free_node_ else none)
      else if j = pv then
        (if 0 ≤ pv ∧ pv < (g.nodes_.length : Int) then some nx else none)
      else fld NodeT.next g.nodes_ j := by
  simp (disch := intro _; rfl) only [nodeErased, fld_put_same, fld_put_set, length_put]

theorem nodeErased_prev (j : Int) :
    fld NodeT.prev (nodeErased g n nx pv).nodes_ j =
      if j = n then (if 0 ≤ n ∧ n < (g.nodes_.length : Int) then some (-2) else none)
      else if j = nx then
        (if 0 ≤ nx ∧ nx < (g.nodes_.length : Int) then some pv else none)
      else fld NodeT.prev g.nodes_ j := by
  simp (disch := intro _; rfl) only [nodeErased, fld_put_same, fld_put_set, length_put]

theorem nodeErased_first_in :
    fld NodeT.first_in (nodeErased g n nx pv).nodes_ = fld NodeT.first_in g.nodes_ := by
  simp (disch := intro _; rfl) only [nodeErased, fld_put_same]

theorem nodeErased_first_out :
    fld NodeT.first_out (nodeErased g n nx pv).nodes_ = fld NodeT.first_out g.nodes_ := by
  simp (disch := intro _; rfl) only [nodeErased, fld_put_same]

theorem nodeErased_length : (nodeErased g n nx pv).nodes_.length = g.nodes_.length := by
  simp only [nodeErased, length_put]

/-! ### The tables after `addArc` -/

theorem arcAdded_next :
    fld NodeT.next (arcAdded g u v a fo fi ffa t).nodes_ = fld NodeT.next g.nodes_ := by
  simp (disch := intro _; rfl) only [arcAdded, fld_put_same]

theorem arcAdded_prev :
    fld NodeT.prev (arcAdded g u v a fo fi ffa t).nodes_ = fld NodeT.prev g.nodes_ := by
  simp (disch := intro _; rfl) only [arcAdded, fld_put_same]

theorem arcAdded_first_in (j : Int) :
    fld NodeT.first_in (arcAdded g u v a fo fi ffa t).nodes_ j =
      if j = v then (if 0 ≤ v ∧ v < (g.nodes_.length : Int) then some a else none)
      else fld NodeT.first_in g.nodes_ j := by
  simp (disch := intro _; rfl) only [arcAdded, fld_put_same, fld_put_set, length_put]

theorem arcAdded_first_out (j : Int) :
    fld NodeT.first_out (arcAdded g u v a fo fi ffa t).nodes_ j =
      if j = u then (if 0 ≤ u ∧ u < (g.nodes_.length : Int) then some a else none)
      else fld NodeT.first_out g.nodes_ j := by
  simp (disch := intro _; rfl) only [arcAdded, fld_put_same, fld_put_set, length_put]

theorem arcAdded_nodes_length :
    (arcAdded g u v a fo fi ffa t).nodes_.length = g.nodes_.length := by
  simp only [arcAdded, length_put]

theorem arcAdded_arcs_length : (arcAdded g u v a fo fi ffa t).arcs_.length = t.length := by
  simp only [arcAdded, length_put]

theorem arcAdded_source (j : Int) :
    fld ArcT.source (arcAdded g u v a fo fi ffa t).arcs_ j =
      if j = a then (if 0 ≤ a ∧ a < (t.length : Int) then some u else none)
      else fld ArcT.source t j := by
  simp (disch := intro _; rfl) only [arcAdded, fld_put_same, fld_put_set, length_put]

theorem arcAdded_target (j : Int) :
    fld ArcT.target (arcAdded g u v a fo fi ffa t).arcs_ j =
      if j = a then (if 0 ≤ a ∧ a < (t.length : Int) then some v else none)
      else fld ArcT.target t j := by
  simp (disch := intro _; rfl) only [arcAdded, fld_put_same, fld_put_set, length_put]

theorem arcAdded_next_out (j : Int) :
    fld ArcT.next_out (arcAdded g u v a fo fi ffa t).arcs_ j =
      if j = a then (if 0 ≤ a ∧ a < (t.length : Int) then some fo else none)
      else fld ArcT.next_out t j := by
  simp (disch := intro _; rfl) only [arcAdded, fld_put_same, fld_put_set, length_put]

theorem arcAdded_next_in (j : Int) :
    fld ArcT.next_in (arcAdded g u v a fo fi ffa t).arcs_ j =
      if j = a then (if 0 ≤ a ∧ a < (t.length : Int) then some fi else none)
      else fld ArcT.next_in t j := by
  simp (disch := intro _; rfl) only [arcAdded, fld_put_same, fld_put_set, length_put]

theorem arcAdded_prev_out (j : Int) :
    fld ArcT.prev_out (arcAdded g u v a fo fi ffa t).arcs_ j =
      if j = a then (if 0 ≤ a ∧ a < (t.length : Int) then some (-1) else none)
      else if j = fo then (if 0 ≤ fo ∧ fo < (t.length : Int) then some a else none)
      else fld ArcT.prev_out t j := by
  simp (disch := intro _; rfl) only [arcAdded, fld_put_same, fld_put_set, length_put]

theorem arcAdded_prev_in (j : Int) :
    fld ArcT.prev_in (arcAdded g u v a fo fi ffa t).arcs_ j =
      if j = a then (if 0 ≤ a ∧ a < (t.length : Int) then some (-1) else none)
      else if j = fi then (if 0 ≤ fi ∧ fi < (t.length : Int) then some a else none)
      else fld ArcT.prev_in t j := by
  simp (disch := intro _; rfl) only [arcAdded, fld_put_same, fld_put_set, length_put]

/-! ### The tables after `erase(Arc)` -/

theorem arcErased_next :
    fld NodeT.next (arcErased g a s).nodes_ = fld NodeT.next g.nodes_ := by
  simp (disch := intro _; rfl) only [arcErased, fld_put_same]

theorem arcErased_prev :
    fld NodeT.prev (arcErased g a s).nodes_ = fld NodeT.prev g.nodes_ := by
  simp (disch := intro _; rfl) only [arcErased, fld_put_same]

theorem arcErased_first_in (j : Int) :
    fld NodeT.first_in (arcErased g a s).nodes_ j =
      if j = (if s.prev_in = -1 then s.target else -1) then
        (if 0 ≤ (if s.prev_in = -1 then s.target else -1) ∧
            (if s.prev_in = -1 then s.target else -1) < (g.nodes_.length : Int)
          then some s.next_in else none)
      else fld NodeT.first_in g.nodes_ j := by
  simp (disch := intro _; rfl) only [arcErased, fld_put_same, fld_put_set, length_put]

theorem arcErased_first_out (j : Int) :
    fld NodeT.first_out (arcErased g a s).nodes_ j =
      if j = (if s.prev_out = -1 then s.source else -1) then
        (if 0 ≤ (if s.prev_out = -1 then s.source else -1) ∧
            (if s.prev_out = -1 then s.source else -1) < (g.nodes_.length : Int)
          then some s.next_out else none)
      else fld NodeT.first_out g.nodes_ j := by
  simp (disch := intro _; rfl) only [arcErased, fld_put_same, fld_put_set, length_put]

theorem arcErased_nodes_length : (arcErased g a s).nodes_.length = g.nodes_.length := by
  simp only [arcErased, length_put]

theorem arcErased_arcs_length : (arcErased g a s).arcs_.length = g.arcs_.length := by
  simp only [arcErased, length_put]

theorem arcErased_source :
    fld ArcT.source (arcErased g a s).arcs_ = fld ArcT.source g.arcs_ := by
  simp (disch := intro _; rfl) only [arcErased, fld_put_same]

theorem arcErased_target :
    fld ArcT.target (arcErased g a s).arcs_ = fld ArcT.target g.arcs_ := by
  simp (disch := intro _; rfl) only [arcErased, fld_put_same]

theorem arcErased_next_in (j : Int) :
    fld ArcT.next_in (arcErased g a s).arcs_ j =
      if j = a then
        (if 0 ≤ a ∧ a < (g.arcs_.length : Int) then some g.first_free_arc_ else none)
      else if j = s.prev_in then
        (if 0 ≤ s.prev_in ∧ s.prev_in < (g.arcs_.length : Int) then some s.next_in else none)
      else fld ArcT.next_in g.arcs_ j := by
  simp (disch := intro _; rfl) only [arcErased, fld_put_same, fld_put_set, length_put]

theorem arcErased_prev_in (j : Int) :
    fld ArcT.prev_in (arcErased g a s).arcs_ j =
      if j = a then (if 0 ≤ a ∧ a < (g.arcs_.length : Int) then some (-2) else none)
      else if j = s.next_in then
        (if 0 ≤ s.next_in ∧ s.next_in < (g.arcs_.length : Int) then some s.prev_in else none)
      else fld ArcT.prev_in g.arcs_ j := by
  simp (disch := intro _; rfl) only [arcErased, fld_put_same, fld_put_set, length_put]

theorem arcErased_next_out (j : Int) :
    fld ArcT.next_out (arcErased g a s).arcs_ j =
      if j = s.prev_out then
        (if 0 ≤ s.prev_out ∧ s.prev_out < (g.arcs_.length : Int) then some s.next_out
          else none)
      else fld ArcT.next_out g.arcs_ j := by
  simp (disch := intro _; rfl) only [arcErased, fld_put_same, fld_put_set, length_put]

theorem arcErased_prev_out (j : Int) :
    fld ArcT.prev_out (arcErased g a s).arcs_ j =
      if j = s.next_out then
        (if 0 ≤ s.next_out ∧ s.next_out < (g.arcs_.length : Int) then some s.prev_out
          else none)
      else fld ArcT.prev_out g.arcs_ j := by
  simp (disch := intro _; rfl) only [arcErased, fld_put_same, fld_put_set, length_put]

end views

end DAGraph0

/-- The two ways a field that a write has set can hold a value. -/
theorem ite_set_eq_some {c r : Prop} [Decidable c] [Decidable r] {a v : Int}
    {X : Option Int} (h : (if c then (if r then some a else none) else X) = some v) :
    (c ∧ r ∧ a = v) ∨ (¬ c ∧ X = some v) := by
  by_cases hc : c
  · rw [if_pos hc] at h
    by_cases hr : r
    · rw [if_pos hr] at h
      exact Or.inl ⟨hc, hr, Option.some.inj h⟩
    · rw [if_neg hr] at h
      cases h
  · rw [if_neg hc] at h
    exact Or.inr ⟨hc, h⟩

namespace DAGraph0

theorem NodeAlloc.range {g : DAGraph0} {n ffn : Int} {tn : List NodeT}
    (h : NodeAlloc g n ffn tn) :
    (0 ≤ n ∧ n < (tn.length : Int)) ∧ (g.nodes_.length : Int) ≤ (tn.length : Int) ∧
      (tn.length : Int) ≤ (g.nodes_.length : Int) + 1 := by
  rcases h with ⟨_, rfl, _, rfl⟩ | ⟨_, _, h3, rfl⟩
  · simp
  · have := fld_ge h3
    omega

theorem NodeAlloc.node_frame {g : DAGraph0} {n ffn : Int} {tn : List NodeT}
    (h : NodeAlloc g n ffn tn) (p : NodeT → Int) {j : Int} (hj : j ≠ n) :
    fld p tn j = fld p g.nodes_ j := by
  rcases h with ⟨_, rfl, _, rfl⟩ | ⟨_, _, _, rfl⟩
  · rw [fld_append_one, if_neg hj]
  · rfl

theorem ArcAlloc.arc_range {g : DAGraph0} {a ffa : Int} {t : List ArcT}
    (h : ArcAlloc g a ffa t) :
    (0 ≤ a ∧ a < (t.length : Int)) ∧ (g.arcs_.length : Int) ≤ (t.length : Int) ∧
      (t.length : Int) ≤ (g.arcs_.length : Int) + 1 := by
  rcases h with ⟨_, rfl, _, rfl⟩ | ⟨_, _, h3, rfl⟩
  · simp
  · have := fld_ge h3
    omega

theorem ArcAlloc.arc_frame {g : DAGraph0} {a ffa : Int} {t : List ArcT}
    (h : ArcAlloc g a ffa t) (p : ArcT → Int) {j : Int} (hj : j ≠ a) :
    fld p t j = fld p g.arcs_ j := by
  rcases h with ⟨_, rfl, _, rfl⟩ | ⟨_, _, _, rfl⟩
  · rw [fld_append_one, if_neg hj]
  · rfl

theorem NodeAlloc.head {g : DAGraph0} (hw : Wf g) {n ffn : Int} {tn : List NodeT}
    (h : NodeAlloc g n ffn tn) : -1 ≤ ffn ∧ ffn < (g.nodes_.length : Int) := by
  rcases h with ⟨_, _, rfl, _⟩ | ⟨_, _, h3, _⟩
  · have := hw.first_node; omega
  · exact hw.next _ _ h3

theorem ArcAlloc.arc_head {g : DAGraph0} (hw : Wf g) {a ffa : Int} {t : List ArcT}
    (h : ArcAlloc g a ffa t) :
    -1 ≤ ffa ∧ ffa < (t.length : Int) := by
  have hr := h.arc_range
  rcases h with ⟨_, _, rfl, _⟩ | ⟨_, _, h3, _⟩
  · omega
  · have := hw.next_in _ _ h3; omega

/-- `addNode` returns: it allocates a slot and links it in front of the node chain. -/
theorem addNode_eq {g : DAGraph0} (hw : Wf g) :
    ∃ n ffn tn, NodeAlloc g n ffn tn ∧ g.addNode = .ok (n, nodeAdded g n ffn tn) := by
  have hfn : g.first_node_ = -1 ∨
      (0 ≤ g.first_node_ ∧ g.first_node_ < (g.nodes_.length : Int)) := by
    have := hw.first_node; omega
  by_cases hff : g.first_free_node_ = -1
  · exact ⟨_, _, _, Or.inl ⟨hff, rfl, rfl, rfl⟩, addNode_fresh hff hfn⟩
  · have hr : 0 ≤ g.first_free_node_ ∧ g.first_free_node_ < (g.nodes_.length : Int) := by
      have := hw.first_free_node; omega
    obtain ⟨nf, hnf⟩ := (fld_isSome NodeT.next g.nodes_ g.first_free_node_).2 hr
    exact ⟨_, _, _, Or.inr ⟨hff, rfl, hnf, rfl⟩, addNode_reuse hff hnf hfn⟩

/-- `addArc` on valid nodes returns: it allocates a slot and links it in
front of the two chains. -/
theorem addArc_eq {g : DAGraph0} (hw : Wf g) {u v : Int}
    (hu : g.validNode u = true) (hv : g.validNode v = true) :
    ∃ a ffa t fo fi, ArcAlloc g a ffa t ∧
      fld NodeT.first_out g.nodes_ u = some fo ∧ fld NodeT.first_in g.nodes_ v = some fi ∧
      g.addArc u v = .ok (a, arcAdded g u v a fo fi ffa t) := by
  obtain ⟨fo, hfo⟩ := (fld_isSome NodeT.first_out g.nodes_ u).2 (validNode_range hu)
  obtain ⟨fi, hfi⟩ := (fld_isSome NodeT.first_in g.nodes_ v).2 (validNode_range hv)
  have hfor : fo = -1 ∨ (0 ≤ fo ∧ fo < (g.arcs_.length : Int)) := by
    have := hw.first_out _ _ hfo; omega
  have hfir : fi = -1 ∨ (0 ≤ fi ∧ fi < (g.arcs_.length : Int)) := by
    have := hw.first_in _ _ hfi; omega
  by_cases hff : g.first_free_arc_ = -1
  · exact ⟨_, _, _, fo, fi, Or.inl ⟨hff, rfl, rfl, rfl⟩, hfo, hfi,
      addArc_fresh hff hfo hfi hfor hfir⟩
  · have hr : 0 ≤ g.first_free_arc_ ∧ g.first_free_arc_ < (g.arcs_.length : Int) := by
      have := hw.first_free_arc; omega
    obtain ⟨nf, hnf⟩ := (fld_isSome ArcT.next_in g.arcs_ g.first_free_arc_).2 hr
    exact ⟨_, _, _, fo, fi, Or.inr ⟨hff, rfl, hnf, rfl⟩, hfo, hfi,
      addArc_reuse hff hnf hfo hfi hfor hfir⟩

/-- `erase(Node)` on a valid node returns. -/
theorem eraseNode_ok {g : DAGraph0} (hw : Wf g) {n : Int} (hn : g.validNode n = true) :
    ∃ nx pv, fld NodeT.next g.nodes_ n = some nx ∧ fld NodeT.prev g.nodes_ n = some pv ∧
      pv ≠ -2 ∧ g.eraseNode n = .ok (nodeErased g n nx pv) := by
  obtain ⟨pv, hpv, hpv2⟩ := validNode_iff.1 hn
  obtain ⟨s, hs, rfl⟩ := fld_eq_some.1 hpv
  have hnx := hw.next n s.next (fld_of_look _ hs)
  have hpr := hw.prev n s.prev (fld_of_look _ hs)
  exact ⟨s.next, s.prev, fld_of_look _ hs, hpv, hpv2,
    eraseNode_eq hs (by omega) (by omega)⟩

/-- `erase(Arc)` on a valid arc returns. -/
theorem eraseArc_ok {g : DAGraph0} (hw : Wf g) {a : Int} (ha : g.validArc a = true) :
    ∃ s, look g.arcs_ a = some s ∧ s.prev_in ≠ -2 ∧ g.eraseArc a = .ok (arcErased g a s) := by
  obtain ⟨pv, hpv, hpv2⟩ := validArc_iff.1 ha
  obtain ⟨s, hs, rfl⟩ := fld_eq_some.1 hpv
  have h1 := hw.next_in a _ (fld_of_look ArcT.next_in hs)
  have h2 := hw.prev_in a _ (fld_of_look ArcT.prev_in hs)
  have h3 := hw.next_out a _ (fld_of_look ArcT.next_out hs)
  have h4 := hw.prev_out a _ (fld_of_look ArcT.prev_out hs)
  have h5 := hw.source a _ (fld_of_look ArcT.source hs)
  have h6 := hw.target a _ (fld_of_look ArcT.target hs)
  exact ⟨s, hs, hpv2, eraseArc_eq hs (by omega) (by omega) (by omega) (by omega) h5 h6⟩

theorem empty_wf : Wf empty :=
  { first_node := by simp [empty]
    first_free_node := by simp [empty]
    first_free_arc := by simp [empty]
    prev := fun i v h => by simp [empty, fld, look] at h
    next := fun i v h => by simp [empty, fld, look] at h
    first_in := fun i v h => by simp [empty, fld, look] at h
    first_out := fun i v h => by simp [empty, fld, look] at h
    source := fun i v h => by simp [empty, fld, look] at h
    target := fun i v h => by simp [empty, fld, look] at h
    prev_in := fun i v h => by simp [empty, fld, look] at h
    next_in := fun i v h => by simp [empty, fld, look] at h
    prev_out := fun i v h => by simp [empty, fld, look] at h
    next_out := fun i v h => by simp [empty, fld, look] at h }

theorem nodeAdded_wf {g : DAGraph0} (hw : Wf g) {n ffn : Int} {tn : List NodeT}
    (hal : NodeAlloc g n ffn tn) : Wf (nodeAdded g n ffn tn) := by
  obtain ⟨hn, hl1, hl2⟩ := hal.range
  have hffn := hal.head hw
  have hfn := hw.first_node
  refine
    { first_node := by rw [nodeAdded_length]; exact ⟨by simp only [nodeAdded]; omega, hn.2⟩
      first_free_node := by rw [nodeAdded_length]; simp only [nodeAdded]; omega
      first_free_arc := hw.first_free_arc
      prev := ?_
      next := ?_
      first_in := ?_
      first_out := ?_
      source := fun i v h => by
        rw [nodeAdded_length]; have := hw.source i v h; omega
      target := fun i v h => by
        rw [nodeAdded_length]; have := hw.target i v h; omega
      prev_in := hw.prev_in
      next_in := hw.next_in
      prev_out := hw.prev_out
      next_out := hw.next_out }
  · intro i v h
    rw [nodeAdded_length]
    rw [nodeAdded_prev] at h
    rcases ite_set_eq_some h with ⟨_, _, rfl⟩ | ⟨hin, h⟩
    · omega
    · rcases ite_set_eq_some h with ⟨_, _, rfl⟩ | ⟨_, h⟩
      · omega
      · rw [hal.node_frame _ hin] at h
        have := hw.prev i v h; omega
  · intro i v h
    rw [nodeAdded_length]
    rw [nodeAdded_next] at h
    rcases ite_set_eq_some h with ⟨_, _, rfl⟩ | ⟨hin, h⟩
    · omega
    · rw [hal.node_frame _ hin] at h
      have := hw.next i v h; omega
  · intro i v h
    rw [nodeAdded_first_in] at h
    rcases ite_set_eq_some h with ⟨_, _, rfl⟩ | ⟨hin, h⟩
    · have := hw.first_free_arc
      exact ⟨le_refl _, by simp only [nodeAdded]; omega⟩
    · rw [hal.node_frame _ hin] at h
      exact hw.first_in i v h
  · intro i v h
    rw [nodeAdded_first_out] at h
    rcases ite_set_eq_some h with ⟨_, _, rfl⟩ | ⟨hin, h⟩
    · have := hw.first_free_arc
      exact ⟨le_refl _, by simp only [nodeAdded]; omega⟩
    · rw [hal.node_frame _ hin] at h
      exact hw.first_out i v h

theorem nodeErased_wf {g : DAGraph0} (hw : Wf g) {n nx pv : Int}
    (hnx : fld NodeT.next g.nodes_ n = some nx) (hpv : fld NodeT.prev g.nodes_ n = some pv) :
    Wf (nodeErased g n nx pv) := by
  have hn := fld_ge hnx
  have h1 := hw.next _ _ hnx
  have h2 := hw.prev _ _ hpv
  have hfn := hw.first_node
  have hff := hw.first_free_node
  refine
    { first_node := by
        rw [nodeErased_length]; simp only [nodeErased]
        by_cases hp : pv = -1
        · rw [if_pos hp]; exact h1
        · rw [if_neg hp]; exact hfn
      first_free_node := by rw [nodeErased_length]; simp only [nodeErased]; omega
      first_free_arc := hw.first_free_arc
      prev := ?_
      next := ?_
      first_in := fun i v h => by rw [nodeErased_first_in] at h; exact hw.first_in i v h
      first_out := fun i v h => by rw [nodeErased_first_out] at h; exact hw.first_out i v h
      source := fun i v h => by rw [nodeErased_length]; exact hw.source i v h
      target := fun i v h => by rw [nodeErased_length]; exact hw.target i v h
      prev_in := hw.prev_in
      next_in := hw.next_in
      prev_out := hw.prev_out
      next_out := hw.next_out }
  · intro i v h
    rw [nodeErased_length]
    rw [nodeErased_prev] at h
    rcases ite_set_eq_some h with ⟨_, _, rfl⟩ | ⟨_, h⟩
    · omega
    · rcases ite_set_eq_some h with ⟨_, _, rfl⟩ | ⟨_, h⟩
      · omega
      · exact hw.prev i v h
  · intro i v h
    rw [nodeErased_length]
    rw [nodeErased_next] at h
    rcases ite_set_eq_some h with ⟨_, _, rfl⟩ | ⟨_, h⟩
    · omega
    · rcases ite_set_eq_some h with ⟨_, _, rfl⟩ | ⟨_, h⟩
      · omega
      · exact hw.next i v h

theorem arcAdded_wf {g : DAGraph0} (hw : Wf g) {u v a fo fi ffa : Int} {t : List ArcT}
    (hal : ArcAlloc g a ffa t)
    (hfo : fld NodeT.first_out g.nodes_ u = some fo)
    (hfi : fld NodeT.first_in g.nodes_ v = some fi) :
    Wf (arcAdded g u v a fo fi ffa t) := by
  obtain ⟨ha, hl1, hl2⟩ := hal.arc_range
  have hffa := hal.arc_head hw
  have hu := fld_ge hfo
  have hv := fld_ge hfi
  have h1 := hw.first_out _ _ hfo
  have h2 := hw.first_in _ _ hfi
  refine
    { first_node := by rw [arcAdded_nodes_length]; exact hw.first_node
      first_free_node := by rw [arcAdded_nodes_length]; exact hw.first_free_node
      first_free_arc := by rw [arcAdded_arcs_length]; exact hffa
      prev := fun i w h => by
        rw [arcAdded_nodes_length]; rw [arcAdded_prev] at h; exact hw.prev i w h
      next := fun i w h => by
        rw [arcAdded_nodes_length]; rw [arcAdded_next] at h; exact hw.next i w h
      first_in := ?_
      first_out := ?_
      source := ?_
      target := ?_
      prev_in := ?_
      next_in := ?_
      prev_out := ?_
      next_out := ?_ }
  · intro i w h
    rw [arcAdded_arcs_length]
    rw [arcAdded_first_in] at h
    rcases ite_set_eq_some h with ⟨_, _, rfl⟩ | ⟨_, h⟩
    · omega
    · have := hw.first_in i w h; omega
  · intro i w h
    rw [arcAdded_arcs_length]
    rw [arcAdded_first_out] at h
    rcases ite_set_eq_some h with ⟨_, _, rfl⟩ | ⟨_, h⟩
    · omega
    · have := hw.first_out i w h; omega
  · intro i w h
    rw [arcAdded_nodes_length]
    rw [arcAdded_source] at h
    rcases ite_set_eq_some h with ⟨_, _, rfl⟩ | ⟨hin, h⟩
    · exact hu
    · rw [hal.arc_frame _ hin] at h
      exact hw.source i w h
  · intro i w h
    rw [arcAdded_nodes_length]
    rw [arcAdded_target] at h
    rcases ite_set_eq_some h with ⟨_, _, rfl⟩ | ⟨hin, h⟩
    · exact hv
    · rw [hal.arc_frame _ hin] at h
      exact hw.target i w h
  · intro i w h
    rw [arcAdded_arcs_length]
    rw [arcAdded_prev_in] at h
    rcases ite_set_eq_some h with ⟨_, _, rfl⟩ | ⟨hin, h⟩
    · omega
    · rcases ite_set_eq_some h with ⟨_, _, rfl⟩ | ⟨_, h⟩
      · omega
      · rw [hal.arc_frame _ hin] at h
        have := hw.prev_in i w h; omega
  · intro i w h
    rw [arcAdded_arcs_length]
    rw [arcAdded_next_in] at h
    rcases ite_set_eq_some h with ⟨_, _, rfl⟩ | ⟨hin, h⟩
    · omega
    · rw [hal.arc_frame _ hin] at h
      have := hw.next_in i w h; omega
  · intro i w h
    rw [arcAdded_arcs_length]
    rw [arcAdded_prev_out] at h
    rcases ite_set_eq_some h with ⟨_, _, rfl⟩ | ⟨hin, h⟩
    · omega
    · rcases ite_set_eq_some h with ⟨_, _, rfl⟩ | ⟨_, h⟩
      · omega
      · rw [hal.arc_frame _ hin] at h
        have := hw.prev_out i w h; omega
  · intro i w h
    rw [arcAdded_arcs_length]
    rw [arcAdded_next_out] at h
    rcases ite_set_eq_some h with ⟨_, _, rfl⟩ | ⟨hin, h⟩
    · omega
    · rw [hal.arc_frame _ hin] at h
      have := hw.next_out i w h; omega

theorem arcErased_wf {g : DAGraph0} (hw : Wf g) {a : Int} {s : ArcT}
    (hs : look g.arcs_ a = some s) : Wf (arcErased g a s) := by
  have ha := look_ge hs
  have h1 := hw.next_in a _ (fld_of_look ArcT.next_in hs)
  have h2 := hw.prev_in a _ (fld_of_look ArcT.prev_in hs)
  have h3 := hw.next_out a _ (fld_of_look ArcT.next_out hs)
  have h4 := hw.prev_out a _ (fld_of_look ArcT.prev_out hs)
  have hffa := hw.first_free_arc
  refine
    { first_node := by rw [arcErased_nodes_length]; exact hw.first_node
      first_free_node := by rw [arcErased_nodes_length]; exact hw.first_free_node
      first_free_arc := by rw [arcErased_arcs_length]; simp only [arcErased]; omega
      prev := fun i w h => by
        rw [arcErased_nodes_length]; rw [arcErased_prev] at h; exact hw.prev i w h
      next := fun i w h => by
        rw [arcErased_nodes_length]; rw [arcErased_next] at h; exact hw.next i w h
      first_in := ?_
      first_out := ?_
      source := fun i w h => by
        rw [arcErased_nodes_length]; rw [arcErased_source] at h; exact hw.source i w h
      target := fun i w h => by
        rw [arcErased_nodes_length]; rw [arcErased_target] at h; exact hw.target i w h
      prev_in := ?_
      next_in := ?_
      prev_out := ?_
      next_out := ?_ }
  · intro i w h
    rw [arcErased_arcs_length]
    rw [arcErased_first_in] at h
    rcases ite_set_eq_some h with ⟨_, _, rfl⟩ | ⟨_, h⟩
    · omega
    · exact hw.first_in i w h
  · intro i w h
    rw [arcErased_arcs_length]
    rw [arcErased_first_out] at h
    rcases ite_set_eq_some h with ⟨_, _, rfl⟩ | ⟨_, h⟩
    · omega
    · exact hw.first_out i w h
  · intro i w h
    rw [arcErased_arcs_length]
    rw [arcErased_prev_in] at h
    rcases ite_set_eq_some h with ⟨_, _, rfl⟩ | ⟨_, h⟩
    · omega
    · rcases ite_set_eq_some h with ⟨_, _, rfl⟩ | ⟨_, h⟩
      · omega
      · exact hw.prev_in i w h
  · intro i w h
    rw [arcErased_arcs_length]
    rw [arcErased_next_in] at h
    rcases ite_set_eq_some h with ⟨_, _, rfl⟩ | ⟨_, h⟩
    · omega
    · rcases ite_set_eq_some h with ⟨_, _, rfl⟩ | ⟨_, h⟩
      · omega
      · exact hw.next_in i w h
  · intro i w h
    rw [arcErased_arcs_length]
    rw [arcErased_prev_out] at h
    rcases ite_set_eq_some h with ⟨_, _, rfl⟩ | ⟨_, h⟩
    · omega
    · exact hw.prev_out i w h
  · intro i w h
    rw [arcErased_arcs_length]
    rw [arcErased_next_out] at h
    rcases ite_set_eq_some h with ⟨_, _, rfl⟩ | ⟨_, h⟩
    · omega
    · exact hw.next_out i w h

/-- A call of a mutating member on valid handles returns, and the ids of the
new state are again inside its tables. -/
theorem Wf.step_ok {g : DAGraph0} (hw : Wf g) {op : Op} (hp : g.pre op = true) :
    ∃ g', g.step op = .ok g' ∧ Wf g' := by
  cases op with
  | addNode =>
    obtain ⟨n, ffn, tn, hal, he⟩ := addNode_eq hw
    exact ⟨_, by simp only [step, he, ok_bind, pure_eq_ok], nodeAdded_wf hw hal⟩
  | addArc u v =>
    simp only [pre, Bool.and_eq_true] at hp
    obtain ⟨a, ffa, t, fo, fi, hal, hfo, hfi, he⟩ := addArc_eq hw hp.1 hp.2
    exact ⟨_, by simp only [step, he, ok_bind, pure_eq_ok], arcAdded_wf hw hal hfo hfi⟩
  | eraseNode n =>
    obtain ⟨nx, pv, hnx, hpv, _, he⟩ := eraseNode_ok hw hp
    exact ⟨_, he, nodeErased_wf hw hnx hpv⟩
  | eraseArc a =>
    obtain ⟨s, hs, _, he⟩ := eraseArc_ok hw hp
    exact ⟨_, he, arcErased_wf hw hs⟩

/-- A sequence of calls on valid handles runs to its end. -/
theorem Wf.run_ok {g : DAGraph0} (hw : Wf g) :
    ∀ {ops : List Op}, g.admits pre ops = true → ∃ g', g.run ops = .ok g' ∧ Wf g' := by
  intro ops
  induction ops generalizing g with
  | nil => intro _; exact ⟨g, rfl, hw⟩
  | cons op ops ih =>
    intro h
    simp only [admits, Bool.and_eq_true] at h
    obtain ⟨g1, h1, hw1⟩ := hw.step_ok h.1
    rw [h1] at h
    obtain ⟨g2, h2, hw2⟩ := ih hw1 h.2
    exact ⟨g2, by simp only [run, h1, ok_bind, h2], hw2⟩

/-- The states reached from the empty graph by calls on valid handles keep
their ids inside their tables. -/
theorem reach_wf {ops : List Op} {g : DAGraph0} (h : empty.admits pre ops = true)
    (hr : empty.run ops = .ok g) : Wf g := by
  obtain ⟨g', h1, h2⟩ := empty_wf.run_ok h
  rw [hr] at h1
  cases h1
  exact h2

end DAGraph0

/-- C10. In every state reached from the empty graph by `addNode`, `addArc`
on valid nodes, `erase` of a valid arc and `erase` of a valid node, and for all
valid nodes `u` and `v` (`u == v` and an existing arc from `u` to `v` included),
`addArc(u, v)` returns an arc `a` with `valid(a)`, `source(a) == u`,
`target(a) == v`, `firstOut(u) == a`, `firstIn(v) == a`, `nextOut(a)` the former
`firstOut(u)` and `nextIn(a)` the former `firstIn(v)`; nothing rejects the call. -/
theorem addArc_puts_arc_at_heads (ops : List DAGraph0.Op) (g : DAGraph0)
    (hadm : DAGraph0.empty.admits DAGraph0.pre ops = true)
    (hrun : DAGraph0.empty.run ops = .ok g) (u v : Int)
    (hu : g.validNode u = true) (hv : g.validNode v = true) :
    ∃ a g', g.addArc u v = .ok (a, g') ∧ g'.validArc a = true ∧
      g'.source a = .ok u ∧ g'.target a = .ok v ∧
      g'.firstOut u = .ok a ∧ g'.firstIn v = .ok a ∧
      g'.nextOut a = g.firstOut u ∧ g'.nextIn a = g.firstIn v := by
  have hw := DAGraph0.reach_wf hadm hrun
  obtain ⟨a, ffa, t, fo, fi, hal, hfo, hfi, he⟩ := DAGraph0.addArc_eq hw hu hv
  have ha := hal.arc_range.1
  have hur := fld_ge hfo
  have hvr := fld_ge hfi
  refine ⟨a, _, he, ?_, ?_, ?_, ?_, ?_, ?_, ?_⟩
  · refine DAGraph0.validArc_iff.2 ⟨-1, ?_, by omega⟩
    rw [DAGraph0.arcAdded_prev_in, if_pos rfl, if_pos ha]
  · unfold DAGraph0.source
    exact rd_field_ok (by rw [DAGraph0.arcAdded_source, if_pos rfl, if_pos ha])
  · unfold DAGraph0.target
    exact rd_field_ok (by rw [DAGraph0.arcAdded_target, if_pos rfl, if_pos ha])
  · unfold DAGraph0.firstOut
    exact rd_field_ok (by rw [DAGraph0.arcAdded_first_out, if_pos rfl, if_pos hur])
  · unfold DAGraph0.firstIn
    exact rd_field_ok (by rw [DAGraph0.arcAdded_first_in, if_pos rfl, if_pos hvr])
  · unfold DAGraph0.nextOut DAGraph0.firstOut
    rw [rd_field_ok hfo]
    exact rd_field_ok (by rw [DAGraph0.arcAdded_next_out, if_pos rfl, if_pos ha])
  · unfold DAGraph0.nextIn DAGraph0.firstIn
    rw [rd_field_ok hfi]
    exact rd_field_ok (by rw [DAGraph0.arcAdded_next_in, if_pos rfl, if_pos ha])

theorem Back.back_dom {pv : Int → Option Int} :
    ∀ {l : List Int} {q : Int}, Back pv q l → ∀ y ∈ l, ∃ p, pv y = some p
  | [], _, _, y, hy => by simp at hy
  | x :: l, q, h, y, hy => by
    rcases List.mem_cons.1 hy with rfl | hy
    · exact ⟨q, h.1⟩
    · exact Back.back_dom h.2 y hy

namespace DAGraph0

theorem NodeRep.valid_iff {g : DAGraph0} {L F : List Int} (h : NodeRep g L F) (n : Int) :
    g.validNode n = true ↔ n ∈ L := by
  have hm1 : (-1 : Int) ∉ L := fun hm => Seg.ne_neg_one h.live _ hm rfl
  rw [validNode_iff]
  constructor
  · rintro ⟨v, hv, hv2⟩
    rcases (h.cover n).2 (fld_ge hv) with hL | hF
    · exact hL
    · rw [h.mark n hF] at hv
      exact absurd (Option.some.inj hv).symm hv2
  · intro hL
    obtain ⟨p, hp⟩ := Back.back_dom h.back n hL
    refine ⟨p, hp, ?_⟩
    rcases Back.prev_mem h.back hL hp with hp1 | hp1
    · omega
    · have := ((h.cover p).1 (Or.inl hp1)).1
      omega

theorem NodeRep.nodeList_eq {g : DAGraph0} {L F : List Int} (h : NodeRep g L F) :
    g.nodeList = .ok L := by
  unfold nodeList firstNode
  refine walk_of_seg (fld NodeT.next g.nodes_) (fun x n hx => rd_field_ok hx) _ _ _ h.live ?_
  have hnd : L.Nodup := (List.nodup_append.1 h.nodup).1
  have := length_le_of_nodup_range hnd (fun x hx => (h.cover x).1 (Or.inl hx))
  omega

theorem empty_nodeRep : NodeRep empty [] [] :=
  { live := rfl
    back := trivial
    free := rfl
    mark := fun f hf => by simp at hf
    nodup := by simp
    cover := fun i => by simp [empty] }

/-- The arc members leave the two node chains as they are. -/
theorem NodeRep.of_same {g g' : DAGraph0} {L F : List Int} (h : NodeRep g L F)
    (h1 : fld NodeT.next g'.nodes_ = fld NodeT.next g.nodes_)
    (h2 : fld NodeT.prev g'.nodes_ = fld NodeT.prev g.nodes_)
    (h3 : g'.first_node_ = g.first_node_) (h4 : g'.first_free_node_ = g.first_free_node_)
    (h5 : g'.nodes_.length = g.nodes_.length) : NodeRep g' L F :=
  { live := by rw [h1, h3]; exact h.live
    back := by rw [h2]; exact h.back
    free := by rw [h1, h4]; exact h.free
    mark := by rw [h2]; exact h.mark
    nodup := h.nodup
    cover := by rw [h5]; exact h.cover }

/-- The free chain at an allocation: empty when a slot is pushed, headed by the
allocated slot otherwise. -/
theorem NodeRep.alloc {g : DAGraph0} {L F : List Int} (h : NodeRep g L F)
    {n ffn : Int} {tn : List NodeT} (hal : NodeAlloc g n ffn tn) :
    ∃ F', (F = [] ∧ F' = [] ∧ n = (g.nodes_.length : Int) ∧ ffn = -1 ∨ F = n :: F') ∧
      Seg (fld NodeT.next g.nodes_) ffn F' (-1) ∧ n ∉ L ∧ n ∉ F' ∧ (L ++ F').Nodup ∧
      ∀ i, (i = n ∨ i ∈ L ∨ i ∈ F') ↔ (0 ≤ i ∧ i < (tn.length : Int)) := by
  rcases hal with ⟨h1, rfl, rfl, rfl⟩ | ⟨h1, rfl, h3, rfl⟩
  · have hF : F = [] := (Seg.head_neg_one h.free).1 h1
    subst hF
    refine ⟨[], Or.inl ⟨rfl, rfl, rfl, rfl⟩, rfl, ?_, by simp, h.nodup, ?_⟩
    · intro hL
      have := ((h.cover _).1 (Or.inl hL)).2
      omega
    · intro i
      have := h.cover i
      simp only [List.not_mem_nil, or_false] at this ⊢
      rw [this]
      simp only [List.length_append, List.length_singleton]
      push_cast
      omega
  · cases F with
    | nil => exact absurd h.free h1
    | cons x F' =>
      have hx : g.first_free_node_ = x := h.free.1
      obtain ⟨_, _, m, hm, hseg⟩ := h.free
      rw [← hx] at hm
      rw [h3] at hm
      have hmf : ffn = m := Option.some.inj hm
      have hnd := List.nodup_middle.1 h.nodup
      rw [← hx] at hnd
      have hnd' := List.nodup_cons.1 hnd
      refine ⟨F', Or.inr (by rw [hx]), by rw [hmf]; exact hseg, ?_, ?_, hnd'.2, ?_⟩
      · exact fun hL => hnd'.1 (List.mem_append_left _ hL)
      · exact fun hF => hnd'.1 (List.mem_append_right _ hF)
      · intro i
        rw [← h.cover i, ← hx]
        simp only [List.mem_cons]
        tauto

/-- After `addNode` the allocated slot is the head of the live chain. -/
theorem NodeRep.addNode {g : DAGraph0} {L F : List Int} (h : NodeRep g L F)
    {n ffn : Int} {tn : List NodeT} (hal : NodeAlloc g n ffn tn) :
    ∃ F', (F = [] ∧ F' = [] ∧ n = (g.nodes_.length : Int) ∧ ffn = -1 ∨ F = n :: F') ∧
      NodeRep (nodeAdded g n ffn tn) (n :: L) F' := by
  obtain ⟨F', hF, hseg, hnL, hnF, hnd, hcov⟩ := h.alloc hal
  have hsub : ∀ f ∈ F', f ∈ F := by
    intro f hf
    rcases hF with ⟨_, h2, _⟩ | h2
    · rw [h2] at hf; simp at hf
    · rw [h2]; exact List.mem_cons_of_mem _ hf
  obtain ⟨hn, _, _⟩ := hal.range
  have hLnd : L.Nodup := (List.nodup_append.1 h.nodup).1
  have hLr : ∀ y ∈ L, 0 ≤ y ∧ y < (tn.length : Int) := fun y hy =>
    (hcov y).1 (Or.inr (Or.inl hy))
  have hneL : ∀ y ∈ L, y ≠ n := fun y hy hyn => hnL (hyn ▸ hy)
  have hneF : ∀ y ∈ F', y ≠ n := fun y hy hyn => hnF (hyn ▸ hy)
  have hfnL : g.first_node_ = -1 ∨ g.first_node_ ∈ L := by
    cases L with
    | nil => exact Or.inl h.live
    | cons x L => right; rw [h.live.1]; simp
  have hpush := push_front (fld NodeT.next (nodeAdded g n ffn tn).nodes_)
    (fld NodeT.prev (nodeAdded g n ffn tn).nodes_) (x := n)
    h.live h.back hLnd (by omega)
    (by rw [nodeAdded_next, if_pos rfl, if_pos hn])
    (by rw [nodeAdded_prev, if_pos rfl, if_pos hn])
    (fun y hy => by rw [nodeAdded_next, if_neg (hneL y hy), hal.node_frame _ (hneL y hy)])
    (fun y hy hyc => by
      rw [nodeAdded_prev, if_neg (hneL y hy), if_neg hyc, hal.node_frame _ (hneL y hy)])
    (fun hc => by rw [nodeAdded_prev, if_neg (hneL _ hc), if_pos rfl, if_pos (hLr _ hc)])
  refine ⟨F', hF,
    { live := hpush.1
      back := hpush.2
      free := ?_
      mark := ?_
      nodup := ?_
      cover := ?_ }⟩
  · refine Seg.frame (fun y hy => ?_) hseg
    rw [nodeAdded_next, if_neg (hneF y hy), hal.node_frame _ (hneF y hy)]
  · intro f hf
    have hfL : f ∉ L := fun hL => (List.nodup_append.1 hnd).2.2 hL hf
    have hf0 : 0 ≤ f := ((hcov f).1 (Or.inr (Or.inr hf))).1
    have hffn : f ≠ g.first_node_ := by
      rcases hfnL with h1 | h1
      · omega
      · exact fun h2 => hfL (h2 ▸ h1)
    rw [nodeAdded_prev, if_neg (hneF f hf), if_neg hffn, hal.node_frame _ (hneF f hf)]
    exact h.mark f (hsub f hf)
  · rw [List.cons_append]
    refine List.nodup_cons.2 ⟨?_, hnd⟩
    intro hm
    rcases List.mem_append.1 hm with h1 | h1
    · exact hnL h1
    · exact hnF h1
  · intro i
    rw [nodeAdded_length, ← hcov i]
    simp only [List.mem_cons]
    tauto

/-- After `erase(Node(n))` the slot `n` has left the live chain and heads the
free chain. -/
theorem NodeRep.eraseNode {g : DAGraph0} {L F : List Int} (h : NodeRep g L F)
    {n nx pv : Int} (hn : g.validNode n = true)
    (hnx : fld NodeT.next g.nodes_ n = some nx) (hpv : fld NodeT.prev g.nodes_ n = some pv) :
    NodeRep (nodeErased g n nx pv) (L.erase n) (n :: F) := by
  have hnL : n ∈ L := (h.valid_iff n).1 hn
  have hnr := fld_ge hnx
  have hLnd : L.Nodup := (List.nodup_append.1 h.nodup).1
  have hm1 : (-1 : Int) ∉ L := fun hm => Seg.ne_neg_one h.live _ hm rfl
  have hLr : ∀ y ∈ L, 0 ≤ y ∧ y < (g.nodes_.length : Int) := fun y hy =>
    (h.cover y).1 (Or.inl hy)
  have hFr : ∀ y ∈ F, 0 ≤ y ∧ y < (g.nodes_.length : Int) := fun y hy =>
    (h.cover y).1 (Or.inr hy)
  have hdis : ∀ y ∈ F, y ∉ L := fun y hy hL => (List.nodup_append.1 h.nodup).2.2 hL hy
  have hnxm := Seg.next_mem h.live hnL hnx
  have hpvm := Back.prev_mem h.back hnL hpv
  have hun := unlink (fld NodeT.next (nodeErased g n nx pv).nodes_)
    (fld NodeT.prev (nodeErased g n nx pv).nodes_) h.live h.back hLnd hnL hnx hpv
    (fun j hj hjn => by
      rw [nodeErased_next, if_neg hjn]
      by_cases hjp : j = pv
      · rw [if_pos hjp, if_pos hjp, if_pos (hjp ▸ hLr j hj)]
      · rw [if_neg hjp, if_neg hjp])
    (fun j hj hjn => by
      rw [nodeErased_prev, if_neg hjn]
      by_cases hjx : j = nx
      · rw [if_pos hjx, if_pos hjx, if_pos (hjx ▸ hLr j hj)]
      · rw [if_neg hjx, if_neg hjx])
  have hFne : ∀ y ∈ F, y ≠ n ∧ y ≠ nx ∧ y ≠ pv := by
    intro y hy
    have h0 := (hFr y hy).1
    refine ⟨fun h1 => hdis y hy (h1 ▸ hnL), ?_, ?_⟩
    · rcases hnxm with h1 | h1
      · omega
      · exact fun h2 => hdis y hy (h2 ▸ h1)
    · rcases hpvm with h1 | h1
      · omega
      · exact fun h2 => hdis y hy (h2 ▸ h1)
  refine
    { live := hun.1
      back := hun.2
      free := ?_
      mark := ?_
      nodup := ?_
      cover := ?_ }
  · refine ⟨rfl, by omega, g.first_free_node_, ?_, ?_⟩
    · rw [nodeErased_next, if_pos rfl, if_pos hnr]
    · refine Seg.frame (fun y hy => ?_) h.free
      obtain ⟨h1, _, h3⟩ := hFne y hy
      rw [nodeErased_next, if_neg h1, if_neg h3]
  · intro f hf
    rcases List.mem_cons.1 hf with rfl | hf
    · rw [nodeErased_prev, if_pos rfl, if_pos hnr]
    · obtain ⟨h1, h2, _⟩ := hFne f hf
      rw [nodeErased_prev, if_neg h1, if_neg h2]
      exact h.mark f hf
  · refine List.nodup_middle.2 ?_
    rw [← List.erase_append_left _ hnL]
    exact (List.perm_cons_erase (List.mem_append_left _ hnL)).nodup_iff.1 h.nodup
  · intro i
    rw [nodeErased_length, ← h.cover i]
    simp only [List.mem_cons]
    by_cases hin : i = n
    · subst hin
      simp [hnL]
    · rw [List.mem_erase_of_ne hin]
      tauto

/-- The list of the model stays the live chain of the node table along a run
of calls on valid handles. -/
theorem runModel_ok :
    ∀ (ops : List Op) (g : DAGraph0) (ms F : List Int), Wf g → NodeRep g ms F →
      g.admits pre ops = true →
      ∃ g' ms' F', g.runModel ms ops = .ok (g', ms') ∧ g.run ops = .ok g' ∧ Wf g' ∧
        NodeRep g' ms' F'
  | [], g, ms, F, hw, hr, _ => ⟨g, ms, F, rfl, rfl, hw, hr⟩
  | op :: ops, g, ms, F, hw, hr, h => by
    simp only [admits, Bool.and_eq_true] at h
    obtain ⟨hp, h⟩ := h
    cases op with
    | addNode =>
      obtain ⟨n, ffn, tn, hal, he⟩ := addNode_eq hw
      obtain ⟨F1, _, hr1⟩ := hr.addNode hal
      have hs : g.step .addNode = .ok (nodeAdded g n ffn tn) := by
        simp only [step, he, ok_bind, pure_eq_ok]
      rw [hs] at h
      obtain ⟨g', ms', F', h1, h2, h3, h4⟩ :=
        runModel_ok ops _ _ F1 (nodeAdded_wf hw hal) hr1 h
      exact ⟨g', ms', F', by simp only [runModel, he, ok_bind, h1],
        by simp only [run, hs, ok_bind, h2], h3, h4⟩
    | addArc u v =>
      simp only [pre, Bool.and_eq_true] at hp
      obtain ⟨a, ffa, t, fo, fi, hal, hfo, hfi, he⟩ := addArc_eq hw hp.1 hp.2
      have hs : g.step (.addArc u v) = .ok (arcAdded g u v a fo fi ffa t) := by
        simp only [step, he, ok_bind, pure_eq_ok]
      rw [hs] at h
      have hr1 : NodeRep (arcAdded g u v a fo fi ffa t) ms F :=
        hr.of_same (arcAdded_next _ _ _ _ _ _ _ _) (arcAdded_prev _ _ _ _ _ _ _ _) rfl rfl
          (arcAdded_nodes_length _ _ _ _ _ _ _ _)
      obtain ⟨g', ms', F', h1, h2, h3, h4⟩ :=
        runModel_ok ops _ _ F (arcAdded_wf hw hal hfo hfi) hr1 h
      exact ⟨g', ms', F', by simp only [runModel, he, ok_bind, h1],
        by simp only [run, hs, ok_bind, h2], h3, h4⟩
    | eraseNode n =>
      obtain ⟨nx, pv, hnx, hpv, _, he⟩ := eraseNode_ok hw hp
      have hs : g.step (.eraseNode n) = .ok (nodeErased g n nx pv) := he
      rw [hs] at h
      obtain ⟨g', ms', F', h1, h2, h3, h4⟩ :=
        runModel_ok ops _ _ _ (nodeErased_wf hw hnx hpv) (hr.eraseNode hp hnx hpv) h
      exact ⟨g', ms', F', by simp only [runModel, he, ok_bind, h1],
        by simp only [run, hs, ok_bind, h2], h3, h4⟩
    | eraseArc a =>
      obtain ⟨s, hsl, _, he⟩ := eraseArc_ok hw hp
      have hs : g.step (.eraseArc a) = .ok (arcErased g a s) := he
      rw [hs] at h
      have hr1 : NodeRep (arcErased g a s) ms F :=
        hr.of_same (arcErased_next _ _ _) (arcErased_prev _ _ _) rfl rfl
          (arcErased_nodes_length _ _ _)
      obtain ⟨g', ms', F', h1, h2, h3, h4⟩ :=
        runModel_ok ops _ _ F (arcErased_wf hw hsl) hr1 h
      exact ⟨g', ms', F', by simp only [runModel, he, ok_bind, h1],
        by simp only [run, hs, ok_bind, h2], h3, h4⟩

end DAGraph0

/-- C6. For every sequence of `addNode`, `addArc` on valid nodes, `erase` of a
valid arc and `erase` of a valid node from the empty graph, all the calls
return, and the nodes visited from `firstNode()` by `next(Node)` up to the
invalid node are the list of the model: `addNode` returning `n` puts `n` in
front, `erase(n)` removes `n`, the arc members leave it alone.  The traversal
visits exactly the valid nodes, each once, the most recently added first. -/
theorem node_traversal_is_model (ops : List DAGraph0.Op)
    (hadm : DAGraph0.empty.admits DAGraph0.pre ops = true) :
    ∃ g ms, DAGraph0.empty.runModel [] ops = .ok (g, ms) ∧ DAGraph0.empty.run ops = .ok g ∧
      g.nodeList = .ok ms ∧ ms.Nodup ∧ ∀ n, n ∈ ms ↔ g.validNode n = true := by
  obtain ⟨g, ms, F, h1, h2, _, h4⟩ :=
    DAGraph0.runModel_ok ops DAGraph0.empty [] [] DAGraph0.empty_wf DAGraph0.empty_nodeRep hadm
  exact ⟨g, ms, h1, h2, h4.nodeList_eq, (List.nodup_append.1 h4.nodup).1,
    fun n => (h4.valid_iff n).symm⟩

/-- A run for C6 that reuses an erased node slot and adds and erases arcs. -/
theorem node_traversal_is_model_witness :
    DAGraph0.empty.admits DAGraph0.pre
      [.addNode, .addNode, .addArc 0 1, .addNode, .eraseNode 1, .addNode, .eraseArc 0] = true ∧
    (∃ g ms, DAGraph0.empty.runModel []
        [.addNode, .addNode, .addArc 0 1, .addNode, .eraseNode 1, .addNode, .eraseArc 0]
        = .ok (g, ms) ∧
      DAGraph0.empty.run
        [.addNode, .addNode, .addArc 0 1, .addNode, .eraseNode 1, .addNode, .eraseArc 0]
        = .ok g ∧
      g.nodeList = .ok ms ∧ ms.Nodup ∧ ∀ n, n ∈ ms ↔ g.validNode n = true) ∧
    (DAGraph0.empty.run
        [.addNode, .addNode, .addArc 0 1, .addNode, .eraseNode 1, .addNode, .eraseArc 0]).bind
      (fun g => g.nodeList) = .ok [1, 2, 0] :=
  ⟨by decide, node_traversal_is_model _ (by decide), by decide⟩

/-- The head of a chain that ends at `-1` is `-1` or a slot of the chain. -/
theorem Seg.head_mem {nx : Int → Option Int} {c : Int} {l : List Int}
    (h : Seg nx c l (-1)) : c = -1 ∨ c ∈ l := by
  cases l with
  | nil => exact Or.inl h
  | cons x l => right; rw [h.1]; simp

/-- Two chains of a family that share an arc are the same chain. -/
theorem Fam.disjoint {hd nx pv key : Int → Option Int} {L : List Int} {lv : Int → Prop}
    {ch : Int → List Int} (h : Fam hd nx pv key L lv ch) {u w x : Int}
    (hu : u ∈ L) (hw : w ∈ L) (hxu : x ∈ ch u) (hxw : x ∈ ch w) : u = w := by
  have h1 := ((h.mem u hu x).1 hxu).2
  have h2 := ((h.mem w hw x).1 hxw).2
  rw [h1] at h2
  exact Option.some.inj h2

/-- A new node with no arcs joins a family with an empty chain. -/
theorem Fam.add_node {hd nx pv key : Int → Option Int} {L : List Int} {lv : Int → Prop}
    {ch : Int → List Int} (h : Fam hd nx pv key L lv ch) (hd' : Int → Option Int) {n : Int}
    (hn : n ∉ L) (hhn : hd' n = some (-1)) (hhd : ∀ j ∈ L, hd' j = hd j) :
    Fam hd' nx pv key (n :: L) lv (Function.update ch n []) := by
  have hne : ∀ u ∈ L, u ≠ n := fun u hu hun => hn (hun ▸ hu)
  have hch : ∀ u ∈ L, Function.update ch n [] u = ch u := fun u hu =>
    Function.update_noteq (hne u hu) _ _
  refine
    { seg := ?_
      back := ?_
      nodup := ?_
      mem := ?_
      ends := fun a ha => by
        obtain ⟨u, hu, hk⟩ := h.ends a ha
        exact ⟨u, List.mem_cons_of_mem _ hu, hk⟩ }
  · intro u hu
    rcases List.mem_cons.1 hu with rfl | hu
    · exact ⟨-1, hhn, by rw [Function.update_same]; rfl⟩
    · rw [hch u hu, hhd u hu]; exact h.seg u hu
  · intro u hu
    rcases List.mem_cons.1 hu with rfl | hu
    · rw [Function.update_same]; trivial
    · rw [hch u hu]; exact h.back u hu
  · intro u hu
    rcases List.mem_cons.1 hu with rfl | hu
    · rw [Function.update_same]; exact List.nodup_nil
    · rw [hch u hu]; exact h.nodup u hu
  · intro u hu a
    rcases List.mem_cons.1 hu with rfl | hu
    · rw [Function.update_same]
      simp only [List.not_mem_nil, false_iff, not_and]
      intro ha hk
      obtain ⟨w, hw, hk'⟩ := h.ends a ha
      rw [hk] at hk'
      exact hn ((Option.some.inj hk') ▸ hw)
    · rw [hch u hu]; exact h.mem u hu a

/-- A node whose chain is empty leaves a family. -/
theorem Fam.erase_node {hd nx pv key : Int → Option Int} {L : List Int} {lv : Int → Prop}
    {ch : Int → List Int} (h : Fam hd nx pv key L lv ch) (hd' : Int → Option Int) {n : Int}
    (hn : n ∈ L) (hhn : hd n = some (-1)) (hhd : ∀ j ∈ L, hd' j = hd j) :
    Fam hd' nx pv key (L.erase n) lv ch := by
  have hsub : ∀ u ∈ L.erase n, u ∈ L := fun u hu => List.mem_of_mem_erase hu
  have hempty : ch n = [] := by
    obtain ⟨c, hc, hs⟩ := h.seg n hn
    rw [hhn] at hc
    exact (Seg.head_neg_one hs).1 (Option.some.inj hc).symm
  refine
    { seg := fun u hu => by rw [hhd u (hsub u hu)]; exact h.seg u (hsub u hu)
      back := fun u hu => h.back u (hsub u hu)
      nodup := fun u hu => h.nodup u (hsub u hu)
      mem := fun u hu => h.mem u (hsub u hu)
      ends := ?_ }
  intro a ha
  obtain ⟨u, hu, hk⟩ := h.ends a ha
  refine ⟨u, ?_, hk⟩
  by_cases hun : u = n
  · subst hun
    have := (h.mem u hu a).2 ⟨ha, hk⟩
    rw [hempty] at this
    simp at this
  · exact (List.mem_erase_of_ne hun).2 hu

/-- A new arc `a` with the end `u` joins a family at the head of the chain of `u`. -/
theorem Fam.push {hd nx pv key : Int → Option Int} {L : List Int} {lv : Int → Prop}
    {ch : Int → List Int} (h : Fam hd nx pv key L lv ch)
    (hd' nx' pv' key' : Int → Option Int) (lv' : Int → Prop) {u a f : Int}
    (hu : u ∈ L) (ha : ¬ lv a) (ha1 : a ≠ -1) (hf : hd u = some f)
    (hlv : ∀ x, lv' x ↔ (x = a ∨ lv x))
    (hhdu : hd' u = some a) (hhd : ∀ j ∈ L, j ≠ u → hd' j = hd j)
    (hnxa : nx' a = some f) (hnx : ∀ j, lv j → nx' j = nx j)
    (hpva : pv' a = some (-1)) (hpv : ∀ j, lv j → pv' j = if j = f then some a else pv j)
    (hkeya : key' a = some u) (hkey : ∀ j, lv j → key' j = key j) :
    Fam hd' nx' pv' key' L lv' (Function.update ch u (a :: ch u)) := by
  obtain ⟨c, hc, hsu⟩ := h.seg u hu
  rw [hf] at hc
  have hcf : f = c := Option.some.inj hc
  subst hcf
  have hlive : ∀ w ∈ L, ∀ y ∈ ch w, lv y := fun w hw y hy => ((h.mem w hw y).1 hy).1
  have hane : ∀ w ∈ L, ∀ y ∈ ch w, y ≠ a := fun w hw y hy hya =>
    ha (hya ▸ hlive w hw y hy)
  have hch : ∀ w, w ≠ u → Function.update ch u (a :: ch u) w = ch w := fun w hw =>
    Function.update_noteq hw _ _
  have hpushed := push_front nx' pv' (x := a) hsu (h.back u hu) (h.nodup u hu) ha1 hnxa hpva
    (fun y hy => hnx y (hlive u hu y hy))
    (fun y hy hyf => by rw [hpv y (hlive u hu y hy), if_neg hyf])
    (fun hfm => by rw [hpv f (hlive u hu f hfm), if_pos rfl])
  refine
    { seg := ?_
      back := ?_
      nodup := ?_
      mem := ?_
      ends := ?_ }
  · intro w hw
    by_cases hwu : w = u
    · subst hwu
      exact ⟨a, hhdu, by rw [Function.update_same]; exact hpushed.1⟩
    · obtain ⟨c, hc, hs⟩ := h.seg w hw
      refine ⟨c, by rw [hhd w hw hwu]; exact hc, ?_⟩
      rw [hch w hwu]
      exact Seg.frame (fun y hy => hnx y (hlive w hw y hy)) hs
  · intro w hw
    by_cases hwu : w = u
    · subst hwu
      rw [Function.update_same]; exact hpushed.2
    · rw [hch w hwu]
      refine Back.frame_back (fun y hy => ?_) (h.back w hw)
      have hyf : y ≠ f := by
        rcases Seg.head_mem hsu with h1 | h1
        · rw [h1]
          obtain ⟨c, _, hs⟩ := h.seg w hw
          exact Seg.ne_neg_one hs y hy
        · exact fun hyf => hwu (h.disjoint hw hu hy (hyf ▸ h1))
      rw [hpv y (hlive w hw y hy), if_neg hyf]
  · intro w hw
    by_cases hwu : w = u
    · subst hwu
      rw [Function.update_same]
      exact List.nodup_cons.2 ⟨fun hm => hane w hw a hm rfl, h.nodup w hw⟩
    · rw [hch w hwu]; exact h.nodup w hw
  · intro w hw x
    by_cases hxa : x = a
    · subst hxa
      rw [hkeya]
      by_cases hwu : w = u
      · subst hwu
        rw [Function.update_same]
        simp [hlv]
      · rw [hch w hwu]
        constructor
        · intro hm; exact absurd rfl (hane w hw x hm)
        · rintro ⟨_, hk⟩; exact absurd (Option.some.inj hk).symm hwu
    · have hlx : lv' x ↔ lv x := by rw [hlv]; simp [hxa]
      rw [hlx]
      by_cases hwu : w = u
      · subst hwu
        rw [Function.update_same, List.mem_cons, h.mem w hw x]
        constructor
        · rintro (h1 | ⟨h1, h2⟩)
          · exact absurd h1 hxa
          · exact ⟨h1, by rw [hkey x h1]; exact h2⟩
        · rintro ⟨h1, h2⟩
          exact Or.inr ⟨h1, by rw [← hkey x h1]; exact h2⟩
      · rw [hch w hwu, h.mem w hw x]
        constructor
        · rintro ⟨h1, h2⟩; exact ⟨h1, by rw [hkey x h1]; exact h2⟩
        · rintro ⟨h1, h2⟩; exact ⟨h1, by rw [← hkey x h1]; exact h2⟩
  · intro x hx
    rcases (hlv x).1 hx with rfl | hx
    · exact ⟨u, hu, hkeya⟩
    · obtain ⟨w, hw, hk⟩ := h.ends x hx
      exact ⟨w, hw, by rw [hkey x hx]; exact hk⟩

/-- The arc `a` with the end `u` leaves a family: it is taken out of the chain
of `u`. -/
theorem Fam.erase_arc {hd nx pv key : Int → Option Int} {L : List Int} {lv : Int → Prop}
    {ch : Int → List Int} (h : Fam hd nx pv key L lv ch)
    (hd' nx' pv' key' : Int → Option Int) (lv' : Int → Prop) {u a f n p : Int}
    (hu : u ∈ L) (hla : lv a) (hka : key a = some u) (hf : hd u = some f)
    (hn : nx a = some n) (hp : pv a = some p)
    (hlv : ∀ x, lv' x ↔ (lv x ∧ x ≠ a))
    (hhdu : hd' u = some (if p = -1 then n else f)) (hhd : ∀ j ∈ L, j ≠ u → hd' j = hd j)
    (hnx : ∀ j, lv j → j ≠ a → nx' j = if j = p then some n else nx j)
    (hpv : ∀ j, lv j → j ≠ a → pv' j = if j = n then some p else pv j)
    (hkey : ∀ j, lv j → j ≠ a → key' j = key j) :
    Fam hd' nx' pv' key' L lv' (Function.update ch u ((ch u).erase a)) := by
  obtain ⟨c, hc, hsu⟩ := h.seg u hu
  rw [hf] at hc
  have hcf : f = c := Option.some.inj hc
  subst hcf
  have hau : a ∈ ch u := (h.mem u hu a).2 ⟨hla, hka⟩
  have hlive : ∀ w ∈ L, ∀ y ∈ ch w, lv y := fun w hw y hy => ((h.mem w hw y).1 hy).1
  have hch : ∀ w, w ≠ u → Function.update ch u ((ch u).erase a) w = ch w := fun w hw =>
    Function.update_noteq hw _ _
  have hother : ∀ w ∈ L, w ≠ u → ∀ y ∈ ch w, y ≠ a ∧ y ≠ p ∧ y ≠ n := by
    intro w hw hwu y hy
    have hy1 : y ≠ -1 := by
      obtain ⟨c, _, hs⟩ := h.seg w hw
      exact Seg.ne_neg_one hs y hy
    refine ⟨fun hya => hwu (h.disjoint hw hu hy (hya ▸ hau)), ?_, ?_⟩
    · rcases Back.prev_mem (h.back u hu) hau hp with h1 | h1
      · rw [h1]; exact hy1
      · exact fun hyp => hwu (h.disjoint hw hu hy (hyp ▸ h1))
    · rcases Seg.next_mem hsu hau hn with h1 | h1
      · rw [h1]; exact hy1
      · exact fun hyn => hwu (h.disjoint hw hu hy (hyn ▸ h1))
  have hun := unlink nx' pv' hsu (h.back u hu) (h.nodup u hu) hau hn hp
    (fun j hj hja => hnx j (hlive u hu j hj) hja)
    (fun j hj hja => hpv j (hlive u hu j hj) hja)
  refine
    { seg := ?_
      back := ?_
      nodup := ?_
      mem := ?_
      ends := ?_ }
  · intro w hw
    by_cases hwu : w = u
    · subst hwu
      exact ⟨_, hhdu, by rw [Function.update_same]; exact hun.1⟩
    · obtain ⟨c, hc, hs⟩ := h.seg w hw
      refine ⟨c, by rw [hhd w hw hwu]; exact hc, ?_⟩
      rw [hch w hwu]
      refine Seg.frame (fun y hy => ?_) hs
      obtain ⟨h1, h2, _⟩ := hother w hw hwu y hy
      rw [hnx y (hlive w hw y hy) h1, if_neg h2]
  · intro w hw
    by_cases hwu : w = u
    · subst hwu
      rw [Function.update_same]; exact hun.2
    · rw [hch w hwu]
      refine Back.frame_back (fun y hy => ?_) (h.back w hw)
      obtain ⟨h1, _, h3⟩ := hother w hw hwu y hy
      rw [hpv y (hlive w hw y hy) h1, if_neg h3]
  · intro w hw
    by_cases hwu : w = u
    · subst hwu
      rw [Function.update_same]
      exact (h.nodup w hw).erase a
    · rw [hch w hwu]; exact h.nodup w hw
  · intro w hw x
    rw [hlv]
    by_cases hwu : w = u
    · subst hwu
      rw [Function.update_same, (h.nodup w hw).mem_erase_iff, h.mem w hw x]
      constructor
      · rintro ⟨h1, h2, h3⟩
        exact ⟨⟨h2, h1⟩, by rw [hkey x h2 h1]; exact h3⟩
      · rintro ⟨⟨h2, h1⟩, h3⟩
        exact ⟨h1, h2, by rw [← hkey x h2 h1]; exact h3⟩
    · rw [hch w hwu, h.mem w hw x]
      constructor
      · rintro ⟨h1, h2⟩
        have hxa : x ≠ a := by
          rintro rfl
          rw [hka] at h2
          exact hwu (Option.some.inj h2).symm
        exact ⟨⟨h1, hxa⟩, by rw [hkey x h1 hxa]; exact h2⟩
      · rintro ⟨⟨h1, hxa⟩, h2⟩
        exact ⟨h1, by rw [← hkey x h1 hxa]; exact h2⟩
  · intro x hx
    obtain ⟨hx1, hxa⟩ := (hlv x).1 hx
    obtain ⟨w, hw, hk⟩ := h.ends x hx1
    exact ⟨w, hw, by rw [hkey x hx1 hxa]; exact hk⟩

namespace DAGraph0

theorem empty_arcRep : ArcRep empty [] [] (fun _ => []) (fun _ => []) :=
  { free := rfl
    mark := fun f hf => by simp at hf
    fnodup := List.nodup_nil
    out :=
      { seg := fun u hu => by simp at hu
        back := fun u hu => by simp at hu
        nodup := fun u hu => by simp at hu
        mem := fun u hu => by simp at hu
        ends := fun a ha => by
          have := ha.1
          simp [empty] at this
          omega }
    inn :=
      { seg := fun u hu => by simp at hu
        back := fun u hu => by simp at hu
        nodup := fun u hu => by simp at hu
        mem := fun u hu => by simp at hu
        ends := fun a ha => by
          have := ha.1
          simp [empty] at this
          omega } }

/-- The valid arcs are the arc slots in use. -/
theorem ArcRep.valid_arc_iff {g : DAGraph0} {L FA : List Int} {outs ins : Int → List Int}
    (h : ArcRep g L FA outs ins) (a : Int) :
    g.validArc a = true ↔ Live g.arcs_.length FA a := by
  rw [validArc_iff]
  constructor
  · rintro ⟨v, hv, hv2⟩
    refine ⟨fld_ge hv, fun hF => ?_⟩
    rw [h.mark a hF] at hv
    exact hv2 (Option.some.inj hv).symm
  · intro hl
    obtain ⟨w, hw, hk⟩ := h.inn.ends a hl
    have ham : a ∈ ins w := (h.inn.mem w hw a).2 ⟨hl, hk⟩
    obtain ⟨p, hp⟩ := Back.back_dom (h.inn.back w hw) a ham
    refine ⟨p, hp, ?_⟩
    rcases Back.prev_mem (h.inn.back w hw) ham hp with h1 | h1
    · omega
    · have := ((h.inn.mem w hw p).1 h1).1.1.1
      omega

/-- The arcs are as they were after `addNode`, and the new node has no arcs. -/
theorem ArcRep.arcs_addNode {g : DAGraph0} {L FA : List Int} {outs ins : Int → List Int}
    (h : ArcRep g L FA outs ins) {n ffn : Int} {tn : List NodeT}
    (hal : NodeAlloc g n ffn tn) (hn : n ∉ L) :
    ArcRep (nodeAdded g n ffn tn) (n :: L) FA (Function.update outs n [])
      (Function.update ins n []) := by
  have hr := hal.range.1
  have hne : ∀ j ∈ L, j ≠ n := fun j hj hjn => hn (hjn ▸ hj)
  exact
    { free := h.free
      mark := h.mark
      fnodup := h.fnodup
      out := h.out.add_node _ hn
        (by rw [nodeAdded_first_out, if_pos rfl, if_pos hr])
        (fun j hj => by rw [nodeAdded_first_out, if_neg (hne j hj), hal.node_frame _ (hne j hj)])
      inn := h.inn.add_node _ hn
        (by rw [nodeAdded_first_in, if_pos rfl, if_pos hr])
        (fun j hj => by rw [nodeAdded_first_in, if_neg (hne j hj), hal.node_frame _ (hne j hj)]) }

/-- The arcs are as they were after `erase` of a node without arcs. -/
theorem ArcRep.arcs_eraseNode {g : DAGraph0} {L FA : List Int} {outs ins : Int → List Int}
    (h : ArcRep g L FA outs ins) {n : Int} (nx pv : Int) (hn : n ∈ L)
    (hfi : fld NodeT.first_in g.nodes_ n = some (-1))
    (hfo : fld NodeT.first_out g.nodes_ n = some (-1)) :
    ArcRep (nodeErased g n nx pv) (L.erase n) FA outs ins :=
  { free := h.free
    mark := h.mark
    fnodup := h.fnodup
    out := h.out.erase_node _ hn hfo (fun j _ => by rw [nodeErased_first_out])
    inn := h.inn.erase_node _ hn hfi (fun j _ => by rw [nodeErased_first_in]) }

/-- The free chain of arcs at an allocation. -/
theorem ArcRep.arc_alloc {g : DAGraph0} {L FA : List Int} {outs ins : Int → List Int}
    (h : ArcRep g L FA outs ins) {a ffa : Int} {t : List ArcT} (hal : ArcAlloc g a ffa t) :
    ∃ FA', (FA = [] ∧ FA' = [] ∨ FA = a :: FA') ∧
      Seg (fld ArcT.next_in g.arcs_) ffa FA' (-1) ∧ a ∉ FA' ∧ FA'.Nodup ∧
      ¬ Live g.arcs_.length FA a ∧
      ∀ x, Live t.length FA' x ↔ (x = a ∨ Live g.arcs_.length FA x) := by
  have hFr : ∀ f ∈ FA, 0 ≤ f ∧ f < (g.arcs_.length : Int) := fun f hf => fld_ge (h.mark f hf)
  rcases hal with ⟨h1, rfl, rfl, rfl⟩ | ⟨h1, rfl, h3, rfl⟩
  · have hF : FA = [] := (Seg.head_neg_one h.free).1 h1
    subst hF
    refine ⟨[], Or.inl ⟨rfl, rfl⟩, rfl, by simp, List.nodup_nil, ?_, ?_⟩
    · intro hl
      have := hl.1.2
      omega
    · intro x
      unfold Live
      simp only [List.not_mem_nil, not_false_eq_true, and_true, List.length_append,
        List.length_singleton]
      push_cast
      omega
  · cases FA with
    | nil => exact absurd h.free h1
    | cons x FA' =>
      have hx : g.first_free_arc_ = x := h.free.1
      obtain ⟨_, _, m, hm, hseg⟩ := h.free
      rw [← hx, h3] at hm
      have hmf : ffa = m := Option.some.inj hm
      have hnd := List.nodup_cons.1 h.fnodup
      rw [← hx] at hnd
      refine ⟨FA', Or.inr (by rw [hx]), by rw [hmf]; exact hseg, hnd.1, hnd.2, ?_, ?_⟩
      · intro hl
        exact hl.2 (by rw [hx]; simp)
      · intro x'
        unfold Live
        have hxr := hFr x (by simp)
        rw [← hx] at hxr
        simp only [List.mem_cons, not_or]
        by_cases hxa : x' = g.first_free_arc_
        · rw [hxa]
          simp only [true_or, iff_true]
          exact ⟨hxr, hnd.1⟩
        · rw [← hx]
          simp only [hxa, not_false_eq_true, true_and, false_or]

end DAGraph0

/-- The head of a chain of a family is `-1` or a live arc. -/
theorem Fam.head_live {hd nx pv key : Int → Option Int} {L : List Int} {lv : Int → Prop}
    {ch : Int → List Int} (h : Fam hd nx pv key L lv ch) {u f : Int} (hu : u ∈ L)
    (hf : hd u = some f) : f = -1 ∨ lv f := by
  obtain ⟨c, hc, hs⟩ := h.seg u hu
  rw [hf] at hc
  have hcf : f = c := Option.some.inj hc
  subst hcf
  rcases Seg.head_mem hs with h1 | h1
  · exact Or.inl h1
  · exact Or.inr ((h.mem u hu f).1 h1).1

/-- The successor of a live arc on its chain is `-1` or a live arc. -/
theorem Fam.next_live {hd nx pv key : Int → Option Int} {L : List Int} {lv : Int → Prop}
    {ch : Int → List Int} (h : Fam hd nx pv key L lv ch) {a n : Int} (ha : lv a)
    (hn : nx a = some n) : n = -1 ∨ lv n := by
  obtain ⟨u, hu, hk⟩ := h.ends a ha
  obtain ⟨c, _, hs⟩ := h.seg u hu
  rcases Seg.next_mem hs ((h.mem u hu a).2 ⟨ha, hk⟩) hn with h1 | h1
  · exact Or.inl h1
  · exact Or.inr ((h.mem u hu n).1 h1).1

/-- The predecessor of a live arc on its chain is `-1` or a live arc. -/
theorem Fam.prev_live {hd nx pv key : Int → Option Int} {L : List Int} {lv : Int → Prop}
    {ch : Int → List Int} (h : Fam hd nx pv key L lv ch) {a p : Int} (ha : lv a)
    (hp : pv a = some p) : p = -1 ∨ lv p := by
  obtain ⟨u, hu, hk⟩ := h.ends a ha
  rcases Back.prev_mem (h.back u hu) ((h.mem u hu a).2 ⟨ha, hk⟩) hp with h1 | h1
  · exact Or.inl h1
  · exact Or.inr ((h.mem u hu p).1 h1).1

namespace DAGraph0

/-- The chains after `addArc(u, v)`: the new arc is in front of the outgoing
chain of `u` and of the incoming chain of `v`. -/
theorem ArcRep.arcs_addArc {g : DAGraph0} {L FA : List Int} {outs ins : Int → List Int}
    (h : ArcRep g L FA outs ins) {u v a ffa fo fi : Int} {t : List ArcT}
    (hal : ArcAlloc g a ffa t) (hu : u ∈ L) (hv : v ∈ L)
    (hfo : fld NodeT.first_out g.nodes_ u = some fo)
    (hfi : fld NodeT.first_in g.nodes_ v = some fi) :
    ∃ FA', (FA = [] ∧ FA' = [] ∨ FA = a :: FA') ∧
      ArcRep (arcAdded g u v a fo fi ffa t) L FA'
        (Function.update outs u (a :: outs u)) (Function.update ins v (a :: ins v)) := by
  obtain ⟨FA', hFA, hseg, haF, hnd, hnl, hlv⟩ := h.arc_alloc hal
  have hr := hal.arc_range
  have hur := fld_ge hfo
  have hvr := fld_ge hfi
  have hsub : ∀ f ∈ FA', f ∈ FA := by
    intro f hf
    rcases hFA with ⟨_, h2⟩ | h2
    · rw [h2] at hf; simp at hf
    · rw [h2]; exact List.mem_cons_of_mem _ hf
  have hlt : ∀ j, Live g.arcs_.length FA j → 0 ≤ j ∧ j < (t.length : Int) := by
    intro j hj
    have := hj.1
    omega
  have hnea : ∀ j, Live g.arcs_.length FA j → j ≠ a := fun j hj hja => hnl (hja ▸ hj)
  have hfoL := Fam.head_live h.out hu hfo
  have hfiL := Fam.head_live h.inn hv hfi
  have hlen : (arcAdded g u v a fo fi ffa t).arcs_.length = t.length :=
    arcAdded_arcs_length _ _ _ _ _ _ _ _
  refine ⟨FA', hFA, ?_⟩
  refine
    { free := ?_
      mark := ?_
      fnodup := hnd
      out := ?_
      inn := ?_ }
  · show Seg (fld ArcT.next_in (arcAdded g u v a fo fi ffa t).arcs_) ffa FA' (-1)
    refine Seg.frame (fun y hy => ?_) hseg
    have hya : y ≠ a := fun hya => haF (hya ▸ hy)
    rw [arcAdded_next_in, if_neg hya, hal.arc_frame _ hya]
  · intro f hf
    have hfa : f ≠ a := fun hfa => haF (hfa ▸ hf)
    have hffi : f ≠ fi := by
      intro hffi
      have hfr := fld_ge (h.mark f (hsub f hf))
      rcases hfiL with h1 | h1
      · omega
      · exact h1.2 (hffi ▸ hsub f hf)
    rw [arcAdded_prev_in, if_neg hfa, if_neg hffi, hal.arc_frame _ hfa]
    exact h.mark f (hsub f hf)
  · rw [hlen]
    refine h.out.push _ _ _ _ _ hu hnl (by omega) hfo hlv ?_ ?_ ?_ ?_ ?_ ?_ ?_ ?_
    · rw [arcAdded_first_out, if_pos rfl, if_pos hur]
    · intro j _ hj
      rw [arcAdded_first_out, if_neg hj]
    · rw [arcAdded_next_out, if_pos rfl, if_pos hr.1]
    · intro j hj
      rw [arcAdded_next_out, if_neg (hnea j hj), hal.arc_frame _ (hnea j hj)]
    · rw [arcAdded_prev_out, if_pos rfl, if_pos hr.1]
    · intro j hj
      rw [arcAdded_prev_out, if_neg (hnea j hj)]
      by_cases hjf : j = fo
      · rw [if_pos hjf, if_pos hjf, if_pos (hjf ▸ hlt j hj)]
      · rw [if_neg hjf, if_neg hjf, hal.arc_frame _ (hnea j hj)]
    · rw [arcAdded_source, if_pos rfl, if_pos hr.1]
    · intro j hj
      rw [arcAdded_source, if_neg (hnea j hj), hal.arc_frame _ (hnea j hj)]
  · rw [hlen]
    refine h.inn.push _ _ _ _ _ hv hnl (by omega) hfi hlv ?_ ?_ ?_ ?_ ?_ ?_ ?_ ?_
    · rw [arcAdded_first_in, if_pos rfl, if_pos hvr]
    · intro j _ hj
      rw [arcAdded_first_in, if_neg hj]
    · rw [arcAdded_next_in, if_pos rfl, if_pos hr.1]
    · intro j hj
      rw [arcAdded_next_in, if_neg (hnea j hj), hal.arc_frame _ (hnea j hj)]
    · rw [arcAdded_prev_in, if_pos rfl, if_pos hr.1]
    · intro j hj
      rw [arcAdded_prev_in, if_neg (hnea j hj)]
      by_cases hjf : j = fi
      · rw [if_pos hjf, if_pos hjf, if_pos (hjf ▸ hlt j hj)]
      · rw [if_neg hjf, if_neg hjf, hal.arc_frame _ (hnea j hj)]
    · rw [arcAdded_target, if_pos rfl, if_pos hr.1]
    · intro j hj
      rw [arcAdded_target, if_neg (hnea j hj), hal.arc_frame _ (hnea j hj)]

/-- The chains after `erase(Arc(a))`: the arc is gone from the outgoing chain of
its source and the incoming chain of its target, and heads the free arcs. -/
theorem ArcRep.arcs_eraseArc {g : DAGraph0} {L FA : List Int} {outs ins : Int → List Int}
    (h : ArcRep g L FA outs ins) {a : Int} {s : ArcT}
    (hs : look g.arcs_ a = some s) (hla : Live g.arcs_.length FA a) :
    s.source ∈ L ∧ s.target ∈ L ∧
    ArcRep (arcErased g a s) L (a :: FA)
      (Function.update outs s.source ((outs s.source).erase a))
      (Function.update ins s.target ((ins s.target).erase a)) := by
  have hsrc : fld ArcT.source g.arcs_ a = some s.source := fld_of_look _ hs
  have htgt : fld ArcT.target g.arcs_ a = some s.target := fld_of_look _ hs
  have hno : fld ArcT.next_out g.arcs_ a = some s.next_out := fld_of_look _ hs
  have hpo : fld ArcT.prev_out g.arcs_ a = some s.prev_out := fld_of_look _ hs
  have hni : fld ArcT.next_in g.arcs_ a = some s.next_in := fld_of_look _ hs
  have hpi : fld ArcT.prev_in g.arcs_ a = some s.prev_in := fld_of_look _ hs
  obtain ⟨u, hu, hku⟩ := h.out.ends a hla
  obtain ⟨v, hv, hkv⟩ := h.inn.ends a hla
  rw [hsrc] at hku
  rw [htgt] at hkv
  have hue : s.source = u := Option.some.inj hku
  have hve : s.target = v := Option.some.inj hkv
  rw [hue, hve]
  obtain ⟨fo, hfo, _⟩ := h.out.seg u hu
  obtain ⟨fi, hfi, _⟩ := h.inn.seg v hv
  have hur := fld_ge hfo
  have hvr := fld_ge hfi
  have hFr : ∀ f ∈ FA, 0 ≤ f ∧ f < (g.arcs_.length : Int) := fun f hf => fld_ge (h.mark f hf)
  have hFa : ∀ f ∈ FA, f ≠ a := fun f hf hfa => hla.2 (hfa ▸ hf)
  have hnoL := Fam.next_live h.out hla hno
  have hpoL := Fam.prev_live h.out hla hpo
  have hniL := Fam.next_live h.inn hla hni
  have hpiL := Fam.prev_live h.inn hla hpi
  have hoff : ∀ {x : Int}, (x = -1 ∨ Live g.arcs_.length FA x) → ∀ f ∈ FA, f ≠ x := by
    intro x hx f hf hfx
    rcases hx with h1 | h1
    · have := hFr f hf
      omega
    · exact h1.2 (hfx ▸ hf)
  have hLr : ∀ j ∈ L, j ≠ -1 := by
    intro j hj hj1
    obtain ⟨c, hc, _⟩ := h.out.seg j hj
    have := fld_ge hc
    omega
  have hlen : (arcErased g a s).arcs_.length = g.arcs_.length := arcErased_arcs_length _ _ _
  have hlv : ∀ x, Live g.arcs_.length (a :: FA) x ↔ (Live g.arcs_.length FA x ∧ x ≠ a) := by
    intro x
    unfold Live
    simp only [List.mem_cons, not_or]
    tauto
  refine ⟨hu, hv, ?_⟩
  refine
    { free := ?_
      mark := ?_
      fnodup := List.nodup_cons.2 ⟨hla.2, h.fnodup⟩
      out := ?_
      inn := ?_ }
  · show Seg (fld ArcT.next_in (arcErased g a s).arcs_) a (a :: FA) (-1)
    refine ⟨rfl, by have := hla.1; omega, g.first_free_arc_, ?_, ?_⟩
    · rw [arcErased_next_in, if_pos rfl, if_pos hla.1]
    · refine Seg.frame (fun y hy => ?_) h.free
      rw [arcErased_next_in, if_neg (hFa y hy), if_neg (hoff hpiL y hy)]
  · intro f hf
    rcases List.mem_cons.1 hf with rfl | hf
    · rw [arcErased_prev_in, if_pos rfl, if_pos hla.1]
    · rw [arcErased_prev_in, if_neg (hFa f hf), if_neg (hoff hniL f hf)]
      exact h.mark f hf
  · rw [hlen]
    refine h.out.erase_arc _ _ _ _ _ hu hla (hue ▸ hsrc) hfo hno hpo hlv ?_ ?_ ?_ ?_ ?_
    · rw [arcErased_first_out, hue]
      by_cases hp : s.prev_out = -1
      · rw [if_pos hp, if_pos rfl, if_pos hur, if_pos hp]
      · rw [if_neg hp, if_neg (hLr u hu), if_neg hp]
        exact hfo
    · intro j hj hju
      rw [arcErased_first_out, hue]
      by_cases hp : s.prev_out = -1
      · rw [if_pos hp, if_neg hju]
      · rw [if_neg hp, if_neg (hLr j hj)]
    · intro j hj _
      rw [arcErased_next_out]
      by_cases hjp : j = s.prev_out
      · rw [if_pos hjp, if_pos hjp, if_pos (hjp ▸ hj.1)]
      · rw [if_neg hjp, if_neg hjp]
    · intro j hj _
      rw [arcErased_prev_out]
      by_cases hjp : j = s.next_out
      · rw [if_pos hjp, if_pos hjp, if_pos (hjp ▸ hj.1)]
      · rw [if_neg hjp, if_neg hjp]
    · intro j _ _
      rw [arcErased_source]
  · rw [hlen]
    refine h.inn.erase_arc _ _ _ _ _ hv hla (hve ▸ htgt) hfi hni hpi hlv ?_ ?_ ?_ ?_ ?_
    · rw [arcErased_first_in, hve]
      by_cases hp : s.prev_in = -1
      · rw [if_pos hp, if_pos rfl, if_pos hvr, if_pos hp]
      · rw [if_neg hp, if_neg (hLr v hv), if_neg hp]
        exact hfi
    · intro j hj hjv
      rw [arcErased_first_in, hve]
      by_cases hp : s.prev_in = -1
      · rw [if_pos hp, if_neg hjv]
      · rw [if_neg hp, if_neg (hLr j hj)]
    · intro j hj hja
      rw [arcErased_next_in, if_neg hja]
      by_cases hjp : j = s.prev_in
      · rw [if_pos hjp, if_pos hjp, if_pos (hjp ▸ hj.1)]
      · rw [if_neg hjp, if_neg hjp]
    · intro j hj hja
      rw [arcErased_prev_in, if_neg hja]
      by_cases hjp : j = s.next_in
      · rw [if_pos hjp, if_pos hjp, if_pos (hjp ▸ hj.1)]
      · rw [if_neg hjp, if_neg hjp]
    · intro j _ _
      rw [arcErased_target]

theorem empty_rep : Rep empty [] [] [] (fun _ => []) (fun _ => []) :=
  ⟨empty_wf, empty_nodeRep, empty_arcRep⟩

/-- A strict call is a call on valid handles. -/
theorem pre_of_preStrict {g : DAGraph0} {op : Op} (h : g.preStrict op = true) :
    g.pre op = true := by
  cases op with
  | addNode => exact h
  | addArc u v => exact h
  | eraseArc a => exact h
  | eraseNode n =>
    simp only [preStrict, Bool.and_eq_true] at h
    exact h.1.1

theorem firstOut_eq_ok {g : DAGraph0} {n c : Int} :
    g.firstOut n = .ok c ↔ fld NodeT.first_out g.nodes_ n = some c :=
  rd_field_eq_ok

theorem firstIn_eq_ok {g : DAGraph0} {n c : Int} :
    g.firstIn n = .ok c ↔ fld NodeT.first_in g.nodes_ n = some c :=
  rd_field_eq_ok

/-- Every strict call returns and keeps the invariant. -/
theorem Rep.rep_step_ok {g : DAGraph0} {L F FA : List Int} {outs ins : Int → List Int}
    (h : Rep g L F FA outs ins) {op : Op} (hp : g.preStrict op = true) :
    ∃ g' L' F' FA' outs' ins', g.step op = .ok g' ∧ Rep g' L' F' FA' outs' ins' := by
  cases op with
  | addNode =>
    obtain ⟨n, ffn, tn, hal, he⟩ := addNode_eq h.wf
    obtain ⟨F1, _, hr1⟩ := h.nodes.addNode hal
    obtain ⟨_, _, _, hnL, _⟩ := h.nodes.alloc hal
    exact ⟨_, _, _, _, _, _, by simp only [step, he, ok_bind, pure_eq_ok],
      nodeAdded_wf h.wf hal, hr1, h.arcs.arcs_addNode hal hnL⟩
  | addArc u v =>
    simp only [preStrict, pre, Bool.and_eq_true] at hp
    obtain ⟨a, ffa, t, fo, fi, hal, hfo, hfi, he⟩ := addArc_eq h.wf hp.1 hp.2
    obtain ⟨FA', _, hr⟩ := h.arcs.arcs_addArc hal ((h.nodes.valid_iff u).1 hp.1)
      ((h.nodes.valid_iff v).1 hp.2) hfo hfi
    exact ⟨_, _, _, _, _, _, by simp only [step, he, ok_bind, pure_eq_ok],
      arcAdded_wf h.wf hal hfo hfi,
      h.nodes.of_same (arcAdded_next _ _ _ _ _ _ _ _) (arcAdded_prev _ _ _ _ _ _ _ _) rfl rfl
        (arcAdded_nodes_length _ _ _ _ _ _ _ _), hr⟩
  | eraseNode n =>
    simp only [preStrict, Bool.and_eq_true, decide_eq_true_eq] at hp
    obtain ⟨⟨hv, hfi⟩, hfo⟩ := hp
    obtain ⟨nx, pv, hnx, hpv, _, he⟩ := eraseNode_ok h.wf hv
    exact ⟨_, _, _, _, _, _, he, nodeErased_wf h.wf hnx hpv, h.nodes.eraseNode hv hnx hpv,
      h.arcs.arcs_eraseNode nx pv ((h.nodes.valid_iff n).1 hv) (firstIn_eq_ok.1 hfi)
        (firstOut_eq_ok.1 hfo)⟩
  | eraseArc a =>
    have hv : g.validArc a = true := hp
    obtain ⟨s, hsl, _, he⟩ := eraseArc_ok h.wf hv
    obtain ⟨_, _, hr⟩ := h.arcs.arcs_eraseArc hsl ((h.arcs.valid_arc_iff a).1 hv)
    exact ⟨_, _, _, _, _, _, he, arcErased_wf h.wf hsl,
      h.nodes.of_same (arcErased_next _ _ _) (arcErased_prev _ _ _) rfl rfl
        (arcErased_nodes_length _ _ _), hr⟩

/-- Every run of strict calls returns and keeps the invariant. -/
theorem Rep.rep_run_ok :
    ∀ (ops : List Op) {g : DAGraph0} {L F FA : List Int} {outs ins : Int → List Int},
      Rep g L F FA outs ins → g.admits preStrict ops = true →
      ∃ g' L' F' FA' outs' ins', g.run ops = .ok g' ∧ Rep g' L' F' FA' outs' ins'
  | [], g, L, F, FA, outs, ins, h, _ => ⟨g, L, F, FA, outs, ins, rfl, h⟩
  | op :: ops, g, L, F, FA, outs, ins, h, ha => by
    simp only [admits, Bool.and_eq_true] at ha
    obtain ⟨hp, ha⟩ := ha
    obtain ⟨g1, L1, F1, FA1, o1, i1, hs, hr⟩ := h.rep_step_ok hp
    rw [hs] at ha
    obtain ⟨g2, L2, F2, FA2, o2, i2, hs2, hr2⟩ := Rep.rep_run_ok ops hr ha
    exact ⟨g2, L2, F2, FA2, o2, i2, by simp only [run, hs, ok_bind, hs2], hr2⟩

/-- The states reached by strict calls from the empty graph. -/
theorem reach_rep {ops : List Op} {g : DAGraph0} (ha : empty.admits preStrict ops = true)
    (hr : empty.run ops = .ok g) :
    ∃ L F FA outs ins, Rep g L F FA outs ins := by
  obtain ⟨g', L, F, FA, outs, ins, h1, h2⟩ := Rep.rep_run_ok ops empty_rep ha
  rw [hr] at h1
  cases h1
  exact ⟨L, F, FA, outs, ins, h2⟩

/-- The chain of a family has no more arcs than the arc table has slots. -/
theorem chain_length_le {hd nx pv key : Int → Option Int} {L FA : List Int} {nA : Nat}
    {ch : Int → List Int} (h : Fam hd nx pv key L (Live nA FA) ch) {u : Int} (hu : u ∈ L) :
    (ch u).length ≤ nA :=
  length_le_of_nodup_range (h.nodup u hu) (fun x hx => ((h.mem u hu x).1 hx).1.1)

/-- The outgoing enumeration of a live node is its outgoing chain. -/
theorem ArcRep.outList_eq {g : DAGraph0} {L FA : List Int} {outs ins : Int → List Int}
    (h : ArcRep g L FA outs ins) {u : Int} (hu : u ∈ L) : g.outList u = .ok (outs u) := by
  obtain ⟨c, hc, hs⟩ := h.out.seg u hu
  unfold outList
  rw [firstOut_eq_ok.2 hc, ok_bind]
  refine walk_of_seg (fld ArcT.next_out g.arcs_) (fun x n hx => rd_field_ok hx) _ _ _ hs ?_
  have := chain_length_le h.out hu
  omega

/-- The incoming enumeration of a live node is its incoming chain. -/
theorem ArcRep.inList_eq {g : DAGraph0} {L FA : List Int} {outs ins : Int → List Int}
    (h : ArcRep g L FA outs ins) {u : Int} (hu : u ∈ L) : g.inList u = .ok (ins u) := by
  obtain ⟨c, hc, hs⟩ := h.inn.seg u hu
  unfold inList
  rw [firstIn_eq_ok.2 hc, ok_bind]
  refine walk_of_seg (fld ArcT.next_in g.arcs_) (fun x n hx => rd_field_ok hx) _ _ _ hs ?_
  have := chain_length_le h.inn hu
  omega

theorem nextArcView_ok {g : DAGraph0} (x n : Int) (h : g.nextArcView x = some n) :
    g.nextArc x = .ok n := by
  unfold nextArcView at h
  cases hx : g.nextArc x with
  | ok m => rw [hx] at h; rw [Option.some.inj h]
  | error e => rw [hx] at h; cases h

/-- The loop of `firstArc()` and `next(Arc)` from the node `n` of the chain
stops at the first arc of the rest of the chain. -/
theorem ArcRep.seekOut_eq {g : DAGraph0} {L FA : List Int} {outs ins : Int → List Int}
    (h : ArcRep g L FA outs ins) :
    ∀ (M : List Int) (n : Int) (fuel : Nat), Seg (fld NodeT.next g.nodes_) n M (-1) →
      (∀ u ∈ M, u ∈ L) → M.length < fuel →
      g.seekOut fuel n = .ok ((M.flatMap outs).headD (-1))
  | [], n, fuel, hs, _, hf => by
    have hn : n = -1 := hs
    cases fuel with
    | zero => simp at hf
    | succ f => simp [seekOut, hn]
  | x :: M, n, fuel, hs, hM, hf => by
    obtain ⟨hn, hx, m, hm, hs'⟩ := hs
    cases fuel with
    | zero => simp at hf
    | succ f =>
      obtain ⟨s, hsl, hsm⟩ := fld_eq_some.1 hm
      obtain ⟨c, hc, hseg⟩ := h.out.seg x (hM x (List.mem_cons_self _ _))
      obtain ⟨s2, hsl2, hsc⟩ := fld_eq_some.1 hc
      rw [hsl] at hsl2
      cases hsl2
      rw [seekOut, hn, if_neg hx, rd_of_look hsl, ok_bind]
      by_cases hc1 : s.first_out = -1
      · rw [if_pos hc1, hsm]
        have hnil : outs x = [] := (Seg.head_neg_one hseg).1 (by rw [← hsc]; exact hc1)
        rw [ArcRep.seekOut_eq h M m f hs' (fun u hu => hM u (List.mem_cons_of_mem _ hu))
          (by simpa using hf)]
        simp [List.flatMap_cons, hnil]
      · rw [if_neg hc1]
        cases ho : outs x with
        | nil =>
          rw [ho] at hseg
          exact absurd (by rw [hsc]; exact hseg) hc1
        | cons a l =>
          rw [ho] at hseg
          have : c = a := hseg.1
          simp [List.flatMap_cons, ho, pure_eq_ok, hsc, this]

/-- The arcs of the chains of the nodes `M`, taken in order, are linked by
`next(Arc)`. -/
theorem ArcRep.arc_seg {g : DAGraph0} {L FA : List Int} {outs ins : Int → List Int}
    (h : ArcRep g L FA outs ins) :
    ∀ (M : List Int) (n : Int), Seg (fld NodeT.next g.nodes_) n M (-1) →
      (∀ u ∈ M, u ∈ L) → M.length ≤ g.nodes_.length →
      Seg g.nextArcView ((M.flatMap outs).headD (-1)) (M.flatMap outs) (-1)
  | [], _, _, _, _ => rfl
  | x :: M, n, hs, hM, hlen => by
    obtain ⟨hn, hx, m, hm, hs'⟩ := hs
    have hML : ∀ u ∈ M, u ∈ L := fun u hu => hM u (List.mem_cons_of_mem _ hu)
    have hxL : x ∈ L := hM x (List.mem_cons_self _ _)
    have hlen' : M.length ≤ g.nodes_.length := by
      simp only [List.length_cons] at hlen
      omega
    have ih := ArcRep.arc_seg h M m hs' hML hlen'
    obtain ⟨c, hc, hseg⟩ := h.out.seg x hxL
    rw [List.flatMap_cons]
    have key : ∀ (l : List Int) (c : Int), Seg (fld ArcT.next_out g.arcs_) c l (-1) →
        (∀ y ∈ l, y ∈ outs x) →
        Seg g.nextArcView ((l ++ M.flatMap outs).headD (-1)) (l ++ M.flatMap outs) (-1) := by
      intro l
      induction l with
      | nil => intro _ _ _; exact ih
      | cons a l ihl =>
        intro c hsa hsub
        obtain ⟨_, ha1, n', hn', hsl⟩ := hsa
        refine ⟨rfl, ha1, (l ++ M.flatMap outs).headD (-1), ?_,
          ihl n' hsl (fun y hy => hsub y (List.mem_cons_of_mem _ hy))⟩
        obtain ⟨sa, hsal, hsan⟩ := fld_eq_some.1 hn'
        have hsrc : fld ArcT.source g.arcs_ a = some x :=
          ((h.out.mem x hxL a).1 (hsub a (List.mem_cons_self _ _))).2
        have hsx : sa.source = x := by
          rw [fld_of_look ArcT.source hsal] at hsrc
          exact Option.some.inj hsrc
        obtain ⟨sx, hsxl, hsxm⟩ := fld_eq_some.1 hm
        unfold nextArcView nextArc
        rw [rd_of_look hsal, ok_bind, hsan]
        cases l with
        | nil =>
          have hn1 : n' = -1 := hsl
          rw [hn1]
          simp only [ne_eq, not_true_eq_false, if_false, hsx, rd_of_look hsxl, ok_bind, hsxm,
            List.nil_append]
          rw [ArcRep.seekOut_eq h M m _ hs' hML (by omega)]
        | cons b l =>
          have hb : n' = b := hsl.1
          have hb1 : b ≠ -1 := hsl.2.1
          rw [hb]
          simp [hb1, pure_eq_ok]
    exact key (outs x) c hseg (fun y hy => hy)

theorem ArcRep.outConcat_eq {g : DAGraph0} {L FA : List Int} {outs ins : Int → List Int}
    (h : ArcRep g L FA outs ins) :
    ∀ (M : List Int), (∀ u ∈ M, u ∈ L) → g.outConcat M = .ok (M.flatMap outs)
  | [], _ => rfl
  | x :: M, hM => by
    rw [outConcat, h.outList_eq (hM x (List.mem_cons_self _ _)), ok_bind,
      ArcRep.outConcat_eq h M (fun u hu => hM u (List.mem_cons_of_mem _ hu)), ok_bind,
      List.flatMap_cons]
    rfl

/-- The arcs on the outgoing chains of the live nodes are the arc slots in use. -/
theorem ArcRep.mem_flat {g : DAGraph0} {L FA : List Int} {outs ins : Int → List Int}
    (h : ArcRep g L FA outs ins) (a : Int) :
    a ∈ L.flatMap outs ↔ Live g.arcs_.length FA a := by
  rw [List.mem_flatMap]
  constructor
  · rintro ⟨u, hu, ha⟩
    exact ((h.out.mem u hu a).1 ha).1
  · intro hl
    obtain ⟨u, hu, hk⟩ := h.out.ends a hl
    exact ⟨u, hu, (h.out.mem u hu a).2 ⟨hl, hk⟩⟩

/-- No arc is on two outgoing chains, or twice on one. -/
theorem ArcRep.nodup_flat {g : DAGraph0} {L FA : List Int} {outs ins : Int → List Int}
    (h : ArcRep g L FA outs ins) (hL : L.Nodup) : (L.flatMap outs).Nodup := by
  rw [List.nodup_flatMap]
  refine ⟨fun u hu => h.out.nodup u hu, ?_⟩
  refine List.Pairwise.imp_of_mem ?_ hL
  intro u w hu hw hne
  intro x hxu hxw
  exact hne (h.out.disjoint hu hw hxu hxw)

/-- The arc traversal of a state that satisfies the invariant. -/
theorem Rep.arcList_eq {g : DAGraph0} {L F FA : List Int} {outs ins : Int → List Int}
    (h : Rep g L F FA outs ins) : g.arcList = .ok (L.flatMap outs) := by
  have hLnd : L.Nodup := (List.nodup_append.1 h.nodes.nodup).1
  have hlen : L.length ≤ g.nodes_.length :=
    length_le_of_nodup_range hLnd (fun x hx => (h.nodes.cover x).1 (Or.inl hx))
  have hflen : (L.flatMap outs).length ≤ g.arcs_.length :=
    length_le_of_nodup_range (h.arcs.nodup_flat hLnd)
      (fun x hx => ((h.arcs.mem_flat x).1 hx).1)
  unfold arcList firstArc
  rw [h.arcs.seekOut_eq L _ _ h.nodes.live (fun u hu => hu) (by omega), ok_bind]
  exact walk_of_seg g.nextArcView nextArcView_ok _ _ _
    (h.arcs.arc_seg L _ h.nodes.live (fun u hu => hu) hlen) (by omega)

end DAGraph0

/-- C7. In every state reached from the empty graph by `addNode`, `addArc` on
valid nodes, `erase` of a valid arc and `erase` of a valid node without arcs,
the node traversal and the arc traversal from `firstArc()` by `next(Arc)` up to
the invalid arc both return; the arcs visited are exactly the valid arcs, each
once, and they are the concatenation, over the nodes in the order of the node
traversal, of the `firstOut`/`nextOut` enumeration of each node. -/
theorem arc_traversal_is_out_chains (ops : List DAGraph0.Op) (g : DAGraph0)
    (hadm : DAGraph0.empty.admits DAGraph0.preStrict ops = true)
    (hrun : DAGraph0.empty.run ops = .ok g) :
    ∃ ns as, g.nodeList = .ok ns ∧ g.arcList = .ok as ∧ g.outConcat ns = .ok as ∧
      as.Nodup ∧ ∀ a, a ∈ as ↔ g.validArc a = true := by
  obtain ⟨L, F, FA, outs, ins, h⟩ := DAGraph0.reach_rep hadm hrun
  have hLnd : L.Nodup := (List.nodup_append.1 h.nodes.nodup).1
  exact ⟨L, L.flatMap outs, h.nodes.nodeList_eq, h.arcList_eq,
    h.arcs.outConcat_eq L (fun u hu => hu), h.arcs.nodup_flat hLnd,
    fun a => ((h.arcs.mem_flat a).trans (h.arcs.valid_arc_iff a).symm)⟩

/-- The arc traversal of the sample state for C7: the chains of the nodes
`2`, `1`, `0`, in this order. -/
theorem arc_traversal_is_out_chains_witness :
    (DAGraph0.empty.admits DAGraph0.preStrict DAGraph0.sampleOps = true ∧
      DAGraph0.empty.run DAGraph0.sampleOps = .ok DAGraph0.sampleGraph) ∧
    (∃ ns as, DAGraph0.sampleGraph.nodeList = .ok ns ∧ DAGraph0.sampleGraph.arcList = .ok as ∧
      DAGraph0.sampleGraph.outConcat ns = .ok as ∧
      as.Nodup ∧ ∀ a, a ∈ as ↔ DAGraph0.sampleGraph.validArc a = true) ∧
    DAGraph0.sampleGraph.nodeList = .ok [2, 1, 0] ∧
    DAGraph0.sampleGraph.arcList = .ok [1, 2, 3, 0] :=
  ⟨⟨by decide, by decide⟩,
    arc_traversal_is_out_chains DAGraph0.sampleOps DAGraph0.sampleGraph (by decide) (by decide),
    by decide, by decide⟩

/-- C8. In every state reached from the empty graph by `addNode`, `addArc` on
valid nodes, `erase` of a valid arc and `erase` of a valid node without arcs,
a valid arc `a` has a valid source `u` and a valid target `v` (which may be the
same node), and for every valid node `w` the enumerations `firstOut(w)`,
`nextOut`, ... and `firstIn(w)`, `nextIn`, ... return, the first with `a` exactly
once when `w == u` and not at all otherwise, the second with `a` exactly once
when `w == v` and not at all otherwise. -/
theorem arc_on_one_out_and_one_in_chain (ops : List DAGraph0.Op) (g : DAGraph0)
    (hadm : DAGraph0.empty.admits DAGraph0.preStrict ops = true)
    (hrun : DAGraph0.empty.run ops = .ok g) (a : Int) (ha : g.validArc a = true) :
    ∃ u v, g.source a = .ok u ∧ g.target a = .ok v ∧
      g.validNode u = true ∧ g.validNode v = true ∧
      ∀ w, g.validNode w = true →
        ∃ lo li, g.outList w = .ok lo ∧ g.inList w = .ok li ∧
          lo.count a = (if w = u then 1 else 0) ∧ li.count a = (if w = v then 1 else 0) := by
  obtain ⟨L, F, FA, outs, ins, h⟩ := DAGraph0.reach_rep hadm hrun
  have hl := (h.arcs.valid_arc_iff a).1 ha
  obtain ⟨u, hu, hku⟩ := h.arcs.out.ends a hl
  obtain ⟨v, hv, hkv⟩ := h.arcs.inn.ends a hl
  refine ⟨u, v, rd_field_ok hku, rd_field_ok hkv, (h.nodes.valid_iff u).2 hu,
    (h.nodes.valid_iff v).2 hv, fun w hw => ?_⟩
  have hwL := (h.nodes.valid_iff w).1 hw
  refine ⟨outs w, ins w, h.arcs.outList_eq hwL, h.arcs.inList_eq hwL, ?_, ?_⟩
  · by_cases hwu : w = u
    · rw [if_pos hwu]
      exact List.count_eq_one_of_mem (h.arcs.out.nodup w hwL)
        ((h.arcs.out.mem w hwL a).2 ⟨hl, hwu ▸ hku⟩)
    · rw [if_neg hwu]
      refine List.count_eq_zero_of_not_mem (fun hm => hwu ?_)
      have := ((h.arcs.out.mem w hwL a).1 hm).2
      rw [hku] at this
      exact (Option.some.inj this).symm
  · by_cases hwv : w = v
    · rw [if_pos hwv]
      exact List.count_eq_one_of_mem (h.arcs.inn.nodup w hwL)
        ((h.arcs.inn.mem w hwL a).2 ⟨hl, hwv ▸ hkv⟩)
    · rw [if_neg hwv]
      refine List.count_eq_zero_of_not_mem (fun hm => hwv ?_)
      have := ((h.arcs.inn.mem w hwL a).1 hm).2
      rw [hkv] at this
      exact (Option.some.inj this).symm

/-- The arc `3` of the sample state for C8: one of two parallel arcs from the
node `0` to the node `1`. -/
theorem arc_on_one_out_and_one_in_chain_witness :
    (DAGraph0.empty.admits DAGraph0.preStrict DAGraph0.sampleOps = true ∧
      DAGraph0.empty.run DAGraph0.sampleOps = .ok DAGraph0.sampleGraph ∧
      DAGraph0.sampleGraph.validArc 3 = true) ∧
    (∃ u v, DAGraph0.sampleGraph.source 3 = .ok u ∧ DAGraph0.sampleGraph.target 3 = .ok v ∧
      DAGraph0.sampleGraph.validNode u = true ∧ DAGraph0.sampleGraph.validNode v = true ∧
      ∀ w, DAGraph0.sampleGraph.validNode w = true →
        ∃ lo li, DAGraph0.sampleGraph.outList w = .ok lo ∧
          DAGraph0.sampleGraph.inList w = .ok li ∧
          lo.count 3 = (if w = u then 1 else 0) ∧ li.count 3 = (if w = v then 1 else 0)) ∧
    DAGraph0.sampleGraph.outList 0 = .ok [3, 0] ∧ DAGraph0.sampleGraph.inList 1 = .ok [3, 0] :=
  ⟨⟨by decide, by decide, by decide⟩,
    arc_on_one_out_and_one_in_chain DAGraph0.sampleOps DAGraph0.sampleGraph (by decide)
      (by decide) 3 (by decide),
    by decide, by decide⟩

/-- C9, as stated for every state reached by calls on valid handles, fails.
After `n0 = addNode(); n1 = addNode(); addArc(n0, n1); addArc(n0, n1); erase(n0);
addNode()` the node `0` and the arc `1` are valid, `source(1) == 0`, and the
outgoing enumeration of the node `0` is empty; after `erase(Arc(1))` it is `[0]`,
not the empty enumeration with the arc `1` removed. -/
theorem eraseArc_relinks_dangling_arc :
    DAGraph0.empty.admits DAGraph0.pre DAGraph0.danglingOps = true ∧
    DAGraph0.empty.run DAGraph0.danglingOps = .ok DAGraph0.danglingGraph ∧
    DAGraph0.danglingGraph.validArc 1 = true ∧ DAGraph0.danglingGraph.validNode 0 = true ∧
    DAGraph0.danglingGraph.source 1 = .ok 0 ∧
    DAGraph0.danglingGraph.outList 0 = .ok [] ∧
    (DAGraph0.danglingGraph.eraseArc 1).bind (fun g => g.outList 0) = .ok [0] ∧
    (DAGraph0.danglingGraph.eraseArc 1).bind (fun g => g.outList 0) ≠
      (DAGraph0.danglingGraph.outList 0).map (fun l => l.filter (fun x => decide (x ≠ 1))) := by
  decide

/-- C9, amended. In every state reached from the empty graph by `addNode`,
`addArc` on valid nodes, `erase` of a valid arc and `erase` of a valid node
without arcs, and for every valid arc `a` with source `u` and target `v`,
`erase(a)` returns, and afterwards `valid(a) == false`, every valid node `w` is
still valid, the outgoing enumeration of `w` is the former one without `a`, in
the same order, when `w == u` and the former one otherwise, and the incoming
enumeration of `w` is the former one without `a`, in the same order, when
`w == v` and the former one otherwise. -/
theorem eraseArc_unlinks_arc (ops : List DAGraph0.Op) (g : DAGraph0)
    (hadm : DAGraph0.empty.admits DAGraph0.preStrict ops = true)
    (hrun : DAGraph0.empty.run ops = .ok g) (a : Int) (ha : g.validArc a = true) :
    ∃ u v g', g.source a = .ok u ∧ g.target a = .ok v ∧ g.eraseArc a = .ok g' ∧
      g'.validArc a = false ∧
      ∀ w, g.validNode w = true →
        g'.validNode w = true ∧
        ∃ lo li, g.outList w = .ok lo ∧ g.inList w = .ok li ∧
          g'.outList w = .ok (if w = u then lo.filter (fun x => decide (x ≠ a)) else lo) ∧
          g'.inList w = .ok (if w = v then li.filter (fun x => decide (x ≠ a)) else li) := by
  obtain ⟨L, F, FA, outs, ins, h⟩ := DAGraph0.reach_rep hadm hrun
  have hl := (h.arcs.valid_arc_iff a).1 ha
  obtain ⟨s, hsl, _, he⟩ := DAGraph0.eraseArc_ok h.wf ha
  obtain ⟨hu, hv, hr⟩ := h.arcs.arcs_eraseArc hsl hl
  have hn : DAGraph0.NodeRep (DAGraph0.arcErased g a s) L F :=
    h.nodes.of_same (DAGraph0.arcErased_next _ _ _) (DAGraph0.arcErased_prev _ _ _) rfl rfl
      (DAGraph0.arcErased_nodes_length _ _ _)
  refine ⟨s.source, s.target, _, rd_field_ok (fld_of_look DAGraph0.ArcT.source hsl),
    rd_field_ok (fld_of_look DAGraph0.ArcT.target hsl), he, ?_, fun w hw => ?_⟩
  · cases hva : (DAGraph0.arcErased g a s).validArc a with
    | false => rfl
    | true => exact absurd (List.mem_cons_self a FA) ((hr.valid_arc_iff a).1 hva).2
  · have hwL := (h.nodes.valid_iff w).1 hw
    refine ⟨(hn.valid_iff w).2 hwL, outs w, ins w, h.arcs.outList_eq hwL, h.arcs.inList_eq hwL,
      ?_, ?_⟩
    · rw [hr.outList_eq hwL]
      by_cases hwu : w = s.source
      · rw [if_pos hwu, hwu, Function.update_same,
          (h.arcs.out.nodup _ hu).erase_eq_filter a]
        congr 2
        funext x
        by_cases hx : x = a <;> simp [hx]
      · rw [if_neg hwu, Function.update_noteq hwu]
    · rw [hr.inList_eq hwL]
      by_cases hwv : w = s.target
      · rw [if_pos hwv, hwv, Function.update_same,
          (h.arcs.inn.nodup _ hv).erase_eq_filter a]
        congr 2
        funext x
        by_cases hx : x = a <;> simp [hx]
      · rw [if_neg hwv, Function.update_noteq hwv]

/-- The arc `3` of the sample state for C9: erasing it leaves the arc `0` on
the outgoing chain of the node `0` and on the incoming chain of the node `1`. -/
theorem eraseArc_unlinks_arc_witness :
    (DAGraph0.empty.admits DAGraph0.preStrict DAGraph0.sampleOps = true ∧
      DAGraph0.empty.run DAGraph0.sampleOps = .ok DAGraph0.sampleGraph ∧
      DAGraph0.sampleGraph.validArc 3 = true) ∧
    (∃ u v g', DAGraph0.sampleGraph.source 3 = .ok u ∧ DAGraph0.sampleGraph.target 3 = .ok v ∧
      DAGraph0.sampleGraph.eraseArc 3 = .ok g' ∧ g'.validArc 3 = false ∧
      ∀ w, DAGraph0.sampleGraph.validNode w = true →
        g'.validNode w = true ∧
        ∃ lo li, DAGraph0.sampleGraph.outList w = .ok lo ∧
          DAGraph0.sampleGraph.inList w = .ok li ∧
          g'.outList w = .ok (if w = u then lo.filter (fun x => decide (x ≠ 3)) else lo) ∧
          g'.inList w = .ok (if w = v then li.filter (fun x => decide (x ≠ 3)) else li)) ∧
    DAGraph0.sampleGraph.outList 0 = .ok [3, 0] ∧
    (DAGraph0.sampleGraph.eraseArc 3).bind (fun g => g.outList 0) = .ok [0] ∧
    (DAGraph0.empty.run [.addNode, .addNode, .addArc 0 1, .eraseArc 0]).bind
      (fun g => pure (g.validArc 0, g.firstOut 0)) = .ok (false, .ok (-1)) :=
  ⟨⟨by decide, by decide, by decide⟩,
    eraseArc_unlinks_arc DAGraph0.sampleOps DAGraph0.sampleGraph (by decide) (by decide) 3
      (by decide),
    by decide, by decide, by decide⟩

/-- The state of the sample run for C10, with a second arc from the node `0`
to the node `1` and a loop at the node `2`. -/
theorem addArc_puts_arc_at_heads_witness :
    (DAGraph0.empty.admits DAGraph0.pre DAGraph0.sampleOps = true ∧
      DAGraph0.empty.run DAGraph0.sampleOps = .ok DAGraph0.sampleGraph ∧
      DAGraph0.sampleGraph.validNode 0 = true ∧ DAGraph0.sampleGraph.validNode 1 = true) ∧
    (∃ a g', DAGraph0.sampleGraph.addArc 0 1 = .ok (a, g') ∧ g'.validArc a = true ∧
      g'.source a = .ok 0 ∧ g'.target a = .ok 1 ∧
      g'.firstOut 0 = .ok a ∧ g'.firstIn 1 = .ok a ∧
      g'.nextOut a = DAGraph0.sampleGraph.firstOut 0 ∧
      g'.nextIn a = DAGraph0.sampleGraph.firstIn 1) ∧
    (DAGraph0.sampleGraph.addArc 2 2).map (fun r => r.1) = .ok 4 :=
  ⟨⟨by decide, by decide, by decide, by decide⟩,
    addArc_puts_arc_at_heads DAGraph0.sampleOps DAGraph0.sampleGraph (by decide) (by decide)
      0 1 (by decide) (by decide),
    by decide⟩

/-- C11. In every state reached from the empty graph by `addNode`, `addArc` on
valid nodes, `erase` of a valid arc and `erase` of a valid node (with or
without arcs), `erase(n)` of a valid node `n` followed by `addNode()` both
return, and the handle `m` that `addNode()` returns is valid and has
`firstOut(m)` and `firstIn(m)` invalid; `m` is the recycled handle `n`. -/
theorem addNode_after_erase_is_fresh (ops : List DAGraph0.Op) (g : DAGraph0)
    (hadm : DAGraph0.empty.admits DAGraph0.pre ops = true)
    (hrun : DAGraph0.empty.run ops = .ok g) (n : Int) (hn : g.validNode n = true) :
    ∃ g1 m g2, g.eraseNode n = .ok g1 ∧ g1.addNode = .ok (m, g2) ∧
      g2.validNode m = true ∧ g2.firstOut m = .ok (-1) ∧ g2.firstIn m = .ok (-1) ∧ m = n := by
  have hw := DAGraph0.reach_wf hadm hrun
  obtain ⟨nx, pv, hnx, hpv, _, he⟩ := DAGraph0.eraseNode_ok hw hn
  have hw1 := DAGraph0.nodeErased_wf hw hnx hpv
  obtain ⟨m, ffn, tn, hal, ha⟩ := DAGraph0.addNode_eq hw1
  have hr := hal.range.1
  have hnr := DAGraph0.validNode_range hn
  have hmn : m = n := by
    rcases hal with ⟨h1, _, _, _⟩ | ⟨_, h2, _, _⟩
    · have h0 : (DAGraph0.nodeErased g n nx pv).first_free_node_ = n := rfl
      omega
    · exact h2
  refine ⟨_, m, _, he, ha, ?_, ?_, ?_, hmn⟩
  · refine DAGraph0.validNode_iff.2 ⟨-1, ?_, by omega⟩
    rw [DAGraph0.nodeAdded_prev, if_pos rfl, if_pos hr]
  · unfold DAGraph0.firstOut
    exact rd_field_ok (by rw [DAGraph0.nodeAdded_first_out, if_pos rfl, if_pos hr])
  · unfold DAGraph0.firstIn
    exact rd_field_ok (by rw [DAGraph0.nodeAdded_first_in, if_pos rfl, if_pos hr])

/-- The node `0` of the state for C11, erased while the arcs `0` and `1` leave
it, and the scenario `addNode(); erase(it); addNode()`. -/
theorem addNode_after_erase_is_fresh_witness :
    (DAGraph0.empty.admits DAGraph0.pre [.addNode, .addNode, .addArc 0 1, .addArc 0 1] = true ∧
      DAGraph0.empty.run [.addNode, .addNode, .addArc 0 1, .addArc 0 1] =
        .ok DAGraph0.twoArcsGraph ∧
      DAGraph0.twoArcsGraph.validNode 0 = true) ∧
    (∃ g1 m g2, DAGraph0.twoArcsGraph.eraseNode 0 = .ok g1 ∧ g1.addNode = .ok (m, g2) ∧
      g2.validNode m = true ∧ g2.firstOut m = .ok (-1) ∧ g2.firstIn m = .ok (-1) ∧ m = 0) ∧
    DAGraph0.twoArcsGraph.firstOut 0 = .ok 1 ∧
    (DAGraph0.empty.run [.addNode, .eraseNode 0]).bind
      (fun g => g.addNode.map (fun r => (r.1, r.2.validNode r.1, r.2.firstOut r.1,
        r.2.firstIn r.1))) = .ok (0, true, .ok (-1), .ok (-1)) :=
  ⟨⟨by decide, by decide, by decide⟩,
    addNode_after_erase_is_fresh [.addNode, .addNode, .addArc 0 1, .addArc 0 1]
      DAGraph0.twoArcsGraph (by decide) (by decide) 0 (by decide),
    by decide, by decide⟩

/-- The links after the head of one owner is reset to `-1`. -/
theorem Links.reset_head {hd nx pv key : Int → Option Int} {lv : Int → Prop}
    (h : Links hd nx pv key lv) (hd' : Int → Option Int) {n : Int}
    (hn : ∀ f, hd' n = some f → f = -1) (hhd : ∀ j, j ≠ n → hd' j = hd j) :
    Links hd' nx pv key lv :=
  { nonneg := h.nonneg
    next := h.next
    prev := h.prev
    head := fun j f hf => by
      by_cases hj : j = n
      · exact Or.inl (hn f (hj ▸ hf))
      · rw [hhd j hj] at hf
        exact h.head j f hf }

/-- The links after a slot `a` that was not live is put in front of the chain
of the owner `u`. -/
theorem Links.push_slot {hd nx pv key : Int → Option Int} {lv : Int → Prop}
    (h : Links hd nx pv key lv)
    (hd' nx' pv' key' : Int → Option Int) (lv' : Int → Prop) {u a f : Int}
    (ha : ¬ lv a) (ha1 : a ≠ -1) (hf : hd u = some f)
    (hlv : ∀ x, lv' x ↔ (x = a ∨ lv x))
    (hhdu : hd' u = some a) (hhd : ∀ j, j ≠ u → hd' j = hd j)
    (hnxa : nx' a = some f) (hnx : ∀ j, lv j → nx' j = nx j)
    (hpva : pv' a = some (-1)) (hpv : ∀ j, lv j → pv' j = if j = f then some a else pv j)
    (hkeya : key' a = some u) (hkey : ∀ j, lv j → key' j = key j) :
    Links hd' nx' pv' key' lv' := by
  have hfh := h.head u f hf
  refine
    { nonneg := ?_
      next := ?_
      prev := ?_
      head := ?_ }
  · intro x hx
    rcases (hlv x).1 hx with rfl | hx
    · exact ha1
    · exact h.nonneg x hx
  · intro x b hx hb
    rcases (hlv x).1 hx with rfl | hx
    · rw [hnxa] at hb
      have hbf : f = b := Option.some.inj hb
      subst hbf
      rcases hfh with h1 | ⟨h1, h2, h3⟩
      · exact Or.inl h1
      · refine Or.inr ⟨(hlv f).2 (Or.inr h1), ?_, ?_⟩
        · rw [hpv f h1, if_pos rfl]
        · rw [hkey f h1, h3, hkeya]
    · rw [hnx x hx] at hb
      rcases h.next x b hx hb with h1 | ⟨h1, h2, h3⟩
      · exact Or.inl h1
      · have hbf : b ≠ f := by
          intro hbf
          rcases hfh with h4 | ⟨_, h5, _⟩
          · exact h.nonneg b h1 (hbf.trans h4)
          · rw [hbf, h5] at h2
            exact h.nonneg x hx (Option.some.inj h2).symm
        refine Or.inr ⟨(hlv b).2 (Or.inr h1), ?_, ?_⟩
        · rw [hpv b h1, if_neg hbf, h2]
        · rw [hkey b h1, hkey x hx, h3]
  · intro x b hx hb
    rcases (hlv x).1 hx with rfl | hx
    · rw [hpva] at hb
      exact Or.inl (Option.some.inj hb).symm
    · rw [hpv x hx] at hb
      by_cases hxf : x = f
      · rw [if_pos hxf] at hb
        have hba : a = b := Option.some.inj hb
        subst hba
        exact Or.inr ⟨(hlv a).2 (Or.inl rfl), by rw [hnxa, hxf]⟩
      · rw [if_neg hxf] at hb
        rcases h.prev x b hx hb with h1 | ⟨h1, h2⟩
        · exact Or.inl h1
        · exact Or.inr ⟨(hlv b).2 (Or.inr h1), by rw [hnx b h1, h2]⟩
  · intro j g hg
    by_cases hj : j = u
    · rw [hj, hhdu] at hg
      have hga : a = g := Option.some.inj hg
      subst hga
      exact Or.inr ⟨(hlv a).2 (Or.inl rfl), hpva, by rw [hkeya, hj]⟩
    · rw [hhd j hj] at hg
      rcases h.head j g hg with h1 | ⟨h1, h2, h3⟩
      · exact Or.inl h1
      · have hgf : g ≠ f := by
          intro hgf
          rcases hfh with h4 | ⟨_, _, h6⟩
          · exact h.nonneg g h1 (hgf.trans h4)
          · rw [hgf, h6] at h3
            exact hj (Option.some.inj h3).symm
        refine Or.inr ⟨(hlv g).2 (Or.inr h1), ?_, ?_⟩
        · rw [hpv g h1, if_neg hgf, h2]
        · rw [hkey g h1, h3]

/-- The links after the live slot `a` is taken out of its chain. -/
theorem Links.drop_slot {hd nx pv key : Int → Option Int} {lv : Int → Prop}
    (h : Links hd nx pv key lv)
    (hd' nx' pv' key' : Int → Option Int) (lv' : Int → Prop) {u a n p : Int}
    (hla : lv a) (hka : key a = some u) (hn : nx a = some n) (hp : pv a = some p)
    (hlv : ∀ x, lv' x ↔ (lv x ∧ x ≠ a))
    (hhdu : p = -1 → ∀ f, hd' u = some f → f = n)
    (hhd : ∀ j f, (p ≠ -1 ∨ j ≠ u) → hd' j = some f → hd j = some f)
    (hnx : ∀ j, lv j → j ≠ a → nx' j = if j = p then some n else nx j)
    (hpv : ∀ j, lv j → j ≠ a → pv' j = if j = n then some p else pv j)
    (hkey : ∀ j, lv j → j ≠ a → key' j = key j) :
    Links hd' nx' pv' key' lv' := by
  have hnl := h.next a n hla hn
  have hpl := h.prev a p hla hp
  have ha1 := h.nonneg a hla
  refine
    { nonneg := fun x hx => h.nonneg x ((hlv x).1 hx).1
      next := ?_
      prev := ?_
      head := ?_ }
  · intro x b hx hb
    obtain ⟨hx, hxa⟩ := (hlv x).1 hx
    rw [hnx x hx hxa] at hb
    by_cases hxp : x = p
    · rw [if_pos hxp] at hb
      have hbn : n = b := Option.some.inj hb
      subst hbn
      rcases hnl with h1 | ⟨h1, h2, h3⟩
      · exact Or.inl h1
      · have hna : n ≠ a := by
          intro hna
          rw [hna, hp] at h2
          exact hxa (hxp.trans (Option.some.inj h2))
        refine Or.inr ⟨(hlv n).2 ⟨h1, hna⟩, ?_, ?_⟩
        · rw [hpv n h1 hna, if_pos rfl, hxp]
        · rw [hkey n h1 hna, hkey x hx hxa, h3]
          rcases hpl with h4 | ⟨h4, h5⟩
          · exact absurd (hxp.trans h4) (h.nonneg x hx)
          · rcases h.next p a h4 h5 with h6 | ⟨_, _, h8⟩
            · exact absurd h6 ha1
            · rw [h8, hxp]
    · rw [if_neg hxp] at hb
      rcases h.next x b hx hb with h1 | ⟨h1, h2, h3⟩
      · exact Or.inl h1
      · have hba : b ≠ a := by
          intro hba
          rw [hba, hp] at h2
          exact hxp (Option.some.inj h2).symm
        have hbn : b ≠ n := by
          intro hbn
          rcases hnl with h4 | ⟨_, h5, _⟩
          · exact h.nonneg b h1 (hbn.trans h4)
          · rw [hbn, h5] at h2
            exact hxa (Option.some.inj h2).symm
        refine Or.inr ⟨(hlv b).2 ⟨h1, hba⟩, ?_, ?_⟩
        · rw [hpv b h1 hba, if_neg hbn, h2]
        · rw [hkey b h1 hba, hkey x hx hxa, h3]
  · intro x b hx hb
    obtain ⟨hx, hxa⟩ := (hlv x).1 hx
    rw [hpv x hx hxa] at hb
    by_cases hxn : x = n
    · rw [if_pos hxn] at hb
      have hbp : p = b := Option.some.inj hb
      subst hbp
      rcases hpl with h1 | ⟨h1, h2⟩
      · exact Or.inl h1
      · have hpa : p ≠ a := by
          intro hpa
          rw [hpa, hn] at h2
          exact hxa (hxn.trans (Option.some.inj h2))
        exact Or.inr ⟨(hlv p).2 ⟨h1, hpa⟩, by rw [hnx p h1 hpa, if_pos rfl, hxn]⟩
    · rw [if_neg hxn] at hb
      rcases h.prev x b hx hb with h1 | ⟨h1, h2⟩
      · exact Or.inl h1
      · have hba : b ≠ a := by
          intro hba
          rw [hba, hn] at h2
          exact hxn (Option.some.inj h2).symm
        have hbp : b ≠ p := by
          intro hbp
          rcases hpl with h4 | ⟨_, h5⟩
          · exact h.nonneg b h1 (hbp.trans h4)
          · rw [hbp, h5] at h2
            exact hxa (Option.some.inj h2).symm
        exact Or.inr ⟨(hlv b).2 ⟨h1, hba⟩, by rw [hnx b h1 hba, if_neg hbp, h2]⟩
  · intro j f hf
    by_cases hc : p = -1 ∧ j = u
    · obtain ⟨hp1, hju⟩ := hc
      have hfn := hhdu hp1 f (hju ▸ hf)
      subst hfn
      rcases hnl with h1 | ⟨h1, h2, h3⟩
      · exact Or.inl h1
      · have hna : f ≠ a := by
          intro hna
          rw [hna, hp] at h2
          exact ha1 ((Option.some.inj h2).symm.trans hp1)
        refine Or.inr ⟨(hlv f).2 ⟨h1, hna⟩, ?_, ?_⟩
        · rw [hpv f h1 hna, if_pos rfl, hp1]
        · rw [hkey f h1 hna, h3, hka, hju]
    · have hc' : p ≠ -1 ∨ j ≠ u := by
        by_cases hp1 : p = -1
        · exact Or.inr (fun hju => hc ⟨hp1, hju⟩)
        · exact Or.inl hp1
      have hf0 := hhd j f hc' hf
      rcases h.head j f hf0 with h1 | ⟨h1, h2, h3⟩
      · exact Or.inl h1
      · have hfa : f ≠ a := by
          intro hfa
          rw [hfa, hp] at h2
          rw [hfa, hka] at h3
          exact hc ⟨Option.some.inj h2, (Option.some.inj h3).symm⟩
        have hfn : f ≠ n := by
          intro hfn
          rcases hnl with h4 | ⟨_, h5, _⟩
          · exact h.nonneg f h1 (hfn.trans h4)
          · rw [hfn, h5] at h2
            exact ha1 (Option.some.inj h2)
        refine Or.inr ⟨(hlv f).2 ⟨h1, hfa⟩, ?_, ?_⟩
        · rw [hpv f h1 hfa, if_neg hfn, h2]
        · rw [hkey f h1 hfa, h3]

namespace DAGraph0

theorem Live.live_ne_neg_one {nA : Int} {FA : List Int} (a : Int) (h : Live nA FA a) : a ≠ -1 := by
  have := h.1.1
  omega

theorem empty_arcLib : ArcLib empty [] :=
  { free := rfl
    mark := fun f hf => by simp at hf
    fnodup := List.nodup_nil
    out :=
      { nonneg := Live.live_ne_neg_one
        next := fun a _ ha _ => by
          have := ha.1
          simp [empty] at this
          omega
        prev := fun a _ ha _ => by
          have := ha.1
          simp [empty] at this
          omega
        head := fun j f hf => by simp [empty, fld, look] at hf }
    inn :=
      { nonneg := Live.live_ne_neg_one
        next := fun a _ ha _ => by
          have := ha.1
          simp [empty] at this
          omega
        prev := fun a _ ha _ => by
          have := ha.1
          simp [empty] at this
          omega
        head := fun j f hf => by simp [empty, fld, look] at hf } }

/-- The valid arcs are the arc slots that are not free. -/
theorem ArcLib.valid_lib_iff {g : DAGraph0} {FA : List Int} (h : ArcLib g FA) (a : Int) :
    g.validArc a = true ↔ Live g.arcs_.length FA a := by
  rw [validArc_iff]
  constructor
  · rintro ⟨v, hv, hv2⟩
    refine ⟨fld_ge hv, fun hF => ?_⟩
    rw [h.mark a hF] at hv
    exact hv2 (Option.some.inj hv).symm
  · intro hl
    obtain ⟨p, hp⟩ := (fld_isSome ArcT.prev_in g.arcs_ a).2 hl.1
    refine ⟨p, hp, ?_⟩
    rcases h.inn.prev a p hl hp with h1 | ⟨h1, _⟩
    · omega
    · have := h1.1.1
      omega

/-- The arcs are as they were after `addNode`; the heads of the new node are
reset. -/
theorem ArcLib.lib_addNode {g : DAGraph0} {FA : List Int} (h : ArcLib g FA) {n ffn : Int}
    {tn : List NodeT} (hal : NodeAlloc g n ffn tn) :
    ArcLib (nodeAdded g n ffn tn) FA :=
  { free := h.free
    mark := h.mark
    fnodup := h.fnodup
    out := h.out.reset_head _
      (fun f hf => by
        rw [nodeAdded_first_out, if_pos rfl] at hf
        split at hf
        · exact (Option.some.inj hf).symm
        · cases hf)
      (fun j hj => by rw [nodeAdded_first_out, if_neg hj, hal.node_frame _ hj])
    inn := h.inn.reset_head _
      (fun f hf => by
        rw [nodeAdded_first_in, if_pos rfl] at hf
        split at hf
        · exact (Option.some.inj hf).symm
        · cases hf)
      (fun j hj => by rw [nodeAdded_first_in, if_neg hj, hal.node_frame _ hj]) }

/-- The arcs and the heads are as they were after `erase(Node)`. -/
theorem ArcLib.lib_eraseNode {g : DAGraph0} {FA : List Int} (h : ArcLib g FA)
    (n nx pv : Int) : ArcLib (nodeErased g n nx pv) FA :=
  { free := h.free
    mark := h.mark
    fnodup := h.fnodup
    out := by
      have := h.out
      rw [← nodeErased_first_out g n nx pv] at this
      exact this
    inn := by
      have := h.inn
      rw [← nodeErased_first_in g n nx pv] at this
      exact this }

/-- The free chain of arcs at an allocation. -/
theorem ArcLib.lib_alloc {g : DAGraph0} {FA : List Int} (h : ArcLib g FA) {a ffa : Int}
    {t : List ArcT} (hal : ArcAlloc g a ffa t) :
    ∃ FA', (FA = [] ∧ FA' = [] ∧ a = (g.arcs_.length : Int) ∨ FA = a :: FA') ∧
      Seg (fld ArcT.next_in g.arcs_) ffa FA' (-1) ∧ a ∉ FA' ∧ FA'.Nodup ∧
      ¬ Live g.arcs_.length FA a ∧
      ∀ x, Live t.length FA' x ↔ (x = a ∨ Live g.arcs_.length FA x) := by
  have hFr : ∀ f ∈ FA, 0 ≤ f ∧ f < (g.arcs_.length : Int) := fun f hf => fld_ge (h.mark f hf)
  rcases hal with ⟨h1, rfl, rfl, rfl⟩ | ⟨h1, rfl, h3, rfl⟩
  · have hF : FA = [] := (Seg.head_neg_one h.free).1 h1
    subst hF
    refine ⟨[], Or.inl ⟨rfl, rfl, rfl⟩, rfl, by simp, List.nodup_nil, ?_, ?_⟩
    · intro hl
      have := hl.1.2
      omega
    · intro x
      unfold Live
      simp only [List.not_mem_nil, not_false_eq_true, and_true, List.length_append,
        List.length_singleton]
      push_cast
      omega
  · cases FA with
    | nil => exact absurd h.free h1
    | cons x FA' =>
      have hx : g.first_free_arc_ = x := h.free.1
      obtain ⟨_, _, m, hm, hseg⟩ := h.free
      rw [← hx, h3] at hm
      have hmf : ffa = m := Option.some.inj hm
      have hnd := List.nodup_cons.1 h.fnodup
      rw [← hx] at hnd
      refine ⟨FA', Or.inr (by rw [hx]), by rw [hmf]; exact hseg, hnd.1, hnd.2, ?_, ?_⟩
      · intro hl
        exact hl.2 (by rw [hx]; simp)
      · intro x'
        unfold Live
        have hxr := hFr x (by simp)
        rw [← hx] at hxr
        simp only [List.mem_cons, not_or]
        by_cases hxa : x' = g.first_free_arc_
        · rw [hxa]
          simp only [true_or, iff_true]
          exact ⟨hxr, hnd.1⟩
        · rw [← hx]
          simp only [hxa, not_false_eq_true, true_and, false_or]

/-- The links after `addArc(u, v)`, whatever was erased before. -/
theorem ArcLib.lib_addArc {g : DAGraph0} {FA : List Int} (h : ArcLib g FA)
    {u v a ffa fo fi : Int} {t : List ArcT} (hal : ArcAlloc g a ffa t)
    (hfo : fld NodeT.first_out g.nodes_ u = some fo)
    (hfi : fld NodeT.first_in g.nodes_ v = some fi) :
    ∃ FA', (FA = [] ∧ FA' = [] ∧ a = (g.arcs_.length : Int) ∨ FA = a :: FA') ∧
      ¬ Live g.arcs_.length FA a ∧
      (∀ x, Live t.length FA' x ↔ (x = a ∨ Live g.arcs_.length FA x)) ∧
      ArcLib (arcAdded g u v a fo fi ffa t) FA' := by
  obtain ⟨FA', hFA, hseg, haF, hnd, hnl, hlv⟩ := h.lib_alloc hal
  have hr := hal.arc_range
  have hur := fld_ge hfo
  have hvr := fld_ge hfi
  have hsub : ∀ f ∈ FA', f ∈ FA := by
    intro f hf
    rcases hFA with ⟨_, h2, _⟩ | h2
    · rw [h2] at hf; simp at hf
    · rw [h2]; exact List.mem_cons_of_mem _ hf
  have hlt : ∀ j, Live g.arcs_.length FA j → 0 ≤ j ∧ j < (t.length : Int) := by
    intro j hj
    have := hj.1
    omega
  have hnea : ∀ j, Live g.arcs_.length FA j → j ≠ a := fun j hj hja => hnl (hja ▸ hj)
  have hfiL : fi = -1 ∨ Live g.arcs_.length FA fi := by
    rcases h.inn.head v fi hfi with h1 | ⟨h1, _, _⟩
    · exact Or.inl h1
    · exact Or.inr h1
  have hlen : (arcAdded g u v a fo fi ffa t).arcs_.length = t.length :=
    arcAdded_arcs_length _ _ _ _ _ _ _ _
  refine ⟨FA', hFA, hnl, hlv, ?_⟩
  refine
    { free := ?_
      mark := ?_
      fnodup := hnd
      out := ?_
      inn := ?_ }
  · show Seg (fld ArcT.next_in (arcAdded g u v a fo fi ffa t).arcs_) ffa FA' (-1)
    refine Seg.frame (fun y hy => ?_) hseg
    have hya : y ≠ a := fun hya => haF (hya ▸ hy)
    rw [arcAdded_next_in, if_neg hya, hal.arc_frame _ hya]
  · intro f hf
    have hfa : f ≠ a := fun hfa => haF (hfa ▸ hf)
    have hffi : f ≠ fi := by
      intro hffi
      have hfr := fld_ge (h.mark f (hsub f hf))
      rcases hfiL with h1 | h1
      · omega
      · exact h1.2 (hffi ▸ hsub f hf)
    rw [arcAdded_prev_in, if_neg hfa, if_neg hffi, hal.arc_frame _ hfa]
    exact h.mark f (hsub f hf)
  · rw [hlen]
    refine h.out.push_slot _ _ _ _ _ hnl (by omega) hfo hlv ?_ ?_ ?_ ?_ ?_ ?_ ?_ ?_
    · rw [arcAdded_first_out, if_pos rfl, if_pos hur]
    · intro j hj
      rw [arcAdded_first_out, if_neg hj]
    · rw [arcAdded_next_out, if_pos rfl, if_pos hr.1]
    · intro j hj
      rw [arcAdded_next_out, if_neg (hnea j hj), hal.arc_frame _ (hnea j hj)]
    · rw [arcAdded_prev_out, if_pos rfl, if_pos hr.1]
    · intro j hj
      rw [arcAdded_prev_out, if_neg (hnea j hj)]
      by_cases hjf : j = fo
      · rw [if_pos hjf, if_pos hjf, if_pos (hjf ▸ hlt j hj)]
      · rw [if_neg hjf, if_neg hjf, hal.arc_frame _ (hnea j hj)]
    · rw [arcAdded_source, if_pos rfl, if_pos hr.1]
    · intro j hj
      rw [arcAdded_source, if_neg (hnea j hj), hal.arc_frame _ (hnea j hj)]
  · rw [hlen]
    refine h.inn.push_slot _ _ _ _ _ hnl (by omega) hfi hlv ?_ ?_ ?_ ?_ ?_ ?_ ?_ ?_
    · rw [arcAdded_first_in, if_pos rfl, if_pos hvr]
    · intro j hj
      rw [arcAdded_first_in, if_neg hj]
    · rw [arcAdded_next_in, if_pos rfl, if_pos hr.1]
    · intro j hj
      rw [arcAdded_next_in, if_neg (hnea j hj), hal.arc_frame _ (hnea j hj)]
    · rw [arcAdded_prev_in, if_pos rfl, if_pos hr.1]
    · intro j hj
      rw [arcAdded_prev_in, if_neg (hnea j hj)]
      by_cases hjf : j = fi
      · rw [if_pos hjf, if_pos hjf, if_pos (hjf ▸ hlt j hj)]
      · rw [if_neg hjf, if_neg hjf, hal.arc_frame _ (hnea j hj)]
    · rw [arcAdded_target, if_pos rfl, if_pos hr.1]
    · intro j hj
      rw [arcAdded_target, if_neg (hnea j hj), hal.arc_frame _ (hnea j hj)]

/-- The links after `erase(Arc(a))`, whatever was erased before. -/
theorem ArcLib.lib_eraseArc {g : DAGraph0} {FA : List Int} (h : ArcLib g FA)
    {a : Int} {s : ArcT} (hs : look g.arcs_ a = some s) (hla : Live g.arcs_.length FA a) :
    ArcLib (arcErased g a s) (a :: FA) := by
  have hsrc : fld ArcT.source g.arcs_ a = some s.source := fld_of_look _ hs
  have htgt : fld ArcT.target g.arcs_ a = some s.target := fld_of_look _ hs
  have hno : fld ArcT.next_out g.arcs_ a = some s.next_out := fld_of_look _ hs
  have hpo : fld ArcT.prev_out g.arcs_ a = some s.prev_out := fld_of_look _ hs
  have hni : fld ArcT.next_in g.arcs_ a = some s.next_in := fld_of_look _ hs
  have hpi : fld ArcT.prev_in g.arcs_ a = some s.prev_in := fld_of_look _ hs
  have hFr : ∀ f ∈ FA, 0 ≤ f ∧ f < (g.arcs_.length : Int) := fun f hf => fld_ge (h.mark f hf)
  have hFa : ∀ f ∈ FA, f ≠ a := fun f hf hfa => hla.2 (hfa ▸ hf)
  have hniL : s.next_in = -1 ∨ Live g.arcs_.length FA s.next_in := by
    rcases h.inn.next a _ hla hni with h1 | ⟨h1, _, _⟩
    · exact Or.inl h1
    · exact Or.inr h1
  have hpiL : s.prev_in = -1 ∨ Live g.arcs_.length FA s.prev_in := by
    rcases h.inn.prev a _ hla hpi with h1 | ⟨h1, _⟩
    · exact Or.inl h1
    · exact Or.inr h1
  have hoff : ∀ {x : Int}, (x = -1 ∨ Live g.arcs_.length FA x) → ∀ f ∈ FA, f ≠ x := by
    intro x hx f hf hfx
    rcases hx with h1 | h1
    · have := hFr f hf
      omega
    · exact h1.2 (hfx ▸ hf)
  have hlen : (arcErased g a s).arcs_.length = g.arcs_.length := arcErased_arcs_length _ _ _
  have hlv : ∀ x, Live g.arcs_.length (a :: FA) x ↔ (Live g.arcs_.length FA x ∧ x ≠ a) := by
    intro x
    unfold Live
    simp only [List.mem_cons, not_or]
    tauto
  refine
    { free := ?_
      mark := ?_
      fnodup := List.nodup_cons.2 ⟨hla.2, h.fnodup⟩
      out := ?_
      inn := ?_ }
  · show Seg (fld ArcT.next_in (arcErased g a s).arcs_) a (a :: FA) (-1)
    refine ⟨rfl, by have := hla.1; omega, g.first_free_arc_, ?_, ?_⟩
    · rw [arcErased_next_in, if_pos rfl, if_pos hla.1]
    · refine Seg.frame (fun y hy => ?_) h.free
      rw [arcErased_next_in, if_neg (hFa y hy), if_neg (hoff hpiL y hy)]
  · intro f hf
    rcases List.mem_cons.1 hf with rfl | hf
    · rw [arcErased_prev_in, if_pos rfl, if_pos hla.1]
    · rw [arcErased_prev_in, if_neg (hFa f hf), if_neg (hoff hniL f hf)]
      exact h.mark f hf
  · rw [hlen]
    refine h.out.drop_slot _ _ _ _ _ hla hsrc hno hpo hlv ?_ ?_ ?_ ?_ ?_
    · intro hp f hf
      rw [arcErased_first_out, if_pos hp, if_pos rfl] at hf
      split at hf
      · exact (Option.some.inj hf).symm
      · cases hf
    · intro j f hc hf
      rw [arcErased_first_out] at hf
      by_cases hp : s.prev_out = -1
      · rw [if_pos hp] at hf
        rcases hc with hc | hc
        · exact absurd hp hc
        · rw [if_neg hc] at hf
          exact hf
      · rw [if_neg hp] at hf
        by_cases hj : j = -1
        · rw [if_pos hj, if_neg (by omega)] at hf
          cases hf
        · rw [if_neg hj] at hf
          exact hf
    · intro j hj _
      rw [arcErased_next_out]
      by_cases hjp : j = s.prev_out
      · rw [if_pos hjp, if_pos hjp, if_pos (hjp ▸ hj.1)]
      · rw [if_neg hjp, if_neg hjp]
    · intro j hj _
      rw [arcErased_prev_out]
      by_cases hjp : j = s.next_out
      · rw [if_pos hjp, if_pos hjp, if_pos (hjp ▸ hj.1)]
      · rw [if_neg hjp, if_neg hjp]
    · intro j _ _
      rw [arcErased_source]
  · rw [hlen]
    refine h.inn.drop_slot _ _ _ _ _ hla htgt hni hpi hlv ?_ ?_ ?_ ?_ ?_
    · intro hp f hf
      rw [arcErased_first_in, if_pos hp, if_pos rfl] at hf
      split at hf
      · exact (Option.some.inj hf).symm
      · cases hf
    · intro j f hc hf
      rw [arcErased_first_in] at hf
      by_cases hp : s.prev_in = -1
      · rw [if_pos hp] at hf
        rcases hc with hc | hc
        · exact absurd hp hc
        · rw [if_neg hc] at hf
          exact hf
      · rw [if_neg hp] at hf
        by_cases hj : j = -1
        · rw [if_pos hj, if_neg (by omega)] at hf
          cases hf
        · rw [if_neg hj] at hf
          exact hf
    · intro j hj hja
      rw [arcErased_next_in, if_neg hja]
      by_cases hjp : j = s.prev_in
      · rw [if_pos hjp, if_pos hjp, if_pos (hjp ▸ hj.1)]
      · rw [if_neg hjp, if_neg hjp]
    · intro j hj hja
      rw [arcErased_prev_in, if_neg hja]
      by_cases hjp : j = s.next_in
      · rw [if_pos hjp, if_pos hjp, if_pos (hjp ▸ hj.1)]
      · rw [if_neg hjp, if_neg hjp]
    · intro j _ _
      rw [arcErased_target]

theorem empty_lib : Lib empty [] [] [] :=
  ⟨empty_wf, empty_nodeRep, empty_arcLib⟩

theorem erase_of_alloc {F F' : List Int} {n : Int} {P : Prop}
    (h : F = [] ∧ F' = [] ∧ P ∨ F = n :: F') : F.erase n = F' := by
  rcases h with ⟨h1, h2, _⟩ | h1
  · rw [h1, h2]
    rfl
  · rw [h1, List.erase_cons_head]

/-- The invariant after `addNode`. -/
theorem Lib.lib_nodeAdded {g : DAGraph0} {L F FA : List Int} (h : Lib g L F FA)
    {n ffn : Int} {tn : List NodeT} (hal : NodeAlloc g n ffn tn) :
    Lib (nodeAdded g n ffn tn) (n :: L) (F.erase n) FA ∧
      (F = [] ∧ n = (g.nodes_.length : Int) ∧ tn.length = g.nodes_.length + 1 ∨
        (∃ F', F = n :: F') ∧ tn.length = g.nodes_.length) := by
  obtain ⟨F', hF, hr⟩ := h.nodes.addNode hal
  rw [erase_of_alloc hF]
  refine ⟨⟨nodeAdded_wf h.wf hal, hr, h.arcs.lib_addNode hal⟩, ?_⟩
  rcases hal with ⟨h1, _, _, h4⟩ | ⟨h1, _, _, h4⟩
  · rcases hF with ⟨h5, _, h7, _⟩ | h5
    · exact Or.inl ⟨h5, h7, by rw [h4]; simp⟩
    · have := (Seg.head_neg_one h.nodes.free).1 h1
      rw [h5] at this
      cases this
  · rcases hF with ⟨h5, _, _, _⟩ | h5
    · exact absurd ((Seg.head_neg_one h.nodes.free).2 h5) h1
    · exact Or.inr ⟨⟨F', h5⟩, by rw [h4]⟩

/-- The invariant after `addArc`. -/
theorem Lib.lib_arcAdded {g : DAGraph0} {L F FA : List Int} (h : Lib g L F FA)
    {u v a ffa fo fi : Int} {t : List ArcT} (hal : ArcAlloc g a ffa t)
    (hfo : fld NodeT.first_out g.nodes_ u = some fo)
    (hfi : fld NodeT.first_in g.nodes_ v = some fi) :
    Lib (arcAdded g u v a fo fi ffa t) L F (FA.erase a) ∧
      (FA = [] ∧ a = (g.arcs_.length : Int) ∧ t.length = g.arcs_.length + 1 ∨
        (∃ FA', FA = a :: FA') ∧ t.length = g.arcs_.length) := by
  obtain ⟨FA', hFA, _, _, hr⟩ := h.arcs.lib_addArc hal hfo hfi
  rw [erase_of_alloc hFA]
  refine ⟨⟨arcAdded_wf h.wf hal hfo hfi,
    h.nodes.of_same (arcAdded_next _ _ _ _ _ _ _ _) (arcAdded_prev _ _ _ _ _ _ _ _) rfl rfl
      (arcAdded_nodes_length _ _ _ _ _ _ _ _), hr⟩, ?_⟩
  rcases hal with ⟨h1, _, _, h4⟩ | ⟨h1, _, _, h4⟩
  · rcases hFA with ⟨h5, _, h7⟩ | h5
    · exact Or.inl ⟨h5, h7, by rw [h4]; simp⟩
    · have := (Seg.head_neg_one h.arcs.free).1 h1
      rw [h5] at this
      cases this
  · rcases hFA with ⟨h5, _, _⟩ | h5
    · exact absurd ((Seg.head_neg_one h.arcs.free).2 h5) h1
    · exact Or.inr ⟨⟨FA', h5⟩, by rw [h4]⟩

/-- The invariant after `erase(Node)`. -/
theorem Lib.lib_nodeErased {g : DAGraph0} {L F FA : List Int} (h : Lib g L F FA)
    {n nx pv : Int} (hn : g.validNode n = true)
    (hnx : fld NodeT.next g.nodes_ n = some nx) (hpv : fld NodeT.prev g.nodes_ n = some pv) :
    Lib (nodeErased g n nx pv) (L.erase n) (n :: F) FA :=
  ⟨nodeErased_wf h.wf hnx hpv, h.nodes.eraseNode hn hnx hpv, h.arcs.lib_eraseNode n nx pv⟩

/-- The invariant after `erase(Arc)`. -/
theorem Lib.lib_arcErased {g : DAGraph0} {L F FA : List Int} (h : Lib g L F FA)
    {a : Int} {s : ArcT} (ha : g.validArc a = true) (hs : look g.arcs_ a = some s) :
    Lib (arcErased g a s) L F (a :: FA) :=
  ⟨arcErased_wf h.wf hs,
    h.nodes.of_same (arcErased_next _ _ _) (arcErased_prev _ _ _) rfl rfl
      (arcErased_nodes_length _ _ _),
    h.arcs.lib_eraseArc hs ((h.arcs.valid_lib_iff a).1 ha)⟩

/-- The stacks of the model stay the free chains along a run of calls on valid
handles. -/
theorem runFree_ok :
    ∀ (ops : List Op) (g : DAGraph0) (L F FA : List Int), Lib g L F FA →
      g.admits pre ops = true →
      ∃ g' L' F' FA', g.runFree F FA ops = .ok (g', F', FA') ∧ g.run ops = .ok g' ∧
        Lib g' L' F' FA'
  | [], g, L, F, FA, h, _ => ⟨g, L, F, FA, rfl, rfl, h⟩
  | op :: ops, g, L, F, FA, h, ha => by
    simp only [admits, Bool.and_eq_true] at ha
    obtain ⟨hp, ha⟩ := ha
    cases op with
    | addNode =>
      obtain ⟨n, ffn, tn, hal, he⟩ := addNode_eq h.wf
      have hs : g.step .addNode = .ok (nodeAdded g n ffn tn) := by
        simp only [step, he, ok_bind, pure_eq_ok]
      rw [hs] at ha
      obtain ⟨g', L', F', FA', h1, h2, h3⟩ := runFree_ok ops _ _ _ _ (h.lib_nodeAdded hal).1 ha
      exact ⟨g', L', F', FA', by simp only [runFree, he, ok_bind, h1],
        by simp only [run, hs, ok_bind, h2], h3⟩
    | addArc u v =>
      simp only [pre, Bool.and_eq_true] at hp
      obtain ⟨a, ffa, t, fo, fi, hal, hfo, hfi, he⟩ := addArc_eq h.wf hp.1 hp.2
      have hs : g.step (.addArc u v) = .ok (arcAdded g u v a fo fi ffa t) := by
        simp only [step, he, ok_bind, pure_eq_ok]
      rw [hs] at ha
      obtain ⟨g', L', F', FA', h1, h2, h3⟩ :=
        runFree_ok ops _ _ _ _ (h.lib_arcAdded hal hfo hfi).1 ha
      exact ⟨g', L', F', FA', by simp only [runFree, he, ok_bind, h1],
        by simp only [run, hs, ok_bind, h2], h3⟩
    | eraseNode n =>
      obtain ⟨nx, pv, hnx, hpv, _, he⟩ := eraseNode_ok h.wf hp
      have hs : g.step (.eraseNode n) = .ok (nodeErased g n nx pv) := he
      rw [hs] at ha
      obtain ⟨g', L', F', FA', h1, h2, h3⟩ :=
        runFree_ok ops _ _ _ _ (h.lib_nodeErased hp hnx hpv) ha
      exact ⟨g', L', F', FA', by simp only [runFree, he, ok_bind, h1],
        by simp only [run, hs, ok_bind, h2], h3⟩
    | eraseArc a =>
      obtain ⟨s, hsl, _, he⟩ := eraseArc_ok h.wf hp
      have hs : g.step (.eraseArc a) = .ok (arcErased g a s) := he
      rw [hs] at ha
      obtain ⟨g', L', F', FA', h1, h2, h3⟩ :=
        runFree_ok ops _ _ _ _ (h.lib_arcErased hp hsl) ha
      exact ⟨g', L', F', FA', by simp only [runFree, he, ok_bind, h1],
        by simp only [run, hs, ok_bind, h2], h3⟩

/-- The states reached by calls on valid handles from the empty graph. -/
theorem reach_lib {ops : List Op} {g : DAGraph0} (ha : empty.admits pre ops = true)
    (hr : empty.run ops = .ok g) :
    ∃ L F FA, Lib g L F FA ∧ empty.runFree [] [] ops = .ok (g, F, FA) := by
  obtain ⟨g', L, F, FA, h1, h2, h3⟩ := runFree_ok ops empty [] [] [] empty_lib ha
  rw [hr] at h2
  cases h2
  exact ⟨L, F, FA, h3, h1⟩

/-- The free chain of nodes, walked from `first_free_node_`. -/
theorem NodeRep.freeNodes_eq {g : DAGraph0} {L F : List Int} (h : NodeRep g L F) :
    g.freeNodes = .ok F := by
  unfold freeNodes
  refine walk_of_seg (fld NodeT.next g.nodes_) (fun x n hx => rd_field_ok hx) _ _ _ h.free ?_
  have hnd : F.Nodup := (List.nodup_append.1 h.nodup).2.1
  have := length_le_of_nodup_range hnd (fun x hx => (h.cover x).1 (Or.inr hx))
  omega

/-- The free chain of arcs, walked from `first_free_arc_`. -/
theorem ArcLib.freeArcs_eq {g : DAGraph0} {FA : List Int} (h : ArcLib g FA) :
    g.freeArcs = .ok FA := by
  unfold freeArcs
  refine walk_of_seg (fld ArcT.next_in g.arcs_) (fun x n hx => rd_field_ok hx) _ _ _ h.free ?_
  have := length_le_of_nodup_range h.fnodup (fun x hx => fld_ge (h.mark x hx))
  omega

end DAGraph0

/-- C12. In every state reached from the empty graph by `addNode`, `addArc` on
valid nodes, `erase` of a valid arc and `erase` of a valid node, the walks from
`first_node_`, from `first_free_node_` (by `next`) and from `first_free_arc_`
(by `next_in`) up to `-1` return lists `L`, `F` and `FA` with: every node index
of `[0, nodes_.size())` is exactly once in `L ++ F` and nothing else is;
`valid(Node(i))` holds exactly for the `i` of `L` (so not for those of `F`, nor
outside the table, nor for `-1`); `FA` has no duplicates and `valid(Arc(j))` is
false exactly for the `j` of `FA` and those outside `[0, arcs_.size())`; no node
slot of `L` has `prev == -2` and no arc slot off `FA` has `prev_in == -2`. -/
theorem slots_on_one_chain (ops : List DAGraph0.Op) (g : DAGraph0)
    (hadm : DAGraph0.empty.admits DAGraph0.pre ops = true)
    (hrun : DAGraph0.empty.run ops = .ok g) :
    ∃ L F FA, g.nodeList = .ok L ∧ g.freeNodes = .ok F ∧ g.freeArcs = .ok FA ∧
      (L ++ F).Nodup ∧ (∀ i, (i ∈ L ∨ i ∈ F) ↔ (0 ≤ i ∧ i < (g.nodes_.length : Int))) ∧
      (∀ i, g.validNode i = true ↔ i ∈ L) ∧
      FA.Nodup ∧
      (∀ j, g.validArc j = false ↔ (j ∈ FA ∨ ¬ (0 ≤ j ∧ j < (g.arcs_.length : Int)))) ∧
      (∀ i s, i ∈ L → look g.nodes_ i = some s → s.prev ≠ -2) ∧
      (∀ j s, j ∉ FA → look g.arcs_ j = some s → s.prev_in ≠ -2) := by
  obtain ⟨L, F, FA, h, _⟩ := DAGraph0.reach_lib hadm hrun
  refine ⟨L, F, FA, h.nodes.nodeList_eq, h.nodes.freeNodes_eq, h.arcs.freeArcs_eq,
    h.nodes.nodup, h.nodes.cover, h.nodes.valid_iff, h.arcs.fnodup, ?_, ?_, ?_⟩
  · intro j
    rw [← Bool.not_eq_true, h.arcs.valid_lib_iff j]
    unfold DAGraph0.Live
    tauto
  · intro i s hi hs
    obtain ⟨v, hv, hv2⟩ := DAGraph0.validNode_iff.1 ((h.nodes.valid_iff i).2 hi)
    rw [fld_of_look DAGraph0.NodeT.prev hs] at hv
    rw [Option.some.inj hv]
    exact hv2
  · intro j s hj hs
    have hl : DAGraph0.Live g.arcs_.length FA j := ⟨look_ge hs, hj⟩
    obtain ⟨v, hv, hv2⟩ := DAGraph0.validArc_iff.1 ((h.arcs.valid_lib_iff j).2 hl)
    rw [fld_of_look DAGraph0.ArcT.prev_in hs] at hv
    rw [Option.some.inj hv]
    exact hv2

/-- The chains of the sample state for C12. -/
theorem slots_on_one_chain_witness :
    (DAGraph0.empty.admits DAGraph0.pre DAGraph0.freedOps = true ∧
      DAGraph0.empty.run DAGraph0.freedOps = .ok DAGraph0.freedGraph) ∧
    (∃ L F FA, DAGraph0.freedGraph.nodeList = .ok L ∧ DAGraph0.freedGraph.freeNodes = .ok F ∧
      DAGraph0.freedGraph.freeArcs = .ok FA ∧
      (L ++ F).Nodup ∧
      (∀ i, (i ∈ L ∨ i ∈ F) ↔ (0 ≤ i ∧ i < (DAGraph0.freedGraph.nodes_.length : Int))) ∧
      (∀ i, DAGraph0.freedGraph.validNode i = true ↔ i ∈ L) ∧
      FA.Nodup ∧
      (∀ j, DAGraph0.freedGraph.validArc j = false ↔
        (j ∈ FA ∨ ¬ (0 ≤ j ∧ j < (DAGraph0.freedGraph.arcs_.length : Int)))) ∧
      (∀ i s, i ∈ L → look DAGraph0.freedGraph.nodes_ i = some s → s.prev ≠ -2) ∧
      (∀ j s, j ∉ FA → look DAGraph0.freedGraph.arcs_ j = some s → s.prev_in ≠ -2)) ∧
    DAGraph0.freedGraph.nodeList = .ok [1] ∧ DAGraph0.freedGraph.freeNodes = .ok [2, 0] ∧
    DAGraph0.freedGraph.freeArcs = .ok [0] :=
  ⟨⟨by decide, by decide⟩,
    slots_on_one_chain DAGraph0.freedOps DAGraph0.freedGraph (by decide) (by decide),
    by decide, by decide, by decide⟩

/-- C13. In every state reached from the empty graph by `addNode`, `addArc` on
valid nodes, `erase` of a valid arc and `erase` of a valid node, `addNode()`
returns a handle that was not a valid node before the call, and the valid nodes
after the call are that handle and the nodes valid before; for valid nodes `u`
and `v`, `addArc(u, v)` returns a handle that was not a valid arc before the
call, the valid arcs after the call are that handle and the arcs valid before,
and the valid nodes are the same. -/
theorem inserted_handle_was_not_valid (ops : List DAGraph0.Op) (g : DAGraph0)
    (hadm : DAGraph0.empty.admits DAGraph0.pre ops = true)
    (hrun : DAGraph0.empty.run ops = .ok g) :
    (∃ n g', g.addNode = .ok (n, g') ∧ g.validNode n = false ∧
      ∀ m, g'.validNode m = true ↔ (m = n ∨ g.validNode m = true)) ∧
    (∀ u v, g.validNode u = true → g.validNode v = true →
      ∃ a g', g.addArc u v = .ok (a, g') ∧ g.validArc a = false ∧
        (∀ b, g'.validArc b = true ↔ (b = a ∨ g.validArc b = true)) ∧
        ∀ m, g'.validNode m = true ↔ g.validNode m = true) := by
  obtain ⟨L, F, FA, h, _⟩ := DAGraph0.reach_lib hadm hrun
  constructor
  · obtain ⟨n, ffn, tn, hal, he⟩ := DAGraph0.addNode_eq h.wf
    obtain ⟨_, _, _, hnL, _⟩ := h.nodes.alloc hal
    have h1 := (h.lib_nodeAdded hal).1
    refine ⟨n, _, he, ?_, fun m => ?_⟩
    · rw [← Bool.not_eq_true, h.nodes.valid_iff n]
      exact hnL
    · rw [h1.nodes.valid_iff m, h.nodes.valid_iff m, List.mem_cons]
  · intro u v hu hv
    obtain ⟨a, ffa, t, fo, fi, hal, hfo, hfi, he⟩ := DAGraph0.addArc_eq h.wf hu hv
    obtain ⟨FA', _, hnl, hlv, hr⟩ := h.arcs.lib_addArc hal hfo hfi
    have h1 := (h.lib_arcAdded hal hfo hfi).1
    refine ⟨a, _, he, ?_, fun b => ?_, fun m => ?_⟩
    · rw [← Bool.not_eq_true, h.arcs.valid_lib_iff a]
      exact hnl
    · rw [hr.valid_lib_iff b, h.arcs.valid_lib_iff b,
        DAGraph0.arcAdded_arcs_length]
      exact hlv b
    · rw [h1.nodes.valid_iff m, h.nodes.valid_iff m]

/-- The insertions of the sample state for C13: `addNode()` returns the free
handle `2` and `addArc(1, 1)` the free handle `0`. -/
theorem inserted_handle_was_not_valid_witness :
    (DAGraph0.empty.admits DAGraph0.pre DAGraph0.freedOps = true ∧
      DAGraph0.empty.run DAGraph0.freedOps = .ok DAGraph0.freedGraph) ∧
    ((∃ n g', DAGraph0.freedGraph.addNode = .ok (n, g') ∧
        DAGraph0.freedGraph.validNode n = false ∧
        ∀ m, g'.validNode m = true ↔ (m = n ∨ DAGraph0.freedGraph.validNode m = true)) ∧
      (∀ u v, DAGraph0.freedGraph.validNode u = true → DAGraph0.freedGraph.validNode v = true →
        ∃ a g', DAGraph0.freedGraph.addArc u v = .ok (a, g') ∧
          DAGraph0.freedGraph.validArc a = false ∧
          (∀ b, g'.validArc b = true ↔ (b = a ∨ DAGraph0.freedGraph.validArc b = true)) ∧
          ∀ m, g'.validNode m = true ↔ DAGraph0.freedGraph.validNode m = true)) ∧
    DAGraph0.freedGraph.validNode 1 = true ∧
    DAGraph0.freedGraph.addNode.map (fun r => r.1) = .ok 2 ∧
    (DAGraph0.freedGraph.addArc 1 1).map (fun r => r.1) = .ok 0 :=
  ⟨⟨by decide, by decide⟩,
    inserted_handle_was_not_valid DAGraph0.freedOps DAGraph0.freedGraph (by decide) (by decide),
    by decide, by decide, by decide⟩

/-- C20. Along every run of `addNode`, `addArc` on valid nodes, `erase` of a
valid arc and `erase` of a valid node from the empty graph, the free chains are
the stacks of the model (`erase` puts the erased handle on top, an insertion
takes the handle it returns off): all calls return, the walks of the free chains
return the stacks, and in the state reached `addNode()` returns
`maxNodeId() + 1` and grows `nodes_` by one slot when the stack of nodes is
empty, and returns its top and leaves the size of `nodes_` when it is not; for
valid `u`, `v`, `addArc(u, v)` does the same with the stack of arcs and `arcs_`. -/
theorem free_chains_are_stacks (ops : List DAGraph0.Op)
    (hadm : DAGraph0.empty.admits DAGraph0.pre ops = true) :
    ∃ g fn fa, DAGraph0.empty.runFree [] [] ops = .ok (g, fn, fa) ∧
      DAGraph0.empty.run ops = .ok g ∧ g.freeNodes = .ok fn ∧ g.freeArcs = .ok fa ∧
      (∃ n g', g.addNode = .ok (n, g') ∧
        (fn = [] ∧ n = g.maxNodeId + 1 ∧ g'.nodes_.length = g.nodes_.length + 1 ∨
          (∃ r, fn = n :: r) ∧ g'.nodes_.length = g.nodes_.length)) ∧
      (∀ u v, g.validNode u = true → g.validNode v = true →
        ∃ a g', g.addArc u v = .ok (a, g') ∧
          (fa = [] ∧ a = g.maxArcId + 1 ∧ g'.arcs_.length = g.arcs_.length + 1 ∨
            (∃ r, fa = a :: r) ∧ g'.arcs_.length = g.arcs_.length)) := by
  obtain ⟨g, L, fn, fa, h1, h2, h⟩ :=
    DAGraph0.runFree_ok ops DAGraph0.empty [] [] [] DAGraph0.empty_lib hadm
  refine ⟨g, fn, fa, h1, h2, h.nodes.freeNodes_eq, h.arcs.freeArcs_eq, ?_, ?_⟩
  · obtain ⟨n, ffn, tn, hal, he⟩ := DAGraph0.addNode_eq h.wf
    refine ⟨n, _, he, ?_⟩
    rw [DAGraph0.nodeAdded_length]
    rcases (h.lib_nodeAdded hal).2 with ⟨h3, h4, h5⟩ | ⟨h3, h4⟩
    · exact Or.inl ⟨h3, by unfold DAGraph0.maxNodeId; omega, h5⟩
    · exact Or.inr ⟨h3, h4⟩
  · intro u v hu hv
    obtain ⟨a, ffa, t, fo, fi, hal, hfo, hfi, he⟩ := DAGraph0.addArc_eq h.wf hu hv
    refine ⟨a, _, he, ?_⟩
    rw [DAGraph0.arcAdded_arcs_length]
    rcases (h.lib_arcAdded hal hfo hfi).2 with ⟨h3, h4, h5⟩ | ⟨h3, h4⟩
    · exact Or.inl ⟨h3, by unfold DAGraph0.maxArcId; omega, h5⟩
    · exact Or.inr ⟨h3, h4⟩

/-- The stacks of the sample run for C20: the nodes `2`, `0` and the arc `0`,
the last erased on top. -/
theorem free_chains_are_stacks_witness :
    DAGraph0.empty.admits DAGraph0.pre DAGraph0.freedOps = true ∧
    (∃ g fn fa, DAGraph0.empty.runFree [] [] DAGraph0.freedOps = .ok (g, fn, fa) ∧
      DAGraph0.empty.run DAGraph0.freedOps = .ok g ∧ g.freeNodes = .ok fn ∧
      g.freeArcs = .ok fa ∧
      (∃ n g', g.addNode = .ok (n, g') ∧
        (fn = [] ∧ n = g.maxNodeId + 1 ∧ g'.nodes_.length = g.nodes_.length + 1 ∨
          (∃ r, fn = n :: r) ∧ g'.nodes_.length = g.nodes_.length)) ∧
      (∀ u v, g.validNode u = true → g.validNode v = true →
        ∃ a g', g.addArc u v = .ok (a, g') ∧
          (fa = [] ∧ a = g.maxArcId + 1 ∧ g'.arcs_.length = g.arcs_.length + 1 ∨
            (∃ r, fa = a :: r) ∧ g'.arcs_.length = g.arcs_.length))) ∧
    (DAGraph0.empty.runFree [] [] DAGraph0.freedOps).map (fun r => r.2) = .ok ([2, 0], [0]) ∧
    DAGraph0.freedGraph.addNode.map (fun r => (r.1, r.2.nodes_.length)) = .ok (2, 3) ∧
    (DAGraph0.empty.addNode).map (fun r => (r.1, r.2.nodes_.length)) = .ok (0, 1) :=
  ⟨by decide, free_chains_are_stacks DAGraph0.freedOps (by decide), by decide, by decide,
    by decide⟩

/-- In a doubly linked chain without repetition a slot is the predecessor of
its successor. -/
theorem link_back {nx pv : Int → Option Int} :
    ∀ (l : List Int) (c q : Int), Seg nx c l (-1) → Back pv q l → l.Nodup →
      ∀ {x b : Int}, x ∈ l → nx x = some b → b ≠ -1 → pv b = some x
  | [], _, _, _, _, _, x, b, hx, _, _ => by simp at hx
  | y :: l, c, q, hs, hb, hnd, x, b, hx, hn, hb1 => by
    have hs' := hs
    obtain ⟨_, hy1, m, hm, hsl⟩ := hs
    obtain ⟨_, hbl⟩ := hb
    obtain ⟨hyl, hndl⟩ := List.nodup_cons.1 hnd
    rcases List.mem_cons.1 hx with hxy | hxl
    · subst hxy
      rw [hm] at hn
      have hmb : m = b := Option.some.inj hn
      subst hmb
      cases l with
      | nil => exact absurd hsl hb1
      | cons z l =>
        have hmz : m = z := hsl.1
        rw [hmz]
        exact hbl.1
    · exact link_back l m y hsl hbl hndl hxl hn hb1

namespace DAGraph0

/-- A slot of a doubly linked chain has no predecessor exactly when it is the
head. -/
theorem head_iff {nx pv : Int → Option Int} {c x p : Int} {l : List Int}
    (hs : Seg nx c l (-1)) (hb : Back pv (-1) l) (hx : x ∈ l) (hp : pv x = some p) :
    p = -1 ↔ c = x := by
  have hm1 : (-1 : Int) ∉ l := fun h => Seg.ne_neg_one hs _ h rfl
  cases l with
  | nil => simp at hx
  | cons y l =>
    have hcy : c = y := hs.1
    constructor
    · intro hp1
      rw [hcy]
      exact (Back.eq_head hb hm1 hx (hp1 ▸ hp)).symm
    · intro hcx
      have hxy : x = y := hcx.symm.trans hcy
      rw [hxy, hb.1] at hp
      exact (Option.some.inj hp).symm

/-- A chain of a family is doubly linked. -/
theorem Fam.chains_symmetric {hd nx pv key : Int → Option Int} {L : List Int} {lv : Int → Prop}
    {ch : Int → List Int} (h : Fam hd nx pv key L lv ch) (hneg : ¬ lv (-1)) :
    (∀ a b, lv a → lv b → nx a = some b → pv b = some a) ∧
    (∀ a u p, lv a → key a = some u → pv a = some p → (p = -1 ↔ hd u = some a)) := by
  constructor
  · intro a b ha hb hn
    obtain ⟨u, hu, hk⟩ := h.ends a ha
    obtain ⟨c, _, hs⟩ := h.seg u hu
    exact link_back _ _ _ hs (h.back u hu) (h.nodup u hu) ((h.mem u hu a).2 ⟨ha, hk⟩) hn
      (fun hb1 => hneg (hb1 ▸ hb))
  · intro a u p ha hk hp
    obtain ⟨w, hw, hkw⟩ := h.ends a ha
    rw [hk] at hkw
    have hwu : u = w := Option.some.inj hkw
    subst hwu
    obtain ⟨c, hc, hs⟩ := h.seg u hw
    rw [head_iff hs (h.back u hw) ((h.mem u hw a).2 ⟨ha, hk⟩) hp, hc]
    constructor
    · intro h1; rw [h1]
    · intro h1; exact Option.some.inj h1

/-- The chains of a state that satisfies the invariant are doubly linked. -/
theorem Rep.symmetric {g : DAGraph0} {L F FA : List Int} {outs ins : Int → List Int}
    (h : Rep g L F FA outs ins) : Symmetric g := by
  have hneg : ¬ Live g.arcs_.length FA (-1) := fun hl => by
    have := hl.1.1
    omega
  obtain ⟨ho1, ho2⟩ := Fam.chains_symmetric h.arcs.out hneg
  obtain ⟨hi1, hi2⟩ := Fam.chains_symmetric h.arcs.inn hneg
  have hLnd : L.Nodup := (List.nodup_append.1 h.nodes.nodup).1
  have hm1 : (-1 : Int) ∉ L := fun hm => Seg.ne_neg_one h.nodes.live _ hm rfl
  refine
    { next_out := ?_
      next_in := ?_
      head_out := ?_
      head_in := ?_
      next := ?_
      head := ?_ }
  · intro a b sa sb ha hb hsa hsb hn
    have := ho1 a b ((h.arcs.valid_arc_iff a).1 ha) ((h.arcs.valid_arc_iff b).1 hb)
      (by rw [fld_of_look ArcT.next_out hsa, hn])
    rw [fld_of_look ArcT.prev_out hsb] at this
    exact Option.some.inj this
  · intro a b sa sb ha hb hsa hsb hn
    have := hi1 a b ((h.arcs.valid_arc_iff a).1 ha) ((h.arcs.valid_arc_iff b).1 hb)
      (by rw [fld_of_look ArcT.next_in hsa, hn])
    rw [fld_of_look ArcT.prev_in hsb] at this
    exact Option.some.inj this
  · intro a sa ha hsa
    rw [ho2 a sa.source sa.prev_out ((h.arcs.valid_arc_iff a).1 ha)
      (fld_of_look ArcT.source hsa) (fld_of_look ArcT.prev_out hsa), firstOut_eq_ok]
  · intro a sa ha hsa
    rw [hi2 a sa.target sa.prev_in ((h.arcs.valid_arc_iff a).1 ha)
      (fld_of_look ArcT.target hsa) (fld_of_look ArcT.prev_in hsa), firstIn_eq_ok]
  · intro n m sn sm hn hm hsn hsm hnm
    have hm' : m ≠ -1 := by
      have := validNode_range hm
      omega
    have := link_back _ _ _ h.nodes.live h.nodes.back hLnd ((h.nodes.valid_iff n).1 hn)
      (by rw [fld_of_look NodeT.next hsn, hnm]) hm'
    rw [fld_of_look NodeT.prev hsm] at this
    exact Option.some.inj this
  · intro n sn hn hsn
    exact head_iff h.nodes.live h.nodes.back ((h.nodes.valid_iff n).1 hn)
      (fld_of_look NodeT.prev hsn)

end DAGraph0

/-- C14. The chains are doubly linked (`Symmetric`) in the empty graph and in
every state reached from it by `addNode`, `addArc` on valid nodes, `erase` of a
valid arc and `erase` of a valid node without arcs, and each of these calls made
in such a state returns a state in which they are doubly linked again. -/
theorem links_stay_symmetric (ops : List DAGraph0.Op) (g : DAGraph0)
    (hadm : DAGraph0.empty.admits DAGraph0.preStrict ops = true)
    (hrun : DAGraph0.empty.run ops = .ok g) :
    DAGraph0.Symmetric DAGraph0.empty ∧ DAGraph0.Symmetric g ∧
      ∀ op, g.preStrict op = true → ∃ g', g.step op = .ok g' ∧ DAGraph0.Symmetric g' := by
  obtain ⟨L, F, FA, outs, ins, h⟩ := DAGraph0.reach_rep hadm hrun
  refine ⟨DAGraph0.empty_rep.symmetric, h.symmetric, fun op hop => ?_⟩
  obtain ⟨g', _, _, _, _, _, hs, h'⟩ := h.rep_step_ok hop
  exact ⟨g', hs, h'.symmetric⟩

/-- The sample state for C14, and the links of its parallel arcs `3` and `0`. -/
theorem links_stay_symmetric_witness :
    (DAGraph0.empty.admits DAGraph0.preStrict DAGraph0.sampleOps = true ∧
      DAGraph0.empty.run DAGraph0.sampleOps = .ok DAGraph0.sampleGraph) ∧
    (DAGraph0.Symmetric DAGraph0.empty ∧ DAGraph0.Symmetric DAGraph0.sampleGraph ∧
      ∀ op, DAGraph0.sampleGraph.preStrict op = true →
        ∃ g', DAGraph0.sampleGraph.step op = .ok g' ∧ DAGraph0.Symmetric g') ∧
    DAGraph0.sampleGraph.preStrict (.eraseArc 3) = true ∧
    DAGraph0.sampleGraph.nextOut 3 = .ok 0 ∧
    (look DAGraph0.sampleGraph.arcs_ 0).map (fun s => s.prev_out) = some 3 ∧
    DAGraph0.sampleGraph.firstOut 0 = .ok 3 :=
  ⟨⟨by decide, by decide⟩,
    links_stay_symmetric DAGraph0.sampleOps DAGraph0.sampleGraph (by decide) (by decide),
    by decide, by decide, by decide, by decide⟩

namespace DAGraph0

/-- The head of a list is the default or a member. -/
theorem headD_mem (l : List Int) : l.headD (-1) = -1 ∨ l.headD (-1) ∈ l := by
  cases l with
  | nil => exact Or.inl rfl
  | cons x l => exact Or.inr (List.mem_cons_self _ _)

/-- The arc traversal starts at the invalid arc or a valid arc. -/
theorem Rep.firstArc_ok {g : DAGraph0} {L F FA : List Int} {outs ins : Int → List Int}
    (h : Rep g L F FA outs ins) :
    ∃ a, g.firstArc = .ok a ∧ (a = -1 ∨ g.validArc a = true) := by
  have hLnd : L.Nodup := (List.nodup_append.1 h.nodes.nodup).1
  have hlen : L.length ≤ g.nodes_.length :=
    length_le_of_nodup_range hLnd (fun x hx => (h.nodes.cover x).1 (Or.inl hx))
  refine ⟨_, h.arcs.seekOut_eq L _ _ h.nodes.live (fun u hu => hu) (by omega), ?_⟩
  rcases headD_mem (L.flatMap outs) with h1 | h1
  · exact Or.inl h1
  · exact Or.inr ((h.arcs.valid_arc_iff _).2 ((h.arcs.mem_flat _).1 h1))

/-- The arc traversal goes on from a valid arc to the invalid arc or a valid arc. -/
theorem Rep.nextArc_ok {g : DAGraph0} {L F FA : List Int} {outs ins : Int → List Int}
    (h : Rep g L F FA outs ins) {a : Int} (ha : g.validArc a = true) :
    ∃ b, g.nextArc a = .ok b ∧ (b = -1 ∨ g.validArc b = true) := by
  have hLnd : L.Nodup := (List.nodup_append.1 h.nodes.nodup).1
  have hlen : L.length ≤ g.nodes_.length :=
    length_le_of_nodup_range hLnd (fun x hx => (h.nodes.cover x).1 (Or.inl hx))
  have hseg := h.arcs.arc_seg L _ h.nodes.live (fun u hu => hu) hlen
  have hm := (h.arcs.mem_flat a).2 ((h.arcs.valid_arc_iff a).1 ha)
  obtain ⟨b, hb⟩ := Seg.dom hseg a hm
  refine ⟨b, nextArcView_ok a b hb, ?_⟩
  rcases Seg.next_mem hseg hm hb with h1 | h1
  · exact Or.inl h1
  · exact Or.inr ((h.arcs.valid_arc_iff _).2 ((h.arcs.mem_flat _).1 h1))

end DAGraph0

/-- C15. In every state reached from the empty graph by `addNode`, `addArc` on
valid nodes, `erase` of a valid arc and `erase` of a valid node without arcs:
a valid arc has a valid source and a valid target, and `source`, `target`,
`nextOut`, `nextIn`, `next(Arc)` and `erase` of it return without an access
outside a table, the arcs they return being invalid (`-1`) or valid; for a valid
node `firstOut`, `firstIn`, `next(Node)` and `erase` return likewise; so do
`firstArc()` and, for valid nodes, `addArc`. -/
theorem valid_handles_stay_in_tables (ops : List DAGraph0.Op) (g : DAGraph0)
    (hadm : DAGraph0.empty.admits DAGraph0.preStrict ops = true)
    (hrun : DAGraph0.empty.run ops = .ok g) :
    (∀ a, g.validArc a = true →
      (∃ u v, g.source a = .ok u ∧ g.target a = .ok v ∧
        g.validNode u = true ∧ g.validNode v = true) ∧
      (∃ b, g.nextOut a = .ok b ∧ (b = -1 ∨ g.validArc b = true)) ∧
      (∃ b, g.nextIn a = .ok b ∧ (b = -1 ∨ g.validArc b = true)) ∧
      (∃ b, g.nextArc a = .ok b ∧ (b = -1 ∨ g.validArc b = true)) ∧
      ∃ g', g.eraseArc a = .ok g') ∧
    (∀ n, g.validNode n = true →
      (∃ a, g.firstOut n = .ok a ∧ (a = -1 ∨ g.validArc a = true)) ∧
      (∃ a, g.firstIn n = .ok a ∧ (a = -1 ∨ g.validArc a = true)) ∧
      (∃ m, g.nextNode n = .ok m ∧ (m = -1 ∨ g.validNode m = true)) ∧
      ∃ g', g.eraseNode n = .ok g') ∧
    (∃ a, g.firstArc = .ok a ∧ (a = -1 ∨ g.validArc a = true)) ∧
    (∀ u v, g.validNode u = true → g.validNode v = true →
      ∃ a g', g.addArc u v = .ok (a, g')) := by
  obtain ⟨L, F, FA, outs, ins, h⟩ := DAGraph0.reach_rep hadm hrun
  have hval : ∀ {x : Int}, (x = -1 ∨ DAGraph0.Live g.arcs_.length FA x) →
      (x = -1 ∨ g.validArc x = true) := fun hx =>
    hx.imp id (fun h1 => (h.arcs.valid_arc_iff _).2 h1)
  refine ⟨fun a ha => ?_, fun n hn => ?_, h.firstArc_ok, fun u v hu hv => ?_⟩
  · have hl := (h.arcs.valid_arc_iff a).1 ha
    obtain ⟨u, hu, hku⟩ := h.arcs.out.ends a hl
    obtain ⟨v, hv, hkv⟩ := h.arcs.inn.ends a hl
    obtain ⟨no, hno⟩ := (fld_isSome DAGraph0.ArcT.next_out g.arcs_ a).2 hl.1
    obtain ⟨ni, hni⟩ := (fld_isSome DAGraph0.ArcT.next_in g.arcs_ a).2 hl.1
    obtain ⟨s, _, _, he⟩ := DAGraph0.eraseArc_ok h.wf ha
    exact ⟨⟨u, v, rd_field_ok hku, rd_field_ok hkv, (h.nodes.valid_iff u).2 hu,
        (h.nodes.valid_iff v).2 hv⟩,
      ⟨no, rd_field_ok hno, hval (Fam.next_live h.arcs.out hl hno)⟩,
      ⟨ni, rd_field_ok hni, hval (Fam.next_live h.arcs.inn hl hni)⟩,
      h.nextArc_ok ha, ⟨_, he⟩⟩
  · have hnL := (h.nodes.valid_iff n).1 hn
    obtain ⟨fo, hfo, _⟩ := h.arcs.out.seg n hnL
    obtain ⟨fi, hfi, _⟩ := h.arcs.inn.seg n hnL
    obtain ⟨m, hm⟩ := Seg.dom h.nodes.live n hnL
    obtain ⟨nx, pv, _, _, _, he⟩ := DAGraph0.eraseNode_ok h.wf hn
    refine ⟨⟨fo, rd_field_ok hfo, hval (Fam.head_live h.arcs.out hnL hfo)⟩,
      ⟨fi, rd_field_ok hfi, hval (Fam.head_live h.arcs.inn hnL hfi)⟩,
      ⟨m, rd_field_ok hm, ?_⟩, ⟨_, he⟩⟩
    exact (Seg.next_mem h.nodes.live hnL hm).imp id (fun h1 => (h.nodes.valid_iff m).2 h1)
  · obtain ⟨a, ffa, t, fo, fi, _, _, _, he⟩ := DAGraph0.addArc_eq h.wf hu hv
    exact ⟨a, _, he⟩

/-- The sample state for C15: its arc `1` is a loop at the node `2`. -/
theorem valid_handles_stay_in_tables_witness :
    (DAGraph0.empty.admits DAGraph0.preStrict DAGraph0.sampleOps = true ∧
      DAGraph0.empty.run DAGraph0.sampleOps = .ok DAGraph0.sampleGraph) ∧
    ((∀ a, DAGraph0.sampleGraph.validArc a = true →
        (∃ u v, DAGraph0.sampleGraph.source a = .ok u ∧ DAGraph0.sampleGraph.target a = .ok v ∧
          DAGraph0.sampleGraph.validNode u = true ∧ DAGraph0.sampleGraph.validNode v = true) ∧
        (∃ b, DAGraph0.sampleGraph.nextOut a = .ok b ∧
          (b = -1 ∨ DAGraph0.sampleGraph.validArc b = true)) ∧
        (∃ b, DAGraph0.sampleGraph.nextIn a = .ok b ∧
          (b = -1 ∨ DAGraph0.sampleGraph.validArc b = true)) ∧
        (∃ b, DAGraph0.sampleGraph.nextArc a = .ok b ∧
          (b = -1 ∨ DAGraph0.sampleGraph.validArc b = true)) ∧
        ∃ g', DAGraph0.sampleGraph.eraseArc a = .ok g') ∧
      (∀ n, DAGraph0.sampleGraph.validNode n = true →
        (∃ a, DAGraph0.sampleGraph.firstOut n = .ok a ∧
          (a = -1 ∨ DAGraph0.sampleGraph.validArc a = true)) ∧
        (∃ a, DAGraph0.sampleGraph.firstIn n = .ok a ∧
          (a = -1 ∨ DAGraph0.sampleGraph.validArc a = true)) ∧
        (∃ m, DAGraph0.sampleGraph.nextNode n = .ok m ∧
          (m = -1 ∨ DAGraph0.sampleGraph.validNode m = true)) ∧
        ∃ g', DAGraph0.sampleGraph.eraseNode n = .ok g') ∧
      (∃ a, DAGraph0.sampleGraph.firstArc = .ok a ∧
        (a = -1 ∨ DAGraph0.sampleGraph.validArc a = true)) ∧
      (∀ u v, DAGraph0.sampleGraph.validNode u = true → DAGraph0.sampleGraph.validNode v = true →
        ∃ a g', DAGraph0.sampleGraph.addArc u v = .ok (a, g'))) ∧
    DAGraph0.sampleGraph.validArc 1 = true ∧ DAGraph0.sampleGraph.source 1 = .ok 2 ∧
    DAGraph0.sampleGraph.target 1 = .ok 2 ∧ DAGraph0.sampleGraph.nextArc 1 = .ok 2 :=
  ⟨⟨by decide, by decide⟩,
    valid_handles_stay_in_tables DAGraph0.sampleOps DAGraph0.sampleGraph (by decide) (by decide),
    by decide, by decide, by decide, by decide⟩

/-- C16. In every state reached from the empty graph by `addNode`, `addArc` on
valid nodes, `erase` of a valid arc and `erase` of a valid node, `erase(n)` of a
valid node `n` returns a state with the same arc table and the same `firstIn`
and `firstOut` of every node, in which `n` is not valid; so every arc that was
valid is still valid with the same `source`, `target`, `nextOut` and `nextIn`,
and a valid arc with source or target `n` is valid afterwards with a source or
target that is not valid. -/
theorem eraseNode_keeps_arcs (ops : List DAGraph0.Op) (g : DAGraph0)
    (hadm : DAGraph0.empty.admits DAGraph0.pre ops = true)
    (hrun : DAGraph0.empty.run ops = .ok g) (n : Int) (hn : g.validNode n = true) :
    ∃ g', g.eraseNode n = .ok g' ∧ g'.arcs_ = g.arcs_ ∧
      (∀ j, g'.firstIn j = g.firstIn j ∧ g'.firstOut j = g.firstOut j) ∧
      g'.validNode n = false ∧
      (∀ a, g.validArc a = true →
        g'.validArc a = true ∧ g'.source a = g.source a ∧ g'.target a = g.target a ∧
        g'.nextOut a = g.nextOut a ∧ g'.nextIn a = g.nextIn a) ∧
      (∀ a, g.validArc a = true → (g.source a = .ok n ∨ g.target a = .ok n) →
        g'.validArc a = true ∧
        ∃ w, (g'.source a = .ok w ∨ g'.target a = .ok w) ∧ g'.validNode w = false) := by
  have hw := DAGraph0.reach_wf hadm hrun
  obtain ⟨nx, pv, hnx, hpv, _, he⟩ := DAGraph0.eraseNode_ok hw hn
  have hnr := DAGraph0.validNode_range hn
  have hinv : (DAGraph0.nodeErased g n nx pv).validNode n = false := by
    rw [← Bool.not_eq_true, DAGraph0.validNode_iff]
    rintro ⟨v, hv, hv2⟩
    rw [DAGraph0.nodeErased_prev, if_pos rfl, if_pos hnr] at hv
    exact hv2 (Option.some.inj hv).symm
  refine ⟨_, he, rfl, fun j => ⟨?_, ?_⟩, hinv, fun a ha => ⟨ha, rfl, rfl, rfl, rfl⟩,
    fun a ha hst => ⟨ha, n, hst, hinv⟩⟩
  · unfold DAGraph0.firstIn
    rw [rd_field, rd_field, DAGraph0.nodeErased_first_in]
  · unfold DAGraph0.firstOut
    rw [rd_field, rd_field, DAGraph0.nodeErased_first_out]

/-- The node `0` of the state for C16, erased while the arcs `0` and `1` leave it. -/
theorem eraseNode_keeps_arcs_witness :
    (DAGraph0.empty.admits DAGraph0.pre [.addNode, .addNode, .addArc 0 1, .addArc 0 1] = true ∧
      DAGraph0.empty.run [.addNode, .addNode, .addArc 0 1, .addArc 0 1] =
        .ok DAGraph0.twoArcsGraph ∧
      DAGraph0.twoArcsGraph.validNode 0 = true) ∧
    (∃ g', DAGraph0.twoArcsGraph.eraseNode 0 = .ok g' ∧ g'.arcs_ = DAGraph0.twoArcsGraph.arcs_ ∧
      (∀ j, g'.firstIn j = DAGraph0.twoArcsGraph.firstIn j ∧
        g'.firstOut j = DAGraph0.twoArcsGraph.firstOut j) ∧
      g'.validNode 0 = false ∧
      (∀ a, DAGraph0.twoArcsGraph.validArc a = true →
        g'.validArc a = true ∧ g'.source a = DAGraph0.twoArcsGraph.source a ∧
        g'.target a = DAGraph0.twoArcsGraph.target a ∧
        g'.nextOut a = DAGraph0.twoArcsGraph.nextOut a ∧
        g'.nextIn a = DAGraph0.twoArcsGraph.nextIn a) ∧
      (∀ a, DAGraph0.twoArcsGraph.validArc a = true →
        (DAGraph0.twoArcsGraph.source a = .ok 0 ∨ DAGraph0.twoArcsGraph.target a = .ok 0) →
        g'.validArc a = true ∧
        ∃ w, (g'.source a = .ok w ∨ g'.target a = .ok w) ∧ g'.validNode w = false)) ∧
    DAGraph0.twoArcsGraph.validArc 1 = true ∧ DAGraph0.twoArcsGraph.source 1 = .ok 0 ∧
    (DAGraph0.twoArcsGraph.eraseNode 0).map
      (fun g => (g.validArc 1, g.source 1, g.validNode 0)) = .ok (true, .ok 0, false) :=
  ⟨⟨by decide, by decide, by decide⟩,
    eraseNode_keeps_arcs [.addNode, .addNode, .addArc 0 1, .addArc 0 1] DAGraph0.twoArcsGraph
      (by decide) (by decide) 0 (by decide),
    by decide, by decide, by decide⟩

namespace StaticDAGraph0

/-- The indices of the edges that satisfy `p` are listed in decreasing order. -/
theorem pairwise_hits (p : Int × Int → Bool) (E : List (Int × Int)) :
    ∀ k, (hits p E k).Pairwise (fun i j => j < i)
  | 0 => List.Pairwise.nil
  | k + 1 => by
    have ih := pairwise_hits p E k
    rw [hits_succ]
    cases E[k]? with
    | none => exact ih
    | some e0 =>
      dsimp only
      by_cases hp : p e0 = true
      · rw [if_pos hp]
        refine List.Pairwise.cons (fun x hx => ?_) ih
        exact (mem_hits.1 hx).1.2
      · rw [if_neg hp]
        exact ih

/-- The outgoing enumeration of a node of a built graph. -/
theorem Built.outArcs_eq {N : Nat} {E : List (Int × Int)} {g : StaticDAGraph0}
    (h : Built N E g) {n : Int} (hn : 0 ≤ n ∧ n < (N : Int)) :
    g.outArcs n = .ok (outIdx E n) := by
  obtain ⟨fo, h1, h2, _⟩ := h.outs n hn.1 hn.2
  unfold outArcs firstOut
  rw [rd_field_ok h1, ok_bind]
  refine walk_of_seg (fld ArcT.next_out g.arcs_) (fun x n hx => rd_field_ok hx) _ _ _ h2 ?_
  have hlen : (outIdx E n).length ≤ E.length :=
    length_le_of_nodup_range (nodup_hits _ E E.length) (fun x hx => (mem_outIdx.1 hx).1)
  rw [h.alen]
  omega

/-- The incoming enumeration of a node of a built graph. -/
theorem Built.inArcs_eq {N : Nat} {E : List (Int × Int)} {g : StaticDAGraph0}
    (h : Built N E g) {n : Int} (hn : 0 ≤ n ∧ n < (N : Int)) :
    g.inArcs n = .ok (inIdx E n) := by
  obtain ⟨fi, h1, h2, _⟩ := h.ins n hn.1 hn.2
  unfold inArcs firstIn
  rw [rd_field_ok h1, ok_bind]
  refine walk_of_seg (fld ArcT.next_in g.arcs_) (fun x n hx => rd_field_ok hx) _ _ _ h2 ?_
  have hlen : (inIdx E n).length ≤ E.length :=
    length_le_of_nodup_range (nodup_hits _ E E.length) (fun x hx => (mem_inIdx.1 hx).1)
  rw [h.alen]
  omega

/-- The loop of `build` over the edges `P ++ [e]` is the loop over `P` followed
by the body for `e`. -/
theorem build_snoc {N : Nat} {P : List (Int × Int)} {e : Int × Int} {g : StaticDAGraph0}
    (hN : N ≠ 0) (h : build N P = .ok g) : build N (P ++ [e]) = addEdge N g e := by
  unfold build at h ⊢
  rw [if_neg hN] at h ⊢
  rw [initGraph_eq (Nat.pos_of_ne_zero hN), ok_bind] at h ⊢
  rw [List.foldlM_append, h]
  simp only [ok_bind, List.foldlM_cons, List.foldlM_nil]
  cases addEdge N g e <;> rfl

end StaticDAGraph0

/-- C17. For every `N` and every edge list `E` with all ends in `[0, N)`, `build`
returns a graph in which, for every node `u` of `[0, N)`, the enumeration
`firstOut(u)`, `nextOut`, ... up to the invalid arc returns exactly the arc ids
`i` with `E[i].first == u`, in strictly decreasing order (so each once, the
latest edge first), and the enumeration `firstIn(u)`, `nextIn`, ... exactly the
arc ids `i` with `E[i].second == u`, in strictly decreasing order. -/
theorem build_adjacency_latest_first (N : Nat) (E : List (Int × Int))
    (hr : StaticDAGraph0.InRange N E) :
    ∃ g, StaticDAGraph0.build N E = .ok g ∧
      ∀ u, 0 ≤ u → u < (N : Int) →
        ∃ lo li, g.outArcs u = .ok lo ∧ g.inArcs u = .ok li ∧
          lo.Pairwise (fun i j => j < i) ∧ (∀ i, i ∈ lo ↔ ∃ e, look E i = some e ∧ e.1 = u) ∧
          li.Pairwise (fun i j => j < i) ∧ (∀ i, i ∈ li ↔ ∃ e, look E i = some e ∧ e.2 = u) := by
  obtain ⟨g, hg, hb⟩ := StaticDAGraph0.build_built hr
  refine ⟨g, hg, fun u hu0 hu1 => ?_⟩
  refine ⟨_, _, hb.outArcs_eq ⟨hu0, hu1⟩, hb.inArcs_eq ⟨hu0, hu1⟩,
    StaticDAGraph0.pairwise_hits _ E E.length, fun i => ?_,
    StaticDAGraph0.pairwise_hits _ E E.length, fun i => ?_⟩
  · rw [StaticDAGraph0.mem_outIdx]
    exact ⟨fun h => h.2, fun h => ⟨by obtain ⟨e, he, _⟩ := h; exact look_ge he, h⟩⟩
  · rw [StaticDAGraph0.mem_inIdx]
    exact ⟨fun h => h.2, fun h => ⟨by obtain ⟨e, he, _⟩ := h; exact look_ge he, h⟩⟩

/-- The enumerations of a graph for C17 with parallel edges and a loop. -/
theorem build_adjacency_latest_first_witness :
    StaticDAGraph0.InRange 3 StaticDAGraph0.multiEdges ∧
    (∃ g, StaticDAGraph0.build 3 StaticDAGraph0.multiEdges = .ok g ∧
      ∀ u, 0 ≤ u → u < ((3 : Nat) : Int) →
        ∃ lo li, g.outArcs u = .ok lo ∧ g.inArcs u = .ok li ∧
          lo.Pairwise (fun i j => j < i) ∧
          (∀ i, i ∈ lo ↔ ∃ e, look StaticDAGraph0.multiEdges i = some e ∧ e.1 = u) ∧
          li.Pairwise (fun i j => j < i) ∧
          (∀ i, i ∈ li ↔ ∃ e, look StaticDAGraph0.multiEdges i = some e ∧ e.2 = u)) ∧
    (StaticDAGraph0.build 3 StaticDAGraph0.multiEdges).bind (fun g => g.outArcs 0) =
      .ok [3, 1, 0] ∧
    (StaticDAGraph0.build 3 StaticDAGraph0.multiEdges).bind (fun g => g.inArcs 1) =
      .ok [2, 1, 0] :=
  ⟨by decide, build_adjacency_latest_first 3 StaticDAGraph0.multiEdges (by decide),
    by decide, by decide⟩

/-- C18. For every `N`, every edge list `E` with all ends in `[0, N)` and every
node `v` that some pair of `E` enters, one pair or several, `build` returns a
forest in which `parent(v)` returns `E[i].first` for the largest `i` with
`E[i].second == v`, which is the arc `firstIn(v)`; the call does not fail. -/
theorem forest_parent_is_latest_edge (N : Nat) (E : List (Int × Int))
    (hr : StaticDAGraph0.InRange N E) (v : Int) (hv : ∃ e ∈ E, e.2 = v) :
    ∃ f i u, StaticForest0.build N E = .ok f ∧ look E i = some (u, v) ∧
      (∀ j e, look E j = some e → e.2 = v → j ≤ i) ∧
      f.graph_.firstIn v = .ok i ∧ f.parent v = .ok u := by
  obtain ⟨g, hg, hb⟩ := StaticDAGraph0.build_built hr
  obtain ⟨e0, he0, hev0⟩ := hv
  have hvr : 0 ≤ v ∧ v < (N : Int) := hev0 ▸ (hr e0 he0).2
  obtain ⟨i0, hi0⟩ := StaticDAGraph0.mem_iff_look.1 he0
  have hmem : i0 ∈ StaticDAGraph0.inIdx E v :=
    StaticDAGraph0.mem_inIdx.2 ⟨look_ge hi0, e0, hi0, hev0⟩
  have hpw : (StaticDAGraph0.inIdx E v).Pairwise (fun i j => j < i) :=
    StaticDAGraph0.pairwise_hits _ E E.length
  cases hl : StaticDAGraph0.inIdx E v with
  | nil => rw [hl] at hmem; simp at hmem
  | cons x l =>
    have hx : x ∈ StaticDAGraph0.inIdx E v := by rw [hl]; simp
    obtain ⟨_, e, he, hev⟩ := StaticDAGraph0.mem_inIdx.1 hx
    rw [hl] at hpw
    refine ⟨{ graph_ := g }, x, e.1, StaticForest0.build_eq hg, ?_, ?_, ?_,
      StaticForest0.parent_eq hb hvr hl he⟩
    · rw [he, ← hev]
    · intro j e' hj hjv
      have hjm : j ∈ StaticDAGraph0.inIdx E v :=
        StaticDAGraph0.mem_inIdx.2 ⟨look_ge hj, e', hj, hjv⟩
      rw [hl] at hjm
      rcases List.mem_cons.1 hjm with h1 | h1
      · omega
      · have := (List.pairwise_cons.1 hpw).1 j h1
        omega
    · show g.firstIn v = .ok x
      rw [hb.firstIn_eq hvr, hl]
      rfl

/-- The node `2` of the forest for C18 has the two parents `0` and `1`; `parent`
returns the one of the later pair. -/
theorem forest_parent_is_latest_edge_witness :
    (StaticDAGraph0.InRange 3 StaticDAGraph0.multiEdges ∧
      ∃ e ∈ StaticDAGraph0.multiEdges, e.2 = 2) ∧
    (∃ f i u, StaticForest0.build 3 StaticDAGraph0.multiEdges = .ok f ∧
      look StaticDAGraph0.multiEdges i = some (u, 2) ∧
      (∀ j e, look StaticDAGraph0.multiEdges j = some e → e.2 = 2 → j ≤ i) ∧
      f.graph_.firstIn 2 = .ok i ∧ f.parent 2 = .ok u) ∧
    (StaticForest0.build 3 StaticDAGraph0.multiEdges).bind (fun f => f.parent 2) = .ok 1 ∧
    (StaticForest0.build 3 StaticDAGraph0.multiEdges).bind (fun f => f.parent 1) = .ok 1 :=
  ⟨⟨by decide, by decide⟩,
    forest_parent_is_latest_edge 3 StaticDAGraph0.multiEdges (by decide) 2 (by decide),
    by decide, by decide⟩

/-- C19. For every `N` and every edge list with all ends in `[0, N)`, split as
`P ++ e :: S` at the edge `e` the loop of `build` is at: the loop has returned a
graph `g` for the edges `P` before `e`; if `first_out` of the source of `e` is not
`-1` it is the index of an arc stored in `g.arcs_` with `prev_out == -1`, so the
first `vigra_assert` holds and the linking of the outgoing chain returns; in the
graph after it, if `first_in` of the target of `e` is not `-1` it is the index of
a stored arc with `prev_in == -1`, so the second `vigra_assert` holds; the body
of the loop returns for `e`, and `build` returns for the whole list. -/
theorem build_asserts_hold (N : Nat) (P : List (Int × Int)) (e : Int × Int)
    (S : List (Int × Int)) (hr : StaticDAGraph0.InRange N (P ++ e :: S)) :
    ∃ g g1 no g' gE, StaticDAGraph0.build N P = .ok g ∧
      (∀ fo, g.firstOut e.1 = .ok fo → fo ≠ -1 →
        ∃ oa, look g.arcs_ fo = some oa ∧ oa.prev_out = -1) ∧
      StaticDAGraph0.linkOut g e.1 g.arcs_.length = .ok (g1, no) ∧
      (∀ fi, g1.firstIn e.2 = .ok fi → fi ≠ -1 →
        ∃ ia, look g1.arcs_ fi = some ia ∧ ia.prev_in = -1) ∧
      StaticDAGraph0.addEdge N g e = .ok g' ∧ StaticDAGraph0.build N (P ++ [e]) = .ok g' ∧
      StaticDAGraph0.build N (P ++ e :: S) = .ok gE := by
  have hrP : StaticDAGraph0.InRange N P := fun x hx => hr x (List.mem_append_left _ hx)
  have hre := hr e (List.mem_append_right _ (List.mem_cons_self _ _))
  have hN : N ≠ 0 := by
    intro hN
    have := hre.1
    rw [hN] at this
    simp at this
    omega
  obtain ⟨g, hg, hb⟩ := StaticDAGraph0.build_built hrP
  obtain ⟨gE, hgE, _⟩ := StaticDAGraph0.build_built hr
  obtain ⟨g', hg', _⟩ := hb.addEdge_ok (u := e.1) (v := e.2) hre.1 hre.2
  obtain ⟨fo, hfo, hoS, hoB⟩ := hb.outs e.1 hre.1.1 hre.1.2
  obtain ⟨fi, hfi, hiS, hiB⟩ := hb.ins e.2 hre.2.1 hre.2.2
  have hfo' : fo = -1 ∨ fld StaticDAGraph0.ArcT.prev_out g.arcs_ fo = some (-1) :=
    (StaticDAGraph0.head_back hoS hoB).imp id (fun h => h.2)
  have hfi' : fi = -1 ∨ fld StaticDAGraph0.ArcT.prev_in g.arcs_ fi = some (-1) :=
    (StaticDAGraph0.head_back hiS hiB).imp id (fun h => h.2)
  refine ⟨g, _, _, g', gE, hg, ?_, StaticDAGraph0.linkOut_eq' hfo hfo', ?_, hg', ?_, hgE⟩
  · intro fo2 h2 h3
    have h4 : fld StaticDAGraph0.NodeT.first_out g.nodes_ e.1 = some fo2 := rd_field_eq_ok.1 h2
    rw [hfo] at h4
    have h5 : fo = fo2 := Option.some.inj h4
    subst h5
    rcases hfo' with h6 | h6
    · exact absurd h6 h3
    · exact fld_eq_some.1 h6
  · intro fi2 h2 h3
    have h4 : fld StaticDAGraph0.NodeT.first_in
        (put g.nodes_ e.1 fun t => { t with first_out := (g.arcs_.length : Int) }) e.2 =
        some fi2 := rd_field_eq_ok.1 h2
    simp (disch := intro _; rfl) only [fld_put_same] at h4
    rw [hfi] at h4
    have h5 : fi = fi2 := Option.some.inj h4
    subst h5
    rcases hfi' with h6 | h6
    · exact absurd h6 h3
    · refine fld_eq_some.1 ?_
      show fld StaticDAGraph0.ArcT.prev_in
        (put g.arcs_ fo fun t => { t with prev_out := (g.arcs_.length : Int) }) fi = some (-1)
      simp (disch := intro _; rfl) only [fld_put_same]
      exact h6
  · rw [StaticDAGraph0.build_snoc hN hg]
    exact hg'

/-- The loop of `build` for C19 at the edge `(0, 2)` that follows two parallel
edges out of the node `0`: `first_out` of `0` is the arc `1`. -/
theorem build_asserts_hold_witness :
    StaticDAGraph0.InRange 3 ([(0, 1), (0, 1), (1, 1)] ++ (0, 2) :: [(1, 2)]) ∧
    (∃ g g1 no g' gE, StaticDAGraph0.build 3 [(0, 1), (0, 1), (1, 1)] = .ok g ∧
      (∀ fo, g.firstOut (0, 2).1 = .ok fo → fo ≠ -1 →
        ∃ oa, look g.arcs_ fo = some oa ∧ oa.prev_out = -1) ∧
      StaticDAGraph0.linkOut g (0, 2).1 g.arcs_.length = .ok (g1, no) ∧
      (∀ fi, g1.firstIn (0, 2).2 = .ok fi → fi ≠ -1 →
        ∃ ia, look g1.arcs_ fi = some ia ∧ ia.prev_in = -1) ∧
      StaticDAGraph0.addEdge 3 g (0, 2) = .ok g' ∧
      StaticDAGraph0.build 3 ([(0, 1), (0, 1), (1, 1)] ++ [(0, 2)]) = .ok g' ∧
      StaticDAGraph0.build 3 ([(0, 1), (0, 1), (1, 1)] ++ (0, 2) :: [(1, 2)]) = .ok gE) ∧
    (StaticDAGraph0.build 3 [(0, 1), (0, 1), (1, 1)]).bind (fun g => g.firstOut 0) = .ok 1 ∧
    (StaticDAGraph0.build 3 [(0, 1), (0, 1), (1, 1)]).bind
      (fun g => (rd g.arcs_ 1).map (fun s => s.prev_out)) = .ok (-1) :=
  ⟨by decide, build_asserts_hold 3 [(0, 1), (0, 1), (1, 1)] (0, 2) [(1, 2)] (by decide),
    by decide, by decide⟩

namespace StaticDAGraph0

/-- The node ids `0, ..., N-1` are listed in increasing order. -/
theorem pairwise_ids (N : Nat) : (ids N).Pairwise (fun i j => i < j) := by
  unfold ids idsFrom
  rw [List.pairwise_map]
  refine List.Pairwise.imp ?_ (List.pairwise_lt_range' 0 N)
  intro a b hab
  simp only [Int.ofNat_eq_coe]
  omega

theorem ids_eq_range (N : Nat) : ids N = (List.range N).map fun (i : Nat) => (i : Int) := by
  unfold ids idsFrom
  rw [List.range_eq_range']
  rfl

theorem roots_nil (N : Nat) : roots N [] = ids N := by
  unfold roots
  simp

theorem leaves_nil (N : Nat) : leaves N [] = ids N := by
  unfold leaves
  simp

end StaticDAGraph0

/-- C21. For every `N` and every edge list `E` with all ends in `[0, N)`, in
whatever order, `build` returns a graph whose root chain and leaf chain, walked
from `first_root_node_` by `next_root` and from `first_leaf_node_` by
`next_leaf`, list their nodes in strictly increasing order of node id; for
`E = []` both are `0, 1, ..., N-1`; and a node slot that is not on the root
chain has `next_root == -1` and `prev_root == -1`, one that is not on the leaf
chain `next_leaf == -1` and `prev_leaf == -1`. -/
theorem build_chains_increasing (N : Nat) (E : List (Int × Int))
    (hr : StaticDAGraph0.InRange N E) :
    ∃ g rs ls, StaticDAGraph0.build N E = .ok g ∧ g.rootNodes = .ok rs ∧
      g.leafNodes = .ok ls ∧
      rs.Pairwise (fun i j => i < j) ∧ ls.Pairwise (fun i j => i < j) ∧
      (E = [] → rs = (List.range N).map (fun (i : Nat) => (i : Int)) ∧
        ls = (List.range N).map (fun (i : Nat) => (i : Int))) ∧
      (∀ n s, look g.nodes_ n = some s → n ∉ rs → s.next_root = -1 ∧ s.prev_root = -1) ∧
      (∀ n s, look g.nodes_ n = some s → n ∉ ls → s.next_leaf = -1 ∧ s.prev_leaf = -1) := by
  obtain ⟨g, hg, hb⟩ := StaticDAGraph0.build_built hr
  refine ⟨g, _, _, hg, hb.rootNodes_eq, hb.leafNodes_eq,
    (StaticDAGraph0.pairwise_ids N).filter _, (StaticDAGraph0.pairwise_ids N).filter _,
    ?_, ?_, ?_⟩
  · intro hE
    rw [hE, StaticDAGraph0.roots_nil, StaticDAGraph0.leaves_nil, StaticDAGraph0.ids_eq_range]
    exact ⟨rfl, rfl⟩
  · intro n s hs hn
    have hnr := look_ge hs
    rw [hb.nlen] at hnr
    obtain ⟨h1, h2⟩ := hb.rootOff n hnr.1 hnr.2 hn
    rw [fld_of_look StaticDAGraph0.NodeT.next_root hs] at h1
    rw [fld_of_look StaticDAGraph0.NodeT.prev_root hs] at h2
    exact ⟨Option.some.inj h1, Option.some.inj h2⟩
  · intro n s hs hn
    have hnr := look_ge hs
    rw [hb.nlen] at hnr
    obtain ⟨h1, h2⟩ := hb.leafOff n hnr.1 hnr.2 hn
    rw [fld_of_look StaticDAGraph0.NodeT.next_leaf hs] at h1
    rw [fld_of_look StaticDAGraph0.NodeT.prev_leaf hs] at h2
    exact ⟨Option.some.inj h1, Option.some.inj h2⟩

/-- The chains of a graph for C21 built from edges given in decreasing order of
their ends, and of the graph without edges. -/
theorem build_chains_increasing_witness :
    StaticDAGraph0.InRange 5 [(4, 3), (3, 1), (0, 3)] ∧
    (∃ g rs ls, StaticDAGraph0.build 5 [(4, 3), (3, 1), (0, 3)] = .ok g ∧
      g.rootNodes = .ok rs ∧ g.leafNodes = .ok ls ∧
      rs.Pairwise (fun i j => i < j) ∧ ls.Pairwise (fun i j => i < j) ∧
      (([(4, 3), (3, 1), (0, 3)] : List (Int × Int)) = [] →
        rs = (List.range 5).map (fun (i : Nat) => (i : Int)) ∧
        ls = (List.range 5).map (fun (i : Nat) => (i : Int))) ∧
      (∀ n s, look g.nodes_ n = some s → n ∉ rs → s.next_root = -1 ∧ s.prev_root = -1) ∧
      (∀ n s, look g.nodes_ n = some s → n ∉ ls → s.next_leaf = -1 ∧ s.prev_leaf = -1)) ∧
    (StaticDAGraph0.build 5 [(4, 3), (3, 1), (0, 3)]).bind (fun g => g.rootNodes) =
      .ok [0, 2, 4] ∧
    (StaticDAGraph0.build 5 [(4, 3), (3, 1), (0, 3)]).bind (fun g => g.leafNodes) =
      .ok [1, 2] ∧
    (StaticDAGraph0.build 3 []).bind (fun g => g.rootNodes) = .ok [0, 1, 2] ∧
    (StaticDAGraph0.build 3 []).bind (fun g => g.leafNodes) = .ok [0, 1, 2] :=
  ⟨by decide, build_chains_increasing 5 [(4, 3), (3, 1), (0, 3)] (by decide),
    by decide, by decide, by decide, by decide⟩

namespace DAGraph0

/-- The search loop of `firstArc()` and `next(Arc)` ends from every live node
and from `-1`, within one test of its condition for each node slot and one more. -/
theorem Rep.seekOut_ok {g : DAGraph0} {L F FA : List Int} {outs ins : Int → List Int}
    (h : Rep g L F FA outs ins) {n : Int} (hn : n = -1 ∨ g.validNode n = true) :
    ∃ a, ∀ fuel, g.nodes_.length < fuel → g.seekOut fuel n = .ok a := by
  have hLnd : L.Nodup := (List.nodup_append.1 h.nodes.nodup).1
  have hlen : L.length ≤ g.nodes_.length :=
    length_le_of_nodup_range hLnd (fun x hx => (h.nodes.cover x).1 (Or.inl hx))
  rcases hn with hn | hn
  · refine ⟨-1, fun fuel hf => ?_⟩
    cases fuel with
    | zero => omega
    | succ f => simp [seekOut, hn]
  · obtain ⟨l1, l2, hl⟩ := List.append_of_mem ((h.nodes.valid_iff n).1 hn)
    have hseg := h.nodes.live
    rw [hl] at hseg
    obtain ⟨m, _, h2⟩ := Seg.split hseg
    have hmn : m = n := h2.1
    rw [hmn] at h2
    refine ⟨_, fun fuel hf => h.arcs.seekOut_eq (n :: l2) n fuel h2 (fun u hu => ?_) ?_⟩
    · rw [hl]
      exact List.mem_append_right _ hu
    · have : (n :: l2).length ≤ L.length := by
        rw [hl, List.length_append]
        omega
      omega

end DAGraph0

/-- C22. In every state reached from the empty graph by `addNode`, `addArc` on
valid nodes, `erase` of a valid arc and `erase` of a valid node without arcs, the
walks end: the walk from `first_node_` by `next` visits a list of nodes without
repetition, of at most `nodes_.size()` nodes, and reaches `-1` with any bound on
the number of tests above its length; for a valid node the walks from `first_out`
by `next_out` and from `first_in` by `next_in` visit at most `arcs_.size()` arcs
and reach `-1`; the search loop of `firstArc()` and `next(Arc)` ends from every
valid node and from `-1` within `nodes_.size() + 1` tests, and `firstArc()` and
`next(Arc)` of a valid arc return. -/
theorem walks_terminate (ops : List DAGraph0.Op) (g : DAGraph0)
    (hadm : DAGraph0.empty.admits DAGraph0.preStrict ops = true)
    (hrun : DAGraph0.empty.run ops = .ok g) :
    (∃ L, L.Nodup ∧ L.length ≤ g.nodes_.length ∧
      ∀ fuel, L.length < fuel → walk g.nextNode fuel g.firstNode = .ok L) ∧
    (∀ n, g.validNode n = true →
      ∃ fo fi lo li, g.firstOut n = .ok fo ∧ g.firstIn n = .ok fi ∧
        lo.Nodup ∧ li.Nodup ∧
        lo.length ≤ g.arcs_.length ∧ li.length ≤ g.arcs_.length ∧
        (∀ fuel, lo.length < fuel → walk g.nextOut fuel fo = .ok lo) ∧
        (∀ fuel, li.length < fuel → walk g.nextIn fuel fi = .ok li)) ∧
    (∀ n, n = -1 ∨ g.validNode n = true →
      ∃ a, ∀ fuel, g.nodes_.length < fuel → g.seekOut fuel n = .ok a) ∧
    (∃ a, g.firstArc = .ok a) ∧
    (∀ a, g.validArc a = true → ∃ b, g.nextArc a = .ok b) := by
  obtain ⟨L, F, FA, outs, ins, h⟩ := DAGraph0.reach_rep hadm hrun
  have hLnd : L.Nodup := (List.nodup_append.1 h.nodes.nodup).1
  have hlen : L.length ≤ g.nodes_.length :=
    length_le_of_nodup_range hLnd (fun x hx => (h.nodes.cover x).1 (Or.inl hx))
  refine ⟨⟨L, hLnd, hlen, fun fuel hf => ?_⟩, fun n hn => ?_, fun n hn => h.seekOut_ok hn, ?_,
    fun a ha => ?_⟩
  · exact walk_of_seg (fld DAGraph0.NodeT.next g.nodes_) (fun x n hx => rd_field_ok hx) _ _ _
      h.nodes.live hf
  · have hnL := (h.nodes.valid_iff n).1 hn
    obtain ⟨fo, hfo, hso⟩ := h.arcs.out.seg n hnL
    obtain ⟨fi, hfi, hsi⟩ := h.arcs.inn.seg n hnL
    exact ⟨fo, fi, outs n, ins n, rd_field_ok hfo, rd_field_ok hfi, h.arcs.out.nodup n hnL,
      h.arcs.inn.nodup n hnL, DAGraph0.chain_length_le h.arcs.out hnL,
      DAGraph0.chain_length_le h.arcs.inn hnL,
      fun fuel hf => walk_of_seg (fld DAGraph0.ArcT.next_out g.arcs_)
        (fun x n hx => rd_field_ok hx) _ _ _ hso hf,
      fun fuel hf => walk_of_seg (fld DAGraph0.ArcT.next_in g.arcs_)
        (fun x n hx => rd_field_ok hx) _ _ _ hsi hf⟩
  · obtain ⟨a, ha, _⟩ := h.firstArc_ok
    exact ⟨a, ha⟩
  · obtain ⟨b, hb, _⟩ := h.nextArc_ok ha
    exact ⟨b, hb⟩

/-- The walks of the sample state for C22. -/
theorem walks_terminate_witness :
    (DAGraph0.empty.admits DAGraph0.preStrict DAGraph0.sampleOps = true ∧
      DAGraph0.empty.run DAGraph0.sampleOps = .ok DAGraph0.sampleGraph) ∧
    ((∃ L, L.Nodup ∧ L.length ≤ DAGraph0.sampleGraph.nodes_.length ∧
        ∀ fuel, L.length < fuel →
          walk DAGraph0.sampleGraph.nextNode fuel DAGraph0.sampleGraph.firstNode = .ok L) ∧
      (∀ n, DAGraph0.sampleGraph.validNode n = true →
        ∃ fo fi lo li, DAGraph0.sampleGraph.firstOut n = .ok fo ∧
          DAGraph0.sampleGraph.firstIn n = .ok fi ∧
          lo.Nodup ∧ li.Nodup ∧
          lo.length ≤ DAGraph0.sampleGraph.arcs_.length ∧
          li.length ≤ DAGraph0.sampleGraph.arcs_.length ∧
          (∀ fuel, lo.length < fuel → walk DAGraph0.sampleGraph.nextOut fuel fo = .ok lo) ∧
          (∀ fuel, li.length < fuel → walk DAGraph0.sampleGraph.nextIn fuel fi = .ok li)) ∧
      (∀ n, n = -1 ∨ DAGraph0.sampleGraph.validNode n = true →
        ∃ a, ∀ fuel, DAGraph0.sampleGraph.nodes_.length < fuel →
          DAGraph0.sampleGraph.seekOut fuel n = .ok a) ∧
      (∃ a, DAGraph0.sampleGraph.firstArc = .ok a) ∧
      (∀ a, DAGraph0.sampleGraph.validArc a = true →
        ∃ b, DAGraph0.sampleGraph.nextArc a = .ok b)) ∧
    walk DAGraph0.sampleGraph.nextNode 4 DAGraph0.sampleGraph.firstNode = .ok [2, 1, 0] ∧
    walk DAGraph0.sampleGraph.nextNode 3 DAGraph0.sampleGraph.firstNode =
      .error Fault.noEnd ∧
    DAGraph0.sampleGraph.firstArc = .ok 1 ∧ DAGraph0.sampleGraph.nextArc 0 = .ok (-1) :=
  ⟨⟨by decide, by decide⟩,
    walks_terminate DAGraph0.sampleOps DAGraph0.sampleGraph (by decide) (by decide),
    by decide, by decide, by decide, by decide⟩

/-- A list without repetition that holds exactly the ids of `[0, N)` has `N`
elements. -/
theorem length_eq_of_cover {l : List Int} {N : Nat} (hnd : l.Nodup)
    (hc : ∀ x, x ∈ l ↔ (0 ≤ x ∧ x < (N : Int))) : l.length = N := by
  have hp : l.Perm (StaticDAGraph0.ids N) :=
    (List.perm_ext_iff_of_nodup hnd (StaticDAGraph0.nodup_ids N)).2
      (fun x => by rw [hc x, StaticDAGraph0.mem_ids])
  rw [hp.length_eq, StaticDAGraph0.length_ids]

/-- The number of ids of `[0, N)` that satisfy `p`, counted on a list without
repetition of these ids. -/
theorem filter_length_eq {l : List Int} {N : Nat} (p : Int → Bool) (hnd : l.Nodup)
    (hc : ∀ x, x ∈ l ↔ ((0 ≤ x ∧ x < (N : Int)) ∧ p x = true)) :
    ((List.range N).filter fun (i : Nat) => p (i : Int)).length = l.length := by
  have hinj : Function.Injective (fun (i : Nat) => (i : Int)) := fun a b h => by
    simp only at h
    omega
  have hnd2 : (((List.range N).filter fun (i : Nat) => p (i : Int)).map
      fun (i : Nat) => (i : Int)).Nodup :=
    ((List.nodup_range N).filter _).map hinj
  have hp : (((List.range N).filter fun (i : Nat) => p (i : Int)).map
      fun (i : Nat) => (i : Int)).Perm l := by
    refine (List.perm_ext_iff_of_nodup hnd2 hnd).2 (fun x => ?_)
    rw [hc x]
    simp only [List.mem_map, List.mem_filter, List.mem_range]
    constructor
    · rintro ⟨i, ⟨hi, hpi⟩, rfl⟩
      exact ⟨⟨by omega, by omega⟩, hpi⟩
    · rintro ⟨⟨h0, h1⟩, hpx⟩
      refine ⟨x.toNat, ⟨by omega, ?_⟩, by omega⟩
      rw [show ((x.toNat : Nat) : Int) = x by omega]
      exact hpx
  rw [← hp.length_eq, List.length_map]

namespace DAGraph0

/-- The valid nodes are counted by the live chain. -/
theorem NodeRep.numValidNodes_eq {g : DAGraph0} {L F : List Int} (h : NodeRep g L F) :
    g.numValidNodes = L.length := by
  unfold numValidNodes
  refine filter_length_eq g.validNode (List.nodup_append.1 h.nodup).1 (fun x => ?_)
  rw [h.valid_iff x]
  exact ⟨fun hx => ⟨(h.cover x).1 (Or.inl hx), hx⟩, fun hx => hx.2⟩

/-- The node table holds the live nodes and the free nodes. -/
theorem NodeRep.nodes_size_eq {g : DAGraph0} {L F : List Int} (h : NodeRep g L F) :
    g.nodes_.length = g.numValidNodes + F.length := by
  rw [h.numValidNodes_eq, ← List.length_append]
  exact (length_eq_of_cover h.nodup (fun x => by rw [List.mem_append, h.cover x])).symm

/-- The arc table holds the valid arcs and the free arcs. -/
theorem ArcLib.arcs_size_eq {g : DAGraph0} {FA : List Int} (h : ArcLib g FA) :
    g.arcs_.length = g.numValidArcs + FA.length := by
  have hr : ∀ x ∈ FA, 0 ≤ x ∧ x < (g.arcs_.length : Int) := fun x hx => fld_ge (h.mark x hx)
  have hinj : Function.Injective (fun (i : Nat) => (i : Int)) := fun a b hab => by
    simp only at hab
    omega
  have hM : ∀ x, x ∈ ((List.range g.arcs_.length).filter
      fun (j : Nat) => g.validArc (j : Int)).map (fun (i : Nat) => (i : Int)) ↔
      Live g.arcs_.length FA x := by
    intro x
    simp only [List.mem_map, List.mem_filter, List.mem_range]
    constructor
    · rintro ⟨i, ⟨_, hpi⟩, rfl⟩
      exact (h.valid_lib_iff _).1 hpi
    · intro hl
      refine ⟨x.toNat, ⟨?_, ?_⟩, ?_⟩
      · have := hl.1
        omega
      · rw [show ((x.toNat : Nat) : Int) = x by have := hl.1; omega]
        exact (h.valid_lib_iff x).2 hl
      · have := hl.1
        omega
  have hnd : (((List.range g.arcs_.length).filter
      fun (j : Nat) => g.validArc (j : Int)).map (fun (i : Nat) => (i : Int)) ++ FA).Nodup := by
    refine List.nodup_append.2 ⟨((List.nodup_range _).filter _).map hinj, h.fnodup, ?_⟩
    intro x hx hxF
    exact ((hM x).1 hx).2 hxF
  have := length_eq_of_cover hnd (fun x => by
    rw [List.mem_append, hM x]
    unfold Live
    constructor
    · rintro (h1 | h1)
      · exact h1.1
      · exact hr x h1
    · intro h1
      by_cases hxF : x ∈ FA
      · exact Or.inr hxF
      · exact Or.inl ⟨h1, hxF⟩)
  rw [List.length_append, List.length_map] at this
  unfold numValidArcs
  omega

theorem numValidNodes_le (g : DAGraph0) : g.numValidNodes ≤ g.nodes_.length := by
  unfold numValidNodes
  have := List.length_filter_le (fun (i : Nat) => g.validNode (i : Int))
    (List.range g.nodes_.length)
  rw [List.length_range] at this
  exact this

theorem numValidArcs_le (g : DAGraph0) : g.numValidArcs ≤ g.arcs_.length := by
  unfold numValidArcs
  have := List.length_filter_le (fun (j : Nat) => g.validArc (j : Int))
    (List.range g.arcs_.length)
  rw [List.length_range] at this
  exact this

/-- A call on valid handles keeps the sizes of the tables or, when the free
chain is empty, adds one slot; the tables are then full of valid slots. -/
theorem Lib.step_sizes {g : DAGraph0} {L F FA : List Int} (h : Lib g L F FA) {op : Op}
    (hp : g.pre op = true) :
    ∃ g' L' F' FA', g.step op = .ok g' ∧ Lib g' L' F' FA' ∧
      g.nodes_.length ≤ g'.nodes_.length ∧
      (g.nodes_.length < g'.nodes_.length → F = [] ∧ F' = []) ∧
      g.arcs_.length ≤ g'.arcs_.length ∧
      (g.arcs_.length < g'.arcs_.length → FA = [] ∧ FA' = []) := by
  cases op with
  | addNode =>
    obtain ⟨n, ffn, tn, hal, he⟩ := addNode_eq h.wf
    obtain ⟨h1, h2⟩ := h.lib_nodeAdded hal
    refine ⟨_, _, _, _, by simp only [step, he, ok_bind, pure_eq_ok], h1, ?_, ?_,
      le_refl _, fun hlt => absurd hlt (lt_irrefl _)⟩
    · rw [nodeAdded_length]
      rcases h2 with ⟨_, _, h5⟩ | ⟨_, h5⟩ <;> omega
    · rw [nodeAdded_length]
      intro hlt
      rcases h2 with ⟨h3, _, _⟩ | ⟨_, h5⟩
      · exact ⟨h3, by rw [h3]; rfl⟩
      · omega
  | addArc u v =>
    simp only [pre, Bool.and_eq_true] at hp
    obtain ⟨a, ffa, t, fo, fi, hal, hfo, hfi, he⟩ := addArc_eq h.wf hp.1 hp.2
    obtain ⟨h1, h2⟩ := h.lib_arcAdded hal hfo hfi
    refine ⟨_, _, _, _, by simp only [step, he, ok_bind, pure_eq_ok], h1, ?_, ?_, ?_, ?_⟩
    · rw [arcAdded_nodes_length]
    · rw [arcAdded_nodes_length]
      intro hlt
      exact absurd hlt (lt_irrefl _)
    · rw [arcAdded_arcs_length]
      rcases h2 with ⟨_, _, h5⟩ | ⟨_, h5⟩ <;> omega
    · rw [arcAdded_arcs_length]
      intro hlt
      rcases h2 with ⟨h3, _, _⟩ | ⟨_, h5⟩
      · exact ⟨h3, by rw [h3]; rfl⟩
      · omega
  | eraseNode n =>
    obtain ⟨nx, pv, hnx, hpv, _, he⟩ := eraseNode_ok h.wf hp
    refine ⟨_, _, _, _, he, h.lib_nodeErased hp hnx hpv, ?_, ?_, le_refl _,
      fun hlt => absurd hlt (lt_irrefl _)⟩
    · rw [nodeErased_length]
    · rw [nodeErased_length]
      intro hlt
      exact absurd hlt (lt_irrefl _)
  | eraseArc a =>
    obtain ⟨s, hsl, _, he⟩ := eraseArc_ok h.wf hp
    refine ⟨_, _, _, _, he, h.lib_arcErased hp hsl, ?_, ?_, ?_, ?_⟩
    · rw [arcErased_nodes_length]
    · rw [arcErased_nodes_length]
      intro hlt
      exact absurd hlt (lt_irrefl _)
    · rw [arcErased_arcs_length]
    · rw [arcErased_arcs_length]
      intro hlt
      exact absurd hlt (lt_irrefl _)

/-- The sizes of the tables stay the largest numbers of valid nodes and arcs
along a run of calls on valid handles. -/
theorem runPeak_ok :
    ∀ (ops : List Op) (g : DAGraph0) (L F FA : List Int), Lib g L F FA →
      g.admits pre ops = true →
      ∃ g' L' F' FA', g.runPeak g.nodes_.length g.arcs_.length ops =
          .ok (g', g'.nodes_.length, g'.arcs_.length) ∧
        g.run ops = .ok g' ∧ Lib g' L' F' FA'
  | [], g, L, F, FA, h, _ => ⟨g, L, F, FA, rfl, rfl, h⟩
  | op :: ops, g, L, F, FA, h, ha => by
    simp only [admits, Bool.and_eq_true] at ha
    obtain ⟨hp, ha⟩ := ha
    obtain ⟨g1, L1, F1, FA1, hs, h1, hn1, hn2, ha1, ha2⟩ := h.step_sizes hp
    rw [hs] at ha
    obtain ⟨g', L', F', FA', h3, h4, h5⟩ := runPeak_ok ops g1 L1 F1 FA1 h1 ha
    have hmn : max g.nodes_.length g1.numValidNodes = g1.nodes_.length := by
      have hle := numValidNodes_le g1
      by_cases hlt : g.nodes_.length < g1.nodes_.length
      · have hsz := h1.nodes.nodes_size_eq
        rw [(hn2 hlt).2] at hsz
        simp only [List.length_nil, Nat.add_zero] at hsz
        omega
      · omega
    have hma : max g.arcs_.length g1.numValidArcs = g1.arcs_.length := by
      have hle := numValidArcs_le g1
      by_cases hlt : g.arcs_.length < g1.arcs_.length
      · have hsz := h1.arcs.arcs_size_eq
        rw [(ha2 hlt).2] at hsz
        simp only [List.length_nil, Nat.add_zero] at hsz
        omega
      · omega
    refine ⟨g', L', F', FA', ?_, by simp only [run, hs, ok_bind, h4], h5⟩
    simp only [runPeak, hs, ok_bind, hmn, hma, h3]

end DAGraph0

/-- C23. After every run of `addNode`, `addArc` on valid nodes, `erase` of a
valid arc and `erase` of a valid node from the empty graph: all calls return;
`maxNodeId() + 1` is `nodes_.size()`, which is the number of valid nodes plus the
length of the free chain of nodes, and is the largest number of valid nodes in a
state of the run (the peak of the model `runPeak`, the empty graph included);
the same holds of `maxArcId() + 1`, `arcs_.size()` and the arcs; and a further
call on valid handles never makes a table smaller, and makes it larger only when
its free chain is empty. -/
theorem tables_grow_to_peak (ops : List DAGraph0.Op)
    (hadm : DAGraph0.empty.admits DAGraph0.pre ops = true) :
    ∃ g F FA, DAGraph0.empty.runPeak 0 0 ops = .ok (g, g.nodes_.length, g.arcs_.length) ∧
      DAGraph0.empty.run ops = .ok g ∧ g.freeNodes = .ok F ∧ g.freeArcs = .ok FA ∧
      g.maxNodeId + 1 = (g.nodes_.length : Int) ∧
      g.nodes_.length = g.numValidNodes + F.length ∧
      g.maxArcId + 1 = (g.arcs_.length : Int) ∧
      g.arcs_.length = g.numValidArcs + FA.length ∧
      ∀ op, g.pre op = true →
        ∃ g', g.step op = .ok g' ∧
          g.nodes_.length ≤ g'.nodes_.length ∧ (g.nodes_.length < g'.nodes_.length → F = []) ∧
          g.arcs_.length ≤ g'.arcs_.length ∧ (g.arcs_.length < g'.arcs_.length → FA = []) := by
  obtain ⟨g, L, F, FA, h1, h2, h⟩ :=
    DAGraph0.runPeak_ok ops DAGraph0.empty [] [] [] DAGraph0.empty_lib hadm
  refine ⟨g, F, FA, h1, h2, h.nodes.freeNodes_eq, h.arcs.freeArcs_eq, ?_, h.nodes.nodes_size_eq, ?_,
    h.arcs.arcs_size_eq, fun op hop => ?_⟩
  · unfold DAGraph0.maxNodeId
    omega
  · unfold DAGraph0.maxArcId
    omega
  · obtain ⟨g', _, _, _, hs, _, hn1, hn2, ha1, ha2⟩ := h.step_sizes hop
    exact ⟨g', hs, hn1, fun hlt => (hn2 hlt).1, ha1, fun hlt => (ha2 hlt).1⟩

/-- The sample run for C23: three nodes and three arcs at the peak, one node and
two arcs valid at the end. -/
theorem tables_grow_to_peak_witness :
    DAGraph0.empty.admits DAGraph0.pre DAGraph0.freedOps = true ∧
    (∃ g F FA, DAGraph0.empty.runPeak 0 0 DAGraph0.freedOps =
        .ok (g, g.nodes_.length, g.arcs_.length) ∧
      DAGraph0.empty.run DAGraph0.freedOps = .ok g ∧ g.freeNodes = .ok F ∧
      g.freeArcs = .ok FA ∧
      g.maxNodeId + 1 = (g.nodes_.length : Int) ∧
      g.nodes_.length = g.numValidNodes + F.length ∧
      g.maxArcId + 1 = (g.arcs_.length : Int) ∧
      g.arcs_.length = g.numValidArcs + FA.length ∧
      ∀ op, g.pre op = true →
        ∃ g', g.step op = .ok g' ∧
          g.nodes_.length ≤ g'.nodes_.length ∧ (g.nodes_.length < g'.nodes_.length → F = []) ∧
          g.arcs_.length ≤ g'.arcs_.length ∧ (g.arcs_.length < g'.arcs_.length → FA = [])) ∧
    (DAGraph0.empty.runPeak 0 0 DAGraph0.freedOps).map (fun r => r.2) = .ok (3, 3) ∧
    DAGraph0.freedGraph.numValidNodes = 1 ∧ DAGraph0.freedGraph.numValidArcs = 2 ∧
    DAGraph0.freedGraph.maxNodeId = 2 ∧ DAGraph0.freedGraph.maxArcId = 2 :=
  ⟨by decide, tables_grow_to_peak DAGraph0.freedOps (by decide), by decide, by decide,
    by decide, by decide, by decide⟩

end Vigra
